import Mathlib

/-!
# AVLTree (fefu::AVLTree) — heap model

A shallow embedding of `AVLTree.h`.  Nodes live in a heap addressed by natural
numbers; a pointer is an `Option Nat` (`none` is `nullptr`).  `new` hands out
the address `next` and bumps it, `delete` sets the ghost flag `freed`.
Loops take fuel; running out of fuel, or dereferencing `nullptr` where the
source does so unguarded, yields `none`.
-/

namespace fefu

/-- Node state, `enum class State`. -/
inductive State where
  | DELETED
  | NOT_DELETE
  | TAIL
  deriving DecidableEq, Repr

/-- A node pointer; `none` is `nullptr`. -/
abbrev Ptr := Option Nat

/-- The fields of `class Node<int, int>`, plus the ghost flag `freed`. -/
structure Node where
  state : State
  value : Int
  key : Int
  ref_count : Nat
  height : Int
  left : Ptr
  right : Ptr
  parent : Ptr
  freed : Bool
  deriving DecidableEq, Repr

/-- Constructor `Node(State _state)`: value and key are default-constructed. -/
def Node.mkState (s : State) : Node :=
  { state := s, value := 0, key := 0, ref_count := 0, height := 0,
    left := none, right := none, parent := none, freed := false }

/-- Constructor `Node(T _value, K _key, Node* _parent)`. -/
def Node.mkLive (value key : Int) (parent : Ptr) : Node :=
  { state := State.NOT_DELETE, value := value, key := key, ref_count := 0, height := 0,
    left := none, right := none, parent := parent, freed := false }

/-- The heap: every address holds a node record. -/
structure Heap where
  get : Nat → Node

instance : CoeFun Heap (fun _ => Nat → Node) := ⟨Heap.get⟩

/-- Overwrite the record at address `p`. -/
@[noinline]
def Heap.set (h : Heap) (p : Nat) (n : Node) : Heap :=
  ⟨fun q => if q = p then n else h q⟩

def setLeft (h : Heap) (p : Nat) (v : Ptr) : Heap := h.set p { h p with left := v }
def setRight (h : Heap) (p : Nat) (v : Ptr) : Heap := h.set p { h p with right := v }
def setParent (h : Heap) (p : Nat) (v : Ptr) : Heap := h.set p { h p with parent := v }
def setHeight (h : Heap) (p : Nat) (v : Int) : Heap := h.set p { h p with height := v }
def setState (h : Heap) (p : Nat) (v : State) : Heap := h.set p { h p with state := v }
def setRef (h : Heap) (p : Nat) (v : Nat) : Heap := h.set p { h p with ref_count := v }
def setFreed (h : Heap) (p : Nat) : Heap := h.set p { h p with freed := true }

/-- Width of `std::size_t`. -/
def SIZE_MOD : Nat := 2 ^ 64

/-- Method `Node::inc_ref_count` (tolerates a null receiver). -/
def inc_ref_count (h : Heap) (p : Ptr) : Heap :=
  match p with
  | none => h
  | some a => setRef h a (((h a).ref_count + 1) % SIZE_MOD)

/-- Method `Node::dec_ref_count` (tolerates a null receiver; wraps at zero). -/
def dec_ref_count (h : Heap) (p : Ptr) : Heap :=
  match p with
  | none => h
  | some a => setRef h a (((h a).ref_count + SIZE_MOD - 1) % SIZE_MOD)

/-- The `while (!deleted_stack.empty())` loop of `Node::remove`; the head of the
list is the top of the stack. -/
def remove_loop : Nat → Heap → List Ptr → Option Heap
  | _, h, [] => some h
  | 0, _, _ :: _ => none
  | f + 1, h, top :: rest =>
    match top with
    | none => remove_loop f h rest
    | some n =>
      if (h n).state = State.DELETED ∧ (h n).ref_count = 0 then
        let h1 := dec_ref_count h (h n).left
        let h2 := dec_ref_count h1 (h1 n).right
        let h3 := dec_ref_count h2 (h2 n).parent
        let stack := (h3 n).parent :: (h2 n).right :: (h n).left :: rest
        remove_loop f (setFreed h3 n) stack
      else remove_loop f h rest

/-- Method `Node::remove` (tolerates a null receiver). -/
def remove (fuel : Nat) (h : Heap) (p : Ptr) : Option Heap :=
  match p with
  | none => some h
  | some a => remove_loop fuel h [some a]

/-- The tree object: the heap it works on, `root`, `set_size` and the
allocation frontier. -/
structure AVLTree where
  heap : Heap
  root : Ptr
  set_size : Nat
  next : Nat

/-- Constructor `AVLTree()`: the sentinel is allocated at address 0. -/
def AVLTree.new : AVLTree :=
  { heap := ⟨fun _ => Node.mkState State.TAIL⟩, root := some 0, set_size := 0, next := 1 }

/-- Loop fuel used by the public operations: twice the number of allocated
nodes, plus slack. -/
def AVLTree.fuel (t : AVLTree) : Nat := 2 * t.next + 2

def AVLTree.empty (t : AVLTree) : Bool := t.set_size == 0

def AVLTree.size (t : AVLTree) : Nat := t.set_size

/-- Private `get_height`. -/
def get_height (h : Heap) (node : Nat) : Int :=
  match (h node).left, (h node).right with
  | some l, some r =>
    if (h l).height < (h r).height then (h r).height + 1 else (h l).height + 1
  | some l, none => (h l).height + 1
  | none, some r => (h r).height + 1
  | none, none => 0

/-- Private `get_bf`. -/
def get_bf (h : Heap) (node : Ptr) : Int :=
  match node with
  | none => 0
  | some n =>
    match (h n).left, (h n).right with
    | some l, some r => (h l).height - (h r).height
    | some _, none => (h n).height
    | none, some _ => -(h n).height
    | none, none => 0

/-- Private `change_parent_child`. -/
def change_parent_child (h : Heap) (old_child : Nat) (new_child : Ptr) (parent : Ptr) : Heap :=
  match parent with
  | none => h
  | some p =>
    if parent = new_child then h
    else
      let h1 := if (h p).left = some old_child then setLeft h p new_child
                else setRight h p new_child
      setHeight h1 p (get_height h1 p)

/-- Private `swap_child`. -/
def swap_child (h : Heap) (lhs rhs : Nat) : Heap :=
  let h1 := match (h lhs).left with
    | some c => if c ≠ rhs then setParent h c (some rhs) else h
    | none => h
  let h2 := match (h1 lhs).right with
    | some c => if c ≠ rhs then setParent h1 c (some rhs) else h1
    | none => h1
  let h3 := match (h2 rhs).left with
    | some c => if c ≠ lhs then setParent h2 c (some lhs) else h2
    | none => h2
  let h4 := match (h3 rhs).right with
    | some c => if c ≠ lhs then setParent h3 c (some lhs) else h3
    | none => h3
  let temp := (h4 rhs).left
  let h5 := setLeft h4 rhs (if (h4 lhs).left = some rhs then some lhs else (h4 lhs).left)
  let h6 := setLeft h5 lhs (if temp = some lhs then some rhs else temp)
  let temp2 := (h6 rhs).right
  let h7 := setRight h6 rhs (if (h6 lhs).right = some rhs then some lhs else (h6 lhs).right)
  setRight h7 lhs (if temp2 = some lhs then some rhs else temp2)

/-- Private `swap_parent`. -/
def swap_parent (h : Heap) (lhs rhs : Nat) : Heap :=
  let temp := (h rhs).parent
  let h1 := setParent h rhs (if (h lhs).parent = some rhs then some lhs else (h lhs).parent)
  setParent h1 lhs (if temp = some lhs then some rhs else temp)

/-- Private `swap_height`. -/
def swap_height (h : Heap) (lhs rhs : Nat) : Heap :=
  let height := (h lhs).height
  let h1 := setHeight h lhs (h rhs).height
  setHeight h1 rhs height

/-- Private `swap`. -/
def swap (t : AVLTree) (lhs rhs : Nat) : AVLTree :=
  if lhs ≠ rhs then
    let h1 := change_parent_child t.heap lhs (some rhs) (t.heap lhs).parent
    let h2 := change_parent_child h1 rhs (some lhs) (h1 rhs).parent
    let h3 := swap_child h2 lhs rhs
    let h4 := swap_parent h3 lhs rhs
    let h5 := swap_height h4 lhs rhs
    let root :=
      if (h5 rhs).parent = none then some rhs
      else if (h5 lhs).parent = none then some lhs
      else t.root
    { t with heap := h5, root := root }
  else t

/-- Private `replace_node`. -/
def replace_node (h : Heap) (lhs rhs : Nat) : Heap :=
  if lhs ≠ rhs then
    let h1 := match (h rhs).left with
      | some c => if c ≠ lhs then setParent h c (some lhs) else h
      | none => h
    let h2 := match (h1 rhs).right with
      | some c => if c ≠ lhs then setParent h1 c (some lhs) else h1
      | none => h1
    let h3 :=
      if (h2 rhs).left = some lhs then
        setLeft h2 lhs (if (h2 lhs).left ≠ none then (h2 lhs).left else (h2 lhs).right)
      else setLeft h2 lhs (h2 rhs).left
    let h4 :=
      if (h3 rhs).right = some lhs then
        setRight h3 lhs (if (h3 lhs).left ≠ none then (h3 lhs).left else (h3 lhs).right)
      else setRight h3 lhs (h3 rhs).right
    let h5 := setHeight h4 lhs (get_height h4 lhs)
    let h6 := change_parent_child h5 rhs (some lhs) (h5 rhs).parent
    setParent h6 lhs (h6 rhs).parent
  else h

/-- Private `get_lower_right_child`. -/
def get_lower_right_child (h : Heap) : Nat → Nat → Option Nat
  | 0, _ => none
  | f + 1, node =>
    match (h node).right with
    | some r => get_lower_right_child h f r
    | none => some node

/-- Private `get_lower_left_child`. -/
def get_lower_left_child (h : Heap) : Nat → Nat → Option Nat
  | 0, _ => none
  | f + 1, node =>
    match (h node).left with
    | some l => get_lower_left_child h f l
    | none => some node

/-- Private `left_leftRotate`. -/
def left_leftRotate (t : AVLTree) (node : Nat) : Option AVLTree :=
  match (t.heap node).left with
  | none => none
  | some child =>
    let h := t.heap
    let h1 := if (h node).parent ≠ none then
                change_parent_child h node (some child) (h node).parent
              else h
    let h2 := setParent h1 child (h1 node).parent
    let h3 := setParent h2 node (some child)
    let h4 := setLeft h3 node (h3 child).right
    let h5 := setRight h4 child (some node)
    let h6 := match (h5 node).left with
      | some l => setParent h5 l (some node)
      | none => h5
    let h7 := setHeight h6 node (get_height h6 node)
    let h8 := setHeight h7 child (get_height h7 child)
    some { t with heap := h8, root := if (h8 child).parent = none then some child else t.root }

/-- Private `right_rightRotate`. -/
def right_rightRotate (t : AVLTree) (node : Nat) : Option AVLTree :=
  match (t.heap node).right with
  | none => none
  | some child =>
    let h := t.heap
    let h1 := if (h node).parent ≠ none then
                change_parent_child h node (some child) (h node).parent
              else h
    let h2 := setParent h1 child (h1 node).parent
    let h3 := setParent h2 node (some child)
    let h4 := setRight h3 node (h3 child).left
    let h5 := setLeft h4 child (some node)
    let h6 := match (h5 node).right with
      | some r => setParent h5 r (some node)
      | none => h5
    let h7 := setHeight h6 node (get_height h6 node)
    let h8 := setHeight h7 child (get_height h7 child)
    some { t with heap := h8, root := if (h8 child).parent = none then some child else t.root }

/-- Private `left_rightRotate`. -/
def left_rightRotate (t : AVLTree) (node : Nat) : Option AVLTree :=
  match (t.heap node).left with
  | none => none
  | some l =>
    match right_rightRotate t l with
    | none => none
    | some t1 => left_leftRotate t1 node

/-- Private `right_leftRotate`. -/
def right_leftRotate (t : AVLTree) (node : Nat) : Option AVLTree :=
  match (t.heap node).right with
  | none => none
  | some r =>
    match left_leftRotate t r with
    | none => none
    | some t1 => right_rightRotate t1 node

/-- Private `balance_delete`. -/
def balance_delete (t : AVLTree) (node : Nat) : Option AVLTree :=
  let h := setHeight t.heap node (get_height t.heap node)
  let t1 := { t with heap := h }
  let node_bf := get_bf h (some node)
  let lnode_bf := get_bf h (h node).left
  let rnode_bf := get_bf h (h node).right
  if node_bf = 2 ∧ lnode_bf = 1 then left_leftRotate t1 node
  else if node_bf = 2 ∧ lnode_bf = -1 then left_rightRotate t1 node
  else if node_bf = 2 ∧ lnode_bf = 0 then left_leftRotate t1 node
  else if node_bf = -2 ∧ rnode_bf = -1 then right_rightRotate t1 node
  else if node_bf = -2 ∧ rnode_bf = 1 then right_leftRotate t1 node
  else if node_bf = -2 ∧ rnode_bf = 0 then right_rightRotate t1 node
  else some t1

/-- One pass of the `while` body of `balance_insert`, without the final
`node = node->parent`. -/
def balance_insert_step (t : AVLTree) (node : Nat) : Option AVLTree :=
  let h := setHeight t.heap node (get_height t.heap node)
  let t1 := { t with heap := h }
  let node_bf := get_bf h (some node)
  let lnode_bf := get_bf h (h node).left
  let rnode_bf := get_bf h (h node).right
  if node_bf = 2 ∧ lnode_bf = 1 then left_leftRotate t1 node
  else if node_bf = -2 ∧ rnode_bf = -1 then right_rightRotate t1 node
  else if node_bf = -2 ∧ rnode_bf = 1 then right_leftRotate t1 node
  else if node_bf = 2 ∧ lnode_bf = -1 then left_rightRotate t1 node
  else some t1

/-- Private `balance_insert`. -/
def balance_insert : Nat → AVLTree → Ptr → Option AVLTree
  | _, t, none => some t
  | 0, _, some _ => none
  | f + 1, t, some node =>
    match balance_insert_step t node with
    | none => none
    | some t1 => balance_insert f t1 (t1.heap node).parent

/-- The `while (balanced_node)` loop at the end of `erase`. -/
def balance_delete_loop : Nat → AVLTree → Ptr → Option AVLTree
  | _, t, none => some t
  | 0, _, some _ => none
  | f + 1, t, some node =>
    match balance_delete t node with
    | none => none
    | some t1 => balance_delete_loop f t1 (t1.heap node).parent

/-- The `while` loop of `find_node`. -/
def find_node_loop (cmp : Int → Int → Bool) (h : Heap) (key : Int) : Nat → Ptr → Option Ptr
  | 0, _ => none
  | _ + 1, none => some none
  | f + 1, some c =>
    if (h c).key ≠ key then
      if cmp key (h c).key then
        match (h c).left with
        | none => some (some c)
        | some l => find_node_loop cmp h key f (some l)
      else
        match (h c).right with
        | none => some (some c)
        | some r => find_node_loop cmp h key f (some r)
    else some (some c)

/-- Private `find_node`. -/
def find_node (cmp : Int → Int → Bool) (t : AVLTree) (key : Int) : Option Ptr :=
  find_node_loop cmp t.heap key t.fuel t.root

/-- Method `AVLTree::insert(T value, K key)`. -/
def insert (cmp : Int → Int → Bool) (t : AVLTree) (value key : Int) : Option AVLTree :=
  match find_node cmp t key with
  | none => none
  | some none => none
  | some (some parent_node) =>
    if (t.heap parent_node).key ≠ key ∨ (t.heap parent_node).state = State.TAIL then
      let new_node := t.next
      let h0 := t.heap.set new_node (Node.mkLive value key (some parent_node))
      let h1 := if cmp (h0 new_node).key (h0 parent_node).key then
                  setLeft h0 parent_node (some new_node)
                else setRight h0 parent_node (some new_node)
      let t1 : AVLTree := { t with heap := h1, next := t.next + 1 }
      let swapped := (h1 parent_node).state = State.TAIL ∧ (h1 parent_node).right ≠ none
      let t2 := if swapped then swap t1 parent_node new_node else t1
      let start := if swapped then parent_node else new_node
      let t3 := { t2 with set_size := t2.set_size + 1 }
      balance_insert t3.fuel t3 (some start)
    else some t

/-- Private `delete_node`. -/
def delete_node (h : Heap) (node : Nat) : Heap :=
  let h1 := setState h node State.DELETED
  if (h1 node).ref_count = 0 then setFreed h1 node
  else
    let h2 := inc_ref_count h1 (h1 node).parent
    let h3 := inc_ref_count h2 (h2 node).left
    inc_ref_count h3 (h3 node).right

/-- The splice of `lower_node` out of its old place, the `if (lower_node->parent
&& lower_node->parent != node)` block of `erase`. -/
def erase_splice (h : Heap) (lower_node node : Nat) : Heap :=
  if (h lower_node).parent ≠ none ∧ (h lower_node).parent ≠ some node then
    match (h lower_node).left with
    | some l =>
      let h1 := change_parent_child h lower_node (some l) (h lower_node).parent
      setParent h1 l (h1 lower_node).parent
    | none =>
      match (h lower_node).right with
      | some r =>
        let h1 := change_parent_child h lower_node (some r) (h lower_node).parent
        setParent h1 r (h1 lower_node).parent
      | none => change_parent_child h lower_node none (h lower_node).parent
  else h

/-- Method `AVLTree::erase(K key)`. -/
def erase (cmp : Int → Int → Bool) (t : AVLTree) (key : Int) : Option AVLTree :=
  if ¬ t.empty then
    match find_node cmp t key with
    | none => none
    | some none => none
    | some (some node) =>
      if (t.heap node).key = key ∧ (t.heap node).state = State.NOT_DELETE then
        let h := t.heap
        let lower :=
          match (h node).left with
          | some l => get_lower_right_child h t.fuel l
          | none =>
            match (h node).right with
            | some r => get_lower_left_child h t.fuel r
            | none => some node
        match lower with
        | none => none
        | some lower_node =>
          let root := if some node = t.root then some lower_node else t.root
          let h1 := erase_splice h lower_node node
          let balanced_node :=
            if (h1 lower_node).parent = some node then some lower_node
            else (h1 lower_node).parent
          let h2 := replace_node h1 lower_node node
          let t1 : AVLTree := { t with heap := h2, root := root, set_size := t.set_size - 1 }
          match balance_delete_loop t1.fuel t1 balanced_node with
          | none => none
          | some t2 => some { t2 with heap := delete_node t2.heap node }
      else some t
  else some t

/-- The `while (current->left)` loop of `begin`. -/
def begin_loop (h : Heap) : Nat → Nat → Option Nat
  | 0, _ => none
  | f + 1, current =>
    match (h current).left with
    | some l => begin_loop h f l
    | none => some current

/-- The `while (current->right)` loop of `end`. -/
def end_loop (h : Heap) : Nat → Nat → Option Nat
  | 0, _ => none
  | f + 1, current =>
    match (h current).right with
    | some r => end_loop h f r
    | none => some current

/-- Method `AVLTree::begin`: the node found and the heap after the iterator
constructor took its reference. -/
def AVLTree.begin (t : AVLTree) : Option (AVLTree × Ptr) :=
  match t.root with
  | none => none
  | some r =>
    match begin_loop t.heap t.fuel r with
    | none => none
    | some c => some ({ t with heap := inc_ref_count t.heap (some c) }, some c)

/-- Method `AVLTree::end`. -/
def AVLTree.end (t : AVLTree) : Option (AVLTree × Ptr) :=
  match t.root with
  | none => none
  | some r =>
    match end_loop t.heap t.fuel r with
    | none => none
    | some c => some ({ t with heap := inc_ref_count t.heap (some c) }, some c)

/-- Destructor `~AVLIterator`. -/
def iterator_destroy (fuel : Nat) (h : Heap) (value : Ptr) : Option Heap :=
  match value with
  | none => some h
  | some v =>
    let h1 := dec_ref_count h (some v)
    if (h1 v).ref_count = 0 then remove fuel h1 (some v) else some h1

/-- Method `AVLTree::find`. -/
def find (cmp : Int → Int → Bool) (t : AVLTree) (key : Int) : Option (AVLTree × Ptr) :=
  match find_node cmp t key with
  | none => none
  | some none => none
  | some (some n) =>
    let h1 := inc_ref_count t.heap (some n)
    if (h1 n).key ≠ key then
      match AVLTree.end { t with heap := h1 } with
      | none => none
      | some (t2, e) =>
        match iterator_destroy (4 * t.next + 4) t2.heap (some n) with
        | none => none
        | some h3 => some ({ t2 with heap := h3 }, e)
    else some ({ t with heap := h1 }, some n)

/-- Dereference `AVLIterator::operator*`. -/
def deref (h : Heap) (value : Ptr) : Option Int :=
  match value with
  | none => none
  | some v => some (h v).value

/-- The `while (value->left && prev_value->key < value->left->key)` loop of
`operator++`. -/
def advance_down (h : Heap) (prev_key : Int) : Nat → Nat → Option Nat
  | 0, _ => none
  | f + 1, value =>
    match (h value).left with
    | some l => if prev_key < (h l).key then advance_down h prev_key f l else some value
    | none => some value

/-- The `while (value->parent != nullptr && value->parent->right == value)` loop
of `operator++`. -/
def advance_up (h : Heap) : Nat → Nat → Option Nat
  | 0, _ => none
  | f + 1, value =>
    match (h value).parent with
    | some p => if (h p).right = some value then advance_up h f p else some value
    | none => some value

/-- Prefix `AVLIterator::operator++`. -/
def advance (fuel : Nat) (h : Heap) (value : Ptr) : Option (Heap × Ptr) :=
  match value with
  | none => none
  | some v =>
    if (h v).state ≠ State.TAIL then
      let prev_value := v
      let h1 := dec_ref_count h (some v)
      let moved : Option Ptr :=
        match (h1 v).right with
        | some r =>
          match advance_down h1 (h1 prev_value).key fuel r with
          | none => none
          | some w => some (some w)
        | none =>
          match (h1 v).parent with
          | some p =>
            if (h1 p).left = some v then some (some p)
            else if (h1 p).right = some v then
              match advance_up h1 fuel v with
              | none => none
              | some w => some (h1 w).parent
            else some (some p)
          | none => some (some v)
      match moved with
      | none => none
      | some value2 =>
        let h2 := inc_ref_count h1 value2
        if (h2 prev_value).ref_count = 0 ∧ (h2 prev_value).state = State.DELETED then
          match remove fuel h2 (some prev_value) with
          | none => none
          | some h3 => some (h3, value2)
        else some (h2, value2)
    else some (h, value)

/-- Whether the pass of the `while` body of `balance_insert` at `node` takes one
of its four rotation branches. -/
def rotation_case (t : AVLTree) (node : Nat) : Bool :=
  let h := setHeight t.heap node (get_height t.heap node)
  let node_bf := get_bf h (some node)
  let lnode_bf := get_bf h (h node).left
  let rnode_bf := get_bf h (h node).right
  decide ((node_bf = 2 ∧ lnode_bf = 1) ∨ (node_bf = -2 ∧ rnode_bf = -1) ∨
    (node_bf = -2 ∧ rnode_bf = 1) ∨ (node_bf = 2 ∧ lnode_bf = -1))

/-- The loop of `balance_insert`, returning the number of passes that took a
rotation branch. -/
def balance_insert_rotations : Nat → AVLTree → Ptr → Option Nat
  | _, _, none => some 0
  | 0, _, some _ => none
  | f + 1, t, some node =>
    match balance_insert_step t node with
    | none => none
    | some t1 =>
      match balance_insert_rotations f t1 (t1.heap node).parent with
      | none => none
      | some n => some (n + if rotation_case t node then 1 else 0)

/-- Method `AVLTree::insert(T value, K key)`, returning the number of rotating
passes of its `balance_insert` call; `0` when the key is already stored. -/
def insert_rotations (cmp : Int → Int → Bool) (t : AVLTree) (value key : Int) : Option Nat :=
  match find_node cmp t key with
  | none => none
  | some none => none
  | some (some parent_node) =>
    if (t.heap parent_node).key ≠ key ∨ (t.heap parent_node).state = State.TAIL then
      let new_node := t.next
      let h0 := t.heap.set new_node (Node.mkLive value key (some parent_node))
      let h1 := if cmp (h0 new_node).key (h0 parent_node).key then
                  setLeft h0 parent_node (some new_node)
                else setRight h0 parent_node (some new_node)
      let t1 : AVLTree := { t with heap := h1, next := t.next + 1 }
      let swapped := (h1 parent_node).state = State.TAIL ∧ (h1 parent_node).right ≠ none
      let t2 := if swapped then swap t1 parent_node new_node else t1
      let start := if swapped then parent_node else new_node
      let t3 := { t2 with set_size := t2.set_size + 1 }
      balance_insert_rotations t3.fuel t3 (some start)
    else some 0

/-- Copy constructor `AVLIterator(const AVLIterator& other)`. -/
def iterator_copy (h : Heap) (value : Ptr) : Heap := inc_ref_count h value

/-- Move assignment `AVLIterator::operator=(AVLIterator&& other)` on a cursor
that holds `value`: the heap it leaves and the pointer the cursor holds
afterwards. -/
def iterator_assign (fuel : Nat) (h : Heap) (value other : Ptr) : Option (Heap × Ptr) :=
  let h1 := dec_ref_count h value
  match remove fuel h1 value with
  | none => none
  | some h2 => some (inc_ref_count h2 other, other)

/-! ## Specification-side definitions

Ghost trees, the representation relation between a ghost tree and the heap,
the abstract dictionary, and the measures the theorems are stated with. -/

/-- Ghost data of one node. -/
structure Info where
  id : Nat
  key : Int
  value : Int
  height : Int

/-- Ghost tree: the shape the heap is meant to hold. -/
inductive FT where
  | leaf : FT
  | node : FT → Info → FT → FT

namespace FT

def rootPtr : FT → Ptr
  | leaf => none
  | node _ i _ => some i.id

def ids : FT → List Nat
  | leaf => []
  | node l i r => l.ids ++ i.id :: r.ids

def ents : FT → List (Nat × Int × Int)
  | leaf => []
  | node l i r => l.ents ++ (i.id, i.key, i.value) :: r.ents

def ht : FT → Int
  | leaf => -1
  | node l _ r => max l.ht r.ht + 1

def Acc : FT → Prop
  | leaf => True
  | node l i r => Acc l ∧ Acc r ∧ i.height = max l.ht r.ht + 1

def Bal : FT → Prop
  | leaf => True
  | node l _ r => Bal l ∧ Bal r ∧ l.ht ≤ r.ht + 1 ∧ r.ht ≤ l.ht + 1

end FT

open FT

def stateOf (id : Nat) : State := if id = 0 then State.TAIL else State.NOT_DELETE

/-- Everything but the stored height. -/
def NodeLinks (n : Node) (i : Info) (par l r : Ptr) : Prop :=
  n.key = i.key ∧ n.value = i.value ∧ n.state = stateOf i.id ∧ n.freed = false ∧
    n.left = l ∧ n.right = r ∧ n.parent = par

def Rep (h : Heap) : Ptr → FT → Prop
  | _, FT.leaf => True
  | par, FT.node l i r =>
    NodeLinks (h i.id) i par l.rootPtr r.rootPtr ∧ (h i.id).height = i.height ∧
      Rep h (some i.id) l ∧ Rep h (some i.id) r

inductive Dir where
  | L
  | R
  deriving DecidableEq

/-- One step of a root-to-node path: the node passed, which way the path
continues, and the subtree on the other side. -/
structure Frame where
  dir : Dir
  i : Info
  sib : FT

abbrev Ctx := List Frame

def Frame.fill (f : Frame) (t : FT) : FT :=
  match f.dir with
  | Dir.L => FT.node t f.i f.sib
  | Dir.R => FT.node f.sib f.i t

def Frame.lptr (f : Frame) (hp : Ptr) : Ptr :=
  match f.dir with
  | Dir.L => hp
  | Dir.R => f.sib.rootPtr

def Frame.rptr (f : Frame) (hp : Ptr) : Ptr :=
  match f.dir with
  | Dir.L => f.sib.rootPtr
  | Dir.R => hp

def plug : Ctx → FT → FT
  | [], t => t
  | f :: c, t => plug c (f.fill t)

def ctxPar (par0 : Ptr) : Ctx → Ptr
  | [] => par0
  | f :: _ => some f.i.id

def ctxTop : Ctx → Ptr → Ptr
  | [], p => p
  | f :: c, _ => ctxTop c (some f.i.id)

def ctxIds : Ctx → List Nat
  | [] => []
  | f :: c => f.i.id :: (f.sib.ids ++ ctxIds c)

def RepCtx (h : Heap) (par0 : Ptr) : Ctx → Ptr → Prop
  | [], _ => True
  | f :: c, hp =>
    NodeLinks (h f.i.id) f.i (ctxPar par0 c) (f.lptr hp) (f.rptr hp) ∧
      Rep h (some f.i.id) f.sib ∧ RepCtx h par0 c (some f.i.id)

/-- The heap of `t` holds the tree `plug c f`, seen from the subtree `f`. -/
structure ZRep (t : AVLTree) (c : Ctx) (f : FT) : Prop where
  root : t.root = ctxTop c f.rootPtr
  ctx : RepCtx t.heap none c f.rootPtr
  foc : Rep t.heap (ctxPar none c) f
  nodup : (f.ids ++ ctxIds c).Nodup

/-- Writing the parent field of the root of a represented subtree. -/
def setParentP (h : Heap) (p : Ptr) (v : Ptr) : Heap :=
  match p with
  | some a => setParent h a v
  | none => h

/-- The pointer writes of `left_leftRotate` after the parent's child pointer
has been redirected and before the two height writes. -/
def LL_links (h1 : Heap) (node child : Nat) : Heap :=
  let h2 := setParent h1 child (h1 node).parent
  let h3 := setParent h2 node (some child)
  let h4 := setLeft h3 node (h3 child).right
  let h5 := setRight h4 child (some node)
  match (h5 node).left with
    | some l => setParent h5 l (some node)
    | none => h5

/-- The two height writes closing a rotation. -/
def fix_heights (h6 : Heap) (node child : Nat) : Heap :=
  let h7 := setHeight h6 node (get_height h6 node)
  setHeight h7 child (get_height h7 child)

/-- What a balancing primitive leaves alone. -/
structure Keeps (t t2 : AVLTree) (S : List Nat) : Prop where
  next : t2.next = t.next
  size : t2.set_size = t.set_size
  out : ∀ q, q ∉ S → t2.heap.get q = t.heap.get q

/-- The pointer writes of `right_rightRotate` after the parent's child pointer
has been redirected and before the two height writes. -/
def RR_links (h1 : Heap) (node child : Nat) : Heap :=
  let h2 := setParent h1 child (h1 node).parent
  let h3 := setParent h2 node (some child)
  let h4 := setRight h3 node (h3 child).left
  let h5 := setLeft h4 child (some node)
  match (h5 node).right with
    | some r => setParent h5 r (some node)
    | none => h5

/-- A frame closed over a subtree, the node's height read back from the heap. -/
def Frame.fillH (f : Frame) (h : Heap) (t : FT) : FT :=
  match f.dir with
  | Dir.L => FT.node t { f.i with height := (h.get f.i.id).height } f.sib
  | Dir.R => FT.node f.sib { f.i with height := (h.get f.i.id).height } t

def rotLL : FT → FT
  | node (node A ci B) ni C =>
    node A { ci with height := max A.ht (max B.ht C.ht + 1) + 1 }
      (node B { ni with height := max B.ht C.ht + 1 } C)
  | t => t

def rotRR : FT → FT
  | node A ni (node B ci C) =>
    node (node A { ni with height := max A.ht B.ht + 1 } B)
      { ci with height := max (max A.ht B.ht + 1) C.ht + 1 } C
  | t => t

def rotLR : FT → FT
  | node (node A li (node B gi C)) ni D =>
    node (node A { li with height := max A.ht B.ht + 1 } B)
      { gi with height := max (max A.ht B.ht + 1) (max C.ht D.ht + 1) + 1 }
      (node C { ni with height := max C.ht D.ht + 1 } D)
  | t => t

def rotRL : FT → FT
  | node A ni (node (node B gi C) ri D) =>
    node (node A { ni with height := max A.ht B.ht + 1 } B)
      { gi with height := max (max A.ht B.ht + 1) (max C.ht D.ht + 1) + 1 }
      (node C { ri with height := max C.ht D.ht + 1 } D)
  | t => t

def FT.bf : FT → Int
  | leaf => 0
  | node l _ r => l.ht - r.ht

/-- One pass of the insert rebalancing at the root of a ghost tree. -/
def rebal_ins : FT → FT
  | leaf => leaf
  | node l i r =>
    if l.ht - r.ht = 2 ∧ l.bf = 1 then rotLL (node l { i with height := max l.ht r.ht + 1 } r)
    else if l.ht - r.ht = -2 ∧ r.bf = -1 then
      rotRR (node l { i with height := max l.ht r.ht + 1 } r)
    else if l.ht - r.ht = -2 ∧ r.bf = 1 then
      rotRL (node l { i with height := max l.ht r.ht + 1 } r)
    else if l.ht - r.ht = 2 ∧ l.bf = -1 then
      rotLR (node l { i with height := max l.ht r.ht + 1 } r)
    else node l { i with height := max l.ht r.ht + 1 } r

/-- One pass of the erase rebalancing at the root of a ghost tree. -/
def rebal_del : FT → FT
  | leaf => leaf
  | node l i r =>
    if l.ht - r.ht = 2 ∧ l.bf = 1 then rotLL (node l { i with height := max l.ht r.ht + 1 } r)
    else if l.ht - r.ht = 2 ∧ l.bf = -1 then
      rotLR (node l { i with height := max l.ht r.ht + 1 } r)
    else if l.ht - r.ht = 2 ∧ l.bf = 0 then
      rotLL (node l { i with height := max l.ht r.ht + 1 } r)
    else if l.ht - r.ht = -2 ∧ r.bf = -1 then
      rotRR (node l { i with height := max l.ht r.ht + 1 } r)
    else if l.ht - r.ht = -2 ∧ r.bf = 1 then
      rotRL (node l { i with height := max l.ht r.ht + 1 } r)
    else if l.ht - r.ht = -2 ∧ r.bf = 0 then
      rotRR (node l { i with height := max l.ht r.ht + 1 } r)
    else node l { i with height := max l.ht r.ht + 1 } r

/-- The node `x` is the root of `g` or a child of the root. -/
def NearRoot (x : Nat) (g : FT) : Prop :=
  g.rootPtr = some x ∨ ∃ X j Y, g = node X j Y ∧ (X.rootPtr = some x ∨ Y.rootPtr = some x)

def entsBefore : Ctx → List (Nat × Int × Int)
  | [] => []
  | fr :: c =>
    match fr.dir with
    | Dir.L => entsBefore c
    | Dir.R => entsBefore c ++ (fr.sib.ents ++ [(fr.i.id, fr.i.key, fr.i.value)])

def entsAfter : Ctx → List (Nat × Int × Int)
  | [] => []
  | fr :: c =>
    match fr.dir with
    | Dir.L => (fr.i.id, fr.i.key, fr.i.value) :: (fr.sib.ents ++ entsAfter c)
    | Dir.R => entsAfter c

def lastLeft : FT → FT
  | leaf => leaf
  | node l _ leaf => l
  | node _ _ (node a b c) => lastLeft (node a b c)

/-- Replacing `t` by `t2` cannot give the last node a left child it lacked. -/
def LMono (t t2 : FT) : Prop :=
  (t2 = leaf ↔ t = leaf) ∧ (lastLeft t2 ≠ leaf → lastLeft t ≠ leaf)

/-- Balance of everything hanging off the path, relative to the height `o`
the subtree at the hole had before the update. -/
def CtxBal : Ctx → Int → Prop
  | [], _ => True
  | fr :: c, o =>
    fr.sib.Acc ∧ fr.sib.Bal ∧ o ≤ fr.sib.ht + 1 ∧ fr.sib.ht ≤ o + 1 ∧
      CtxBal c (max o fr.sib.ht + 1)

/-- The default comparator `std::less<int>`. -/
def lt (a b : Int) : Bool := decide (a < b)

/-- What the comparisons made on the way down say about the searched key. -/
def PathOK (k : Int) : Ctx → Prop
  | [] => True
  | fr :: c =>
    fr.i.key ≠ k ∧
      (match fr.dir with
        | Dir.L => k < fr.i.key
        | Dir.R => ¬ k < fr.i.key) ∧ PathOK k c

/-- Why `find_node` stopped at the node `i` with subtrees `l`, `r`. -/
def Stop (k : Int) (l : FT) (i : Info) (r : FT) : Prop :=
  i.key = k ∨ (i.key ≠ k ∧ k < i.key ∧ l = leaf) ∨ (i.key ≠ k ∧ ¬ k < i.key ∧ r = leaf)

/-- The key an entry sorts by: the sentinel (address 0) sorts after every key. -/
def ek (e : Nat × Int × Int) : WithTop Int :=
  if e.1 = 0 then ⊤ else ((e.2.1 : Int) : WithTop Int)

/-- Sortedness of an inorder list. -/
def SortedE (l : List (Nat × Int × Int)) : Prop := l.Pairwise (fun a b => ek a < ek b)

/-- The body of `swap` after the two `change_parent_child` calls. -/
def swap_core (h2 : Heap) (lhs rhs : Nat) : Heap :=
  swap_height (swap_parent (swap_child h2 lhs rhs) lhs rhs) lhs rhs

/-- The ghost tree is a balanced search tree that ends in the sentinel. -/
structure Good (T : FT) : Prop where
  acc : T.Acc
  bal : T.Bal
  sorted : SortedE T.ents
  hasS : ∃ v, (0, 0, v) ∈ T.ents
  sleft : lastLeft T ≠ leaf → ∀ e ∈ T.ents, e.1 ≠ 0 → e.2.1 < 0

/-- The tree object `t` holds the ghost tree `T`. -/
structure Inv (t : AVLTree) (T : FT) : Prop where
  rep : ZRep t [] T
  good : Good T
  alloc : ∀ q ∈ T.ids, q < t.next
  size : t.set_size + 1 = T.ids.length

/-- Facts about the place where the search for `k` stopped. -/
structure Located (T : FT) (k : Int) (c : Ctx) (l : FT) (i : Info) (r : FT) : Prop where
  ents : T.ents = entsBefore c ++ ((l.ents ++ (i.id, i.key, i.value) :: r.ents) ++ entsAfter c)
  before : ∀ e ∈ entsBefore c, ek e < (k : WithTop Int)
  after : ∀ e ∈ entsAfter c, (k : WithTop Int) < ek e
  left : ∀ e ∈ l.ents, ek e < ek (i.id, i.key, i.value)
  right : ∀ e ∈ r.ents, ek (i.id, i.key, i.value) < ek e
  sent : i.id = 0 → i.key = 0 ∧ r = leaf ∧ entsAfter c = []
  sentl : i.id = 0 → ∀ e ∈ l.ents, e.1 ≠ 0 ∧ e.2.1 < 0

/-- All stored keys are negative. -/
def AllNeg (l : List (Nat × Int × Int)) : Prop := ∀ e ∈ l, e.1 ≠ 0 → e.2.1 < 0

/-- The heap of `insert` right after the new node is linked below `p`. -/
def attach_heap (t : AVLTree) (v k : Int) (p : Nat) : Heap :=
  if lt k (t.heap.get p).key then
    setLeft (t.heap.set t.next (Node.mkLive v k (some p))) p (some t.next)
  else setRight (t.heap.set t.next (Node.mkLive v k (some p))) p (some t.next)

/-- What `insert` of a new key achieves. -/
def InsertPost (t : AVLTree) (T : FT) (v k : Int) (res : Option AVLTree) : Prop :=
  ∃ t2 T2 P Q, res = some t2 ∧ Inv t2 T2 ∧ T.ents = P ++ Q ∧
    T2.ents = P ++ (t.next, k, v) :: Q ∧ t2.next = t.next + 1 ∧
    (∀ q, q ∉ T.ids → q ≠ t.next → t2.heap.get q = t.heap.get q)

/-- The heap `h2` differs from `h` in reference counts only. -/
def RefUpd (h h2 : Heap) : Prop :=
  ∀ q, ∃ v, h2.get q = { h.get q with ref_count := v }

/-- Close the frames of `c` over `g`, heights read back from the heap. -/
def plugH (h : Heap) : Ctx → FT → FT
  | [], g => g
  | f :: c, g => plugH h c (f.fillH h g)

/-- The frame with its height field read back from the heap. -/
def Frame.updH (h : Heap) (f : Frame) : Frame :=
  ⟨f.dir, { f.i with height := (h.get f.i.id).height }, f.sib⟩

/-- The siblings hanging off a path. -/
def ctxSibs (c : Ctx) : List FT := c.map Frame.sib

/-- The body of `replace_node` before the parent of `rhs` is redirected. -/
def replace_core (h : Heap) (lhs rhs : Nat) : Heap :=
  let h1 := match (h rhs).left with
    | some c => if c ≠ lhs then setParent h c (some lhs) else h
    | none => h
  let h2 := match (h1 rhs).right with
    | some c => if c ≠ lhs then setParent h1 c (some lhs) else h1
    | none => h1
  let h3 :=
    if (h2 rhs).left = some lhs then
      setLeft h2 lhs (if (h2 lhs).left ≠ none then (h2 lhs).left else (h2 lhs).right)
    else setLeft h2 lhs (h2 rhs).left
  let h4 :=
    if (h3 rhs).right = some lhs then
      setRight h3 lhs (if (h3 lhs).left ≠ none then (h3 lhs).left else (h3 lhs).right)
    else setRight h3 lhs (h3 rhs).right
  setHeight h4 lhs (get_height h4 lhs)

/-- Both heaps hold the same reference counts. -/
def RefSame (h h2 : Heap) : Prop := ∀ q, (h2.get q).ref_count = (h.get q).ref_count

/-- The three pins taken by `delete_node`. -/
def pin3 (h : Heap) (node : Nat) : Heap :=
  let h2 := inc_ref_count h (h node).parent
  let h3 := inc_ref_count h2 (h2 node).left
  inc_ref_count h3 (h3 node).right

/-- What `erase` does when it removes the node `id` holding key `k`. -/
def ErasePost (t : AVLTree) (T : FT) (k : Int) (res : Option AVLTree) : Prop :=
  ∃ t2 T2 P Q id v, res = some t2 ∧ Inv t2 T2 ∧ T.ents = P ++ (id, k, v) :: Q ∧
    T2.ents = P ++ Q ∧ id ≠ 0 ∧ t2.next = t.next ∧ t2.set_size + 1 = t.set_size ∧
    (∀ q, q ∉ T.ids → t2.heap.get q = t.heap.get q) ∧
    t2.heap.get id = { t.heap.get id with
      state := State.DELETED, freed := decide ((t.heap.get id).ref_count = 0) } ∧
    ((t.heap.get id).ref_count = 0 → RefSame t.heap t2.heap)

/-- The choice of `lower_node` in `erase`. -/
def erase_lower (t : AVLTree) (node : Nat) : Option Nat :=
  match (t.heap node).left with
  | some l => get_lower_right_child t.heap t.fuel l
  | none =>
    match (t.heap node).right with
    | some r => get_lower_left_child t.heap t.fuel r
    | none => some node

/-- The tree handed to the rebalancing loop of `erase`. -/
def erase_mid (t : AVLTree) (node lower : Nat) : AVLTree :=
  AVLTree.mk (replace_node (erase_splice t.heap lower node) lower node)
    (if some node = t.root then some lower else t.root) (t.set_size - 1) t.next

/-- The node at which the rebalancing loop of `erase` starts. -/
def erase_start (t : AVLTree) (node lower : Nat) : Ptr :=
  if ((erase_splice t.heap lower node).get lower).parent = some node then some lower
  else ((erase_splice t.heap lower node).get lower).parent

/-- Everything `erase` does once `lower_node` is known. -/
def erase_tail (t : AVLTree) (node lower : Nat) : Option AVLTree :=
  match balance_delete_loop (erase_mid t node lower).fuel (erase_mid t node lower)
      (erase_start t node lower) with
  | none => none
  | some t2 => some (AVLTree.mk (delete_node t2.heap node) t2.root t2.set_size t2.next)

/-- Where `operator++` moves to from the node `v`. -/
def advance_move (h1 : Heap) (fuel : Nat) (v : Nat) : Option Ptr :=
  match (h1 v).right with
  | some r =>
    match advance_down h1 (h1 v).key fuel r with
    | none => none
    | some w => some (some w)
  | none =>
    match (h1 v).parent with
    | some p =>
      if (h1 p).left = some v then some (some p)
      else if (h1 p).right = some v then
        match advance_up h1 fuel v with
        | none => none
        | some w => some (h1 w).parent
      else some (some p)
    | none => some (some v)

/-- Apply `operator++` `n` times, recording the node the cursor stood on
before each step. -/
def walk (fuel : Nat) : Nat → Heap → Ptr → Option (List Nat × Heap × Ptr)
  | 0, h, c => some ([], h, c)
  | n + 1, h, c =>
    match c with
    | none => none
    | some v =>
      match advance fuel h c with
      | none => none
      | some (h2, c2) =>
        match walk fuel n h2 c2 with
        | none => none
        | some (vs, h3, c3) => some (v :: vs, h3, c3)

/-- An operation of the public interface: `insert(value, key)` or `erase(key)`. -/
inductive Op where
  | ins (value key : Int)
  | del (key : Int)

/-- Run one operation with the default comparator. -/
def applyOp (t : AVLTree) : Op → Option AVLTree
  | Op.ins v k => insert lt t v k
  | Op.del k => erase lt t k

/-- Run a sequence of operations, first to last, from the tree `t`. -/
def runFrom (t : AVLTree) : List Op → Option AVLTree
  | [] => some t
  | op :: ops =>
    match applyOp t op with
    | none => none
    | some t2 => runFrom t2 ops

/-- Run a sequence of operations from the empty tree. -/
def runOps (ops : List Op) : Option AVLTree := runFrom AVLTree.new ops

/-- One operation on the abstract dictionary. -/
def stepModel (m : Int → Option Int) : Op → Int → Option Int
  | Op.ins v k => fun x => if x = k then (match m k with | some v0 => some v0 | none => some v) else m x
  | Op.del k => fun x => if x = k then none else m x

/-- The abstract dictionary after a sequence of operations. -/
def modelFrom (m : Int → Option Int) : List Op → Int → Option Int
  | [] => m
  | op :: ops => modelFrom (stepModel m op) ops

/-- The abstract dictionary reached from the empty one: the keys currently
stored, each with its value. -/
def model (ops : List Op) : Int → Option Int := modelFrom (fun _ => none) ops

/-- True height of the subtree at `p`, following child links; an absent child
has height `-1`.  `none` if the fuel does not suffice. -/
def true_height (h : Heap) : Nat → Ptr → Option Int
  | 0, _ => none
  | _ + 1, none => some (-1)
  | f + 1, some n =>
    match true_height h f (h n).left, true_height h f (h n).right with
    | some a, some b => some (max a b + 1)
    | _, _ => none

/-- Every node reachable from `p` by child links has subtrees whose true heights
differ by at most one.  `false` if the fuel does not suffice. -/
def avl_balanced (h : Heap) : Nat → Ptr → Bool
  | 0, _ => false
  | _ + 1, none => true
  | f + 1, some n =>
    match true_height h f (h n).left, true_height h f (h n).right with
    | some a, some b =>
      decide (a ≤ b + 1 ∧ b ≤ a + 1) && avl_balanced h f (h n).left &&
        avl_balanced h f (h n).right
    | _, _ => false

/-- Every node reachable from `p` by child links stores its true height.
`false` if the fuel does not suffice. -/
def heights_ok (h : Heap) : Nat → Ptr → Bool
  | 0, _ => false
  | _ + 1, none => true
  | f + 1, some n =>
    decide (true_height h (f + 1) (some n) = some (h n).height) && heights_ok h f (h n).left &&
      heights_ok h f (h n).right

/-- Number of `NOT_DELETE` nodes reachable from `p` by child links.  `none` if
the fuel does not suffice. -/
def count_live (h : Heap) : Nat → Ptr → Option Nat
  | 0, _ => none
  | _ + 1, none => some 0
  | f + 1, some n =>
    match count_live h f (h n).left, count_live h f (h n).right with
    | some a, some b => some ((if (h n).state = State.NOT_DELETE then 1 else 0) + a + b)
    | _, _ => none

/-- The ghost tree stores exactly the dictionary `m`. -/
def Agrees (T : FT) (m : Int → Option Int) : Prop :=
  ∀ k v, m k = some v ↔ ∃ id, id ≠ 0 ∧ (id, k, v) ∈ T.ents

/-- The nodes reachable from `p` by child links, in inorder.  `none` if the
fuel does not suffice. -/
def reachable (h : Heap) : Nat → Ptr → Option (List Nat)
  | 0, _ => none
  | _ + 1, none => some []
  | f + 1, some n =>
    match reachable h f (h n).left, reachable h f (h n).right with
    | some a, some b => some (a ++ n :: b)
    | _, _ => none

/-- The comparator `std::greater`. -/
def gt (a b : Int) : Bool := decide (b < a)

/-- Run one operation on a tree built with the comparator `cmp`. -/
def applyWith (cmp : Int → Int → Bool) (t : AVLTree) : Op → Option AVLTree
  | Op.ins v k => insert cmp t v k
  | Op.del k => erase cmp t k

/-- Run a sequence of operations, first to last, on a tree built with the
comparator `cmp`. -/
def runWith (cmp : Int → Int → Bool) (t : AVLTree) : List Op → Option AVLTree
  | [] => some t
  | op :: ops =>
    match applyWith cmp t op with
    | none => none
    | some t2 => runWith cmp t2 ops

/-- The number of links (parent, left, right) by which the node `m` pins the
node `n`: erased nodes that are retained pin, all other nodes do not. -/
def pin_count (h : Heap) (m n : Nat) : Nat :=
  if (h.get m).state = State.DELETED ∧ (h.get m).freed = false then
    (if (h.get m).parent = some n then 1 else 0) + (if (h.get m).left = some n then 1 else 0) +
      (if (h.get m).right = some n then 1 else 0)
  else 0

/-- The number of links of retained erased nodes, among the nodes allocated so
far, that point at `n`. -/
def pins (h : Heap) (next n : Nat) : Nat :=
  ((List.range next).map (fun m => pin_count h m n)).sum

/-- A tree together with the cursors alive on it, each given by the pointer it
holds (a default-constructed cursor holds the null pointer). -/
structure Scene where
  t : AVLTree
  cursors : List Ptr

/-- The operations of a program that holds cursors: `insert`, `erase`, a new
cursor from `find`, `begin`, `end` or the default constructor, a copy of the
cursor number `i`, the move assignment of the cursor number `j` to the cursor
number `i`, and `operator++` on, or the destruction of, the cursor number `i`.
The copy assignment `operator=(AVLIterator&)` is the sequence of a copy of `j`,
the move assignment of that copy to `i` and the destruction of the copy; the
postfix `operator++` is a copy followed by `operator++`. -/
inductive COp where
  | ins (value key : Int)
  | del (key : Int)
  | find (key : Int)
  | first
  | last
  | blank
  | copy (i : Nat)
  | assign (i j : Nat)
  | advance (i : Nat)
  | destroy (i : Nat)

/-- The fuel handed to the loops of the cursor operations. -/
def Scene.fuel (s : Scene) : Nat := 4 * s.t.next + 4

/-- One operation of the program; `none` for a cursor number that does not
exist and for `operator++` on a cursor that holds the null pointer. -/
def cstep (s : Scene) : COp → Option Scene
  | COp.ins v k =>
    match insert lt s.t v k with
    | none => none
    | some t2 => some ⟨t2, s.cursors⟩
  | COp.del k =>
    match erase lt s.t k with
    | none => none
    | some t2 => some ⟨t2, s.cursors⟩
  | COp.find k =>
    match find lt s.t k with
    | none => none
    | some (t2, p) => some ⟨t2, s.cursors ++ [p]⟩
  | COp.first =>
    match s.t.begin with
    | none => none
    | some (t2, p) => some ⟨t2, s.cursors ++ [p]⟩
  | COp.last =>
    match s.t.end with
    | none => none
    | some (t2, p) => some ⟨t2, s.cursors ++ [p]⟩
  | COp.blank => some ⟨s.t, s.cursors ++ [none]⟩
  | COp.copy i =>
    match s.cursors.get? i with
    | none => none
    | some p =>
      some ⟨AVLTree.mk (iterator_copy s.t.heap p) s.t.root s.t.set_size s.t.next,
        s.cursors ++ [p]⟩
  | COp.assign i j =>
    match s.cursors.get? i, s.cursors.get? j with
    | some p, some q =>
      match iterator_assign s.fuel s.t.heap p q with
      | none => none
      | some (h2, p2) =>
        some ⟨AVLTree.mk h2 s.t.root s.t.set_size s.t.next, s.cursors.set i p2⟩
    | _, _ => none
  | COp.advance i =>
    match s.cursors.get? i with
    | none => none
    | some p =>
      match advance s.fuel s.t.heap p with
      | none => none
      | some (h2, p2) =>
        some ⟨AVLTree.mk h2 s.t.root s.t.set_size s.t.next, s.cursors.set i p2⟩
  | COp.destroy i =>
    match s.cursors.get? i with
    | none => none
    | some p =>
      match iterator_destroy s.fuel s.t.heap p with
      | none => none
      | some h2 =>
        some ⟨AVLTree.mk h2 s.t.root s.t.set_size s.t.next, s.cursors.eraseIdx i⟩

/-- Run a program from the state `s`. -/
def crunFrom (s : Scene) : List COp → Option Scene
  | [] => some s
  | op :: ops =>
    match cstep s op with
    | none => none
    | some s2 => crunFrom s2 ops

/-- Run a program from the empty tree with no cursors. -/
def crun (ops : List COp) : Option Scene := crunFrom ⟨AVLTree.new, []⟩ ops

/-- Whether the loop of `Node::remove`, run on the stack `st`, releases only
nodes that have not been deleted before: `false` as soon as a node that is
already deleted is popped and found erased with count zero, which makes the
loop release its links and delete it a second time. -/
def release_once : Nat → Heap → List Ptr → Bool
  | _, _, [] => true
  | 0, _, _ :: _ => true
  | f + 1, h, top :: rest =>
    match top with
    | none => release_once f h rest
    | some n =>
      if (h n).state = State.DELETED ∧ (h n).ref_count = 0 then
        if (h n).freed = true then false
        else
          let h1 := dec_ref_count h (h n).left
          let h2 := dec_ref_count h1 (h1 n).right
          let h3 := dec_ref_count h2 (h2 n).parent
          let stack := (h3 n).parent :: (h2 n).right :: (h n).left :: rest
          release_once f (setFreed h3 n) stack
      else release_once f h rest

/-- Whether the operation `op`, run in the state `s`, releases no node twice:
the calls of `Node::remove` are those of the move assignment, of `operator++`
and of the destructor. -/
def tidy (s : Scene) : COp → Bool
  | COp.assign i _ =>
    match s.cursors.get? i with
    | some (some v) => release_once s.fuel (dec_ref_count s.t.heap (some v)) [some v]
    | _ => true
  | COp.advance i =>
    match s.cursors.get? i with
    | some (some v) =>
      if (s.t.heap.get v).state ≠ State.TAIL then
        match advance_move (dec_ref_count s.t.heap (some v)) s.fuel v with
        | none => true
        | some value2 =>
          if ((inc_ref_count (dec_ref_count s.t.heap (some v)) value2).get v).ref_count = 0 ∧
              ((inc_ref_count (dec_ref_count s.t.heap (some v)) value2).get v).state =
                State.DELETED then
            release_once s.fuel (inc_ref_count (dec_ref_count s.t.heap (some v)) value2) [some v]
          else true
      else true
    | _ => true
  | COp.destroy i =>
    match s.cursors.get? i with
    | some (some v) =>
      if ((dec_ref_count s.t.heap (some v)).get v).ref_count = 0 then
        release_once s.fuel (dec_ref_count s.t.heap (some v)) [some v]
      else true
    | _ => true
  | _ => true

/-- Whether the program `ops`, run from the state `s`, releases no node twice. -/
def tidyFrom (s : Scene) : List COp → Bool
  | [] => true
  | op :: ops =>
    tidy s op &&
      match cstep s op with
      | none => true
      | some s2 => tidyFrom s2 ops

/-- Whether the program `ops`, run from the empty tree with no cursors,
releases no node twice. -/
def tidy_run (ops : List COp) : Bool := tidyFrom ⟨AVLTree.new, []⟩ ops

/-- The heap `h2` differs from `h` in reference counts and in which erased
nodes have been deleted. -/
def Released (h h2 : Heap) : Prop :=
  ∀ q, ∃ v f, h2.get q = { h.get q with ref_count := v, freed := f } ∧
    ((h.get q).state ≠ State.DELETED → f = (h.get q).freed)

/-- The number of erased nodes, among the nodes allocated so far, that are
retained. -/
def tombs (h : Heap) (next : Nat) : Nat :=
  ((List.range next).map (fun m =>
    if (h.get m).state = State.DELETED ∧ (h.get m).freed = false then 1 else 0)).sum

/-- What the loop of `Node::remove` does to a node it releases: the counts of
its left, right and parent links are decremented and the node is deleted. -/
def release_node (h : Heap) (n : Nat) : Heap :=
  setFreed (dec_ref_count (dec_ref_count (dec_ref_count h (h.get n).left) (h.get n).right)
    (h.get n).parent) n

/-- The bookkeeping invariant of a scene holding the tree `T`: cursors hold
allocated nodes, every allocated node is in the tree or erased, the links of an
erased node lead into the tree or to nodes erased after it, and each reference
count is the number of cursors on the node plus the number of pins on it. -/
structure Book (s : Scene) (T : FT) : Prop where
  inv : Inv s.t T
  cur : ∀ c, some c ∈ s.cursors → c < s.t.next
  own : ∀ m, m < s.t.next → m ∈ T.ids ∨ (s.t.heap.get m).state = State.DELETED
  lnk : ∃ rank : Nat → Nat, ∀ m, m < s.t.next → (s.t.heap.get m).state = State.DELETED →
    rank m + T.ids.length < s.t.next ∧
    ∀ c, ((s.t.heap.get m).parent = some c ∨ (s.t.heap.get m).left = some c ∨
      (s.t.heap.get m).right = some c) →
      c ∈ T.ids ∨ (c < s.t.next ∧ (s.t.heap.get c).state = State.DELETED ∧ rank m < rank c)
  refs : ∀ n, n < s.t.next →
    (s.t.heap.get n).ref_count =
      (s.cursors.count (some n) + pins s.t.heap s.t.next n) % SIZE_MOD
  bound : ∀ n, (s.t.heap.get n).ref_count < SIZE_MOD

/-! ## Lemmas -/

@[simp] theorem Heap.get_set_same (h : Heap) (p : Nat) (n : Node) : (h.set p n).get p = n := by
  simp [Heap.set]

@[simp] theorem Heap.get_set_other (h : Heap) (p q : Nat) (n : Node) (hne : q ≠ p) :
    (h.set p n).get q = h.get q := by
  simp [Heap.set, hne]

theorem Heap.get_set (h : Heap) (p q : Nat) (n : Node) :
    (h.set p n).get q = if q = p then n else h.get q := by
  simp [Heap.set]

@[ext] theorem Heap.ext_get (h1 h2 : Heap) (e : ∀ q, h1.get q = h2.get q) : h1 = h2 := by
  cases h1; cases h2; congr; funext q; exact e q

namespace FT

@[simp] theorem rootPtr_leaf : leaf.rootPtr = none := rfl

@[simp] theorem rootPtr_node (l : FT) (i : Info) (r : FT) : (node l i r).rootPtr = some i.id := rfl

@[simp] theorem ids_leaf : leaf.ids = [] := rfl

@[simp] theorem ids_node (l : FT) (i : Info) (r : FT) :
    (node l i r).ids = l.ids ++ i.id :: r.ids := rfl

@[simp] theorem ents_leaf : leaf.ents = [] := rfl

@[simp] theorem ents_node (l : FT) (i : Info) (r : FT) :
    (node l i r).ents = l.ents ++ (i.id, i.key, i.value) :: r.ents := rfl

@[simp] theorem ht_leaf : leaf.ht = -1 := rfl

@[simp] theorem ht_node (l : FT) (i : Info) (r : FT) : (node l i r).ht = max l.ht r.ht + 1 := rfl

@[simp] theorem Acc_leaf : leaf.Acc := trivial

@[simp] theorem Acc_node (l : FT) (i : Info) (r : FT) :
    (node l i r).Acc ↔ l.Acc ∧ r.Acc ∧ i.height = max l.ht r.ht + 1 := Iff.rfl

@[simp] theorem Bal_leaf : leaf.Bal := trivial

@[simp] theorem Bal_node (l : FT) (i : Info) (r : FT) :
    (node l i r).Bal ↔ l.Bal ∧ r.Bal ∧ l.ht ≤ r.ht + 1 ∧ r.ht ≤ l.ht + 1 := Iff.rfl

end FT

@[simp] theorem Rep_leaf (h : Heap) (par : Ptr) : Rep h par FT.leaf := trivial

theorem Rep_node (h : Heap) (par : Ptr) (l : FT) (i : Info) (r : FT) :
    Rep h par (FT.node l i r) ↔
      NodeLinks (h i.id) i par l.rootPtr r.rootPtr ∧ (h i.id).height = i.height ∧
        Rep h (some i.id) l ∧ Rep h (some i.id) r := Iff.rfl

theorem FT.ht_ge (t : FT) : -1 ≤ t.ht := by
  induction t with
  | leaf => simp
  | node l i r ihl ihr => simp only [FT.ht_node]; omega

theorem FT.ht_leaf_iff (t : FT) : t.ht = -1 ↔ t = FT.leaf := by
  cases t with
  | leaf => simp
  | node l i r =>
    have := FT.ht_ge l
    have := FT.ht_ge r
    simp only [FT.ht_node]
    constructor
    · intro h; omega
    · intro h; cases h

section setters
variable (h : Heap) (p q : Nat)

@[simp] theorem setLeft_same (v : Ptr) : (setLeft h p v).get p = { h.get p with left := v } := by
  simp [setLeft]
@[simp] theorem setLeft_other (v : Ptr) (hne : q ≠ p) : (setLeft h p v).get q = h.get q := by
  simp [setLeft, hne]
@[simp] theorem setRight_same (v : Ptr) : (setRight h p v).get p = { h.get p with right := v } := by
  simp [setRight]
@[simp] theorem setRight_other (v : Ptr) (hne : q ≠ p) : (setRight h p v).get q = h.get q := by
  simp [setRight, hne]
@[simp] theorem setParent_same (v : Ptr) :
    (setParent h p v).get p = { h.get p with parent := v } := by
  simp [setParent]
@[simp] theorem setParent_other (v : Ptr) (hne : q ≠ p) : (setParent h p v).get q = h.get q := by
  simp [setParent, hne]
@[simp] theorem setHeight_same (v : Int) :
    (setHeight h p v).get p = { h.get p with height := v } := by
  simp [setHeight]
@[simp] theorem setHeight_other (v : Int) (hne : q ≠ p) : (setHeight h p v).get q = h.get q := by
  simp [setHeight, hne]
@[simp] theorem setRef_same (v : Nat) :
    (setRef h p v).get p = { h.get p with ref_count := v } := by
  simp [setRef]
@[simp] theorem setRef_other (v : Nat) (hne : q ≠ p) : (setRef h p v).get q = h.get q := by
  simp [setRef, hne]

end setters

theorem Rep_congr {h h2 : Heap} {par : Ptr} {t : FT}
    (e : ∀ q ∈ t.ids, h2.get q = h.get q) (r : Rep h par t) : Rep h2 par t := by
  induction t generalizing par with
  | leaf => trivial
  | node l i r ihl ihr =>
    rw [Rep_node] at r ⊢
    have ei : h2.get i.id = h.get i.id := e _ (by simp)
    rw [ei]
    exact ⟨r.1, r.2.1, ihl (fun q hq => e q (by simp [hq])) r.2.2.1,
      ihr (fun q hq => e q (by simp [hq])) r.2.2.2⟩

theorem RepCtx_congr {h h2 : Heap} {par0 : Ptr} {c : Ctx} {hp : Ptr}
    (e : ∀ q ∈ ctxIds c, h2.get q = h.get q) (r : RepCtx h par0 c hp) : RepCtx h2 par0 c hp := by
  induction c generalizing hp with
  | nil => trivial
  | cons f c ih =>
    simp only [RepCtx] at r ⊢
    have ei : h2.get f.i.id = h.get f.i.id := e _ (by simp [ctxIds])
    rw [ei]
    exact ⟨r.1, Rep_congr (fun q hq => e q (by simp [ctxIds, hq])) r.2.1,
      ih (fun q hq => e q (by simp [ctxIds, hq])) r.2.2⟩

theorem Rep_reparent {h : Heap} {par par2 : Ptr} {t : FT} (nd : t.ids.Nodup)
    (r : Rep h par t) : Rep (setParentP h t.rootPtr par2) par2 t := by
  cases t with
  | leaf => trivial
  | node l i r2 =>
    have nl : i.id ∉ l.ids := by
      intro hm
      have := List.disjoint_of_nodup_append nd hm
      simp at this
    have nr : i.id ∉ r2.ids := by
      have := (List.nodup_append.1 nd).2.1
      simp at this
      exact this.1
    rw [Rep_node] at r
    obtain ⟨r1, r2h, r3, r4⟩ := r
    rw [Rep_node]
    simp only [FT.rootPtr_node, setParentP, setParent_same]
    refine ⟨?_, r2h, ?_, ?_⟩
    · simp only [NodeLinks] at r1 ⊢
      simp [r1]
    · exact Rep_congr (fun q hq => setParent_other _ _ _ _ (ne_of_mem_of_not_mem hq nl)) r3
    · exact Rep_congr (fun q hq => setParent_other _ _ _ _ (ne_of_mem_of_not_mem hq nr)) r4

theorem cpc_other (h : Heap) (old : Nat) (new : Ptr) (p q : Nat) (hne : q ≠ p) :
    (change_parent_child h old new (some p)).get q = h.get q := by
  unfold change_parent_child
  simp only
  split_ifs <;> simp [hne]

theorem cpc_none (h : Heap) (old : Nat) (new : Ptr) :
    change_parent_child h old new none = h := rfl

theorem cpc_ctx {h : Heap} {par0 : Ptr} {f : Frame} {c : Ctx} {old : Nat} {new : Ptr}
    (r : RepCtx h par0 (f :: c) (some old)) (nd : (old :: ctxIds (f :: c)).Nodup)
    (hnew : new ≠ some f.i.id) :
    RepCtx (change_parent_child h old new (some f.i.id)) par0 (f :: c) new := by
  simp only [ctxIds, List.nodup_cons, List.mem_cons, List.mem_append, not_or,
    List.nodup_append] at nd
  obtain ⟨⟨n1, n2, n3⟩, ⟨n4, n5⟩, n6, n7, n8⟩ := nd
  simp only [RepCtx] at r ⊢
  obtain ⟨r1, r2, r3⟩ := r
  have e2 : ∀ q ∈ f.sib.ids, (change_parent_child h old new (some f.i.id)).get q = h.get q :=
    fun q hq => cpc_other _ _ _ _ _ (ne_of_mem_of_not_mem hq n4)
  have e3 : ∀ q ∈ ctxIds c, (change_parent_child h old new (some f.i.id)).get q = h.get q :=
    fun q hq => cpc_other _ _ _ _ _ (ne_of_mem_of_not_mem hq n5)
  refine ⟨?_, Rep_congr e2 r2, RepCtx_congr e3 r3⟩
  unfold change_parent_child
  simp only [NodeLinks, Frame.lptr, Frame.rptr] at r1 ⊢
  obtain ⟨k1, k2, k3, k4, k5, k6, k7⟩ := r1
  have hnew2 : ¬ (some f.i.id = new) := fun e => hnew e.symm
  cases hd : f.dir with
  | L =>
    simp only [hd] at k5 k6
    simp [hnew2, k5, k1, k2, k3, k4, k6, k7]
  | R =>
    simp only [hd] at k5 k6
    have : f.sib.rootPtr ≠ some old := by
      cases hs : f.sib with
      | leaf => simp
      | node l i r =>
        simp only [FT.rootPtr_node, ne_eq, Option.some.injEq]
        rintro rfl
        apply n2
        simp [hs]
    simp [hnew2, k5, k1, k2, k3, k4, k6, k7, this]

theorem Rep_rootH {h : Heap} {par : Ptr} {t : FT} (r : Rep h par t) (a : t.Acc) :
    ∀ x, t.rootPtr = some x → (h.get x).height = t.ht := by
  cases t with
  | leaf => simp
  | node l i r2 =>
    intro x hx
    simp only [FT.rootPtr_node, Option.some.injEq] at hx
    subst hx
    rw [Rep_node] at r
    rw [r.2.1]
    exact a.2.2

theorem get_height_eq {h : Heap} {n : Nat} {l r : FT}
    (hl : (h.get n).left = l.rootPtr) (hr : (h.get n).right = r.rootPtr)
    (hlh : ∀ x, l.rootPtr = some x → (h.get x).height = l.ht)
    (hrh : ∀ x, r.rootPtr = some x → (h.get x).height = r.ht) :
    get_height h n = max l.ht r.ht + 1 := by
  unfold get_height
  have gl := FT.ht_ge l
  have gr := FT.ht_ge r
  cases l with
  | leaf =>
    cases r with
    | leaf => simp [hl, hr]
    | node rl ri rr =>
      have := hrh ri.id rfl
      simp only [FT.rootPtr_leaf, FT.rootPtr_node] at hl hr
      simp only [hl, hr, this, FT.ht_leaf]
      omega
  | node ll li lr =>
    cases r with
    | leaf =>
      have := hlh li.id rfl
      simp only [FT.rootPtr_leaf, FT.rootPtr_node] at hl hr
      simp only [hl, hr, this, FT.ht_leaf]
      omega
    | node rl ri rr =>
      have h1 := hlh li.id rfl
      have h2 := hrh ri.id rfl
      simp only [FT.rootPtr_leaf, FT.rootPtr_node] at hl hr
      simp only [hl, hr, h1, h2]
      split_ifs <;> omega

theorem rootPtr_ne_of_not_mem {t : FT} {q : Nat} (hq : q ∉ t.ids) : t.rootPtr ≠ some q := by
  cases t with
  | leaf => simp
  | node l i r =>
    simp only [rootPtr_node, ne_eq, Option.some.injEq]
    rintro rfl
    apply hq
    simp

theorem LL_links_n (h1 : Heap) (n c : Nat) (hnc : n ≠ c) (hb : (h1.get c).right ≠ some n)
    (hb2 : (h1.get c).right ≠ some c) :
    (LL_links h1 n c).get n =
      { h1.get n with parent := some c, left := (h1.get c).right } := by
  unfold LL_links
  cases hbp : (h1.get c).right with
  | none => simp [hnc, hnc.symm, hbp]
  | some b =>
    have b1 : b ≠ n := fun e => hb (by rw [hbp, e])
    have b2 : b ≠ c := fun e => hb2 (by rw [hbp, e])
    simp [hnc, hnc.symm, hbp, b1, b2, b1.symm, b2.symm]

theorem LL_links_c (h1 : Heap) (n c : Nat) (hnc : n ≠ c) (hb : (h1.get c).right ≠ some n)
    (hb2 : (h1.get c).right ≠ some c) :
    (LL_links h1 n c).get c =
      { h1.get c with parent := (h1.get n).parent, right := some n } := by
  unfold LL_links
  cases hbp : (h1.get c).right with
  | none => simp [hnc, hnc.symm, hbp]
  | some b =>
    have b1 : b ≠ n := fun e => hb (by rw [hbp, e])
    have b2 : b ≠ c := fun e => hb2 (by rw [hbp, e])
    simp [hnc, hnc.symm, hbp, b1, b2, b1.symm, b2.symm]

theorem LL_links_b (h1 : Heap) (n c b : Nat) (hnc : n ≠ c) (hbp : (h1.get c).right = some b)
    (b1 : b ≠ n) (b2 : b ≠ c) :
    (LL_links h1 n c).get b = { h1.get b with parent := some n } := by
  unfold LL_links
  simp [hnc, hnc.symm, hbp, b1, b2, b1.symm, b2.symm]

theorem LL_links_other (h1 : Heap) (n c : Nat) (hnc : n ≠ c) (q : Nat) (h1q : q ≠ n)
    (h2q : q ≠ c) (h3q : (h1.get c).right ≠ some q) :
    (LL_links h1 n c).get q = h1.get q := by
  unfold LL_links
  cases hbp : (h1.get c).right with
  | none => simp [hnc, hnc.symm, hbp, h1q, h2q]
  | some b =>
    have : q ≠ b := by
      intro e; apply h3q; simp [e, hbp]
    simp [hnc, hnc.symm, hbp, h1q, h2q, this]

theorem LL_links_rep {h1 : Heap} {par : Ptr} {A B C : FT} {ci ni : Info}
    (r : Rep h1 par (node (node A ci B) ni C)) (nd : (node (node A ci B) ni C).ids.Nodup) :
    Rep (LL_links h1 ni.id ci.id) par (node A ci (node B ni C)) := by
  simp only [Rep_node, rootPtr_node] at r
  obtain ⟨rn, hn, ⟨rc, hc, rA, rB⟩, rC⟩ := r
  simp only [ids_node, List.nodup_append, List.nodup_cons, List.mem_append, List.mem_cons,
    not_or, List.append_assoc, List.cons_append, List.disjoint_cons_right,
    List.disjoint_append_right] at nd
  obtain ⟨ndA, ⟨⟨cB, cn, cC⟩, ndB, ⟨nC, ndC⟩, nB, dBC⟩, cA, dAB, nA, dAC⟩ := nd
  have nc : ni.id ≠ ci.id := fun e => cn e.symm
  obtain ⟨n1, n2, n3, n4, n5, n6, n7⟩ := rn
  obtain ⟨c1, c2, c3, c4, c5, c6, c7⟩ := rc
  have hbn : (h1.get ci.id).right ≠ some ni.id := c6 ▸ rootPtr_ne_of_not_mem nB
  have hbc : (h1.get ci.id).right ≠ some ci.id := c6 ▸ rootPtr_ne_of_not_mem cB
  have oth : ∀ q, q ≠ ni.id → q ≠ ci.id → q ∉ B.ids →
      (LL_links h1 ni.id ci.id).get q = h1.get q :=
    fun q a b c => LL_links_other h1 _ _ nc q a b (c6 ▸ rootPtr_ne_of_not_mem c)
  have eA : ∀ q ∈ A.ids, (LL_links h1 ni.id ci.id).get q = h1.get q := fun q hq =>
    oth q (ne_of_mem_of_not_mem hq nA) (ne_of_mem_of_not_mem hq cA) (fun hb => dAB hq hb)
  have eC : ∀ q ∈ C.ids, (LL_links h1 ni.id ci.id).get q = h1.get q := fun q hq =>
    oth q (ne_of_mem_of_not_mem hq nC) (ne_of_mem_of_not_mem hq cC) (fun hb => dBC hb hq)
  simp only [Rep_node, rootPtr_node]
  refine ⟨?_, ?_, Rep_congr eA rA, ?_, ?_, ?_, Rep_congr eC rC⟩
  · rw [LL_links_c _ _ _ nc hbn hbc]
    simp [NodeLinks, c1, c2, c3, c4, c5, n7]
  · rw [LL_links_c _ _ _ nc hbn hbc]
    simp [hc]
  · rw [LL_links_n _ _ _ nc hbn hbc]
    simp [NodeLinks, n1, n2, n3, n4, n6, c6]
  · rw [LL_links_n _ _ _ nc hbn hbc]
    simp [hn]
  · cases B with
    | leaf => trivial
    | node bl bi br =>
      simp only [Rep_node, rootPtr_node] at rB c6 ⊢
      simp only [ids_node, List.mem_append, List.mem_cons, not_or, List.nodup_append,
        List.nodup_cons, List.disjoint_cons_right] at nB cB ndB
      have b1 : bi.id ≠ ni.id := fun e => nB.2.1 e.symm
      have b2 : bi.id ≠ ci.id := fun e => cB.2.1 e.symm
      rw [LL_links_b _ _ _ _ nc c6 b1 b2]
      obtain ⟨⟨k1, k2, k3, k4, k5, k6, k7⟩, kh, kl, kr⟩ := rB
      refine ⟨by simp [NodeLinks, k1, k2, k3, k4, k5, k6], by simp [kh], ?_, ?_⟩
      · refine Rep_congr (fun q hq => ?_) kl
        apply LL_links_other _ _ _ nc
        · exact ne_of_mem_of_not_mem hq nB.1
        · exact ne_of_mem_of_not_mem hq cB.1
        · rw [c6]; simp only [ne_eq, Option.some.injEq]
          rintro rfl
          exact ndB.2.2.1 hq
      · refine Rep_congr (fun q hq => ?_) kr
        apply LL_links_other _ _ _ nc
        · exact ne_of_mem_of_not_mem hq nB.2.2
        · exact ne_of_mem_of_not_mem hq cB.2.2
        · rw [c6]; simp only [ne_eq, Option.some.injEq]
          rintro rfl
          exact ndB.2.1.1 hq

theorem Rep_fixroot {h : Heap} {par : Ptr} {l r : FT} {i : Info}
    (rp : Rep h par (node l i r)) (nd : (node l i r).ids.Nodup) (al : l.Acc) (ar : r.Acc) :
    Rep (setHeight h i.id (get_height h i.id)) par
      (node l { i with height := max l.ht r.ht + 1 } r) := by
  simp only [Rep_node] at rp
  obtain ⟨⟨k1, k2, k3, k4, k5, k6, k7⟩, kh, kl, kr⟩ := rp
  simp only [ids_node, List.nodup_append, List.nodup_cons, List.mem_append, List.mem_cons,
    not_or, List.disjoint_cons_right] at nd
  obtain ⟨ndl, ⟨il, ndr⟩, il2, dlr⟩ := nd
  have hh : get_height h i.id = max l.ht r.ht + 1 :=
    get_height_eq k5 k6 (Rep_rootH kl al) (Rep_rootH kr ar)
  simp only [Rep_node]
  refine ⟨by simp [NodeLinks, k1, k2, k3, k4, k5, k6, k7], by simp [hh], ?_, ?_⟩
  · exact Rep_congr (fun q hq => setHeight_other _ _ _ _ (ne_of_mem_of_not_mem hq il2)) kl
  · exact Rep_congr (fun q hq => setHeight_other _ _ _ _ (ne_of_mem_of_not_mem hq il)) kr

theorem fix_heights_rep {h : Heap} {par : Ptr} {A B C : FT} {ci ni : Info}
    (rp : Rep h par (node A ci (node B ni C))) (nd : (node A ci (node B ni C)).ids.Nodup)
    (aA : A.Acc) (aB : B.Acc) (aC : C.Acc) :
    Rep (fix_heights h ni.id ci.id) par
      (node A { ci with height := max A.ht (max B.ht C.ht + 1) + 1 }
        (node B { ni with height := max B.ht C.ht + 1 } C)) := by
  unfold fix_heights
  have nd0 := nd
  simp only [ids_node, List.nodup_append, List.nodup_cons, List.mem_append, List.mem_cons,
    not_or, List.disjoint_cons_right, List.disjoint_append_right] at nd
  obtain ⟨ndA, ⟨⟨cB, cn, cC⟩, ndN⟩, cA, dAB, nA, dAC⟩ := nd
  have ndN2 : (node B ni C).ids.Nodup := by
    simpa [List.nodup_append, List.disjoint_cons_right] using ndN
  have step1 : Rep (setHeight h ni.id (get_height h ni.id)) par
      (node A ci (node B { ni with height := max B.ht C.ht + 1 } C)) := by
    rw [Rep_node] at rp ⊢
    obtain ⟨r1, r2, r3, r4⟩ := rp
    have nc : ci.id ≠ ni.id := cn
    refine ⟨by simpa [nc] using r1, by simpa [nc] using r2, ?_, Rep_fixroot r4 ndN2 aB aC⟩
    exact Rep_congr (fun q hq => setHeight_other _ _ _ _ (ne_of_mem_of_not_mem hq nA)) r3
  have := Rep_fixroot step1 (by simpa using nd0) aA (by simp [aB, aC])
  simpa using this

theorem fix_heights_other (h : Heap) (n c q : Nat) (h1 : q ≠ n) (h2 : q ≠ c) :
    (fix_heights h n c).get q = h.get q := by
  simp [fix_heights, h1, h2]

theorem cpc_zip {h : Heap} {c : Ctx} {old : Nat} {new : Ptr}
    (r : RepCtx h none c (some old)) (nd : (old :: ctxIds c).Nodup)
    (hnew : ∀ x ∈ ctxIds c, new ≠ some x) :
    RepCtx (change_parent_child h old new (ctxPar none c)) none c new ∧
      ∀ q, q ∉ ctxIds c → (change_parent_child h old new (ctxPar none c)).get q = h.get q := by
  cases c with
  | nil => exact ⟨trivial, fun q _ => rfl⟩
  | cons f c =>
    refine ⟨cpc_ctx r nd (hnew _ (by simp [ctxIds])), fun q hq => ?_⟩
    apply cpc_other
    intro e
    apply hq
    simp [ctxIds, e]

theorem ctxTop_cons_irrel (c : Ctx) (f : Frame) (p q : Ptr) :
    ctxTop (f :: c) p = ctxTop (f :: c) q := rfl

theorem ctxTop_of_par {c : Ctx} {p q : Ptr} (h : ctxPar none c ≠ none) :
    ctxTop c p = ctxTop c q := by
  cases c with
  | nil => simp [ctxPar] at h
  | cons f c => rfl

theorem LL_ok {t : AVLTree} {c : Ctx} {A B C : FT} {ci ni : Info}
    (hz : ZRep t c (node (node A ci B) ni C)) (aA : A.Acc) (aB : B.Acc) (aC : C.Acc) :
    ∃ t2, left_leftRotate t ni.id = some t2 ∧
      ZRep t2 c (node A { ci with height := max A.ht (max B.ht C.ht + 1) + 1 }
        (node B { ni with height := max B.ht C.ht + 1 } C)) ∧
      Keeps t t2 ((node (node A ci B) ni C).ids ++ ctxIds c) := by
  obtain ⟨hroot, hctx, hfoc, hnd⟩ := hz
  have hfoc0 := hfoc
  simp only [Rep_node, rootPtr_node] at hfoc
  obtain ⟨rn, hn, ⟨rc, hc, rA, rB⟩, rC⟩ := hfoc
  have hleft : (t.heap.get ni.id).left = some ci.id := rn.2.2.2.2.1
  have hpar : (t.heap.get ni.id).parent = ctxPar none c := rn.2.2.2.2.2.2
  have ndf : (node (node A ci B) ni C).ids.Nodup := (List.nodup_append.1 hnd).1
  have ndc : (ctxIds c).Nodup := (List.nodup_append.1 hnd).2.1
  have dis : ∀ q, q ∈ (node (node A ci B) ni C).ids → q ∉ ctxIds c :=
    fun q hq hq2 => (List.nodup_append.1 hnd).2.2 hq hq2
  have nin : ni.id ∈ (node (node A ci B) ni C).ids := by simp
  have cin : ci.id ∈ (node (node A ci B) ni C).ids := by simp
  have ncne : ni.id ≠ ci.id := by
    simp only [ids_node, List.nodup_append, List.nodup_cons, List.mem_append, List.mem_cons,
      not_or, List.append_assoc, List.cons_append] at ndf
    exact fun e => ndf.2.1.1.2.1 e.symm
  obtain ⟨z1, z2⟩ := cpc_zip hctx
    (List.nodup_cons.2 ⟨dis _ nin, ndc⟩)
    (fun x hx e => dis _ cin (by simp only [Option.some.injEq] at e; exact e ▸ hx) :
      ∀ x ∈ ctxIds c, some ci.id ≠ some x)
  -- the heap after the redirect of the parent
  let h1 := if (t.heap.get ni.id).parent ≠ none then
      change_parent_child t.heap ni.id (some ci.id) (t.heap.get ni.id).parent else t.heap
  have h1eq : h1 = change_parent_child t.heap ni.id (some ci.id) (ctxPar none c) := by
    simp only [h1, hpar]
    split_ifs with hp
    · rfl
    · simp only [ne_eq, not_not] at hp
      rw [hp]; rfl
  let h8 := fix_heights (LL_links h1 ni.id ci.id) ni.id ci.id
  have hrot : left_leftRotate t ni.id = some (AVLTree.mk h8
      (if (h8.get ci.id).parent = none then some ci.id else t.root) t.set_size t.next) := by
    simp only [left_leftRotate, hleft]
    rfl
  have rep1 : Rep h1 (ctxPar none c) (node (node A ci B) ni C) := by
    rw [h1eq]
    exact Rep_congr (fun q hq => z2 q (dis q hq)) hfoc0
  have rep8 := fix_heights_rep (LL_links_rep rep1 ndf) (by simpa [List.append_assoc] using ndf)
    aA aB aC
  have hB1 : (h1.get ci.id).right = B.rootPtr := by
    rw [h1eq, z2 _ (dis _ cin)]; exact rc.2.2.2.2.2.1
  have out8 : ∀ q, q ∉ (node (node A ci B) ni C).ids → h8.get q = h1.get q := by
    intro q hq
    simp only [ids_node, List.mem_append, List.mem_cons, not_or] at hq
    simp only [h8]
    rw [fix_heights_other _ _ _ _ hq.2.1 hq.1.2.1]
    exact LL_links_other _ _ _ ncne _ hq.2.1 hq.1.2.1
      (hB1 ▸ rootPtr_ne_of_not_mem hq.1.2.2)
  refine ⟨_, hrot, ⟨?_, ?_, rep8, ?_⟩, ⟨rfl, rfl, ?_⟩⟩
  · have hp8 : (h8.get ci.id).parent = ctxPar none c := by
      rw [Rep_node] at rep8
      exact rep8.1.2.2.2.2.2.2
    simp only [hp8, rootPtr_node]
    split_ifs with hp
    · cases c with
      | nil => rfl
      | cons f c => simp [ctxPar] at hp
    · rw [hroot]
      exact ctxTop_of_par hp
  · refine RepCtx_congr (fun q hq => ?_) (h1eq ▸ z1)
    exact out8 q (fun hq2 => dis q hq2 hq)
  · simpa [List.append_assoc] using hnd
  · intro q hq
    simp only [List.mem_append, not_or] at hq
    show h8.get q = t.heap.get q
    rw [out8 q hq.1, h1eq, z2 q hq.2]

theorem RR_links_n (h1 : Heap) (n c : Nat) (hnc : n ≠ c) (hb : (h1.get c).left ≠ some n)
    (hb2 : (h1.get c).left ≠ some c) :
    (RR_links h1 n c).get n =
      { h1.get n with parent := some c, right := (h1.get c).left } := by
  unfold RR_links
  cases hbp : (h1.get c).left with
  | none => simp [hnc, hnc.symm, hbp]
  | some b =>
    have b1 : b ≠ n := fun e => hb (by rw [hbp, e])
    have b2 : b ≠ c := fun e => hb2 (by rw [hbp, e])
    simp [hnc, hnc.symm, hbp, b1, b2, b1.symm, b2.symm]

theorem RR_links_c (h1 : Heap) (n c : Nat) (hnc : n ≠ c) (hb : (h1.get c).left ≠ some n)
    (hb2 : (h1.get c).left ≠ some c) :
    (RR_links h1 n c).get c =
      { h1.get c with parent := (h1.get n).parent, left := some n } := by
  unfold RR_links
  cases hbp : (h1.get c).left with
  | none => simp [hnc, hnc.symm, hbp]
  | some b =>
    have b1 : b ≠ n := fun e => hb (by rw [hbp, e])
    have b2 : b ≠ c := fun e => hb2 (by rw [hbp, e])
    simp [hnc, hnc.symm, hbp, b1, b2, b1.symm, b2.symm]

theorem RR_links_b (h1 : Heap) (n c b : Nat) (hnc : n ≠ c) (hbp : (h1.get c).left = some b)
    (b1 : b ≠ n) (b2 : b ≠ c) :
    (RR_links h1 n c).get b = { h1.get b with parent := some n } := by
  unfold RR_links
  simp [hnc, hnc.symm, hbp, b1, b2, b1.symm, b2.symm]

theorem RR_links_other (h1 : Heap) (n c : Nat) (hnc : n ≠ c) (q : Nat) (h1q : q ≠ n)
    (h2q : q ≠ c) (h3q : (h1.get c).left ≠ some q) :
    (RR_links h1 n c).get q = h1.get q := by
  unfold RR_links
  cases hbp : (h1.get c).left with
  | none => simp [hnc, hnc.symm, hbp, h1q, h2q]
  | some b =>
    have : q ≠ b := by
      intro e; apply h3q; simp [e, hbp]
    simp [hnc, hnc.symm, hbp, h1q, h2q, this]

theorem RR_links_rep {h1 : Heap} {par : Ptr} {A B C : FT} {ci ni : Info}
    (r : Rep h1 par (node A ni (node B ci C))) (nd : (node A ni (node B ci C)).ids.Nodup) :
    Rep (RR_links h1 ni.id ci.id) par (node (node A ni B) ci C) := by
  simp only [Rep_node, rootPtr_node] at r
  obtain ⟨rn, hn, rA, rc, hc, rB, rC⟩ := r
  simp only [ids_node, List.nodup_append, List.nodup_cons, List.mem_append, List.mem_cons,
    not_or, List.append_assoc, List.cons_append, List.disjoint_cons_right,
    List.disjoint_append_right] at nd
  obtain ⟨ndA, ⟨⟨nB, nc, nC⟩, ndB, ⟨cC, ndC⟩, cB, dBC⟩, nA, dAB, cA, dAC⟩ := nd
  obtain ⟨n1, n2, n3, n4, n5, n6, n7⟩ := rn
  obtain ⟨c1, c2, c3, c4, c5, c6, c7⟩ := rc
  have hbn : (h1.get ci.id).left ≠ some ni.id := c5 ▸ rootPtr_ne_of_not_mem nB
  have hbc : (h1.get ci.id).left ≠ some ci.id := c5 ▸ rootPtr_ne_of_not_mem cB
  have oth : ∀ q, q ≠ ni.id → q ≠ ci.id → q ∉ B.ids →
      (RR_links h1 ni.id ci.id).get q = h1.get q :=
    fun q a b c => RR_links_other h1 _ _ nc q a b (c5 ▸ rootPtr_ne_of_not_mem c)
  have eA : ∀ q ∈ A.ids, (RR_links h1 ni.id ci.id).get q = h1.get q := fun q hq =>
    oth q (ne_of_mem_of_not_mem hq nA) (ne_of_mem_of_not_mem hq cA) (fun hb => dAB hq hb)
  have eC : ∀ q ∈ C.ids, (RR_links h1 ni.id ci.id).get q = h1.get q := fun q hq =>
    oth q (ne_of_mem_of_not_mem hq nC) (ne_of_mem_of_not_mem hq cC) (fun hb => dBC hb hq)
  simp only [Rep_node, rootPtr_node]
  refine ⟨?_, ?_, ⟨?_, ?_, Rep_congr eA rA, ?_⟩, Rep_congr eC rC⟩
  · rw [RR_links_c _ _ _ nc hbn hbc]
    simp [NodeLinks, c1, c2, c3, c4, c6, n7]
  · rw [RR_links_c _ _ _ nc hbn hbc]
    simp [hc]
  · rw [RR_links_n _ _ _ nc hbn hbc]
    simp [NodeLinks, n1, n2, n3, n4, n5, c5]
  · rw [RR_links_n _ _ _ nc hbn hbc]
    simp [hn]
  · cases B with
    | leaf => trivial
    | node bl bi br =>
      simp only [Rep_node, rootPtr_node] at rB c5 ⊢
      simp only [ids_node, List.mem_append, List.mem_cons, not_or, List.nodup_append,
        List.nodup_cons, List.disjoint_cons_right] at nB cB ndB
      have b1 : bi.id ≠ ni.id := fun e => nB.2.1 e.symm
      have b2 : bi.id ≠ ci.id := fun e => cB.2.1 e.symm
      rw [RR_links_b _ _ _ _ nc c5 b1 b2]
      obtain ⟨⟨k1, k2, k3, k4, k5, k6, k7⟩, kh, kl, kr⟩ := rB
      refine ⟨by simp [NodeLinks, k1, k2, k3, k4, k5, k6], by simp [kh], ?_, ?_⟩
      · refine Rep_congr (fun q hq => ?_) kl
        apply RR_links_other _ _ _ nc
        · exact ne_of_mem_of_not_mem hq nB.1
        · exact ne_of_mem_of_not_mem hq cB.1
        · rw [c5]; simp only [ne_eq, Option.some.injEq]
          rintro rfl
          exact ndB.2.2.1 hq
      · refine Rep_congr (fun q hq => ?_) kr
        apply RR_links_other _ _ _ nc
        · exact ne_of_mem_of_not_mem hq nB.2.2
        · exact ne_of_mem_of_not_mem hq cB.2.2
        · rw [c5]; simp only [ne_eq, Option.some.injEq]
          rintro rfl
          exact ndB.2.1.1 hq

theorem fix_heights_rep_R {h : Heap} {par : Ptr} {A B C : FT} {ci ni : Info}
    (rp : Rep h par (node (node A ni B) ci C)) (nd : (node (node A ni B) ci C).ids.Nodup)
    (aA : A.Acc) (aB : B.Acc) (aC : C.Acc) :
    Rep (fix_heights h ni.id ci.id) par
      (node (node A { ni with height := max A.ht B.ht + 1 } B)
        { ci with height := max (max A.ht B.ht + 1) C.ht + 1 } C) := by
  unfold fix_heights
  have nd0 := nd
  simp only [ids_node, List.nodup_append, List.nodup_cons, List.mem_append, List.mem_cons,
    not_or, List.disjoint_cons_right, List.disjoint_append_right, List.append_assoc,
    List.cons_append] at nd
  obtain ⟨ndA, ⟨⟨nB, nc, nC⟩, ndB, ⟨cC, ndC⟩, cB, dBC⟩, nA, dAB, cA, dAC⟩ := nd
  have ndN2 : (node A ni B).ids.Nodup := by
    simp [List.nodup_append, List.disjoint_cons_right, ndA, ndB, nB, nA, dAB]
  have step1 : Rep (setHeight h ni.id (get_height h ni.id)) par
      (node (node A { ni with height := max A.ht B.ht + 1 } B) ci C) := by
    rw [Rep_node] at rp ⊢
    obtain ⟨r1, r2, r3, r4⟩ := rp
    have nc2 : ci.id ≠ ni.id := fun e => nc e.symm
    refine ⟨by simpa [nc2] using r1, by simpa [nc2] using r2, Rep_fixroot r3 ndN2 aA aB, ?_⟩
    exact Rep_congr (fun q hq => setHeight_other _ _ _ _ (ne_of_mem_of_not_mem hq nC)) r4
  have := Rep_fixroot step1 (by simpa using nd0) (by simp [aA, aB]) aC
  simpa using this

theorem RR_ok {t : AVLTree} {c : Ctx} {A B C : FT} {ci ni : Info}
    (hz : ZRep t c (node A ni (node B ci C))) (aA : A.Acc) (aB : B.Acc) (aC : C.Acc) :
    ∃ t2, right_rightRotate t ni.id = some t2 ∧
      ZRep t2 c (node (node A { ni with height := max A.ht B.ht + 1 } B)
        { ci with height := max (max A.ht B.ht + 1) C.ht + 1 } C) ∧
      Keeps t t2 ((node A ni (node B ci C)).ids ++ ctxIds c) := by
  obtain ⟨hroot, hctx, hfoc, hnd⟩ := hz
  have hfoc0 := hfoc
  simp only [Rep_node, rootPtr_node] at hfoc
  obtain ⟨rn, hn, rA, rc, hc, rB, rC⟩ := hfoc
  have hright : (t.heap.get ni.id).right = some ci.id := rn.2.2.2.2.2.1
  have hpar : (t.heap.get ni.id).parent = ctxPar none c := rn.2.2.2.2.2.2
  have ndf : (node A ni (node B ci C)).ids.Nodup := (List.nodup_append.1 hnd).1
  have ndc : (ctxIds c).Nodup := (List.nodup_append.1 hnd).2.1
  have dis : ∀ q, q ∈ (node A ni (node B ci C)).ids → q ∉ ctxIds c :=
    fun q hq hq2 => (List.nodup_append.1 hnd).2.2 hq hq2
  have nin : ni.id ∈ (node A ni (node B ci C)).ids := by simp
  have cin : ci.id ∈ (node A ni (node B ci C)).ids := by simp
  have ncne : ni.id ≠ ci.id := by
    simp only [ids_node, List.nodup_append, List.nodup_cons, List.mem_append, List.mem_cons,
      not_or, List.append_assoc, List.cons_append] at ndf
    exact ndf.2.1.1.2.1
  obtain ⟨z1, z2⟩ := cpc_zip hctx
    (List.nodup_cons.2 ⟨dis _ nin, ndc⟩)
    (fun x hx e => dis _ cin (by simp only [Option.some.injEq] at e; exact e ▸ hx) :
      ∀ x ∈ ctxIds c, some ci.id ≠ some x)
  let h1 := if (t.heap.get ni.id).parent ≠ none then
      change_parent_child t.heap ni.id (some ci.id) (t.heap.get ni.id).parent else t.heap
  have h1eq : h1 = change_parent_child t.heap ni.id (some ci.id) (ctxPar none c) := by
    simp only [h1, hpar]
    split_ifs with hp
    · rfl
    · simp only [ne_eq, not_not] at hp
      rw [hp]; rfl
  let h8 := fix_heights (RR_links h1 ni.id ci.id) ni.id ci.id
  have hrot : right_rightRotate t ni.id = some (AVLTree.mk h8
      (if (h8.get ci.id).parent = none then some ci.id else t.root) t.set_size t.next) := by
    simp only [right_rightRotate, hright]
    rfl
  have rep1 : Rep h1 (ctxPar none c) (node A ni (node B ci C)) := by
    rw [h1eq]
    exact Rep_congr (fun q hq => z2 q (dis q hq)) hfoc0
  have rep8 := fix_heights_rep_R (RR_links_rep rep1 ndf) (by simpa [List.append_assoc] using ndf)
    aA aB aC
  have hB1 : (h1.get ci.id).left = B.rootPtr := by
    rw [h1eq, z2 _ (dis _ cin)]; exact rc.2.2.2.2.1
  have out8 : ∀ q, q ∉ (node A ni (node B ci C)).ids → h8.get q = h1.get q := by
    intro q hq
    simp only [ids_node, List.mem_append, List.mem_cons, not_or] at hq
    simp only [h8]
    rw [fix_heights_other _ _ _ _ hq.2.1 hq.2.2.2.1]
    exact RR_links_other _ _ _ ncne _ hq.2.1 hq.2.2.2.1
      (hB1 ▸ rootPtr_ne_of_not_mem hq.2.2.1)
  refine ⟨_, hrot, ⟨?_, ?_, rep8, ?_⟩, ⟨rfl, rfl, ?_⟩⟩
  · have hp8 : (h8.get ci.id).parent = ctxPar none c := by
      rw [Rep_node] at rep8
      exact rep8.1.2.2.2.2.2.2
    simp only [hp8, rootPtr_node]
    split_ifs with hp
    · cases c with
      | nil => rfl
      | cons f c => simp [ctxPar] at hp
    · rw [hroot]
      exact ctxTop_of_par hp
  · refine RepCtx_congr (fun q hq => ?_) (h1eq ▸ z1)
    exact out8 q (fun hq2 => dis q hq2 hq)
  · simpa [List.append_assoc] using hnd
  · intro q hq
    simp only [List.mem_append, not_or] at hq
    show h8.get q = t.heap.get q
    rw [out8 q hq.1, h1eq, z2 q hq.2]

theorem Keeps.kRefl (t : AVLTree) (S : List Nat) : Keeps t t S := ⟨rfl, rfl, fun _ _ => rfl⟩

theorem Keeps.kTrans {t t2 t3 : AVLTree} {S : List Nat} (a : Keeps t t2 S) (b : Keeps t2 t3 S) :
    Keeps t t3 S :=
  ⟨b.next.trans a.next, b.size.trans a.size, fun q hq => (b.out q hq).trans (a.out q hq)⟩

theorem Keeps.mono {t t2 : AVLTree} {S S2 : List Nat} (a : Keeps t t2 S)
    (sub : ∀ q, q ∈ S → q ∈ S2) : Keeps t t2 S2 :=
  ⟨a.next, a.size, fun q hq => a.out q (fun h => hq (sub q h))⟩

theorem ZRep.down_left {t : AVLTree} {c : Ctx} {l r : FT} {i : Info}
    (hz : ZRep t c (node l i r)) : ZRep t (⟨Dir.L, i, r⟩ :: c) l := by
  obtain ⟨hroot, hctx, hfoc, hnd⟩ := hz
  rw [Rep_node] at hfoc
  refine ⟨hroot, ⟨?_, hfoc.2.2.2, hctx⟩, hfoc.2.2.1, ?_⟩
  · simpa [Frame.lptr, Frame.rptr] using hfoc.1
  · refine hnd.perm ?_
    simp only [ids_node, ctxIds, List.append_assoc, List.cons_append]
    exact List.Perm.refl _

theorem ZRep.down_right {t : AVLTree} {c : Ctx} {l r : FT} {i : Info}
    (hz : ZRep t c (node l i r)) : ZRep t (⟨Dir.R, i, l⟩ :: c) r := by
  obtain ⟨hroot, hctx, hfoc, hnd⟩ := hz
  rw [Rep_node] at hfoc
  refine ⟨hroot, ⟨?_, hfoc.2.2.1, hctx⟩, hfoc.2.2.2, ?_⟩
  · simpa [Frame.lptr, Frame.rptr] using hfoc.1
  · refine hnd.perm ?_
    simp only [ids_node, ctxIds, List.append_assoc, List.cons_append]
    rw [List.perm_iff_count]; intro x
    simp only [List.count_append, List.count_cons, List.count_nil]; omega

theorem ZRep.up {t : AVLTree} {c : Ctx} {fr : Frame} {g : FT}
    (hz : ZRep t (fr :: c) g) : ZRep t c (fr.fillH t.heap g) := by
  obtain ⟨hroot, hctx, hfoc, hnd⟩ := hz
  simp only [RepCtx] at hctx
  obtain ⟨k, ks, kc⟩ := hctx
  cases hd : fr.dir with
  | L =>
    simp only [Frame.fillH, hd]
    simp only [Frame.lptr, Frame.rptr, hd] at k
    refine ⟨hroot, kc, ?_, ?_⟩
    · rw [Rep_node]
      exact ⟨k, rfl, hfoc, ks⟩
    · refine hnd.perm ?_
      simp only [ids_node, ctxIds, List.append_assoc, List.cons_append]
      exact List.Perm.refl _
  | R =>
    simp only [Frame.fillH, hd]
    simp only [Frame.lptr, Frame.rptr, hd] at k
    refine ⟨hroot, kc, ?_, ?_⟩
    · rw [Rep_node]
      exact ⟨k, rfl, ks, hfoc⟩
    · refine hnd.perm ?_
      simp only [ids_node, ctxIds, List.append_assoc, List.cons_append]
      rw [List.perm_iff_count]; intro x
      simp only [List.count_append, List.count_cons, List.count_nil]; omega

theorem LR_ok {t : AVLTree} {c : Ctx} {A B C D : FT} {li gi ni : Info}
    (hz : ZRep t c (node (node A li (node B gi C)) ni D))
    (aA : A.Acc) (aB : B.Acc) (aC : C.Acc) (aD : D.Acc) :
    ∃ t2, left_rightRotate t ni.id = some t2 ∧
      ZRep t2 c (rotLR (node (node A li (node B gi C)) ni D)) ∧
      Keeps t t2 ((node (node A li (node B gi C)) ni D).ids ++ ctxIds c) := by
  have hleft : (t.heap.get ni.id).left = some li.id := by
    have := hz.foc
    rw [Rep_node] at this
    exact this.1.2.2.2.2.1
  obtain ⟨t1, e1, z1, k1⟩ := RR_ok hz.down_left aA aB aC
  have z1u := z1.up
  simp only [Frame.fillH] at z1u
  obtain ⟨t2, e2, z2, k2⟩ := LL_ok z1u (by simp [aA, aB]) aC aD
  refine ⟨t2, ?_, ?_, ?_⟩
  · simp only [left_rightRotate, hleft, e1]
    exact e2
  · simpa [rotLR] using z2
  · refine (k1.mono ?_).kTrans (k2.mono ?_)
    · intro q hq
      simp only [ids_node, ctxIds, List.mem_append, List.mem_cons] at hq ⊢
      tauto
    · intro q hq
      simp only [ids_node, ctxIds, List.mem_append, List.mem_cons] at hq ⊢
      tauto

theorem RL_ok {t : AVLTree} {c : Ctx} {A B C D : FT} {ri gi ni : Info}
    (hz : ZRep t c (node A ni (node (node B gi C) ri D)))
    (aA : A.Acc) (aB : B.Acc) (aC : C.Acc) (aD : D.Acc) :
    ∃ t2, right_leftRotate t ni.id = some t2 ∧
      ZRep t2 c (rotRL (node A ni (node (node B gi C) ri D))) ∧
      Keeps t t2 ((node A ni (node (node B gi C) ri D)).ids ++ ctxIds c) := by
  have hright : (t.heap.get ni.id).right = some ri.id := by
    have := hz.foc
    rw [Rep_node] at this
    exact this.1.2.2.2.2.2.1
  obtain ⟨t1, e1, z1, k1⟩ := LL_ok hz.down_right aB aC aD
  have z1u := z1.up
  simp only [Frame.fillH] at z1u
  obtain ⟨t2, e2, z2, k2⟩ := RR_ok z1u aA aB (by simp [aC, aD])
  refine ⟨t2, ?_, ?_, ?_⟩
  · simp only [right_leftRotate, hright, e1]
    exact e2
  · simpa [rotRL] using z2
  · refine (k1.mono ?_).kTrans (k2.mono ?_)
    · intro q hq
      simp only [ids_node, ctxIds, List.mem_append, List.mem_cons] at hq ⊢
      tauto
    · intro q hq
      simp only [ids_node, ctxIds, List.mem_append, List.mem_cons] at hq ⊢
      tauto

@[simp] theorem FT.bf_leaf : FT.leaf.bf = 0 := rfl

@[simp] theorem FT.bf_node (l : FT) (i : Info) (r : FT) : (node l i r).bf = l.ht - r.ht := rfl

theorem get_bf_eq {h : Heap} {par : Ptr} {t : FT} (rp : Rep h par t) (a : t.Acc) :
    get_bf h t.rootPtr = t.bf := by
  cases t with
  | leaf => rfl
  | node l i r =>
    rw [Rep_node] at rp
    obtain ⟨⟨k1, k2, k3, k4, k5, k6, k7⟩, kh, kl, kr⟩ := rp
    have hl := Rep_rootH kl a.1
    have hr := Rep_rootH kr a.2.1
    have gl := FT.ht_ge l
    have gr := FT.ht_ge r
    have ah := a.2.2
    simp only [rootPtr_node, get_bf, bf_node, k5, k6]
    cases l with
    | leaf =>
      cases r with
      | leaf => simp
      | node rl ri rr =>
        simp only [rootPtr_leaf, rootPtr_node, kh, ah, ht_leaf]
        omega
    | node ll li lr =>
      cases r with
      | leaf =>
        simp only [rootPtr_leaf, rootPtr_node, kh, ah, ht_leaf]
        omega
      | node rl ri rr =>
        simp only [rootPtr_node, hl li.id rfl, hr ri.id rfl]

theorem ZRep_fixroot {t : AVLTree} {c : Ctx} {l r : FT} {i : Info}
    (hz : ZRep t c (node l i r)) (al : l.Acc) (ar : r.Acc) :
    ZRep { t with heap := setHeight t.heap i.id (get_height t.heap i.id) } c
        (node l { i with height := max l.ht r.ht + 1 } r) ∧
      Keeps t { t with heap := setHeight t.heap i.id (get_height t.heap i.id) }
        ((node l i r).ids ++ ctxIds c) := by
  obtain ⟨hroot, hctx, hfoc, hnd⟩ := hz
  have ndf : (node l i r).ids.Nodup := (List.nodup_append.1 hnd).1
  have dis : i.id ∉ ctxIds c :=
    fun hq2 => (List.nodup_append.1 hnd).2.2 (by simp) hq2
  refine ⟨⟨hroot, ?_, Rep_fixroot hfoc ndf al ar, hnd⟩, rfl, rfl, ?_⟩
  · exact RepCtx_congr (fun q hq => setHeight_other _ _ _ _ (ne_of_mem_of_not_mem hq dis)) hctx
  · intro q hq
    simp only [ids_node, List.mem_append, List.mem_cons, not_or] at hq
    exact setHeight_other _ _ _ _ hq.1.2.1

theorem ins_step_ok {t : AVLTree} {c : Ctx} {l r : FT} {i : Info}
    (hz : ZRep t c (node l i r)) (al : l.Acc) (ar : r.Acc) :
    ∃ t2, balance_insert_step t i.id = some t2 ∧ ZRep t2 c (rebal_ins (node l i r)) ∧
      Keeps t t2 ((node l i r).ids ++ ctxIds c) := by
  obtain ⟨z1, k1⟩ := ZRep_fixroot hz al ar
  have rp := z1.foc
  have a1 : (node l { i with height := max l.ht r.ht + 1 } r).Acc := by simp [al, ar]
  have e0 := get_bf_eq rp a1
  rw [Rep_node] at rp
  have el := get_bf_eq rp.2.2.1 al
  have er := get_bf_eq rp.2.2.2 ar
  rw [← rp.1.2.2.2.2.1] at el
  rw [← rp.1.2.2.2.2.2.1] at er
  simp only [rootPtr_node, bf_node] at e0
  have gl := FT.ht_ge l
  have gr := FT.ht_ge r
  simp only [balance_insert_step, rebal_ins]
  simp only [] at e0 el er
  rw [e0, el, er]
  split_ifs with c1 c2 c3 c4
  · cases l with
    | leaf => simp only [ht_leaf] at c1; omega
    | node A ci B =>
      obtain ⟨t2, e2, z2, k2⟩ := LL_ok z1 al.1 al.2.1 ar
      exact ⟨t2, e2, by simpa [rotLL] using z2, k1.kTrans (by simpa using k2)⟩
  · cases r with
    | leaf => simp only [ht_leaf] at c2; omega
    | node B ci C =>
      obtain ⟨t2, e2, z2, k2⟩ := RR_ok z1 al ar.1 ar.2.1
      exact ⟨t2, e2, by simpa [rotRR] using z2, k1.kTrans (by simpa using k2)⟩
  · cases r with
    | leaf => simp only [ht_leaf] at c3; omega
    | node rl ri D =>
      cases rl with
      | leaf =>
        have := FT.ht_ge D
        simp only [bf_node, ht_leaf] at c3; omega
      | node B gi C =>
        obtain ⟨t2, e2, z2, k2⟩ := RL_ok z1 al ar.1.1 ar.1.2.1 ar.2.1
        exact ⟨t2, e2, z2, k1.kTrans (by simpa using k2)⟩
  · cases l with
    | leaf => simp only [ht_leaf] at c4; omega
    | node A li lr =>
      cases lr with
      | leaf =>
        have := FT.ht_ge A
        simp only [bf_node, ht_leaf] at c4; omega
      | node B gi C =>
        obtain ⟨t2, e2, z2, k2⟩ := LR_ok z1 al.1 al.2.1.1 al.2.1.2.1 ar
        exact ⟨t2, e2, z2, k1.kTrans (by simpa using k2)⟩
  · exact ⟨_, rfl, z1, k1⟩

theorem del_step_ok {t : AVLTree} {c : Ctx} {l r : FT} {i : Info}
    (hz : ZRep t c (node l i r)) (al : l.Acc) (ar : r.Acc) :
    ∃ t2, balance_delete t i.id = some t2 ∧ ZRep t2 c (rebal_del (node l i r)) ∧
      Keeps t t2 ((node l i r).ids ++ ctxIds c) := by
  obtain ⟨z1, k1⟩ := ZRep_fixroot hz al ar
  have rp := z1.foc
  have a1 : (node l { i with height := max l.ht r.ht + 1 } r).Acc := by simp [al, ar]
  have e0 := get_bf_eq rp a1
  rw [Rep_node] at rp
  have el := get_bf_eq rp.2.2.1 al
  have er := get_bf_eq rp.2.2.2 ar
  rw [← rp.1.2.2.2.2.1] at el
  rw [← rp.1.2.2.2.2.2.1] at er
  simp only [rootPtr_node, bf_node] at e0
  have gl := FT.ht_ge l
  have gr := FT.ht_ge r
  simp only [balance_delete, rebal_del]
  simp only [] at e0 el er
  rw [e0, el, er]
  split_ifs with c1 c2 c3 c4 c5 c6
  · cases l with
    | leaf => simp only [ht_leaf] at c1; omega
    | node A ci B =>
      obtain ⟨t2, e2, z2, k2⟩ := LL_ok z1 al.1 al.2.1 ar
      exact ⟨t2, e2, by simpa [rotLL] using z2, k1.kTrans (by simpa using k2)⟩
  · cases l with
    | leaf => simp only [ht_leaf] at c2; omega
    | node A li lr =>
      cases lr with
      | leaf =>
        have := FT.ht_ge A
        simp only [bf_node, ht_leaf] at c2; omega
      | node B gi C =>
        obtain ⟨t2, e2, z2, k2⟩ := LR_ok z1 al.1 al.2.1.1 al.2.1.2.1 ar
        exact ⟨t2, e2, z2, k1.kTrans (by simpa using k2)⟩
  · cases l with
    | leaf => simp only [ht_leaf] at c3; omega
    | node A ci B =>
      obtain ⟨t2, e2, z2, k2⟩ := LL_ok z1 al.1 al.2.1 ar
      exact ⟨t2, e2, by simpa [rotLL] using z2, k1.kTrans (by simpa using k2)⟩
  · cases r with
    | leaf => simp only [ht_leaf] at c4; omega
    | node B ci C =>
      obtain ⟨t2, e2, z2, k2⟩ := RR_ok z1 al ar.1 ar.2.1
      exact ⟨t2, e2, by simpa [rotRR] using z2, k1.kTrans (by simpa using k2)⟩
  · cases r with
    | leaf => simp only [ht_leaf] at c5; omega
    | node rl ri D =>
      cases rl with
      | leaf =>
        have := FT.ht_ge D
        simp only [bf_node, ht_leaf] at c5; omega
      | node B gi C =>
        obtain ⟨t2, e2, z2, k2⟩ := RL_ok z1 al ar.1.1 ar.1.2.1 ar.2.1
        exact ⟨t2, e2, z2, k1.kTrans (by simpa using k2)⟩
  · cases r with
    | leaf => simp only [ht_leaf] at c6; omega
    | node B ci C =>
      obtain ⟨t2, e2, z2, k2⟩ := RR_ok z1 al ar.1 ar.2.1
      exact ⟨t2, e2, by simpa [rotRR] using z2, k1.kTrans (by simpa using k2)⟩
  · exact ⟨_, rfl, z1, k1⟩

theorem rotLL_ents (t : FT) : (rotLL t).ents = t.ents := by
  unfold rotLL; split <;> simp

theorem rotRR_ents (t : FT) : (rotRR t).ents = t.ents := by
  unfold rotRR; split <;> simp

theorem rotLR_ents (t : FT) : (rotLR t).ents = t.ents := by
  unfold rotLR; split <;> simp

theorem rotRL_ents (t : FT) : (rotRL t).ents = t.ents := by
  unfold rotRL; split <;> simp

theorem rebal_ins_ents (t : FT) : (rebal_ins t).ents = t.ents := by
  unfold rebal_ins
  split
  · rfl
  · split_ifs <;> simp [rotLL_ents, rotRR_ents, rotLR_ents, rotRL_ents]

theorem rebal_del_ents (t : FT) : (rebal_del t).ents = t.ents := by
  unfold rebal_del
  split
  · rfl
  · split_ifs <;> simp [rotLL_ents, rotRR_ents, rotLR_ents, rotRL_ents]

theorem ids_eq_ents (t : FT) : t.ids = t.ents.map (fun e => e.1) := by
  induction t with
  | leaf => rfl
  | node l i r ihl ihr => simp [ihl, ihr]

theorem rebal_ins_ids (t : FT) : (rebal_ins t).ids = t.ids := by
  rw [ids_eq_ents, ids_eq_ents, rebal_ins_ents]

theorem rebal_del_ids (t : FT) : (rebal_del t).ids = t.ids := by
  rw [ids_eq_ents, ids_eq_ents, rebal_del_ents]

theorem rebal_ins_spec {l r : FT} {i : Info} (al : l.Acc) (ar : r.Acc) (bl : l.Bal) (br : r.Bal)
    (h1 : l.ht ≤ r.ht + 2) (h2 : r.ht ≤ l.ht + 2) (h3 : l.ht = r.ht + 2 → l.bf ≠ 0)
    (h4 : r.ht = l.ht + 2 → r.bf ≠ 0) :
    (rebal_ins (node l i r)).Acc ∧ (rebal_ins (node l i r)).Bal ∧
      ((l.ht = r.ht + 2 ∨ r.ht = l.ht + 2) → (rebal_ins (node l i r)).ht = max l.ht r.ht) ∧
      (¬ (l.ht = r.ht + 2 ∨ r.ht = l.ht + 2) →
        rebal_ins (node l i r) = node l { i with height := max l.ht r.ht + 1 } r) := by
  have gl := FT.ht_ge l
  have gr := FT.ht_ge r
  simp only [rebal_ins]
  split_ifs with c1 c2 c3 c4
  · cases l with
    | leaf => simp only [ht_leaf] at c1; omega
    | node A ci B =>
      have := FT.ht_ge A
      have := FT.ht_ge B
      simp only [rotLL, Acc_node, Bal_node, ht_node, bf_node] at *
      refine ⟨?_, ?_, ?_, ?_⟩ <;> (try simp only [al, ar, bl, br, true_and]) <;> omega
  · cases r with
    | leaf => simp only [ht_leaf] at c2; omega
    | node B ci C =>
      have := FT.ht_ge C
      have := FT.ht_ge B
      simp only [rotRR, Acc_node, Bal_node, ht_node, bf_node] at *
      refine ⟨?_, ?_, ?_, ?_⟩ <;> (try simp only [al, ar, bl, br, true_and]) <;> omega
  · cases r with
    | leaf => simp only [ht_leaf] at c3; omega
    | node rl ri D =>
      cases rl with
      | leaf =>
        have := FT.ht_ge D
        simp only [bf_node, ht_leaf] at c3; omega
      | node B gi C =>
        have := FT.ht_ge C
        have := FT.ht_ge B
        have := FT.ht_ge D
        simp only [rotRL, Acc_node, Bal_node, ht_node, bf_node] at *
        refine ⟨?_, ?_, ?_, ?_⟩ <;> (try simp only [al, ar, bl, br, true_and]) <;> omega
  · cases l with
    | leaf => simp only [ht_leaf] at c4; omega
    | node A li lr =>
      cases lr with
      | leaf =>
        have := FT.ht_ge A
        simp only [bf_node, ht_leaf] at c4; omega
      | node B gi C =>
        have := FT.ht_ge C
        have := FT.ht_ge B
        have := FT.ht_ge A
        simp only [rotLR, Acc_node, Bal_node, ht_node, bf_node] at *
        refine ⟨?_, ?_, ?_, ?_⟩ <;> (try simp only [al, ar, bl, br, true_and]) <;> omega
  · have hb1 : l.ht = r.ht + 2 → False := by
      intro e
      have := h3 e
      cases l with
      | leaf => simp only [ht_leaf] at e; omega
      | node A ci B =>
        simp only [bf_node, Bal_node, ht_node] at *
        omega
    have hb2 : r.ht = l.ht + 2 → False := by
      intro e
      have := h4 e
      cases r with
      | leaf => simp only [ht_leaf] at e; omega
      | node A ci B =>
        simp only [bf_node, Bal_node, ht_node] at *
        omega
    have hb1n : l.ht ≠ r.ht + 2 := fun e => hb1 e
    have hb2n : r.ht ≠ l.ht + 2 := fun e => hb2 e
    refine ⟨⟨al, ar, rfl⟩, ⟨bl, br, by omega, by omega⟩, ?_, fun _ => rfl⟩
    rintro (e | e)
    · exact (hb1 e).elim
    · exact (hb2 e).elim

theorem rebal_del_spec {l r : FT} {i : Info} (al : l.Acc) (ar : r.Acc) (bl : l.Bal) (br : r.Bal)
    (h1 : l.ht ≤ r.ht + 2) (h2 : r.ht ≤ l.ht + 2) :
    (rebal_del (node l i r)).Acc ∧ (rebal_del (node l i r)).Bal ∧
      max l.ht r.ht ≤ (rebal_del (node l i r)).ht ∧
      (rebal_del (node l i r)).ht ≤ max l.ht r.ht + 1 ∧
      (l.ht ≤ r.ht + 1 → r.ht ≤ l.ht + 1 →
        rebal_del (node l i r) = node l { i with height := max l.ht r.ht + 1 } r) := by
  have gl := FT.ht_ge l
  have gr := FT.ht_ge r
  simp only [rebal_del]
  split_ifs with c1 c2 c3 c4 c5 c6
  · cases l with
    | leaf => simp only [ht_leaf] at c1; omega
    | node A ci B =>
      have := FT.ht_ge A
      have := FT.ht_ge B
      simp only [rotLL, Acc_node, Bal_node, ht_node, bf_node] at *
      refine ⟨?_, ?_, ?_, ?_, ?_⟩ <;> (try simp only [al, ar, bl, br, true_and]) <;> omega
  · cases l with
    | leaf => simp only [ht_leaf] at c2; omega
    | node A li lr =>
      cases lr with
      | leaf =>
        have := FT.ht_ge A
        simp only [bf_node, ht_leaf] at c2; omega
      | node B gi C =>
        have := FT.ht_ge C
        have := FT.ht_ge B
        have := FT.ht_ge A
        simp only [rotLR, Acc_node, Bal_node, ht_node, bf_node] at *
        refine ⟨?_, ?_, ?_, ?_, ?_⟩ <;> (try simp only [al, ar, bl, br, true_and]) <;> omega
  · cases l with
    | leaf => simp only [ht_leaf] at c3; omega
    | node A ci B =>
      have := FT.ht_ge A
      have := FT.ht_ge B
      simp only [rotLL, Acc_node, Bal_node, ht_node, bf_node] at *
      refine ⟨?_, ?_, ?_, ?_, ?_⟩ <;> (try simp only [al, ar, bl, br, true_and]) <;> omega
  · cases r with
    | leaf => simp only [ht_leaf] at c4; omega
    | node B ci C =>
      have := FT.ht_ge C
      have := FT.ht_ge B
      simp only [rotRR, Acc_node, Bal_node, ht_node, bf_node] at *
      refine ⟨?_, ?_, ?_, ?_, ?_⟩ <;> (try simp only [al, ar, bl, br, true_and]) <;> omega
  · cases r with
    | leaf => simp only [ht_leaf] at c5; omega
    | node rl ri D =>
      cases rl with
      | leaf =>
        have := FT.ht_ge D
        simp only [bf_node, ht_leaf] at c5; omega
      | node B gi C =>
        have := FT.ht_ge C
        have := FT.ht_ge B
        have := FT.ht_ge D
        simp only [rotRL, Acc_node, Bal_node, ht_node, bf_node] at *
        refine ⟨?_, ?_, ?_, ?_, ?_⟩ <;> (try simp only [al, ar, bl, br, true_and]) <;> omega
  · cases r with
    | leaf => simp only [ht_leaf] at c6; omega
    | node B ci C =>
      have := FT.ht_ge C
      have := FT.ht_ge B
      simp only [rotRR, Acc_node, Bal_node, ht_node, bf_node] at *
      refine ⟨?_, ?_, ?_, ?_, ?_⟩ <;> (try simp only [al, ar, bl, br, true_and]) <;> omega
  · have hb1 : l.ht ≠ r.ht + 2 := by
      intro e
      cases l with
      | leaf => simp only [ht_leaf] at e; omega
      | node A ci B =>
        simp only [bf_node, Bal_node, ht_node] at *
        omega
    have hb2 : r.ht ≠ l.ht + 2 := by
      intro e
      cases r with
      | leaf => simp only [ht_leaf] at e; omega
      | node A ci B =>
        simp only [bf_node, Bal_node, ht_node] at *
        omega
    refine ⟨⟨al, ar, rfl⟩, ⟨bl, br, by omega, by omega⟩, ?_, ?_, fun _ _ => rfl⟩
    · simp only [ht_node]; omega
    · simp only [ht_node]; omega

theorem Info.eta_height (i : Info) (v : Int) (e : i.height = v) : { i with height := v } = i := by
  cases i; simp_all

theorem rebal_ins_noop {l r : FT} {i : Info} (a : (node l i r).Acc) (b : (node l i r).Bal) :
    rebal_ins (node l i r) = node l i r := by
  have := (rebal_ins_spec (i := i) a.1 a.2.1 b.1 b.2.1 (by have := b.2.2; omega)
    (by have := b.2.2; omega) (by have := b.2.2; omega) (by have := b.2.2; omega)).2.2.2
    (by have := b.2.2; omega)
  rw [this, Info.eta_height i _ a.2.2]

theorem rebal_del_noop {l r : FT} {i : Info} (a : (node l i r).Acc) (b : (node l i r).Bal) :
    rebal_del (node l i r) = node l i r := by
  have := (rebal_del_spec (i := i) a.1 a.2.1 b.1 b.2.1 (by have := b.2.2; omega)
    (by have := b.2.2; omega)).2.2.2.2 b.2.2.1 b.2.2.2
  rw [this, Info.eta_height i _ a.2.2]

theorem rotLL_near (l r : FT) (i : Info) : NearRoot i.id (rotLL (node l i r)) := by
  unfold rotLL
  split
  · rename_i A ci B ni C heq
    cases heq
    exact Or.inr ⟨_, _, _, rfl, Or.inr rfl⟩
  · exact Or.inl rfl

theorem rotRR_near (l r : FT) (i : Info) : NearRoot i.id (rotRR (node l i r)) := by
  unfold rotRR
  split
  · rename_i A ni B ci C heq
    cases heq
    exact Or.inr ⟨_, _, _, rfl, Or.inl rfl⟩
  · exact Or.inl rfl

theorem rotLR_near (l r : FT) (i : Info) : NearRoot i.id (rotLR (node l i r)) := by
  unfold rotLR
  split
  · rename_i A li B gi C ni D heq
    cases heq
    exact Or.inr ⟨_, _, _, rfl, Or.inr rfl⟩
  · exact Or.inl rfl

theorem rotRL_near (l r : FT) (i : Info) : NearRoot i.id (rotRL (node l i r)) := by
  unfold rotRL
  split
  · rename_i A ni B gi C ri D heq
    cases heq
    exact Or.inr ⟨_, _, _, rfl, Or.inl rfl⟩
  · exact Or.inl rfl

theorem rebal_ins_near (l r : FT) (i : Info) : NearRoot i.id (rebal_ins (node l i r)) := by
  simp only [rebal_ins]
  split_ifs
  · exact rotLL_near l r { i with height := max l.ht r.ht + 1 }
  · exact rotRR_near l r { i with height := max l.ht r.ht + 1 }
  · exact rotRL_near l r { i with height := max l.ht r.ht + 1 }
  · exact rotLR_near l r { i with height := max l.ht r.ht + 1 }
  · exact Or.inl rfl

theorem rebal_del_near (l r : FT) (i : Info) : NearRoot i.id (rebal_del (node l i r)) := by
  simp only [rebal_del]
  split_ifs
  · exact rotLL_near l r { i with height := max l.ht r.ht + 1 }
  · exact rotLR_near l r { i with height := max l.ht r.ht + 1 }
  · exact rotLL_near l r { i with height := max l.ht r.ht + 1 }
  · exact rotRR_near l r { i with height := max l.ht r.ht + 1 }
  · exact rotRL_near l r { i with height := max l.ht r.ht + 1 }
  · exact rotRR_near l r { i with height := max l.ht r.ht + 1 }
  · exact Or.inl rfl

theorem Rep_root_parent {h : Heap} {par : Ptr} {g : FT} {x : Nat} (rp : Rep h par g)
    (e : g.rootPtr = some x) : (h.get x).parent = par := by
  cases g with
  | leaf => simp at e
  | node l i r =>
    simp only [rootPtr_node, Option.some.injEq] at e
    subst e
    rw [Rep_node] at rp
    exact rp.1.2.2.2.2.2.2

/-- Where the walk goes after a step at `x`: one level up, or to the new root
of the rotated subtree. -/
theorem near_parent {t : AVLTree} {c : Ctx} {g : FT} {x : Nat} (hz : ZRep t c g)
    (nr : NearRoot x g) :
    (g.rootPtr = some x ∧ (t.heap.get x).parent = ctxPar none c) ∨
      (g.rootPtr ≠ some x ∧ (t.heap.get x).parent = g.rootPtr) := by
  rcases nr with e | ⟨X, j, Y, rfl, e⟩
  · exact Or.inl ⟨e, Rep_root_parent hz.foc e⟩
  · right
    have nd := (List.nodup_append.1 hz.nodup).1
    have rp := hz.foc
    rw [Rep_node] at rp
    simp only [ids_node, List.nodup_append, List.nodup_cons, List.mem_append, List.mem_cons,
      not_or, List.disjoint_cons_right] at nd
    constructor
    · simp only [rootPtr_node, ne_eq, Option.some.injEq]
      rintro rfl
      rcases e with e | e
      · exact rootPtr_ne_of_not_mem nd.2.2.1 e
      · exact rootPtr_ne_of_not_mem nd.2.1.1 e
    · rcases e with e | e
      · exact Rep_root_parent rp.2.2.1 e
      · exact Rep_root_parent rp.2.2.2 e

theorem ents_plug (c : Ctx) (t : FT) :
    (plug c t).ents = entsBefore c ++ (t.ents ++ entsAfter c) := by
  induction c generalizing t with
  | nil => simp [plug, entsBefore, entsAfter]
  | cons fr c ih =>
    cases hd : fr.dir <;> simp [plug, ih, Frame.fill, entsBefore, entsAfter, hd]

theorem ents_plug_congr (c : Ctx) {t t2 : FT} (e : t2.ents = t.ents) :
    (plug c t2).ents = (plug c t).ents := by
  rw [ents_plug, ents_plug, e]

theorem ents_fillH (fr : Frame) (h : Heap) (g : FT) : (fr.fillH h g).ents = (fr.fill g).ents := by
  cases hd : fr.dir <;> simp [Frame.fillH, Frame.fill, hd]

theorem LMono.mRefl (t : FT) : LMono t t := ⟨Iff.rfl, id⟩

theorem LMono.fill {t t2 : FT} (m : LMono t t2) (d : Dir) (i i2 : Info) (s : FT) :
    LMono (Frame.fill ⟨d, i, s⟩ t) (Frame.fill ⟨d, i2, s⟩ t2) := by
  cases d with
  | L =>
    simp only [Frame.fill]
    refine ⟨by simp, ?_⟩
    cases s with
    | leaf =>
      simp only [lastLeft]
      exact fun h1 h2 => h1 (m.1.2 h2)
    | node a b c => simp only [lastLeft]; exact id
  | R =>
    simp only [Frame.fill]
    refine ⟨by simp, ?_⟩
    cases t with
    | leaf =>
      have := m.1.2 rfl
      subst this
      exact id
    | node a b c =>
      cases t2 with
      | leaf => exact absurd (m.1.1 rfl) (by simp)
      | node a2 b2 c2 =>
        simp only [lastLeft]
        exact m.2

theorem LMono.plug {t t2 : FT} (m : LMono t t2) (c : Ctx) :
    lastLeft (plug c t2) ≠ leaf → lastLeft (plug c t) ≠ leaf := by
  induction c generalizing t t2 with
  | nil => exact m.2
  | cons fr c ih =>
    simp only [fefu.plug]
    exact ih (m.fill fr.dir fr.i fr.i fr.sib)

theorem LMono.fillH (fr : Frame) (h : Heap) (g : FT) : LMono (fr.fill g) (fr.fillH h g) := by
  have := (LMono.mRefl g).fill fr.dir fr.i { fr.i with height := (h.get fr.i.id).height } fr.sib
  cases hd : fr.dir <;> simpa [Frame.fill, Frame.fillH, hd] using this

theorem LMono.mTrans {a b c : FT} (m1 : LMono a b) (m2 : LMono b c) : LMono a c :=
  ⟨m2.1.trans m1.1, fun h => m1.2 (m2.2 h)⟩

@[simp] theorem lastLeft_leaf : lastLeft leaf = leaf := rfl

@[simp] theorem lastLeft_node_leaf (l : FT) (i : Info) : lastLeft (node l i leaf) = l := rfl

@[simp] theorem lastLeft_node_node (l : FT) (i : Info) (a : FT) (b : Info) (c : FT) :
    lastLeft (node l i (node a b c)) = lastLeft (node a b c) := rfl

theorem rotLL_lmono (t : FT) : lastLeft (rotLL t) ≠ leaf → lastLeft t ≠ leaf := by
  unfold rotLL
  split
  · rename_i A ci B ni C
    cases C <;> simp
  · exact id

theorem rotLR_lmono (t : FT) : lastLeft (rotLR t) ≠ leaf → lastLeft t ≠ leaf := by
  unfold rotLR
  split
  · rename_i A li B gi C ni D
    cases D <;> simp
  · exact id

theorem rotRL_lmono (t : FT) : lastLeft (rotRL t) ≠ leaf → lastLeft t ≠ leaf := by
  unfold rotRL
  split
  · rename_i A ni B gi C ri D
    cases D <;> simp
  · exact id

theorem rotRR_lmono (l r : FT) (i : Info) (hd : l.ht - r.ht = -2) :
    lastLeft (rotRR (node l i r)) ≠ leaf → lastLeft (node l i r) ≠ leaf := by
  unfold rotRR
  split
  · rename_i A ni B ci C heq
    cases heq
    cases C with
    | leaf =>
      cases B with
      | leaf =>
        have := FT.ht_ge l
        simp only [ht_node, ht_leaf] at hd
        omega
      | node a b c => simp
    | node a b c => simp
  · exact id

theorem rot_ne_leaf_of_ents {t t2 : FT} (e : t2.ents = t.ents) : t2 = leaf ↔ t = leaf := by
  cases t <;> cases t2 <;> simp at e ⊢

theorem rebal_ins_lmono (l r : FT) (i : Info) :
    LMono (node l i r) (rebal_ins (node l i r)) := by
  refine ⟨rot_ne_leaf_of_ents (rebal_ins_ents _), ?_⟩
  simp only [rebal_ins]
  split_ifs with c1 c2 c3 c4
  · intro h; have := rotLL_lmono _ h; cases r <;> simpa using this
  · intro h; have := rotRR_lmono _ _ _ c2.1 h; cases r <;> simpa using this
  · intro h; have := rotRL_lmono _ h; cases r <;> simpa using this
  · intro h; have := rotLR_lmono _ h; cases r <;> simpa using this
  · intro h; cases r <;> simpa using h

theorem rebal_del_lmono (l r : FT) (i : Info) :
    LMono (node l i r) (rebal_del (node l i r)) := by
  refine ⟨rot_ne_leaf_of_ents (rebal_del_ents _), ?_⟩
  simp only [rebal_del]
  split_ifs with c1 c2 c3 c4 c5 c6
  · intro h; have := rotLL_lmono _ h; cases r <;> simpa using this
  · intro h; have := rotLR_lmono _ h; cases r <;> simpa using this
  · intro h; have := rotLL_lmono _ h; cases r <;> simpa using this
  · intro h; have := rotRR_lmono _ _ _ c4.1 h; cases r <;> simpa using this
  · intro h; have := rotRL_lmono _ h; cases r <;> simpa using this
  · intro h; have := rotRR_lmono _ _ _ c6.1 h; cases r <;> simpa using this
  · intro h; cases r <;> simpa using h

theorem balance_insert_some (f : Nat) (t : AVLTree) (x : Nat) :
    balance_insert (f + 1) t (some x) =
      match balance_insert_step t x with
      | none => none
      | some t1 => balance_insert f t1 (t1.heap x).parent := rfl

theorem balance_insert_none (f : Nat) (t : AVLTree) : balance_insert f t none = some t := by
  cases f <;> rfl

theorem balance_delete_loop_some (f : Nat) (t : AVLTree) (x : Nat) :
    balance_delete_loop (f + 1) t (some x) =
      match balance_delete t x with
      | none => none
      | some t1 => balance_delete_loop f t1 (t1.heap x).parent := rfl

theorem balance_delete_loop_none (f : Nat) (t : AVLTree) :
    balance_delete_loop f t none = some t := by
  cases f <;> rfl

theorem ins_visit {t : AVLTree} {c : Ctx} {l r : FT} {i : Info}
    (hz : ZRep t c (node l i r)) (al : l.Acc) (ar : r.Acc) (bl : l.Bal) (br : r.Bal)
    (h1 : l.ht ≤ r.ht + 2) (h2 : r.ht ≤ l.ht + 2) (h3 : l.ht = r.ht + 2 → l.bf ≠ 0)
    (h4 : r.ht = l.ht + 2 → r.bf ≠ 0) :
    ∃ t2 k, k ≤ 1 ∧ ZRep t2 c (rebal_ins (node l i r)) ∧
      Keeps t t2 ((node l i r).ids ++ ctxIds c) ∧
      ∀ F, balance_insert (F + 2) t (some i.id) = balance_insert (F + k) t2 (ctxPar none c) := by
  obtain ⟨t2, e2, z2, k2⟩ := ins_step_ok hz al ar
  obtain ⟨sa, sb, _, _⟩ := rebal_ins_spec (i := i) al ar bl br h1 h2 h3 h4
  rcases near_parent z2 (rebal_ins_near l r i) with ⟨_, ep⟩ | ⟨ner, ep⟩
  · refine ⟨t2, 1, le_refl _, z2, k2, fun F => ?_⟩
    rw [balance_insert_some, e2]
    simp only []
    rw [show t2.heap i.id = t2.heap.get i.id from rfl, ep]
  · cases hf : rebal_ins (node l i r) with
    | leaf =>
      have := (rebal_ins_lmono l r i).1.1 hf
      cases this
    | node X j Y =>
      rw [hf] at z2 sa sb ep
      obtain ⟨t3, e3, z3, k3⟩ := ins_step_ok z2 sa.1 sa.2.1
      rw [rebal_ins_noop sa sb] at z3
      have ep3 := Rep_root_parent z3.foc rfl
      refine ⟨t3, 0, Nat.zero_le _, z3, k2.kTrans ?_, fun F => ?_⟩
      · refine k3.mono (fun q hq => ?_)
        have e := rebal_ins_ids (node l i r)
        rw [hf] at e
        rw [← e]
        exact hq
      · rw [balance_insert_some, e2]
        simp only []
        rw [show t2.heap i.id = t2.heap.get i.id from rfl, ep]
        simp only [rootPtr_node]
        rw [balance_insert_some, e3]
        simp only []
        rw [show t3.heap j.id = t3.heap.get j.id from rfl, ep3]
        rfl

theorem del_visit {t : AVLTree} {c : Ctx} {l r : FT} {i : Info}
    (hz : ZRep t c (node l i r)) (al : l.Acc) (ar : r.Acc) (bl : l.Bal) (br : r.Bal)
    (h1 : l.ht ≤ r.ht + 2) (h2 : r.ht ≤ l.ht + 2) :
    ∃ t2 k, k ≤ 1 ∧ ZRep t2 c (rebal_del (node l i r)) ∧
      Keeps t t2 ((node l i r).ids ++ ctxIds c) ∧
      ∀ F, balance_delete_loop (F + 2) t (some i.id) =
        balance_delete_loop (F + k) t2 (ctxPar none c) := by
  obtain ⟨t2, e2, z2, k2⟩ := del_step_ok hz al ar
  obtain ⟨sa, sb, _, _⟩ := rebal_del_spec (i := i) al ar bl br h1 h2
  rcases near_parent z2 (rebal_del_near l r i) with ⟨_, ep⟩ | ⟨ner, ep⟩
  · refine ⟨t2, 1, le_refl _, z2, k2, fun F => ?_⟩
    rw [balance_delete_loop_some, e2]
    simp only []
    rw [show t2.heap i.id = t2.heap.get i.id from rfl, ep]
  · cases hf : rebal_del (node l i r) with
    | leaf =>
      have := (rebal_del_lmono l r i).1.1 hf
      cases this
    | node X j Y =>
      rw [hf] at z2 sa sb ep
      obtain ⟨t3, e3, z3, k3⟩ := del_step_ok z2 sa.1 sa.2.1
      rw [rebal_del_noop sa sb] at z3
      have ep3 := Rep_root_parent z3.foc rfl
      refine ⟨t3, 0, Nat.zero_le _, z3, k2.kTrans ?_, fun F => ?_⟩
      · refine k3.mono (fun q hq => ?_)
        have e := rebal_del_ids (node l i r)
        rw [hf] at e
        rw [← e]
        exact hq
      · rw [balance_delete_loop_some, e2]
        simp only []
        rw [show t2.heap i.id = t2.heap.get i.id from rfl, ep]
        simp only [rootPtr_node]
        rw [balance_delete_loop_some, e3]
        simp only []
        rw [show t3.heap j.id = t3.heap.get j.id from rfl, ep3]
        rfl

theorem fillH_ids_mem (fr : Frame) (h : Heap) (g : FT) (c : Ctx) (q : Nat) :
    q ∈ (fr.fillH h g).ids ++ ctxIds c ↔ q ∈ g.ids ++ ctxIds (fr :: c) := by
  cases hd : fr.dir <;>
    simp only [Frame.fillH, hd, ids_node, ctxIds, List.mem_append, List.mem_cons] <;> tauto

theorem ins_up (c : Ctx) : ∀ (t : AVLTree) (g : FT) (o : Int) (F : Nat),
    ZRep t c g → g.Acc → g.Bal → CtxBal c o →
    (g.ht = o ∨ (g.ht = o + 1 ∧ (g.bf ≠ 0 ∨ g.ht = 0))) → 2 * c.length ≤ F →
    ∃ t2 T, balance_insert F t (ctxPar none c) = some t2 ∧ ZRep t2 [] T ∧ T.Acc ∧ T.Bal ∧
      T.ents = (plug c g).ents ∧ Keeps t t2 (g.ids ++ ctxIds c) ∧
      (lastLeft T ≠ leaf → lastLeft (plug c g) ≠ leaf) := by
  induction c with
  | nil =>
    intro t g o F hz ga gb _ _ _
    exact ⟨t, g, balance_insert_none F t, hz, ga, gb, rfl, Keeps.kRefl _ _, id⟩
  | cons fr c ih =>
    intro t g o F hz ga gb cb hg hF
    obtain ⟨F, rfl⟩ : ∃ F2, F = F2 + 2 := ⟨F - 2, by simp only [List.length_cons] at hF; omega⟩
    simp only [List.length_cons] at hF
    obtain ⟨sa, sb, s1, s2, cb2⟩ := cb
    have hg0 := FT.ht_ge g
    have hs0 := FT.ht_ge fr.sib
    have zu := hz.up
    have key : ∀ (l r : FT) (i : Info), fr.fillH t.heap g = node l i r → i.id = fr.i.id →
        l.Acc → r.Acc → l.Bal → r.Bal → l.ht ≤ r.ht + 2 → r.ht ≤ l.ht + 2 →
        (l.ht = r.ht + 2 → l.bf ≠ 0) → (r.ht = l.ht + 2 → r.bf ≠ 0) →
        (max l.ht r.ht = max g.ht fr.sib.ht) →
        ((l.ht = r.ht + 2 ∨ r.ht = l.ht + 2) → g.ht = o + 1 ∧ fr.sib.ht + 1 = o) →
        (l.ht - r.ht = 0 → g.ht = fr.sib.ht) →
        ∃ t2 T, balance_insert (F + 2) t (some fr.i.id) = some t2 ∧ ZRep t2 [] T ∧ T.Acc ∧
          T.Bal ∧ T.ents = (plug (fr :: c) g).ents ∧ Keeps t t2 (g.ids ++ ctxIds (fr :: c)) ∧
          (lastLeft T ≠ leaf → lastLeft (plug (fr :: c) g) ≠ leaf) := by
      intro l r i hf hi al ar bl br h1 h2 h3 h4 hm hrot hz0
      rw [hf] at zu
      obtain ⟨t2, k, hk, z2, k2, run⟩ := ins_visit zu al ar bl br h1 h2 h3 h4
      obtain ⟨ra, rb, rh1, rh2⟩ := rebal_ins_spec (i := i) al ar bl br h1 h2 h3 h4
      have hcond : (rebal_ins (node l i r)).ht = max o fr.sib.ht + 1 ∨
          ((rebal_ins (node l i r)).ht = max o fr.sib.ht + 1 + 1 ∧
            ((rebal_ins (node l i r)).bf ≠ 0 ∨ (rebal_ins (node l i r)).ht = 0)) := by
        by_cases hr : l.ht = r.ht + 2 ∨ r.ht = l.ht + 2
        · left
          rw [rh1 hr, hm]
          have := hrot hr
          omega
        · rw [rh2 hr]
          simp only [ht_node, bf_node, hm]
          by_cases e : g.ht = o
          · left; omega
          · have e2 : g.ht = o + 1 := by omega
            by_cases e3 : fr.sib.ht = o + 1
            · left; omega
            · right
              refine ⟨by omega, Or.inl ?_⟩
              intro hz1
              have := hz0 hz1
              omega
      obtain ⟨t3, T, e3, z3, Ta, Tb, Te, k3, Tl⟩ :=
        ih t2 (rebal_ins (node l i r)) (max o fr.sib.ht + 1) (F + k) z2 ra rb cb2 hcond
          (by omega)
      refine ⟨t3, T, ?_, z3, Ta, Tb, ?_, ?_, ?_⟩
      · rw [← hi, run, e3]
      · rw [Te, ents_plug_congr c (rebal_ins_ents _), ← hf, ents_plug_congr c (ents_fillH _ _ _)]
        rfl
      · have m1 : Keeps t t2 (g.ids ++ ctxIds (fr :: c)) := by
          refine k2.mono (fun q hq => ?_)
          rw [← hf] at hq
          exact (fillH_ids_mem fr t.heap g c q).1 hq
        refine m1.kTrans (k3.mono (fun q hq => ?_))
        rw [rebal_ins_ids, ← hf] at hq
        exact (fillH_ids_mem fr t.heap g c q).1 hq
      · intro hT
        have a1 := (rebal_ins_lmono l r i).plug c (Tl hT)
        rw [← hf] at a1
        exact (LMono.fillH fr t.heap g).plug c a1
    cases hd : fr.dir with
    | L =>
      refine key g fr.sib { fr.i with height := (t.heap.get fr.i.id).height }
        (by simp [Frame.fillH, hd]) rfl ga sa gb sb (by omega) (by omega) ?_ ?_ rfl ?_ ?_
      · intro e
        rcases hg with e1 | ⟨e1, e2 | e2⟩
        · omega
        · exact e2
        · omega
      · intro e; omega
      · intro e; omega
      · intro e; omega
    | R =>
      refine key fr.sib g { fr.i with height := (t.heap.get fr.i.id).height }
        (by simp [Frame.fillH, hd]) rfl sa ga sb gb (by omega) (by omega) ?_ ?_
        (max_comm _ _) ?_ ?_
      · intro e; omega
      · intro e
        rcases hg with e1 | ⟨e1, e2 | e2⟩
        · omega
        · exact e2
        · omega
      · intro e; omega
      · intro e; omega

theorem del_up (c : Ctx) : ∀ (t : AVLTree) (g : FT) (o : Int) (F : Nat),
    ZRep t c g → g.Acc → g.Bal → CtxBal c o →
    (g.ht = o ∨ g.ht + 1 = o) → 2 * c.length ≤ F →
    ∃ t2 T, balance_delete_loop F t (ctxPar none c) = some t2 ∧ ZRep t2 [] T ∧ T.Acc ∧ T.Bal ∧
      T.ents = (plug c g).ents ∧ Keeps t t2 (g.ids ++ ctxIds c) ∧
      (lastLeft T ≠ leaf → lastLeft (plug c g) ≠ leaf) := by
  induction c with
  | nil =>
    intro t g o F hz ga gb _ _ _
    exact ⟨t, g, balance_delete_loop_none F t, hz, ga, gb, rfl, Keeps.kRefl _ _, id⟩
  | cons fr c ih =>
    intro t g o F hz ga gb cb hg hF
    obtain ⟨F, rfl⟩ : ∃ F2, F = F2 + 2 := ⟨F - 2, by simp only [List.length_cons] at hF; omega⟩
    simp only [List.length_cons] at hF
    obtain ⟨sa, sb, s1, s2, cb2⟩ := cb
    have hg0 := FT.ht_ge g
    have hs0 := FT.ht_ge fr.sib
    have zu := hz.up
    have key : ∀ (l r : FT) (i : Info), fr.fillH t.heap g = node l i r → i.id = fr.i.id →
        l.Acc → r.Acc → l.Bal → r.Bal → l.ht ≤ r.ht + 2 → r.ht ≤ l.ht + 2 →
        (max l.ht r.ht = max g.ht fr.sib.ht) →
        ((l.ht ≤ r.ht + 1 ∧ r.ht ≤ l.ht + 1) ∨ (g.ht + 2 = fr.sib.ht)) →
        ∃ t2 T, balance_delete_loop (F + 2) t (some fr.i.id) = some t2 ∧ ZRep t2 [] T ∧ T.Acc ∧
          T.Bal ∧ T.ents = (plug (fr :: c) g).ents ∧ Keeps t t2 (g.ids ++ ctxIds (fr :: c)) ∧
          (lastLeft T ≠ leaf → lastLeft (plug (fr :: c) g) ≠ leaf) := by
      intro l r i hf hi al ar bl br h1 h2 hm hrot
      rw [hf] at zu
      obtain ⟨t2, k, hk, z2, k2, run⟩ := del_visit zu al ar bl br h1 h2
      obtain ⟨ra, rb, rh1, rh2, rh3⟩ := rebal_del_spec (i := i) al ar bl br h1 h2
      have hcond : (rebal_del (node l i r)).ht = max o fr.sib.ht + 1 ∨
          (rebal_del (node l i r)).ht + 1 = max o fr.sib.ht + 1 := by
        rcases hrot with ⟨a1, a2⟩ | a3
        · rw [rh3 a1 a2]
          simp only [ht_node, hm]
          omega
        · rw [hm] at rh1 rh2
          omega
      obtain ⟨t3, T, e3, z3, Ta, Tb, Te, k3, Tl⟩ :=
        ih t2 (rebal_del (node l i r)) (max o fr.sib.ht + 1) (F + k) z2 ra rb cb2 hcond
          (by omega)
      refine ⟨t3, T, ?_, z3, Ta, Tb, ?_, ?_, ?_⟩
      · rw [← hi, run, e3]
      · rw [Te, ents_plug_congr c (rebal_del_ents _), ← hf, ents_plug_congr c (ents_fillH _ _ _)]
        rfl
      · have m1 : Keeps t t2 (g.ids ++ ctxIds (fr :: c)) := by
          refine k2.mono (fun q hq => ?_)
          rw [← hf] at hq
          exact (fillH_ids_mem fr t.heap g c q).1 hq
        refine m1.kTrans (k3.mono (fun q hq => ?_))
        rw [rebal_del_ids, ← hf] at hq
        exact (fillH_ids_mem fr t.heap g c q).1 hq
      · intro hT
        have a1 := (rebal_del_lmono l r i).plug c (Tl hT)
        rw [← hf] at a1
        exact (LMono.fillH fr t.heap g).plug c a1
    cases hd : fr.dir with
    | L =>
      refine key g fr.sib { fr.i with height := (t.heap.get fr.i.id).height }
        (by simp [Frame.fillH, hd]) rfl ga sa gb sb (by omega) (by omega) rfl ?_
      omega
    | R =>
      refine key fr.sib g { fr.i with height := (t.heap.get fr.i.id).height }
        (by simp [Frame.fillH, hd]) rfl sa ga sb gb (by omega) (by omega) (max_comm _ _) ?_
      omega

@[simp] theorem lt_iff (a b : Int) : lt a b = true ↔ a < b := by simp [lt]

theorem find_loop_ok (t : AVLTree) (k : Int) : ∀ (g : FT) (c : Ctx) (F : Nat),
    ZRep t c g → g ≠ leaf → g.ids.length < F → PathOK k c →
    ∃ c2 l i r, find_node_loop lt t.heap k F g.rootPtr = some (some i.id) ∧
      ZRep t c2 (node l i r) ∧ plug c2 (node l i r) = plug c g ∧ PathOK k c2 ∧ Stop k l i r := by
  intro g
  induction g with
  | leaf => intro c F _ h; exact absurd rfl h
  | node l i r ihl ihr =>
    intro c F hz _ hF hp
    obtain ⟨F, rfl⟩ : ∃ F2, F = F2 + 1 := ⟨F - 1, by omega⟩
    have rp := hz.foc
    rw [Rep_node] at rp
    obtain ⟨⟨k1, k2, k3, k4, k5, k6, k7⟩, kh, kl, kr⟩ := rp
    simp only [ids_node, List.length_append, List.length_cons] at hF
    simp only [rootPtr_node, find_node_loop]
    rw [show t.heap i.id = t.heap.get i.id from rfl, k1]
    by_cases hk : i.key = k
    · refine ⟨c, l, i, r, ?_, hz, rfl, hp, Or.inl hk⟩
      simp [hk]
    · simp only [ne_eq, hk, not_false_eq_true, if_true, lt_iff]
      by_cases hlt : k < i.key
      · simp only [hlt, if_true, k5]
        cases l with
        | leaf =>
          exact ⟨c, leaf, i, r, rfl, hz, rfl, hp, Or.inr (Or.inl ⟨hk, hlt, rfl⟩)⟩
        | node a b d =>
          obtain ⟨c2, l2, i2, r2, e1, e2, e3, e4, e5⟩ :=
            ihl (⟨Dir.L, i, r⟩ :: c) F hz.down_left (by simp)
              (by simp only [ids_node, List.length_append, List.length_cons] at hF ⊢; omega)
              ⟨hk, hlt, hp⟩
          exact ⟨c2, l2, i2, r2, e1, e2, e3, e4, e5⟩
      · simp only [hlt, if_false, k6]
        cases r with
        | leaf =>
          exact ⟨c, l, i, leaf, rfl, hz, rfl, hp, Or.inr (Or.inr ⟨hk, hlt, rfl⟩)⟩
        | node a b d =>
          obtain ⟨c2, l2, i2, r2, e1, e2, e3, e4, e5⟩ :=
            ihr (⟨Dir.R, i, l⟩ :: c) F hz.down_right (by simp)
              (by simp only [ids_node, List.length_append, List.length_cons] at hF ⊢; omega)
              ⟨hk, hlt, hp⟩
          exact ⟨c2, l2, i2, r2, e1, e2, e3, e4, e5⟩

theorem ek_live {e : Nat × Int × Int} (h : e.1 ≠ 0) : ek e = ((e.2.1 : Int) : WithTop Int) := by
  simp [ek, h]

theorem ek_sent {e : Nat × Int × Int} (h : e.1 = 0) : ek e = ⊤ := by
  simp [ek, h]

theorem ek_lt_coe {e : Nat × Int × Int} {k : Int} (h : ek e < (k : WithTop Int)) :
    e.1 ≠ 0 ∧ e.2.1 < k := by
  by_cases h0 : e.1 = 0
  · rw [ek_sent h0] at h
    exact absurd h (not_top_lt)
  · rw [ek_live h0] at h
    exact ⟨h0, WithTop.coe_lt_coe.1 h⟩

theorem coe_lt_ek {e : Nat × Int × Int} {k : Int} (h : e.1 ≠ 0 → k < e.2.1) :
    (k : WithTop Int) < ek e := by
  by_cases h0 : e.1 = 0
  · rw [ek_sent h0]; exact WithTop.coe_lt_top k
  · rw [ek_live h0]; exact WithTop.coe_lt_coe.2 (h h0)

theorem coe_lt_ek_live {e : Nat × Int × Int} {k : Int} (h : (k : WithTop Int) < ek e)
    (h0 : e.1 ≠ 0) : k < e.2.1 := by
  rw [ek_live h0] at h
  exact WithTop.coe_lt_coe.1 h

theorem SortedE.uniq {l : List (Nat × Int × Int)} (s : SortedE l) {a b : Nat × Int × Int}
    (ha : a ∈ l) (hb : b ∈ l) (e : ek a = ek b) : a = b := by
  induction l with
  | nil => simp at ha
  | cons x l ih =>
    simp only [SortedE, List.pairwise_cons] at s
    simp only [List.mem_cons] at ha hb
    rcases ha with rfl | ha <;> rcases hb with rfl | hb
    · rfl
    · exact absurd e (ne_of_lt (s.1 _ hb))
    · exact absurd e.symm (ne_of_lt (s.1 _ ha))
    · exact ih s.2 ha hb

theorem SortedE.lt_of_split {A B : List (Nat × Int × Int)} (s : SortedE (A ++ B))
    {a b : Nat × Int × Int} (ha : a ∈ A) (hb : b ∈ B) : ek a < ek b :=
  (List.pairwise_append.1 s).2.2 a ha b hb

theorem SortedE.left {A B : List (Nat × Int × Int)} (s : SortedE (A ++ B)) : SortedE A :=
  (List.pairwise_append.1 s).1

theorem SortedE.right {A B : List (Nat × Int × Int)} (s : SortedE (A ++ B)) : SortedE B :=
  (List.pairwise_append.1 s).2.1

theorem before_lt (k : Int) : ∀ (c : Ctx) (mid : List (Nat × Int × Int)),
    PathOK k c → SortedE (entsBefore c ++ (mid ++ entsAfter c)) → mid ≠ [] →
    ∀ e ∈ entsBefore c, ek e < (k : WithTop Int) := by
  intro c
  induction c with
  | nil => intro mid _ _ _ e he; simp [entsBefore] at he
  | cons fr c ih =>
    intro mid hp hs hm e he
    obtain ⟨p1, p2, p3⟩ := hp
    cases hd : fr.dir with
    | L =>
      simp only [entsBefore, entsAfter, hd] at he hs
      refine ih (mid ++ (fr.i.id, fr.i.key, fr.i.value) :: fr.sib.ents) p3 ?_ (by simp) e he
      simpa [List.append_assoc] using hs
    | R =>
      simp only [entsBefore, entsAfter, hd] at he hs
      simp only [hd] at p2
      obtain ⟨m, hm2⟩ := List.exists_mem_of_ne_nil mid hm
      have hs1 : SortedE ((entsBefore c ++ (fr.sib.ents ++ [(fr.i.id, fr.i.key, fr.i.value)])) ++
          (mid ++ entsAfter c)) := hs
      have hfm : ek (fr.i.id, fr.i.key, fr.i.value) < ek m :=
        hs1.lt_of_split (by simp) (by simp [hm2])
      have hlive : fr.i.id ≠ 0 := by
        intro h0
        rw [ek_sent (e := (fr.i.id, fr.i.key, fr.i.value)) h0] at hfm
        exact absurd hfm not_top_lt
      have hI : ek (fr.i.id, fr.i.key, fr.i.value) < (k : WithTop Int) := by
        rw [ek_live (e := (fr.i.id, fr.i.key, fr.i.value)) hlive]
        apply WithTop.coe_lt_coe.2
        simp only
        omega
      simp only [List.mem_append, List.mem_singleton] at he
      rcases he with he | he | he
      · refine ih (fr.sib.ents ++ (fr.i.id, fr.i.key, fr.i.value) :: mid) p3 ?_ (by simp) e he
        simpa [List.append_assoc] using hs
      · have hs2 : SortedE (fr.sib.ents ++ [(fr.i.id, fr.i.key, fr.i.value)]) := hs1.left.right
        exact lt_trans (hs2.lt_of_split he (by simp)) hI
      · rw [he]; exact hI

theorem after_gt (k : Int) : ∀ (c : Ctx) (mid : List (Nat × Int × Int)),
    PathOK k c → SortedE (entsBefore c ++ (mid ++ entsAfter c)) →
    ∀ e ∈ entsAfter c, (k : WithTop Int) < ek e := by
  intro c
  induction c with
  | nil => intro mid _ _ e he; simp [entsAfter] at he
  | cons fr c ih =>
    intro mid hp hs e he
    obtain ⟨p1, p2, p3⟩ := hp
    cases hd : fr.dir with
    | R =>
      simp only [entsBefore, entsAfter, hd] at he hs
      refine ih (fr.sib.ents ++ (fr.i.id, fr.i.key, fr.i.value) :: mid) p3 ?_ e he
      simpa [List.append_assoc] using hs
    | L =>
      simp only [entsBefore, entsAfter, hd] at he hs
      simp only [hd] at p2
      have hI : (k : WithTop Int) < ek (fr.i.id, fr.i.key, fr.i.value) :=
        coe_lt_ek (fun _ => p2)
      have hs1 : SortedE ((entsBefore c ++ mid) ++
          ((fr.i.id, fr.i.key, fr.i.value) :: (fr.sib.ents ++ entsAfter c))) := by
        simpa [List.append_assoc] using hs
      simp only [List.mem_cons, List.mem_append] at he
      rcases he with he | he | he
      · rw [he]; exact hI
      · have := hs1.right
        simp only [SortedE, List.pairwise_cons] at this
        exact lt_trans hI (this.1 e (by simp [he]))
      · refine ih (mid ++ (fr.i.id, fr.i.key, fr.i.value) :: fr.sib.ents) p3 ?_ e he
        simpa [List.append_assoc] using hs

/-- The entry right after the hole carries a key above the searched one, also
when that entry is the sentinel with its default key. -/
theorem after_head_raw (k : Int) : ∀ (c : Ctx), PathOK k c →
    ∀ y Q, entsAfter c = y :: Q → k < y.2.1 := by
  intro c
  induction c with
  | nil => intro _ y Q h; simp [entsAfter] at h
  | cons fr c ih =>
    intro hp y Q h
    obtain ⟨p1, p2, p3⟩ := hp
    cases hd : fr.dir with
    | R =>
      simp only [entsAfter, hd] at h
      exact ih p3 y Q h
    | L =>
      simp only [entsAfter, hd, List.cons.injEq] at h
      simp only [hd] at p2
      rw [← h.1]
      exact p2

/-- A sorted list holding the sentinel ends with it. -/
theorem SortedE.sent_last {l : List (Nat × Int × Int)} (s : SortedE l) {e : Nat × Int × Int}
    (he : e ∈ l) (h0 : e.1 = 0) : ∃ L, l = L ++ [e] ∧ ∀ a ∈ L, a.1 ≠ 0 := by
  obtain ⟨A, B, rfl⟩ := List.append_of_mem he
  have hB : B = [] := by
    cases B with
    | nil => rfl
    | cons b B =>
      have := (s.right)
      simp only [SortedE, List.pairwise_cons] at this
      have h1 := this.1 b (by simp)
      rw [ek_sent h0] at h1
      exact absurd h1 not_top_lt
  subst hB
  refine ⟨A, rfl, fun a ha ha0 => ?_⟩
  have := s.lt_of_split ha (List.mem_singleton_self e)
  rw [ek_sent h0, ek_sent ha0] at this
  exact absurd this (lt_irrefl _)

theorem stateOf_ne {n : Nat} (h : n ≠ 0) : stateOf n = State.NOT_DELETE := by
  simp [stateOf, h]

theorem attach_left {t : AVLTree} {c : Ctx} {i : Info} {r : FT} (v k : Int)
    (hz : ZRep t c (node leaf i r)) (n : Nat) (hn0 : n ≠ 0)
    (hfresh : n ∉ (node leaf i r).ids ++ ctxIds c) :
    ZRep (AVLTree.mk (setLeft (t.heap.set n (Node.mkLive v k (some i.id))) i.id (some n))
        t.root t.set_size (t.next + 1))
      (⟨Dir.L, i, r⟩ :: c) (node leaf ⟨n, k, v, 0⟩ leaf) := by
  obtain ⟨hroot, hctx, hfoc, hnd⟩ := hz
  rw [Rep_node] at hfoc
  obtain ⟨⟨k1, k2, k3, k4, k5, k6, k7⟩, kh, kl, kr⟩ := hfoc
  simp only [ids_node, ids_leaf, List.nil_append, List.cons_append, List.mem_cons,
    List.mem_append, not_or] at hfresh
  obtain ⟨hni, hnr, hnc⟩ := hfresh
  simp only [ids_node, ids_leaf, List.nil_append, List.cons_append, List.nodup_cons,
    List.mem_append, not_or, List.nodup_append] at hnd
  obtain ⟨⟨hir, hic⟩, ndr, ndc, dis⟩ := hnd
  have oth : ∀ q, q ≠ n → q ≠ i.id →
      (setLeft (t.heap.set n (Node.mkLive v k (some i.id))) i.id (some n)).get q =
        t.heap.get q := by
    intro q h1 h2
    simp [h1, h2]
  refine ⟨hroot, ⟨?_, ?_, ?_⟩, ?_, ?_⟩
  · simp only [NodeLinks, Frame.lptr, Frame.rptr, setLeft_same]
    have : i.id ≠ n := fun e => hni e.symm
    simp [this, k1, k2, k3, k4, k6, k7]
  · exact Rep_congr (fun q hq => oth q (fun e => hnr (e ▸ hq)) (fun e => hir (e ▸ hq))) kr
  · exact RepCtx_congr (fun q hq => oth q (fun e => hnc (e ▸ hq)) (fun e => hic (e ▸ hq))) hctx
  · rw [Rep_node]
    refine ⟨?_, ?_, trivial, trivial⟩
    · simp [NodeLinks, hni, Node.mkLive, stateOf_ne hn0, ctxPar]
    · simp [hni, Node.mkLive]
  · simp only [ids_node, ids_leaf, List.nil_append, ctxIds, List.cons_append, List.nodup_cons,
      List.mem_cons, List.mem_append, not_or, List.nodup_append]
    exact ⟨⟨hni, hnr, hnc⟩, ⟨hir, hic⟩, ndr, ndc, dis⟩

theorem attach_right {t : AVLTree} {c : Ctx} {i : Info} {l : FT} (v k : Int)
    (hz : ZRep t c (node l i leaf)) (n : Nat) (hn0 : n ≠ 0)
    (hfresh : n ∉ (node l i leaf).ids ++ ctxIds c) :
    ZRep (AVLTree.mk (setRight (t.heap.set n (Node.mkLive v k (some i.id))) i.id (some n))
        t.root t.set_size (t.next + 1))
      (⟨Dir.R, i, l⟩ :: c) (node leaf ⟨n, k, v, 0⟩ leaf) := by
  obtain ⟨hroot, hctx, hfoc, hnd⟩ := hz
  rw [Rep_node] at hfoc
  obtain ⟨⟨k1, k2, k3, k4, k5, k6, k7⟩, kh, kl, kr⟩ := hfoc
  have hnl : n ∉ l.ids := fun h => hfresh (by simp [h])
  have hni : n ≠ i.id := fun h => hfresh (by simp [h])
  have hnc : n ∉ ctxIds c := fun h => hfresh (by simp [h])
  have hp : (i.id :: (l.ids ++ ctxIds c)).Nodup := by
    refine hnd.perm ?_
    simp only [ids_node, ids_leaf]
    rw [List.perm_iff_count]; intro x
    simp only [List.count_append, List.count_cons, List.count_nil]; omega
  simp only [List.nodup_cons, List.mem_append, not_or, List.nodup_append] at hp
  obtain ⟨⟨hil, hic⟩, ndl, ndc, dis⟩ := hp
  have oth : ∀ q, q ≠ n → q ≠ i.id →
      (setRight (t.heap.set n (Node.mkLive v k (some i.id))) i.id (some n)).get q =
        t.heap.get q := by
    intro q h1 h2
    simp [h1, h2]
  refine ⟨hroot, ⟨?_, ?_, ?_⟩, ?_, ?_⟩
  · simp only [NodeLinks, Frame.lptr, Frame.rptr, setRight_same]
    have : i.id ≠ n := fun e => hni e.symm
    simp [this, k1, k2, k3, k4, k5, k7]
  · exact Rep_congr (fun q hq => oth q (fun e => hnl (e ▸ hq)) (fun e => hil (e ▸ hq))) kl
  · exact RepCtx_congr (fun q hq => oth q (fun e => hnc (e ▸ hq)) (fun e => hic (e ▸ hq))) hctx
  · rw [Rep_node]
    refine ⟨?_, ?_, trivial, trivial⟩
    · simp [NodeLinks, hni, Node.mkLive, stateOf_ne hn0, ctxPar]
    · simp [hni, Node.mkLive]
  · simp only [ids_node, ids_leaf, List.nil_append, ctxIds, List.cons_append, List.nodup_cons,
      List.mem_cons, List.mem_append, not_or, List.nodup_append]
    exact ⟨⟨hni, hnl, hnc⟩, ⟨hil, hic⟩, ndl, ndc, dis⟩

section swapcore
variable {h : Heap} {s n : Nat} {lp par : Ptr}
variable (hsn : s ≠ n) (hl : (h.get s).left = lp) (hl1 : lp ≠ some n) (hl2 : lp ≠ some s)
variable (hr : (h.get s).right = some n) (nl : (h.get n).left = none)
variable (nr : (h.get n).right = none) (np : (h.get n).parent = some s)
variable (sp : (h.get s).parent = par) (hpar : par ≠ some n)
include hsn hl hl1 hl2 hr nl nr np sp hpar

theorem swap_core_n : (swap_core h s n).get n =
    { h.get n with left := lp, right := some s, parent := par, height := (h.get s).height } := by
  unfold swap_core swap_height swap_parent swap_child
  cases lp with
  | none => simp [hsn, hsn.symm, hl, hr, nl, nr, np, sp, hpar]
  | some x =>
    have x1 : x ≠ n := fun e => hl1 (by rw [e])
    have x2 : x ≠ s := fun e => hl2 (by rw [e])
    simp [hsn, hsn.symm, hl, hr, nl, nr, np, sp, hpar, x1, x2, x1.symm, x2.symm]

theorem swap_core_s : (swap_core h s n).get s =
    { h.get s with left := none, right := none, parent := some n, height := (h.get n).height } := by
  unfold swap_core swap_height swap_parent swap_child
  cases lp with
  | none => simp [hsn, hsn.symm, hl, hr, nl, nr, np, sp, hpar]
  | some x =>
    have x1 : x ≠ n := fun e => hl1 (by rw [e])
    have x2 : x ≠ s := fun e => hl2 (by rw [e])
    simp [hsn, hsn.symm, hl, hr, nl, nr, np, sp, hpar, x1, x2, x1.symm, x2.symm]

theorem swap_core_l (x : Nat) (hx : lp = some x) : (swap_core h s n).get x =
    { h.get x with parent := some n } := by
  subst hx
  unfold swap_core swap_height swap_parent swap_child
  have x1 : x ≠ n := fun e => hl1 (by rw [e])
  have x2 : x ≠ s := fun e => hl2 (by rw [e])
  simp [hsn, hsn.symm, hl, hr, nl, nr, np, sp, hpar, x1, x2, x1.symm, x2.symm]

theorem swap_core_other (q : Nat) (q1 : q ≠ s) (q2 : q ≠ n) (q3 : lp ≠ some q) :
    (swap_core h s n).get q = h.get q := by
  unfold swap_core swap_height swap_parent swap_child
  cases lp with
  | none => simp [hsn, hsn.symm, hl, hr, nl, nr, np, sp, hpar, q1, q2]
  | some x =>
    have x1 : x ≠ n := fun e => hl1 (by rw [e])
    have x2 : x ≠ s := fun e => hl2 (by rw [e])
    have x3 : q ≠ x := fun e => q3 (by rw [e])
    simp [hsn, hsn.symm, hl, hr, nl, nr, np, sp, hpar, x1, x2, x1.symm, x2.symm, q1, q2, x3]

end swapcore

theorem cpc_self (h : Heap) (old : Nat) (p : Ptr) : change_parent_child h old p p = h := by
  cases p <;> simp [change_parent_child]

theorem swap_ok {t : AVLTree} {c : Ctx} {l : FT} {s N : Info}
    (hz : ZRep t c (node l s (node leaf N leaf))) :
    ZRep (swap t s.id N.id) c
        (node l { N with height := s.height } (node leaf { s with height := N.height } leaf)) ∧
      Keeps t (swap t s.id N.id) ((node l s (node leaf N leaf)).ids ++ ctxIds c) := by
  obtain ⟨hroot, hctx, hfoc, hnd⟩ := hz
  have hfoc0 := hfoc
  simp only [Rep_node, rootPtr_node, rootPtr_leaf] at hfoc
  obtain ⟨⟨s1, s2, s3, s4, s5, s6, s7⟩, sh, rl, ⟨n1, n2, n3, n4, n5, n6, n7⟩, nh, -, -⟩ := hfoc
  have hp : (s.id :: N.id :: (l.ids ++ ctxIds c)).Nodup := by
    refine hnd.perm ?_
    simp only [ids_node, ids_leaf]
    rw [List.perm_iff_count]; intro x
    simp only [List.count_append, List.count_cons, List.count_nil]; omega
  simp only [List.nodup_cons, List.mem_cons, List.mem_append, not_or, List.nodup_append] at hp
  obtain ⟨⟨hsn, hsl, hsc⟩, ⟨hnl, hnc⟩, ndl, ndc, dis⟩ := hp
  obtain ⟨z1, z2⟩ := cpc_zip hctx (List.nodup_cons.2 ⟨hsc, ndc⟩)
    (fun x hx e => hnc (by simp only [Option.some.injEq] at e; exact e ▸ hx) :
      ∀ x ∈ ctxIds c, some N.id ≠ some x)
  have hpc : ctxPar none c ≠ some N.id := by
    cases c with
    | nil => simp [ctxPar]
    | cons f c =>
      simp only [ctxPar, ne_eq, Option.some.injEq]
      intro e
      exact hnc (by simp [ctxIds, e])
  let h1 := change_parent_child t.heap s.id (some N.id) (ctxPar none c)
  have e1s : h1.get s.id = t.heap.get s.id := z2 _ hsc
  have e1n : h1.get N.id = t.heap.get N.id := z2 _ hnc
  have hsw : swap t s.id N.id = AVLTree.mk (swap_core h1 s.id N.id)
      (if ((swap_core h1 s.id N.id).get N.id).parent = none then some N.id
        else if ((swap_core h1 s.id N.id).get s.id).parent = none then some s.id else t.root)
      t.set_size t.next := by
    simp only [swap, ne_eq, hsn, not_false_eq_true, if_true]
    rw [show (t.heap s.id).parent = ctxPar none c from s7]
    have : (change_parent_child t.heap s.id (some N.id) (ctxPar none c) N.id).parent
        = some s.id := by
      rw [show (change_parent_child t.heap s.id (some N.id) (ctxPar none c) N.id)
        = h1.get N.id from rfl, e1n, n7]
    rw [this, cpc_self]
    rfl
  have a1 : (h1.get s.id).left = l.rootPtr := by rw [e1s, s5]
  have a2 : l.rootPtr ≠ some N.id := rootPtr_ne_of_not_mem hnl
  have a3 : l.rootPtr ≠ some s.id := rootPtr_ne_of_not_mem hsl
  have a4 : (h1.get s.id).right = some N.id := by rw [e1s, s6]
  have a5 : (h1.get N.id).left = none := by rw [e1n, n5]
  have a6 : (h1.get N.id).right = none := by rw [e1n, n6]
  have a7 : (h1.get N.id).parent = some s.id := by rw [e1n, n7]
  have a8 : (h1.get s.id).parent = ctxPar none c := by rw [e1s, s7]
  have cn := swap_core_n hsn a1 a2 a3 a4 a5 a6 a7 a8 hpc
  have cs := swap_core_s hsn a1 a2 a3 a4 a5 a6 a7 a8 hpc
  have co := swap_core_other hsn a1 a2 a3 a4 a5 a6 a7 a8 hpc
  have cl := swap_core_l hsn a1 a2 a3 a4 a5 a6 a7 a8 hpc
  rw [hsw]
  refine ⟨⟨?_, ?_, ?_, ?_⟩, ⟨rfl, rfl, ?_⟩⟩
  · simp only [cn, cs, rootPtr_node]
    split_ifs with hp1 hp2
    · cases c with
      | nil => rfl
      | cons f c => simp [ctxPar] at hp1
    · simp at hp2
    · rw [hroot]
      exact ctxTop_of_par hp1
  · refine RepCtx_congr (fun q hq => ?_) z1
    exact co q (fun e => hsc (e ▸ hq)) (fun e => hnc (e ▸ hq))
      (rootPtr_ne_of_not_mem (fun hl => dis hl hq))
  · simp only [Rep_node, rootPtr_node, rootPtr_leaf, Rep_leaf, and_true]
    refine ⟨?_, ?_, ?_, ?_, ?_⟩
    · rw [cn, e1n]
      simp [NodeLinks, n1, n2, n3, n4]
    · rw [cn, e1s]
      simp [sh]
    · cases l with
      | leaf => trivial
      | node a x b =>
        simp only [ids_node, List.mem_append, List.mem_cons, not_or, List.nodup_append,
          List.nodup_cons, List.disjoint_cons_right] at hsl hnl ndl
        have hx : x.id ∉ ctxIds c := fun hc => dis (by simp) hc
        rw [Rep_node] at rl ⊢
        obtain ⟨⟨k1, k2, k3, k4, k5, k6, k7⟩, kh, kl, kr⟩ := rl
        rw [cl x.id rfl, z2 _ hx]
        refine ⟨by simp [NodeLinks, k1, k2, k3, k4, k5, k6], by simp [kh], ?_, ?_⟩
        · refine Rep_congr (fun q hq => ?_) kl
          rw [co q (fun e => hsl.1 (e ▸ hq)) (fun e => hnl.1 (e ▸ hq))
            (by simp only [rootPtr_node, ne_eq, Option.some.injEq]
                rintro rfl
                exact ndl.2.2.1 hq)]
          exact z2 q (fun hc => dis (by simp [hq]) hc)
        · refine Rep_congr (fun q hq => ?_) kr
          rw [co q (fun e => hsl.2.2 (e ▸ hq)) (fun e => hnl.2.2 (e ▸ hq))
            (by simp only [rootPtr_node, ne_eq, Option.some.injEq]
                rintro rfl
                exact ndl.2.1.1 hq)]
          exact z2 q (fun hc => dis (by simp [hq]) hc)
    · rw [cs, e1s]
      simp [NodeLinks, s1, s2, s3, s4]
    · rw [cs, e1n]
      simp [nh]
  · refine hnd.perm ?_
    simp only [ids_node, ids_leaf]
    rw [List.perm_iff_count]; intro x
    simp only [List.count_append, List.count_cons, List.count_nil]; omega
  · intro q hq
    simp only [ids_node, ids_leaf, List.mem_append, List.mem_cons, not_or, List.nil_append,
      List.not_mem_nil, or_false] at hq
    show (swap_core h1 s.id N.id).get q = t.heap.get q
    rw [co q hq.1.2.1 hq.1.2.2 (rootPtr_ne_of_not_mem hq.1.1)]
    exact z2 q hq.2

theorem length_le_of_nodup_lt {l : List Nat} {n : Nat} (nd : l.Nodup) (h : ∀ x ∈ l, x < n) :
    l.length ≤ n := by
  rw [← List.toFinset_card_of_nodup nd, ← Finset.card_range n]
  apply Finset.card_le_card
  intro x hx
  simp only [List.mem_toFinset] at hx
  simpa using h x hx

theorem CtxBal_of_plug : ∀ (c : Ctx) (g : FT), (plug c g).Acc → (plug c g).Bal →
    CtxBal c g.ht ∧ g.Acc ∧ g.Bal := by
  intro c
  induction c with
  | nil => intro g a b; exact ⟨trivial, a, b⟩
  | cons fr c ih =>
    intro g a b
    obtain ⟨cb, fa, fb⟩ := ih (fr.fill g) a b
    cases hd : fr.dir with
    | L =>
      simp only [Frame.fill, hd, Acc_node, Bal_node, ht_node] at cb fa fb
      exact ⟨⟨fa.2.1, fb.2.1, fb.2.2.1, fb.2.2.2, cb⟩, fa.1, fb.1⟩
    | R =>
      simp only [Frame.fill, hd, Acc_node, Bal_node, ht_node] at cb fa fb
      rw [max_comm] at cb
      exact ⟨⟨fa.1, fb.1, fb.2.2.2, fb.2.2.1, cb⟩, fa.2.1, fb.2.1⟩

theorem CtxBal_info (c : Ctx) (o : Int) (d : Dir) (i j : Info) (s : FT)
    (h : CtxBal (⟨d, i, s⟩ :: c) o) : CtxBal (⟨d, j, s⟩ :: c) o := h

theorem lastLeft_plug_last : ∀ (c : Ctx) (g : FT), entsAfter c = [] → g ≠ leaf →
    lastLeft (plug c g) = lastLeft g := by
  intro c
  induction c with
  | nil => intro g _ _; rfl
  | cons fr c ih =>
    intro g ha hg
    cases hd : fr.dir with
    | L => simp [entsAfter, hd] at ha
    | R =>
      simp only [entsAfter, hd] at ha
      simp only [plug, Frame.fill, hd]
      rw [ih _ ha (by simp)]
      cases g with
      | leaf => exact absurd rfl hg
      | node a b d => rfl

theorem lastLeft_plug_indep : ∀ (c : Ctx) (g g2 : FT), entsAfter c ≠ [] → g ≠ leaf →
    g2 ≠ leaf → lastLeft (plug c g2) ≠ leaf → lastLeft (plug c g) ≠ leaf := by
  intro c
  induction c with
  | nil => intro g g2 ha; simp [entsAfter] at ha
  | cons fr c ih =>
    intro g g2 ha hg hg2
    cases hd : fr.dir with
    | L =>
      simp only [plug, Frame.fill, hd]
      apply LMono.plug
      refine ⟨by simp, ?_⟩
      cases hs : fr.sib with
      | leaf => simp only [lastLeft_node_leaf]; exact fun _ => hg
      | node a b d => simp
    | R =>
      simp only [entsAfter, hd] at ha
      simp only [plug, Frame.fill, hd]
      exact ih _ _ ha (by simp) (by simp)

theorem ctx_length_le (c : Ctx) : c.length ≤ (ctxIds c).length := by
  induction c with
  | nil => simp [ctxIds]
  | cons fr c ih => simp only [ctxIds, List.length_cons, List.length_append]; omega

theorem ids_plug_perm (c : Ctx) (g : FT) : ((plug c g).ids).Perm (g.ids ++ ctxIds c) := by
  induction c generalizing g with
  | nil => simp [plug, ctxIds]
  | cons fr c ih =>
    refine (ih (fr.fill g)).trans ?_
    cases hd : fr.dir <;> simp only [Frame.fill, hd, ids_node, ctxIds] <;>
      (rw [List.perm_iff_count]; intro x
       simp only [List.count_append, List.count_cons, List.count_nil]; omega)

theorem ents_ids_mem {T : FT} {e : Nat × Int × Int} (h : e ∈ T.ents) : e.1 ∈ T.ids := by
  rw [ids_eq_ents]
  exact List.mem_map_of_mem _ h

theorem Rep_ent {h : Heap} {par : Ptr} {T : FT} (rp : Rep h par T) {e : Nat × Int × Int}
    (he : e ∈ T.ents) :
    (h.get e.1).key = e.2.1 ∧ (h.get e.1).value = e.2.2 ∧ (h.get e.1).state = stateOf e.1 ∧
      (h.get e.1).freed = false := by
  induction T generalizing par with
  | leaf => simp at he
  | node l i r ihl ihr =>
    rw [Rep_node] at rp
    simp only [ents_node, List.mem_append, List.mem_cons] at he
    rcases he with he | rfl | he
    · exact ihl rp.2.2.1 he
    · exact ⟨rp.1.1, rp.1.2.1, rp.1.2.2.1, rp.1.2.2.2.1⟩
    · exact ihr rp.2.2.2 he

theorem ZRep.fields {t t2 : AVLTree} {c : Ctx} {g : FT} (hz : ZRep t c g)
    (h1 : t2.heap = t.heap) (h2 : t2.root = t.root) : ZRep t2 c g :=
  ⟨h2 ▸ hz.root, h1 ▸ hz.ctx, h1 ▸ hz.foc, hz.nodup⟩

/-- The rebalancing walk of `insert`, started at a freshly placed leaf. -/
theorem ins_finish {t : AVLTree} {c : Ctx} {x : Info} (hz : ZRep t c (node leaf x leaf))
    (hx : x.height = 0) (cb : CtxBal c (-1)) (F : Nat) (hF : 2 * c.length + 2 ≤ F) :
    ∃ t2 T, balance_insert F t (some x.id) = some t2 ∧ ZRep t2 [] T ∧ T.Acc ∧ T.Bal ∧
      T.ents = (plug c (node leaf x leaf)).ents ∧
      Keeps t t2 ((node leaf x leaf).ids ++ ctxIds c) ∧
      (lastLeft T ≠ leaf → lastLeft (plug c (node leaf x leaf)) ≠ leaf) := by
  obtain ⟨F, rfl⟩ : ∃ F2, F = F2 + 2 := ⟨F - 2, by omega⟩
  have ha : (node leaf x leaf).Acc := by simp [hx]
  have hb : (node leaf x leaf).Bal := by simp
  obtain ⟨t2, k, hk, z2, k2, run⟩ := ins_visit hz trivial trivial trivial trivial
    (by simp) (by simp) (by simp) (by simp)
  rw [rebal_ins_noop ha hb] at z2
  obtain ⟨t3, T, e3, z3, Ta, Tb, Te, k3, Tl⟩ :=
    ins_up c t2 (node leaf x leaf) (-1) (F + k) z2 ha hb cb (Or.inr ⟨by simp, Or.inr (by simp)⟩)
      (by omega)
  exact ⟨t3, T, by rw [run, e3], z3, Ta, Tb, Te, k2.kTrans k3, Tl⟩

theorem SortedE.insert_mid {P Q : List (Nat × Int × Int)} {x : Nat × Int × Int}
    (s : SortedE (P ++ Q)) (hP : ∀ e ∈ P, ek e < ek x) (hQ : ∀ e ∈ Q, ek x < ek e) :
    SortedE (P ++ x :: Q) := by
  simp only [SortedE, List.pairwise_append, List.pairwise_cons, List.mem_cons] at s ⊢
  refine ⟨s.1, ⟨hQ, s.2.1⟩, ?_⟩
  rintro a ha b (rfl | hb)
  · exact hP a ha
  · exact s.2.2 a ha b hb

theorem SortedE.erase_mid {P Q : List (Nat × Int × Int)} {x : Nat × Int × Int}
    (s : SortedE (P ++ x :: Q)) : SortedE (P ++ Q) := by
  simp only [SortedE, List.pairwise_append, List.pairwise_cons, List.mem_cons] at s ⊢
  exact ⟨s.1, s.2.1.2, fun a ha b hb => s.2.2 a ha b (Or.inr hb)⟩

theorem Inv.ne_leaf {t : AVLTree} {T : FT} (hI : Inv t T) : T ≠ leaf := by
  obtain ⟨v, hv⟩ := hI.good.hasS
  rintro rfl
  simp at hv

theorem Inv.ids_len {t : AVLTree} {T : FT} (hI : Inv t T) : T.ids.length ≤ t.next :=
  length_le_of_nodup_lt (by simpa [ctxIds] using hI.rep.nodup) hI.alloc

theorem Inv.root {t : AVLTree} {T : FT} (hI : Inv t T) : t.root = T.rootPtr := hI.rep.root

theorem locate {t : AVLTree} {T : FT} (hI : Inv t T) (k : Int) :
    ∃ c l i r, find_node lt t k = some (some i.id) ∧ ZRep t c (node l i r) ∧
      plug c (node l i r) = T ∧ PathOK k c ∧ Stop k l i r := by
  have := find_loop_ok t k T [] t.fuel hI.rep hI.ne_leaf
    (by have := hI.ids_len; simp only [AVLTree.fuel]; omega) trivial
  obtain ⟨c, l, i, r, e1, e2, e3, e4, e5⟩ := this
  refine ⟨c, l, i, r, ?_, e2, e3, e4, e5⟩
  rw [find_node, hI.root]
  exact e1

theorem ents_eq_nil {t : FT} (h : t.ents = []) : t = leaf := by
  cases t <;> simp at h ⊢

theorem located {T : FT} (g : Good T) {k : Int} {c : Ctx} {l r : FT} {i : Info}
    (hp : plug c (node l i r) = T) (pk : PathOK k c) : Located T k c l i r := by
  have he : T.ents =
      entsBefore c ++ ((l.ents ++ (i.id, i.key, i.value) :: r.ents) ++ entsAfter c) := by
    rw [← hp, ents_plug]; rfl
  have hs := g.sorted
  rw [he] at hs
  have hmid : SortedE (l.ents ++ (i.id, i.key, i.value) :: r.ents) := hs.right.left
  have hleft : ∀ e ∈ l.ents, ek e < ek (i.id, i.key, i.value) :=
    fun e h => hmid.lt_of_split h (by simp)
  have hsent : i.id = 0 → i.key = 0 ∧ r = leaf ∧ entsAfter c = [] := by
    intro h0
    obtain ⟨v, hv⟩ := g.hasS
    have hI : ((i.id, i.key, i.value) : Nat × Int × Int) ∈ T.ents := by rw [he]; simp
    have := g.sorted.uniq hI hv (by rw [ek_sent (e := (i.id, i.key, i.value)) h0,
      ek_sent (e := (0, 0, v)) rfl])
    have hk0 : i.key = 0 := by
      have := congrArg (fun e => e.2.1) this
      simpa using this
    have hr : ∀ e ∈ r.ents ++ entsAfter c, False := by
      intro e h
      have h1 : SortedE ((i.id, i.key, i.value) :: (r.ents ++ entsAfter c)) := by
        have := hs.right
        rw [List.append_assoc] at this
        exact this.right
      simp only [SortedE, List.pairwise_cons] at h1
      have := h1.1 e h
      rw [ek_sent (e := (i.id, i.key, i.value)) h0] at this
      exact absurd this not_top_lt
    have hr2 : r.ents ++ entsAfter c = [] := List.eq_nil_iff_forall_not_mem.2 hr
    simp only [List.append_eq_nil] at hr2
    exact ⟨hk0, ents_eq_nil hr2.1, hr2.2⟩
  refine ⟨he, before_lt k c _ pk hs (by simp), after_gt k c _ pk hs, hleft,
    fun e h => (List.pairwise_cons.1 hmid.right).1 e h, hsent, ?_⟩
  intro h0 e hel
  obtain ⟨-, hr, ha⟩ := hsent h0
  subst hr
  have hll : lastLeft T = l := by
    rw [← hp, lastLeft_plug_last c _ ha (by simp)]
    rfl
  have hl : l ≠ leaf := by
    rintro rfl
    simp at hel
  have hne : e.1 ≠ 0 := by
    intro e0
    have := hleft e hel
    rw [ek_sent e0, ek_sent (e := (i.id, i.key, i.value)) h0] at this
    exact lt_irrefl _ this
  exact ⟨hne, g.sleft (hll ▸ hl) e (by rw [he]; simp [hel]) hne⟩

theorem found_of_stop {T : FT} {k : Int} {c : Ctx} {l r : FT} {i : Info}
    (L : Located T k c l i r) (st : Stop k l i r) {e : Nat × Int × Int} (he : e ∈ T.ents)
    (h0 : e.1 ≠ 0) (hk : e.2.1 = k) : e = (i.id, i.key, i.value) := by
  have eke : ek e = (k : WithTop Int) := by rw [ek_live h0, hk]
  rw [L.ents] at he
  simp only [List.mem_append, List.mem_cons] at he
  rcases he with he | (he | he | he) | he
  · have := L.before e he
    rw [eke] at this
    exact absurd this (lt_irrefl _)
  · have h1 := L.left e he
    rw [eke] at h1
    by_cases hi : i.id = 0
    · have := (L.sentl hi e he).2
      obtain ⟨hk0, -, -⟩ := L.sent hi
      rcases st with s | ⟨-, -, s⟩ | ⟨-, s, -⟩
      · omega
      · subst s; simp at he
      · omega
    · rw [ek_live (e := (i.id, i.key, i.value)) hi] at h1
      have h2 : k < i.key := WithTop.coe_lt_coe.1 h1
      rcases st with s | ⟨-, -, s⟩ | ⟨-, s, -⟩
      · omega
      · subst s; simp at he
      · exact absurd h2 s
  · exact he
  · have h1 := L.right e he
    rw [eke] at h1
    obtain ⟨hi, h2⟩ := ek_lt_coe h1
    simp only at h2
    rcases st with s | ⟨-, s, -⟩ | ⟨-, -, s⟩
    · omega
    · omega
    · subst s; simp at he
  · have := L.after e he
    rw [eke] at this
    exact absurd this (lt_irrefl _)

theorem Located.mem_self {T : FT} {k : Int} {c : Ctx} {l r : FT} {i : Info}
    (L : Located T k c l i r) : ((i.id, i.key, i.value) : Nat × Int × Int) ∈ T.ents := by
  rw [L.ents]; simp

/-- A key placed right before an entry of a list of negative keys, or right
before the sentinel, is negative. -/
theorem neg_of_succ {y : Nat × Int × Int} {k : Int}
    (hy : k < y.2.1) (hneg : y.1 ≠ 0 → y.2.1 < 0) (hs : y.1 = 0 → y.2.1 = 0) : k < 0 := by
  by_cases h : y.1 = 0
  · have := hs h; omega
  · have := hneg h; omega

theorem insert_build {t t3 : AVLTree} {T : FT} {c : Ctx} {x : Info} {k v : Int}
    (hI : Inv t T) (hz : ZRep t3 c (node leaf x leaf)) (hx : x.height = 0)
    (cb : CtxBal c (-1)) (hn : t3.next = t.next + 1) (hsz : t3.set_size = t.set_size + 1)
    (P Q : List (Nat × Int × Int)) (hT : T.ents = P ++ Q)
    (hE : (plug c (node leaf x leaf)).ents = P ++ (t.next, k, v) :: Q)
    (hs : SortedE (P ++ (t.next, k, v) :: Q))
    (hsl : lastLeft (plug c (node leaf x leaf)) ≠ leaf → AllNeg (P ++ (t.next, k, v) :: Q))
    (hout : ∀ q, q ∉ T.ids → q ≠ t.next → t3.heap.get q = t.heap.get q) :
    ∃ t5 T2, balance_insert t3.fuel t3 (some x.id) = some t5 ∧ Inv t5 T2 ∧
      T2.ents = P ++ (t.next, k, v) :: Q ∧ t5.next = t.next + 1 ∧
      (∀ q, q ∉ T.ids → q ≠ t.next → t5.heap.get q = t.heap.get q) := by
  have hids : ((plug c (node leaf x leaf)).ids) = (P ++ (t.next, k, v) :: Q).map (fun e => e.1) := by
    rw [ids_eq_ents, hE]
  have hTids : T.ids = (P ++ Q).map (fun e => e.1) := by rw [ids_eq_ents, hT]
  have hperm := ids_plug_perm c (node leaf x leaf)
  have hlen : ((node leaf x leaf).ids ++ ctxIds c).length = T.ids.length + 1 := by
    rw [← hperm.length_eq, hids, hTids]
    simp only [List.length_map, List.length_append, List.length_cons]
    omega
  have hcl := ctx_length_le c
  have hTl := hI.ids_len
  have hF : 2 * c.length + 2 ≤ t3.fuel := by
    simp only [List.length_append, ids_node, ids_leaf, List.length_cons, List.length_nil,
      List.nil_append] at hlen
    simp only [AVLTree.fuel, hn]
    omega
  obtain ⟨t5, T2, e5, z5, Ta, Tb, Te, k5, Tl⟩ := ins_finish hz hx cb t3.fuel hF
  have hmem : ∀ q, q ∈ (node leaf x leaf).ids ++ ctxIds c ↔ q = t.next ∨ q ∈ T.ids := by
    intro q
    rw [← hperm.mem_iff, hids, hTids]
    simp only [List.map_append, List.map_cons, List.mem_append, List.mem_cons]
    tauto
  have hT2ids : T2.ids = (P ++ (t.next, k, v) :: Q).map (fun e => e.1) := by
    rw [ids_eq_ents, Te, hE]
  refine ⟨t5, T2, e5, ⟨z5, ⟨Ta, Tb, ?_, ?_, ?_⟩, ?_, ?_⟩, Te.trans hE, k5.next.trans hn, ?_⟩
  · rw [Te, hE]; exact hs
  · obtain ⟨v0, hv0⟩ := hI.good.hasS
    refine ⟨v0, ?_⟩
    rw [Te, hE]
    rw [hT] at hv0
    simp only [List.mem_append, List.mem_cons] at hv0 ⊢
    tauto
  · intro hl
    rw [Te, hE]
    exact hsl (Tl hl)
  · intro q hq
    rw [k5.next, hn]
    rw [hT2ids] at hq
    have : q = t.next ∨ q ∈ T.ids := by
      rw [hTids]
      simp only [List.map_append, List.map_cons, List.mem_append, List.mem_cons] at hq ⊢
      tauto
    rcases this with rfl | h
    · omega
    · have := hI.alloc q h; omega
  · rw [k5.size, hsz, hT2ids]
    have := hI.size
    rw [hTids] at this
    simp only [List.map_append, List.map_cons, List.length_append, List.length_cons,
      List.length_map] at this ⊢
    omega
  · intro q h1 h2
    rw [k5.out q (fun h => by rcases (hmem q).1 h with a | a; exact h2 a; exact h1 a)]
    exact hout q h1 h2

theorem insert_dup (t : AVLTree) (v k : Int) (p : Nat)
    (hfind : find_node lt t k = some (some p))
    (hc : ¬ ((t.heap.get p).key ≠ k ∨ (t.heap.get p).state = State.TAIL)) :
    insert lt t v k = some t := by
  simp only [insert, hfind]
  rw [if_neg hc]

theorem insert_new (t : AVLTree) (v k : Int) (p : Nat) (hpn : p ≠ t.next)
    (hfind : find_node lt t k = some (some p))
    (hc : (t.heap.get p).key ≠ k ∨ (t.heap.get p).state = State.TAIL) :
    insert lt t v k =
      if ((attach_heap t v k p).get p).state = State.TAIL ∧
          ((attach_heap t v k p).get p).right ≠ none then
        balance_insert (2 * (t.next + 1) + 2)
          (AVLTree.mk (swap (AVLTree.mk (attach_heap t v k p) t.root t.set_size (t.next + 1))
              p t.next).heap
            (swap (AVLTree.mk (attach_heap t v k p) t.root t.set_size (t.next + 1)) p t.next).root
            (t.set_size + 1) (t.next + 1)) (some p)
      else
        balance_insert (2 * (t.next + 1) + 2)
          (AVLTree.mk (attach_heap t v k p) t.root (t.set_size + 1) (t.next + 1))
          (some t.next) := by
  simp only [insert, hfind]
  rw [if_pos hc]
  have e1 : ((t.heap.set t.next (Node.mkLive v k (some p))) t.next).key = k := by
    simp [Node.mkLive]
  have e2 : ((t.heap.set t.next (Node.mkLive v k (some p))) p).key = (t.heap.get p).key := by
    simp [hpn]
  simp only [e1, e2]
  have e3 : (if lt k (t.heap.get p).key = true then
      setLeft (t.heap.set t.next (Node.mkLive v k (some p))) p (some t.next)
    else setRight (t.heap.set t.next (Node.mkLive v k (some p))) p (some t.next))
      = attach_heap t v k p := rfl
  simp only [e3]
  split_ifs with h1
  · simp only [swap, AVLTree.fuel]
    split_ifs <;> rfl
  · rfl

theorem Good.skey {T : FT} (g : Good T) {e : Nat × Int × Int} (he : e ∈ T.ents)
    (h0 : e.1 = 0) : e.2.1 = 0 := by
  obtain ⟨v, hv⟩ := g.hasS
  have := g.sorted.uniq he hv (by rw [ek_sent h0, ek_sent (e := (0, 0, v)) rfl])
  rw [this]

theorem Inv.zero_lt {t : AVLTree} {T : FT} (hI : Inv t T) : 0 < t.next := by
  obtain ⟨v, hv⟩ := hI.good.hasS
  exact hI.alloc 0 (ents_ids_mem hv)

theorem Inv.fresh {t : AVLTree} {T : FT} (hI : Inv t T) : t.next ∉ T.ids :=
  fun h => lt_irrefl _ (hI.alloc _ h)

theorem zids_mem {c : Ctx} {g : FT} {T : FT} (hp : plug c g = T) (q : Nat) :
    q ∈ g.ids ++ ctxIds c ↔ q ∈ T.ids := by
  rw [← hp]
  exact ((ids_plug_perm c g).mem_iff).symm

/-- If nothing follows the stop node, it is the sentinel. -/
theorem Located.last_is_sent {T : FT} (g : Good T) {k : Int} {c : Ctx} {l : FT} {i : Info}
    (L : Located T k c l i leaf) (ha : entsAfter c = []) : i.id = 0 := by
  obtain ⟨v0, hv0⟩ := g.hasS
  rw [L.ents, ha] at hv0
  simp only [ents_leaf, List.append_nil, List.mem_append, List.mem_singleton,
    List.mem_cons, List.not_mem_nil, or_false] at hv0
  rcases hv0 with h | h | h
  · have := L.before _ h
    rw [ek_sent (e := (0, 0, v0)) rfl] at this
    exact absurd this not_top_lt
  · by_contra hi
    have := L.left _ h
    rw [ek_sent (e := (0, 0, v0)) rfl] at this
    exact absurd this not_top_lt
  · have := congrArg (fun e => e.1) h
    simpa using this.symm

theorem left_sorted {T : FT} (g : Good T) {k v : Int} {n : Nat} (hn0 : n ≠ 0) {c : Ctx}
    {r : FT} {i : Info} (L : Located T k c leaf i r) (hlt : k < i.key) :
    SortedE (entsBefore c ++ (n, k, v) :: ((i.id, i.key, i.value) :: (r.ents ++ entsAfter c))) := by
  have ekN : ek (n, k, v) = (k : WithTop Int) := ek_live (e := (n, k, v)) hn0
  have hkI : (k : WithTop Int) < ek (i.id, i.key, i.value) := coe_lt_ek (fun _ => hlt)
  have hs := g.sorted
  rw [L.ents] at hs
  refine SortedE.insert_mid (by simpa using hs) (fun e he => ?_) (fun e he => ?_)
  · rw [ekN]; exact L.before e he
  · rw [ekN]
    simp only [List.mem_cons, List.mem_append] at he
    rcases he with rfl | he | he
    · exact hkI
    · exact lt_trans hkI (L.right e he)
    · exact L.after e he

theorem left_sleft {T : FT} (g : Good T) {k v : Int} {n : Nat} {c : Ctx}
    {r : FT} {i : Info} {x : Info} (L : Located T k c leaf i r) (hlt : k < i.key)
    (hp : plug c (node leaf i r) = T)
    (hll : lastLeft (plug c (node (node leaf x leaf) i r)) ≠ leaf) :
    AllNeg (entsBefore c ++ (n, k, v) :: ((i.id, i.key, i.value) :: (r.ents ++ entsAfter c))) := by
  by_cases hcase : r = leaf ∧ entsAfter c = []
  · obtain ⟨hr, ha⟩ := hcase
    subst hr
    have hi0 : i.id = 0 := L.last_is_sent g ha
    have hk0 : k < 0 := by have := (L.sent hi0).1; omega
    intro e he h0
    simp only [ents_leaf, List.nil_append, ha, List.append_nil, List.mem_append,
      List.mem_cons, List.mem_singleton, List.not_mem_nil, or_false] at he
    rcases he with he | rfl | rfl
    · have := (ek_lt_coe (L.before e he)).2; omega
    · exact hk0
    · exact absurd hi0 h0
  · have hT : lastLeft T ≠ leaf := by
      rw [← hp]
      by_cases hr : r = leaf
      · have ha : entsAfter c ≠ [] := fun h => hcase ⟨hr, h⟩
        exact lastLeft_plug_indep c _ _ ha (by simp) (by simp) hll
      · refine LMono.plug ⟨by simp, ?_⟩ c hll
        cases r with
        | leaf => exact absurd rfl hr
        | node a b d => simp
    have hneg := g.sleft hT
    have hk0 : k < 0 := neg_of_succ (y := (i.id, i.key, i.value)) hlt
      (hneg _ L.mem_self) (fun h => (L.sent h).1)
    intro e he h0
    simp only [List.mem_append, List.mem_cons] at he
    rcases he with he | rfl | he
    · exact hneg e (by rw [L.ents]; simp [he]) h0
    · exact hk0
    · refine hneg e ?_ h0
      rw [L.ents]
      simp only [ents_leaf, List.nil_append, List.mem_append, List.mem_cons]
      tauto

theorem right_sorted {T : FT} (g : Good T) {k v : Int} {n : Nat} (hn0 : n ≠ 0) {c : Ctx}
    {l : FT} {i : Info} (L : Located T k c l i leaf) (hi : i.id ≠ 0) (hlt : i.key < k) :
    SortedE ((entsBefore c ++ (l.ents ++ [(i.id, i.key, i.value)])) ++
      (n, k, v) :: entsAfter c) := by
  have ekN : ek (n, k, v) = (k : WithTop Int) := ek_live (e := (n, k, v)) hn0
  have hIk : ek (i.id, i.key, i.value) < (k : WithTop Int) := by
    rw [ek_live (e := (i.id, i.key, i.value)) hi]
    exact WithTop.coe_lt_coe.2 hlt
  have hs := g.sorted
  rw [L.ents] at hs
  refine SortedE.insert_mid (by simpa using hs) (fun e he => ?_) (fun e he => ?_)
  · rw [ekN]
    simp only [List.mem_append, List.mem_singleton] at he
    rcases he with he | he | rfl
    · exact L.before e he
    · exact lt_trans (L.left e he) hIk
    · exact hIk
  · rw [ekN]; exact L.after e he

theorem right_sleft {T : FT} (g : Good T) {k v : Int} {n : Nat} {c : Ctx}
    {l : FT} {i : Info} {x : Info} (L : Located T k c l i leaf) (hi : i.id ≠ 0)
    (pk : PathOK k c) (hp : plug c (node l i leaf) = T)
    (hll : lastLeft (plug c (node l i (node leaf x leaf))) ≠ leaf) :
    AllNeg ((entsBefore c ++ (l.ents ++ [(i.id, i.key, i.value)])) ++
      (n, k, v) :: entsAfter c) := by
  have ha : entsAfter c ≠ [] := fun h => hi (L.last_is_sent g h)
  have hT : lastLeft T ≠ leaf := by
    rw [← hp]
    exact lastLeft_plug_indep c _ _ ha (by simp) (by simp) hll
  have hneg := g.sleft hT
  obtain ⟨y, Q, hy⟩ := List.exists_cons_of_ne_nil ha
  have hyT : y ∈ T.ents := by rw [L.ents, hy]; simp
  have hk0 : k < 0 := neg_of_succ (y := y) (after_head_raw k c pk y Q hy)
    (hneg y hyT) (fun h => g.skey hyT h)
  intro e he h0
  simp only [List.mem_append, List.mem_cons, List.mem_singleton, List.not_mem_nil,
    or_false] at he
  rcases he with (he | he | rfl) | rfl | he
  · exact hneg e (by rw [L.ents]; simp [he]) h0
  · exact hneg e (by rw [L.ents]; simp [he]) h0
  · exact hneg _ L.mem_self h0
  · exact hk0
  · exact hneg e (by rw [L.ents]; simp [he]) h0

theorem swap_sorted {T : FT} (g : Good T) {k v : Int} {n : Nat} (hn0 : n ≠ 0) {c : Ctx}
    {l : FT} {i : Info} (L : Located T k c l i leaf) (hi : i.id = 0) (hk : ¬ k < i.key) :
    SortedE ((entsBefore c ++ l.ents) ++ (n, k, v) :: [(i.id, i.key, i.value)]) := by
  have ekN : ek (n, k, v) = (k : WithTop Int) := ek_live (e := (n, k, v)) hn0
  obtain ⟨hk0, -, ha⟩ := L.sent hi
  have hs := g.sorted
  rw [L.ents, ha] at hs
  refine SortedE.insert_mid (by simpa using hs) (fun e he => ?_) (fun e he => ?_)
  · rw [ekN]
    simp only [List.mem_append] at he
    rcases he with he | he
    · exact L.before e he
    · have := L.sentl hi e he
      rw [ek_live this.1]
      apply WithTop.coe_lt_coe.2
      omega
  · rw [ekN]
    simp only [List.mem_singleton] at he
    rw [he, ek_sent (e := (i.id, i.key, i.value)) hi]
    exact WithTop.coe_lt_top k

theorem insert_left {t : AVLTree} {T : FT} (hI : Inv t T) (v k : Int) {c : Ctx} {r : FT}
    {i : Info} (hz : ZRep t c (node leaf i r)) (hp : plug c (node leaf i r) = T)
    (L : Located T k c leaf i r) (hlt : k < i.key) :
    InsertPost t T v k (balance_insert (2 * (t.next + 1) + 2)
      (AVLTree.mk (setLeft (t.heap.set t.next (Node.mkLive v k (some i.id))) i.id (some t.next))
        t.root (t.set_size + 1) (t.next + 1)) (some t.next)) := by
  have hn0 : t.next ≠ 0 := Nat.pos_iff_ne_zero.1 hI.zero_lt
  have hfresh : t.next ∉ (node leaf i r).ids ++ ctxIds c :=
    fun h => hI.fresh ((zids_mem hp _).1 h)
  have hiT : i.id ∈ T.ids := (zids_mem hp _).1 (by simp)
  have z3 : ZRep (AVLTree.mk (setLeft (t.heap.set t.next (Node.mkLive v k (some i.id)))
      i.id (some t.next)) t.root (t.set_size + 1) (t.next + 1))
      (⟨Dir.L, i, r⟩ :: c) (node leaf ⟨t.next, k, v, 0⟩ leaf) :=
    (attach_left v k hz t.next hn0 hfresh).fields rfl rfl
  have cb : CtxBal (⟨Dir.L, i, r⟩ :: c) (-1) :=
    (CtxBal_of_plug (⟨Dir.L, i, r⟩ :: c) leaf (by simpa [plug, Frame.fill, hp] using hI.good.acc)
      (by simpa [plug, Frame.fill, hp] using hI.good.bal)).1
  have hT : T.ents = entsBefore c ++ ((i.id, i.key, i.value) :: (r.ents ++ entsAfter c)) := by
    rw [L.ents]; simp
  have hE : (plug (⟨Dir.L, i, r⟩ :: c) (node leaf ⟨t.next, k, v, 0⟩ leaf)).ents =
      entsBefore c ++ (t.next, k, v) :: ((i.id, i.key, i.value) :: (r.ents ++ entsAfter c)) := by
    rw [ents_plug]; simp [entsBefore, entsAfter]
  have hout : ∀ q, q ∉ T.ids → q ≠ t.next →
      (setLeft (t.heap.set t.next (Node.mkLive v k (some i.id))) i.id (some t.next)).get q =
        t.heap.get q := by
    intro q h1 h2
    have : q ≠ i.id := fun e => h1 (e ▸ hiT)
    simp [this, h2]
  obtain ⟨t5, T2, e5, I5, E5, n5, o5⟩ := insert_build (k := k) (v := v) hI z3 rfl cb rfl rfl
    _ _ hT hE (left_sorted hI.good hn0 L hlt) (left_sleft hI.good L hlt hp) hout
  exact ⟨t5, T2, _, _, e5, I5, hT, E5, n5, o5⟩

theorem insert_right {t : AVLTree} {T : FT} (hI : Inv t T) (v k : Int) {c : Ctx} {l : FT}
    {i : Info} (hz : ZRep t c (node l i leaf)) (hp : plug c (node l i leaf) = T)
    (L : Located T k c l i leaf) (pk : PathOK k c) (hi : i.id ≠ 0) (hlt : i.key < k) :
    InsertPost t T v k (balance_insert (2 * (t.next + 1) + 2)
      (AVLTree.mk (setRight (t.heap.set t.next (Node.mkLive v k (some i.id))) i.id (some t.next))
        t.root (t.set_size + 1) (t.next + 1)) (some t.next)) := by
  have hn0 : t.next ≠ 0 := Nat.pos_iff_ne_zero.1 hI.zero_lt
  have hfresh : t.next ∉ (node l i leaf).ids ++ ctxIds c :=
    fun h => hI.fresh ((zids_mem hp _).1 h)
  have hiT : i.id ∈ T.ids := (zids_mem hp _).1 (by simp)
  have z3 : ZRep (AVLTree.mk (setRight (t.heap.set t.next (Node.mkLive v k (some i.id)))
      i.id (some t.next)) t.root (t.set_size + 1) (t.next + 1))
      (⟨Dir.R, i, l⟩ :: c) (node leaf ⟨t.next, k, v, 0⟩ leaf) :=
    (attach_right v k hz t.next hn0 hfresh).fields rfl rfl
  have cb : CtxBal (⟨Dir.R, i, l⟩ :: c) (-1) :=
    (CtxBal_of_plug (⟨Dir.R, i, l⟩ :: c) leaf (by simpa [plug, Frame.fill, hp] using hI.good.acc)
      (by simpa [plug, Frame.fill, hp] using hI.good.bal)).1
  have hT : T.ents = (entsBefore c ++ (l.ents ++ [(i.id, i.key, i.value)])) ++ entsAfter c := by
    rw [L.ents]; simp
  have hE : (plug (⟨Dir.R, i, l⟩ :: c) (node leaf ⟨t.next, k, v, 0⟩ leaf)).ents =
      (entsBefore c ++ (l.ents ++ [(i.id, i.key, i.value)])) ++ (t.next, k, v) :: entsAfter c := by
    rw [ents_plug]; simp [entsBefore, entsAfter]
  have hout : ∀ q, q ∉ T.ids → q ≠ t.next →
      (setRight (t.heap.set t.next (Node.mkLive v k (some i.id))) i.id (some t.next)).get q =
        t.heap.get q := by
    intro q h1 h2
    have : q ≠ i.id := fun e => h1 (e ▸ hiT)
    simp [this, h2]
  obtain ⟨t5, T2, e5, I5, E5, n5, o5⟩ := insert_build (k := k) (v := v) hI z3 rfl cb rfl rfl
    _ _ hT hE (right_sorted hI.good hn0 L hi hlt) (right_sleft hI.good L hi pk hp) hout
  exact ⟨t5, T2, _, _, e5, I5, hT, E5, n5, o5⟩

theorem insert_swap {t : AVLTree} {T : FT} (hI : Inv t T) (v k : Int) {c : Ctx} {l : FT}
    {i : Info} (hz : ZRep t c (node l i leaf)) (hp : plug c (node l i leaf) = T)
    (L : Located T k c l i leaf) (hi : i.id = 0) (hk : ¬ k < i.key) :
    InsertPost t T v k (balance_insert (2 * (t.next + 1) + 2)
      (AVLTree.mk (swap (AVLTree.mk (setRight (t.heap.set t.next
            (Node.mkLive v k (some i.id))) i.id (some t.next)) t.root t.set_size (t.next + 1))
          i.id t.next).heap
        (swap (AVLTree.mk (setRight (t.heap.set t.next
            (Node.mkLive v k (some i.id))) i.id (some t.next)) t.root t.set_size (t.next + 1))
          i.id t.next).root
        (t.set_size + 1) (t.next + 1)) (some i.id)) := by
  have hn0 : t.next ≠ 0 := Nat.pos_iff_ne_zero.1 hI.zero_lt
  have hfresh : t.next ∉ (node l i leaf).ids ++ ctxIds c :=
    fun h => hI.fresh ((zids_mem hp _).1 h)
  have hiT : i.id ∈ T.ids := (zids_mem hp _).1 (by simp)
  have hin : i.id ≠ t.next := fun e => hI.fresh (e ▸ hiT)
  obtain ⟨hk0, -, ha⟩ := L.sent hi
  have z1 := (attach_right v k hz t.next hn0 hfresh).up
  simp only [Frame.fillH] at z1
  obtain ⟨z2, k2⟩ := swap_ok z1
  have z3 := z2.down_right
  have z4 : ZRep (AVLTree.mk (swap (AVLTree.mk (setRight (t.heap.set t.next
            (Node.mkLive v k (some i.id))) i.id (some t.next)) t.root t.set_size (t.next + 1))
          i.id t.next).heap
        (swap (AVLTree.mk (setRight (t.heap.set t.next
            (Node.mkLive v k (some i.id))) i.id (some t.next)) t.root t.set_size (t.next + 1))
          i.id t.next).root
        (t.set_size + 1) (t.next + 1)) _ _ := z3.fields rfl rfl
  have cb : CtxBal (⟨Dir.R, i, l⟩ :: c) (-1) :=
    (CtxBal_of_plug (⟨Dir.R, i, l⟩ :: c) leaf (by simpa [plug, Frame.fill, hp] using hI.good.acc)
      (by simpa [plug, Frame.fill, hp] using hI.good.bal)).1
  have hT : T.ents = (entsBefore c ++ l.ents) ++ [(i.id, i.key, i.value)] := by
    rw [L.ents, ha]; simp
  have hout : ∀ q, q ∉ T.ids → q ≠ t.next →
      (swap (AVLTree.mk (setRight (t.heap.set t.next
            (Node.mkLive v k (some i.id))) i.id (some t.next)) t.root t.set_size (t.next + 1))
          i.id t.next).heap.get q = t.heap.get q := by
    intro q h1 h2
    have hqi : q ≠ i.id := fun e => h1 (e ▸ hiT)
    rw [k2.out q ?_]
    · simp [hqi, h2]
    · intro hq
      apply h1
      rw [← zids_mem hp]
      simp only [ids_node, ids_leaf, List.mem_append, List.mem_cons, List.nil_append,
        List.not_mem_nil, or_false, List.append_nil] at hq ⊢
      tauto
  have := insert_build (k := k) (v := v) hI z4 rfl (CtxBal_info c (-1) Dir.R i _ l cb) rfl rfl
    _ _ hT (by rw [ents_plug]; simp [entsBefore, entsAfter, ha])
    (swap_sorted hI.good hn0 L hi hk)
    (by
      intro hll
      rw [lastLeft_plug_last _ _ (by simp [entsAfter, ha]) (by simp)] at hll
      exact absurd rfl hll)
    hout
  obtain ⟨t5, T2, e5, I5, E5, n5, o5⟩ := this
  exact ⟨t5, T2, _, _, e5, I5, hT, E5, n5, o5⟩

/-- Effect of `insert` on a well-formed tree. -/
theorem insert_ok {t : AVLTree} {T : FT} (hI : Inv t T) (v k : Int) :
    ((∃ e ∈ T.ents, e.1 ≠ 0 ∧ e.2.1 = k) ∧ insert lt t v k = some t) ∨
    ((¬ ∃ e ∈ T.ents, e.1 ≠ 0 ∧ e.2.1 = k) ∧ InsertPost t T v k (insert lt t v k)) := by
  obtain ⟨c, l, i, r, hfind, hz, hp, pk, st⟩ := locate hI k
  have L := located hI.good hp pk
  have rp := hz.foc
  rw [Rep_node] at rp
  obtain ⟨⟨k1, k2, k3, k4, k5, k6, k7⟩, kh, kl, kr⟩ := rp
  have hiT : i.id ∈ T.ids := (zids_mem hp _).1 (by simp)
  have hin : i.id ≠ t.next := fun e => hI.fresh (e ▸ hiT)
  by_cases hdup : i.key = k ∧ i.id ≠ 0
  · left
    refine ⟨⟨_, L.mem_self, hdup.2, hdup.1⟩, insert_dup t v k i.id hfind ?_⟩
    rw [k1, k3]
    simp [hdup.1, stateOf, hdup.2]
  · right
    have hnew : i.key ≠ k ∨ i.id = 0 := by
      by_cases h : i.key = k
      · right; by_contra h2; exact hdup ⟨h, h2⟩
      · left; exact h
    refine ⟨fun ⟨e, he, h0, hk⟩ => ?_, ?_⟩
    · have := found_of_stop L st he h0 hk
      subst this
      exact hdup ⟨hk, h0⟩
    have hc : (t.heap.get i.id).key ≠ k ∨ (t.heap.get i.id).state = State.TAIL := by
      rw [k1, k3]
      rcases hnew with h | h
      · exact Or.inl h
      · exact Or.inr (by simp [stateOf, h])
    rw [insert_new t v k i.id hin hfind hc]
    by_cases hlt : k < i.key
    · have hl : l = leaf := by
        rcases st with s | ⟨-, -, s⟩ | ⟨-, s, -⟩
        · omega
        · exact s
        · exact absurd hlt s
      subst hl
      have hah : attach_heap t v k i.id =
          setLeft (t.heap.set t.next (Node.mkLive v k (some i.id))) i.id (some t.next) := by
        simp only [attach_heap, k1, lt_iff, hlt, if_true]
      have hns : ¬ (((attach_heap t v k i.id).get i.id).state = State.TAIL ∧
          ((attach_heap t v k i.id).get i.id).right ≠ none) := by
        rw [hah]
        simp only [setLeft_same, Heap.get_set_other _ _ _ _ hin, k3, k6]
        rintro ⟨h1, h2⟩
        have : i.id = 0 := by
          by_contra h; rw [stateOf_ne h] at h1; cases h1
        exact h2 (by rw [(L.sent this).2.1]; rfl)
      rw [if_neg hns, hah]
      exact insert_left hI v k hz hp L hlt
    · have hr : r = leaf := by
        rcases st with s | ⟨-, s, -⟩ | ⟨-, -, s⟩
        · rcases hnew with h | h
          · exact absurd s h
          · exact (L.sent h).2.1
        · exact absurd s hlt
        · exact s
      subst hr
      have hah : attach_heap t v k i.id =
          setRight (t.heap.set t.next (Node.mkLive v k (some i.id))) i.id (some t.next) := by
        simp only [attach_heap, k1, lt_iff, hlt, if_false]
      by_cases hi : i.id = 0
      · have hs : ((attach_heap t v k i.id).get i.id).state = State.TAIL ∧
            ((attach_heap t v k i.id).get i.id).right ≠ none := by
          rw [hah]
          simp only [setRight_same, Heap.get_set_other _ _ _ _ hin, k3]
          simp [stateOf, hi]
        rw [if_pos hs, hah]
        exact insert_swap hI v k hz hp L hi hlt
      · have hns : ¬ (((attach_heap t v k i.id).get i.id).state = State.TAIL ∧
            ((attach_heap t v k i.id).get i.id).right ≠ none) := by
          rw [hah]
          simp only [setRight_same, Heap.get_set_other _ _ _ _ hin, k3]
          rintro ⟨h1, -⟩
          rw [stateOf_ne hi] at h1
          cases h1
        rw [if_neg hns, hah]
        have hik : i.key ≠ k := by
          rcases hnew with h | h
          · exact h
          · exact absurd h hi
        exact insert_right hI v k hz hp L pk hi (by omega)

theorem RefUpd.uRefl (h : Heap) : RefUpd h h := fun q => ⟨(h.get q).ref_count, rfl⟩

theorem RefUpd.uTrans {h h2 h3 : Heap} (a : RefUpd h h2) (b : RefUpd h2 h3) : RefUpd h h3 := by
  intro q
  obtain ⟨v, hv⟩ := a q
  obtain ⟨w, hw⟩ := b q
  exact ⟨w, by rw [hw, hv]⟩

theorem RefUpd.setRef (h : Heap) (p v : Nat) : RefUpd h (setRef h p v) := by
  intro q
  by_cases e : q = p
  · subst e; exact ⟨v, by simp⟩
  · exact ⟨(h.get q).ref_count, by simp [e]⟩

theorem RefUpd.inc (h : Heap) (p : Ptr) : RefUpd h (inc_ref_count h p) := by
  cases p with
  | none => exact RefUpd.uRefl h
  | some a => exact RefUpd.setRef h a _

theorem RefUpd.dec (h : Heap) (p : Ptr) : RefUpd h (dec_ref_count h p) := by
  cases p with
  | none => exact RefUpd.uRefl h
  | some a => exact RefUpd.setRef h a _

theorem NodeLinks_refs {n m : Node} {i : Info} {par l r : Ptr} (v : Nat)
    (e : m = { n with ref_count := v }) (k : NodeLinks n i par l r) : NodeLinks m i par l r := by
  subst e
  exact k

theorem Rep_refs {h h2 : Heap} {par : Ptr} {T : FT}
    (e : ∀ q ∈ T.ids, ∃ v, h2.get q = { h.get q with ref_count := v }) (r : Rep h par T) :
    Rep h2 par T := by
  induction T generalizing par with
  | leaf => trivial
  | node l i r2 ihl ihr =>
    rw [Rep_node] at r ⊢
    obtain ⟨v, hv⟩ := e i.id (by simp)
    refine ⟨NodeLinks_refs v hv r.1, ?_, ihl (fun q hq => e q (by simp [hq])) r.2.2.1,
      ihr (fun q hq => e q (by simp [hq])) r.2.2.2⟩
    rw [hv]
    exact r.2.1

theorem Inv_refs {t : AVLTree} {T : FT} (hI : Inv t T) (h2 : Heap)
    (e : ∀ q ∈ T.ids, ∃ v, h2.get q = { t.heap.get q with ref_count := v }) :
    Inv (AVLTree.mk h2 t.root t.set_size t.next) T :=
  ⟨⟨hI.rep.root, trivial, Rep_refs e hI.rep.foc, hI.rep.nodup⟩, hI.good, hI.alloc, hI.size⟩

theorem Inv_new : Inv AVLTree.new (node leaf ⟨0, 0, 0, 0⟩ leaf) := by
  refine ⟨⟨rfl, trivial, ?_, ?_⟩, ⟨?_, ?_, ?_, ⟨0, ?_⟩, ?_⟩, ?_, ?_⟩
  · rw [Rep_node]
    simp [NodeLinks, AVLTree.new, Node.mkState, stateOf, ctxPar]
  · simp [ctxIds]
  · simp
  · simp
  · simp [SortedE]
  · simp
  · intro h; exact absurd rfl h
  · simp [AVLTree.new]
  · simp [AVLTree.new]

theorem fillH_eq (h : Heap) (f : Frame) (g : FT) : f.fillH h g = (f.updH h).fill g := by
  cases hd : f.dir <;> simp [Frame.fillH, Frame.fill, Frame.updH, hd]

theorem plugH_eq (h : Heap) (c : Ctx) (g : FT) : plugH h c g = plug (c.map (Frame.updH h)) g := by
  induction c generalizing g with
  | nil => rfl
  | cons f c ih => simp only [plugH, List.map_cons, plug, ih, fillH_eq]

theorem plug_append (a b : Ctx) (g : FT) : plug (a ++ b) g = plug b (plug a g) := by
  induction a generalizing g with
  | nil => rfl
  | cons f a ih => exact ih (f.fill g)

theorem ZRep.up_plug {t : AVLTree} (a : Ctx) {c : Ctx} {g : FT} (hz : ZRep t (a ++ c) g) :
    ZRep t c (plugH t.heap a g) := by
  induction a generalizing g with
  | nil => exact hz
  | cons f a ih => exact ih (ZRep.up hz)

theorem ZRep.down_plug {t : AVLTree} (a : Ctx) {c : Ctx} {g : FT} (hz : ZRep t c (plug a g)) :
    ZRep t (a ++ c) g := by
  induction a generalizing g with
  | nil => exact hz
  | cons f a ih =>
    have h1 := ih (g := f.fill g) hz
    cases hd : f.dir with
    | L =>
      have : f.fill g = node g f.i f.sib := by simp [Frame.fill, hd]
      rw [this] at h1
      have h2 := h1.down_left
      have e : (⟨Dir.L, f.i, f.sib⟩ : Frame) = f := by cases f; simp_all
      rw [e] at h2
      exact h2
    | R =>
      have : f.fill g = node f.sib f.i g := by simp [Frame.fill, hd]
      rw [this] at h1
      have h2 := h1.down_right
      have e : (⟨Dir.R, f.i, f.sib⟩ : Frame) = f := by cases f; simp_all
      rw [e] at h2
      exact h2

theorem CtxBal_sibs : ∀ (c c2 : Ctx) (o : Int), ctxSibs c = ctxSibs c2 → CtxBal c o →
    CtxBal c2 o := by
  intro c
  induction c with
  | nil =>
    intro c2 o e _
    cases c2 with
    | nil => trivial
    | cons f c2 => simp [ctxSibs] at e
  | cons f c ih =>
    intro c2 o e hb
    cases c2 with
    | nil => simp [ctxSibs] at e
    | cons f2 c2 =>
      simp only [ctxSibs, List.map_cons, List.cons.injEq] at e
      simp only [CtxBal] at hb ⊢
      rw [← e.1]
      exact ⟨hb.1, hb.2.1, hb.2.2.1, hb.2.2.2.1, ih c2 _ e.2 hb.2.2.2.2⟩

theorem ctxSibs_updH (h : Heap) (a c : Ctx) :
    ctxSibs (a.map (Frame.updH h) ++ c) = ctxSibs (a ++ c) := by
  simp [ctxSibs, Frame.updH, Function.comp_def]

theorem ctxIds_append (a c : Ctx) : (ctxIds (a ++ c)).Perm (ctxIds a ++ ctxIds c) := by
  induction a with
  | nil => simp [ctxIds]
  | cons f a ih =>
    simp only [List.cons_append, ctxIds, List.append_assoc]
    exact List.Perm.cons _ (List.Perm.append_left _ ih)

theorem ctxIds_updH (h : Heap) (a : Ctx) : ctxIds (a.map (Frame.updH h)) = ctxIds a := by
  induction a with
  | nil => rfl
  | cons f a ih => simp [ctxIds, ih, Frame.updH]

theorem entsBefore_updH (h : Heap) (a : Ctx) : entsBefore (a.map (Frame.updH h)) = entsBefore a := by
  induction a with
  | nil => rfl
  | cons f a ih =>
    cases hd : f.dir <;> simp [entsBefore, ih, Frame.updH, hd]

theorem entsAfter_updH (h : Heap) (a : Ctx) : entsAfter (a.map (Frame.updH h)) = entsAfter a := by
  induction a with
  | nil => rfl
  | cons f a ih =>
    cases hd : f.dir <;> simp [entsAfter, ih, Frame.updH, hd]

theorem lower_right_ok (t : AVLTree) : ∀ (g : FT) (c : Ctx) (F : Nat), ZRep t c g →
    g.ids.length < F → ∀ x, g.rootPtr = some x →
    ∃ cl ml mi, (∀ fr ∈ cl, fr.dir = Dir.R) ∧ plug cl (node ml mi leaf) = g ∧
      ZRep t (cl ++ c) (node ml mi leaf) ∧ get_lower_right_child t.heap F x = some mi.id := by
  intro g
  induction g with
  | leaf => intro c F _ _ x hx; simp at hx
  | node l i r _ ihr =>
    intro c F hz hF x hx
    simp only [rootPtr_node, Option.some.injEq] at hx
    subst hx
    obtain ⟨F, rfl⟩ : ∃ F2, F = F2 + 1 := ⟨F - 1, by omega⟩
    have rp := hz.foc
    rw [Rep_node] at rp
    obtain ⟨⟨k1, k2, k3, k4, k5, k6, k7⟩, kh, kl, kr⟩ := rp
    simp only [ids_node, List.length_append, List.length_cons] at hF
    simp only [get_lower_right_child]
    rw [show t.heap i.id = t.heap.get i.id from rfl, k6]
    cases r with
    | leaf =>
      exact ⟨[], l, i, by simp, rfl, hz, rfl⟩
    | node rl ri rr =>
      obtain ⟨cl, ml, mi, h1, h2, h3, h4⟩ :=
        ihr (⟨Dir.R, i, l⟩ :: c) F hz.down_right (by omega) ri.id rfl
      refine ⟨cl ++ [⟨Dir.R, i, l⟩], ml, mi, ?_, ?_, ?_, ?_⟩
      · intro fr hfr
        simp only [List.mem_append, List.mem_singleton] at hfr
        rcases hfr with h | h
        · exact h1 fr h
        · subst h; rfl
      · rw [plug_append, h2]; rfl
      · rw [List.append_assoc]; exact h3
      · simpa using h4

/-- Entries of a path that only ever went right. -/
theorem entsAfter_allR {cl : Ctx} (h : ∀ fr ∈ cl, fr.dir = Dir.R) : entsAfter cl = [] := by
  induction cl with
  | nil => rfl
  | cons f cl ih =>
    have hf := h f (by simp)
    simp only [entsAfter, hf]
    exact ih (fun fr hfr => h fr (by simp [hfr]))

theorem entsBefore_append (a c : Ctx) : entsBefore (a ++ c) = entsBefore c ++ entsBefore a := by
  induction a with
  | nil => simp [entsBefore]
  | cons f a ih =>
    cases hd : f.dir <;> simp [entsBefore, hd, ih]

theorem entsAfter_append (a c : Ctx) : entsAfter (a ++ c) = entsAfter a ++ entsAfter c := by
  induction a with
  | nil => simp [entsAfter]
  | cons f a ih =>
    cases hd : f.dir <;> simp [entsAfter, hd, ih]

theorem splice_ok {t : AVLTree} {c : Ctx} {fr : Frame} {ml : FT} {mi : Info}
    (hz : ZRep t (fr :: c) (node ml mi leaf)) (x : Nat) (hx : x ≠ fr.i.id) :
    ZRep (AVLTree.mk (erase_splice t.heap mi.id x) t.root t.set_size t.next) (fr :: c) ml ∧
      (∀ q, q ≠ fr.i.id → ml.rootPtr ≠ some q →
        (erase_splice t.heap mi.id x).get q = t.heap.get q) := by
  obtain ⟨hroot, hctx, hfoc, hnd⟩ := hz
  have hfoc0 := hfoc
  rw [Rep_node] at hfoc
  obtain ⟨⟨k1, k2, k3, k4, k5, k6, k7⟩, kh, kl, -⟩ := hfoc
  simp only [ctxPar] at k7 kl
  have ndm : (mi.id :: ctxIds (fr :: c)).Nodup := by
    refine (hnd.sublist ?_)
    simp only [ids_node, ids_leaf, List.append_assoc, List.cons_append, List.nil_append]
    exact List.sublist_append_right _ _
  have ndml : (ml.ids ++ ctxIds (fr :: c)).Nodup := by
    refine (hnd.sublist ?_)
    simp only [ids_node, ids_leaf, List.append_assoc, List.cons_append, List.nil_append]
    exact (List.sublist_cons_self _ _).append_left _
  have hfm : fr.i.id ∉ ml.ids := by
    intro hm
    have := (List.nodup_append.1 ndml).2.2 hm (by simp [ctxIds])
    exact this
  have hfmi : fr.i.id ≠ mi.id := by
    intro e
    have := (List.nodup_cons.1 ndm).1
    rw [← e] at this
    exact this (by simp [ctxIds])
  have hcond : (t.heap.get mi.id).parent ≠ none ∧ (t.heap.get mi.id).parent ≠ some x := by
    rw [k7]
    exact ⟨by simp, by simpa using fun e => hx e.symm⟩
  have hes : erase_splice t.heap mi.id x =
      match ml.rootPtr with
      | some l => setParent (change_parent_child t.heap mi.id (some l) (some fr.i.id)) l
          (some fr.i.id)
      | none => change_parent_child t.heap mi.id none (some fr.i.id) := by
    unfold erase_splice
    rw [show t.heap mi.id = t.heap.get mi.id from rfl, if_pos hcond, k5, k6, k7]
    cases hml : ml.rootPtr with
    | none => rfl
    | some l =>
      simp only
      rw [show (change_parent_child t.heap mi.id (some l) (some fr.i.id)) mi.id =
        (change_parent_child t.heap mi.id (some l) (some fr.i.id)).get mi.id from rfl,
        cpc_other _ _ _ _ _ hfmi.symm, k7]
  rw [hes]
  cases ml with
  | leaf =>
    simp only [rootPtr_leaf]
    refine ⟨⟨hroot, cpc_ctx hctx ndm (by simp : (none : Ptr) ≠ some fr.i.id), trivial, ?_⟩, fun q hq _ => cpc_other _ _ _ _ _ hq⟩
    simpa using (List.nodup_cons.1 ndm).2
  | node a mli b =>
    simp only [rootPtr_node]
    have hmlin : mli.id ∉ ctxIds (fr :: c) :=
      fun hm => (List.nodup_append.1 ndml).2.2 (by simp) hm
    have hne : mli.id ≠ fr.i.id := fun e => hmlin (by simp [ctxIds, e])
    refine ⟨⟨hroot, ?_, ?_, ndml⟩, fun q hq hq2 => ?_⟩
    · refine RepCtx_congr (fun q hq => setParent_other _ _ _ _ (fun e => hmlin (e ▸ hq))) ?_
      exact cpc_ctx hctx ndm (by simpa using hne : some mli.id ≠ some fr.i.id)
    · have r1 : Rep (change_parent_child t.heap mi.id (some mli.id) (some fr.i.id))
          (some mi.id) (node a mli b) :=
        Rep_congr (fun q hq => cpc_other _ _ _ _ _ (fun e => hfm (e ▸ hq))) kl
      exact Rep_reparent (List.nodup_append.1 ndml).1 r1
    · simp only [Option.some.injEq, ne_eq] at hq2
      rw [setParent_other _ _ _ _ (fun e => hq2 e.symm), cpc_other _ _ _ _ _ hq]

theorem replace_node_eq (h : Heap) (m n : Nat) (hmn : m ≠ n) :
    replace_node h m n =
      setParent (change_parent_child (replace_core h m n) n (some m)
        ((replace_core h m n).get n).parent) m
        ((change_parent_child (replace_core h m n) n (some m)
          ((replace_core h m n).get n).parent).get n).parent := by
  unfold replace_node replace_core
  exact if_pos hmn

section core
variable {h : Heap} {m n : Nat} {lp rp : Ptr}
variable (hmn : m ≠ n) (hl : (h.get n).left = lp) (hr : (h.get n).right = rp)
variable (l1 : lp ≠ some n) (r1 : rp ≠ some n)
include hmn hl hr l1 r1

theorem replace_core_n : (replace_core h m n).get n = h.get n := by
  unfold replace_core
  cases lp with
  | none =>
    cases rp with
    | none => simp [hmn, hmn.symm, hl, hr]
    | some y =>
      have y1 : y ≠ n := fun e => r1 (by rw [e])
      by_cases y2 : y = m <;> simp [hmn, hmn.symm, hl, hr, y1, y1.symm, y2]
  | some x =>
    have x1 : x ≠ n := fun e => l1 (by rw [e])
    cases rp with
    | none => by_cases x2 : x = m <;> simp [hmn, hmn.symm, hl, hr, x1, x1.symm, x2]
    | some y =>
      have y1 : y ≠ n := fun e => r1 (by rw [e])
      by_cases x2 : x = m <;> by_cases y2 : y = m <;>
        simp [hmn, hmn.symm, hl, hr, x1, x1.symm, x2, y1, y1.symm, y2]

theorem replace_core_other (q : Nat) (q1 : q ≠ m) (q2 : lp ≠ some q) (q3 : rp ≠ some q) :
    (replace_core h m n).get q = h.get q := by
  unfold replace_core
  cases lp with
  | none =>
    cases rp with
    | none => simp [hmn, hmn.symm, hl, hr, q1]
    | some y =>
      have y1 : y ≠ n := fun e => r1 (by rw [e])
      have y3 : q ≠ y := fun e => q3 (by rw [e])
      by_cases y2 : y = m <;> simp [hmn, hmn.symm, hl, hr, y1, y1.symm, y2, q1, y3]
  | some x =>
    have x1 : x ≠ n := fun e => l1 (by rw [e])
    have x3 : q ≠ x := fun e => q2 (by rw [e])
    cases rp with
    | none => by_cases x2 : x = m <;> simp [hmn, hmn.symm, hl, hr, x1, x1.symm, x2, q1, x3]
    | some y =>
      have y1 : y ≠ n := fun e => r1 (by rw [e])
      have y3 : q ≠ y := fun e => q3 (by rw [e])
      by_cases x2 : x = m <;> by_cases y2 : y = m <;>
        simp [hmn, hmn.symm, hl, hr, x1, x1.symm, x2, y1, y1.symm, y2, q1, x3, y3]

theorem replace_core_child (x : Nat) (hx : lp = some x ∨ rp = some x) (x2 : x ≠ m) :
    (replace_core h m n).get x = { h.get x with parent := some m } := by
  unfold replace_core
  have xn : x ≠ n := by
    rcases hx with e | e
    · exact fun e2 => l1 (by rw [e, e2])
    · exact fun e2 => r1 (by rw [e, e2])
  cases lp with
  | none =>
    cases rp with
    | none => simp at hx
    | some y =>
      have : y = x := by simpa using hx
      subst this
      simp [hmn, hmn.symm, hl, hr, xn, xn.symm, x2, x2.symm]
  | some a =>
    have a1 : a ≠ n := fun e => l1 (by rw [e])
    cases rp with
    | none =>
      have : a = x := by simpa using hx
      subst this
      simp [hmn, hmn.symm, hl, hr, xn, xn.symm, x2, x2.symm]
    | some y =>
      have y1 : y ≠ n := fun e => r1 (by rw [e])
      by_cases ax : a = x
      · subst ax
        by_cases y2 : y = m
        · simp [hmn, hmn.symm, hl, hr, xn, xn.symm, x2, x2.symm, y1, y1.symm, y2]
        · by_cases ya : y = a
          · subst ya
            simp [hmn, hmn.symm, hl, hr, xn, xn.symm, x2, x2.symm]
          · simp [hmn, hmn.symm, hl, hr, xn, xn.symm, x2, x2.symm, y1, y1.symm, y2, ya,
              Ne.symm ya]
      · have yx : y = x := by
          rcases hx with e | e
          · exact absurd (by simpa using e) ax
          · simpa using e
        subst yx
        by_cases a2 : a = m
        · simp [hmn, hmn.symm, hl, hr, xn, xn.symm, x2, x2.symm, a1, a1.symm, a2]
        · simp [hmn, hmn.symm, hl, hr, xn, xn.symm, x2, x2.symm, a1, a1.symm, a2, ax,
            Ne.symm ax]

end core

section corem
variable {h : Heap} {m n : Nat} {lp rp : Ptr}
variable (hmn : m ≠ n) (hl : (h.get n).left = lp) (hr : (h.get n).right = rp)
variable (l1 : lp ≠ some n) (r1 : rp ≠ some n)
include hmn hl hr l1 r1

theorem replace_core_m_far (l2 : lp ≠ some m) (r2 : rp ≠ some m) :
    { (replace_core h m n).get m with height := 0 } =
      { h.get m with left := lp, right := rp, height := 0 } := by
  unfold replace_core
  cases lp with
  | none =>
    cases rp with
    | none => simp [hmn, hmn.symm, hl, hr]
    | some y =>
      have y1 : y ≠ n := fun e => r1 (by rw [e])
      have y2 : y ≠ m := fun e => r2 (by rw [e])
      simp [hmn, hmn.symm, hl, hr, y1, y1.symm, y2, y2.symm]
  | some x =>
    have x1 : x ≠ n := fun e => l1 (by rw [e])
    have x2 : x ≠ m := fun e => l2 (by rw [e])
    cases rp with
    | none => simp [hmn, hmn.symm, hl, hr, x1, x1.symm, x2, x2.symm]
    | some y =>
      have y1 : y ≠ n := fun e => r1 (by rw [e])
      have y2 : y ≠ m := fun e => r2 (by rw [e])
      simp [hmn, hmn.symm, hl, hr, x1, x1.symm, x2, x2.symm, y1, y1.symm, y2, y2.symm]

theorem replace_core_m_left (l2 : lp = some m) (r2 : rp ≠ some m)
    (mr : (h.get m).right = none) :
    { (replace_core h m n).get m with height := 0 } =
      { h.get m with right := rp, height := 0 } := by
  unfold replace_core
  subst l2
  cases hml : (h.get m).left with
  | none =>
    cases rp with
    | none => simp [hmn, hmn.symm, hl, hr, mr, hml]
    | some y =>
      have y1 : y ≠ n := fun e => r1 (by rw [e])
      have y2 : y ≠ m := fun e => r2 (by rw [e])
      simp [hmn, hmn.symm, hl, hr, y1, y1.symm, y2, y2.symm, mr, hml]
  | some a =>
    cases rp with
    | none => simp [hmn, hmn.symm, hl, hr, mr, hml]
    | some y =>
      have y1 : y ≠ n := fun e => r1 (by rw [e])
      have y2 : y ≠ m := fun e => r2 (by rw [e])
      simp [hmn, hmn.symm, hl, hr, y1, y1.symm, y2, y2.symm, mr, hml]

theorem replace_core_m_right (l2 : lp = none) (r2 : rp = some m) :
    { (replace_core h m n).get m with height := 0 } =
      { h.get m with left := none, height := 0 } := by
  unfold replace_core
  subst l2 r2
  cases hml : (h.get m).right with
  | none => simp [hmn, hmn.symm, hl, hr, hml]
  | some a => simp [hmn, hmn.symm, hl, hr, hml]

end corem

/-- Read the fields of a record known up to its height. -/
theorem fields_of_height_eq {a b : Node} (e : { a with height := 0 } = { b with height := 0 }) :
    a.key = b.key ∧ a.value = b.value ∧ a.state = b.state ∧ a.freed = b.freed ∧
      a.left = b.left ∧ a.right = b.right ∧ a.parent = b.parent ∧ a.ref_count = b.ref_count := by
  cases a; cases b
  simp only [Node.mk.injEq] at e
  simp only
  tauto

theorem Rep_child_moved {h hc : Heap} {par par2 : Ptr} {T : FT} (nd : T.ids.Nodup)
    (r : Rep h par T)
    (e1 : ∀ x, T.rootPtr = some x → hc.get x = { h.get x with parent := par2 })
    (e2 : ∀ q ∈ T.ids, T.rootPtr ≠ some q → hc.get q = h.get q) : Rep hc par2 T := by
  refine Rep_congr (fun q hq => ?_) (Rep_reparent nd r : Rep (setParentP h T.rootPtr par2) par2 T)
  cases T with
  | leaf => simp at hq
  | node l i r2 =>
    simp only [rootPtr_node, setParentP]
    by_cases e : q = i.id
    · subst e
      rw [e1 _ rfl, setParent_same]
    · rw [setParent_other _ _ _ _ e]
      exact e2 q hq (by simpa using fun e3 => e e3.symm)

theorem ctxPar_ne_of_not_mem {c : Ctx} {x : Nat} (h : x ∉ ctxIds c) : ctxPar none c ≠ some x := by
  cases c with
  | nil => simp [ctxPar]
  | cons f c =>
    simp only [ctxPar, ne_eq, Option.some.injEq]
    rintro rfl
    exact h (by simp [ctxIds])

theorem ctxTop_ne_of_not_mem : ∀ (c : Ctx) (x : Nat) (p : Ptr), c ≠ [] → x ∉ ctxIds c →
    ctxTop c p ≠ some x := by
  intro c
  induction c with
  | nil => intro x p h; exact absurd rfl h
  | cons f c ih =>
    intro x p _ hx
    simp only [ctxIds, List.mem_cons, List.mem_append, not_or] at hx
    cases c with
    | nil =>
      simp only [ctxTop, ne_eq, Option.some.injEq]
      exact fun e => hx.1 e.symm
    | cons f2 c2 =>
      simp only [ctxTop]
      exact ih x (some f2.i.id) (by simp) hx.2.2

theorem replace_finish {t : AVLTree} {c : Ctx} {n m : Info} {A B : FT} {hc : Heap} {X : Ptr}
    (sz nx : Nat)
    (hroot : t.root = ctxTop c (some n.id))
    (hctx : RepCtx hc none c (some n.id))
    (hm : NodeLinks (hc.get m.id) m X A.rootPtr B.rootPtr)
    (rA : Rep hc (some m.id) A) (rB : Rep hc (some m.id) B)
    (nd : ((node A m B).ids ++ ctxIds c).Nodup) (hnn : n.id ∉ (node A m B).ids ++ ctxIds c) :
    ZRep (AVLTree.mk (setParent (change_parent_child hc n.id (some m.id) (ctxPar none c)) m.id
        (ctxPar none c)) (if some n.id = t.root then some m.id else t.root) sz nx) c
      (node A ⟨m.id, m.key, m.value, (hc.get m.id).height⟩ B) ∧
    (∀ q, q ≠ m.id → ctxPar none c ≠ some q →
      (setParent (change_parent_child hc n.id (some m.id) (ctxPar none c)) m.id
        (ctxPar none c)).get q = hc.get q) := by
  have ndf := (List.nodup_append.1 nd).1
  have ndc := (List.nodup_append.1 nd).2.1
  have dis : ∀ q, q ∈ (node A m B).ids → q ∉ ctxIds c :=
    fun q hq hq2 => (List.nodup_append.1 nd).2.2 hq hq2
  have hmc : m.id ∉ ctxIds c := dis _ (by simp)
  have hnc : n.id ∉ ctxIds c := fun hh => hnn (by simp [hh])
  obtain ⟨z1, z2⟩ := cpc_zip hctx (List.nodup_cons.2 ⟨hnc, ndc⟩)
    (fun x hx e => hmc (by simp only [Option.some.injEq] at e; exact e ▸ hx) :
      ∀ x ∈ ctxIds c, some m.id ≠ some x)
  have oth : ∀ q, q ≠ m.id → q ∉ ctxIds c →
      (setParent (change_parent_child hc n.id (some m.id) (ctxPar none c)) m.id
        (ctxPar none c)).get q = hc.get q := by
    intro q q1 q2
    rw [setParent_other _ _ _ _ q1, z2 q q2]
  simp only [ids_node, List.nodup_append, List.nodup_cons, List.mem_append, List.mem_cons,
    not_or, List.disjoint_cons_right] at ndf
  obtain ⟨ndA, ⟨mB, ndB⟩, mA, dAB⟩ := ndf
  refine ⟨⟨?_, ?_, ?_, ?_⟩, ?_⟩
  · simp only [rootPtr_node]
    cases c with
    | nil =>
      simp only [ctxTop] at hroot ⊢
      rw [hroot]
      simp
    | cons f c =>
      have : t.root ≠ some n.id := by
        rw [hroot]
        exact ctxTop_ne_of_not_mem _ _ _ (by simp) hnc
      rw [if_neg (fun e => this e.symm), hroot]
      rfl
  · exact RepCtx_congr (fun q hq => setParent_other _ _ _ _ (fun e => hmc (e ▸ hq))) z1
  · rw [Rep_node]
    have em : (setParent (change_parent_child hc n.id (some m.id) (ctxPar none c)) m.id
        (ctxPar none c)).get m.id = { hc.get m.id with parent := ctxPar none c } := by
      rw [setParent_same, z2 _ hmc]
    obtain ⟨k1, k2, k3, k4, k5, k6, -⟩ := hm
    refine ⟨?_, ?_, ?_, ?_⟩
    · rw [em]
      exact ⟨k1, k2, k3, k4, k5, k6, rfl⟩
    · rw [em]
    · exact Rep_congr (fun q hq => oth q (fun e => mA (e ▸ hq)) (dis q (by simp [hq]))) rA
    · exact Rep_congr (fun q hq => oth q (fun e => mB (e ▸ hq)) (dis q (by simp [hq]))) rB
  · exact nd
  · intro q q1 q2
    rw [setParent_other _ _ _ _ q1]
    cases c with
    | nil => rfl
    | cons f c =>
      simp only [ctxPar, ne_eq, Option.some.injEq] at q2
      exact cpc_other _ _ _ _ _ (fun e => q2 e.symm)

theorem nodup_swap_mid {a b : List Nat} {n m : Nat} (nd : (a ++ n :: b).Nodup)
    (hm : m ∉ a ++ n :: b) : (a ++ m :: b).Nodup ∧ n ∉ a ++ m :: b := by
  simp only [List.nodup_append, List.nodup_cons, List.mem_append, List.mem_cons, not_or,
    List.disjoint_cons_right] at nd hm ⊢
  obtain ⟨na, ⟨nb, ndb⟩, nna, dab⟩ := nd
  obtain ⟨ma, mn, mb⟩ := hm
  exact ⟨⟨na, ⟨mb, ndb⟩, ma, dab⟩, nna, fun e => mn e.symm, nb⟩

theorem cpc_get_old {h : Heap} {c : Ctx} {n : Nat} (new : Ptr) (hn : n ∉ ctxIds c) :
    (change_parent_child h n new (ctxPar none c)).get n = h.get n := by
  cases c with
  | nil => rfl
  | cons f c =>
    exact cpc_other _ _ _ _ _ (fun e => hn (by simp [ctxIds, e]))

theorem replace_far {t : AVLTree} {c : Ctx} {L R : FT} {n m : Info} (sz nx : Nat)
    (hz : ZRep t c (node L n R)) (hm : m.id ∉ (node L n R).ids ++ ctxIds c)
    (mk : (t.heap.get m.id).key = m.key) (mv : (t.heap.get m.id).value = m.value)
    (ms : (t.heap.get m.id).state = stateOf m.id) (mf : (t.heap.get m.id).freed = false) :
    ∃ ht, ZRep (AVLTree.mk (replace_node t.heap m.id n.id)
        (if some n.id = t.root then some m.id else t.root) sz nx) c
        (node L ⟨m.id, m.key, m.value, ht⟩ R) ∧
      (∀ q, q ≠ m.id → L.rootPtr ≠ some q → R.rootPtr ≠ some q → ctxPar none c ≠ some q →
        (replace_node t.heap m.id n.id).get q = t.heap.get q) := by
  obtain ⟨hroot, hctx, hfoc, hnd⟩ := hz
  rw [Rep_node] at hfoc
  obtain ⟨⟨k1, k2, k3, k4, k5, k6, k7⟩, kh, kl, kr⟩ := hfoc
  have hnd2 : (L.ids ++ n.id :: (R.ids ++ ctxIds c)).Nodup := by
    simpa [List.append_assoc] using hnd
  have hm2 : m.id ∉ L.ids ++ n.id :: (R.ids ++ ctxIds c) := by
    simpa [List.append_assoc] using hm
  obtain ⟨nd3, hn3⟩ := nodup_swap_mid hnd2 hm2
  simp only [List.mem_append, List.mem_cons, not_or] at hm2 hn3
  obtain ⟨mL, mn, mR, mc⟩ := hm2
  obtain ⟨nL, -, nR, nc⟩ := hn3
  have ndL : L.ids.Nodup := (List.nodup_append.1 hnd2).1
  have ndR : R.ids.Nodup :=
    (List.nodup_append.1 (List.nodup_cons.1 (List.nodup_append.1 hnd2).2.1).2).1
  have disLR : ∀ q, q ∈ L.ids → q ∉ R.ids := fun q h1 h2 =>
    (List.nodup_append.1 hnd2).2.2 h1 (by simp [h2])
  have disLc : ∀ q, q ∈ L.ids → q ∉ ctxIds c := fun q h1 h2 =>
    (List.nodup_append.1 hnd2).2.2 h1 (by simp [h2])
  have disRc : ∀ q, q ∈ R.ids → q ∉ ctxIds c := fun q h1 h2 =>
    (List.nodup_append.1 (List.nodup_cons.1 (List.nodup_append.1 hnd2).2.1).2).2.2 h1 h2
  have l1 : L.rootPtr ≠ some n.id := rootPtr_ne_of_not_mem nL
  have r1 : R.rootPtr ≠ some n.id := rootPtr_ne_of_not_mem nR
  have l2 : L.rootPtr ≠ some m.id := rootPtr_ne_of_not_mem mL
  have r2 : R.rootPtr ≠ some m.id := rootPtr_ne_of_not_mem mR
  have cn := replace_core_n mn k5 k6 l1 r1
  have co := replace_core_other mn k5 k6 l1 r1
  have cc := replace_core_child mn k5 k6 l1 r1
  have cm0 : { (replace_core t.heap m.id n.id).get m.id with height := 0 } =
      { t.heap.get m.id with left := L.rootPtr, right := R.rootPtr, height := 0 } :=
    replace_core_m_far mn k5 k6 l1 r1 l2 r2
  have cm := fields_of_height_eq (b := { t.heap.get m.id with left := L.rootPtr, right := R.rootPtr }) cm0
  have e0 : replace_node t.heap m.id n.id =
      setParent (change_parent_child (replace_core t.heap m.id n.id) n.id (some m.id)
        (ctxPar none c)) m.id (ctxPar none c) := by
    rw [replace_node_eq _ _ _ mn, cn, k7, cpc_get_old _ nc, cn, k7]
  have hctx2 : RepCtx (replace_core t.heap m.id n.id) none c (some n.id) :=
    RepCtx_congr (fun q hq => co q (fun e => mc (e ▸ hq))
      (rootPtr_ne_of_not_mem (fun h1 => disLc q h1 hq))
      (rootPtr_ne_of_not_mem (fun h1 => disRc q h1 hq))) hctx
  have rA : Rep (replace_core t.heap m.id n.id) (some m.id) L := by
    refine Rep_child_moved ndL kl (fun x hx => cc x (Or.inl hx) ?_) (fun q hq hq2 => ?_)
    · rintro rfl; exact l2 hx
    · exact co q (fun e => mL (e ▸ hq)) hq2 (rootPtr_ne_of_not_mem (disLR q hq))
  have rB : Rep (replace_core t.heap m.id n.id) (some m.id) R := by
    refine Rep_child_moved ndR kr (fun x hx => cc x (Or.inr hx) ?_) (fun q hq hq2 => ?_)
    · rintro rfl; exact r2 hx
    · exact co q (fun e => mR (e ▸ hq))
        (rootPtr_ne_of_not_mem (fun h1 => disLR q h1 hq)) hq2
  have hml : NodeLinks ((replace_core t.heap m.id n.id).get m.id) m
      (t.heap.get m.id).parent L.rootPtr R.rootPtr := by
    obtain ⟨c1, c2, c3, c4, c5, c6, c7, -⟩ := cm
    exact ⟨c1.trans mk, c2.trans mv, c3.trans ms, c4.trans mf, c5, c6, c7⟩
  have fin := replace_finish sz nx hroot hctx2 hml rA rB
    (by simpa [List.append_assoc] using nd3)
    (by simp only [ids_node, List.mem_append, List.mem_cons, not_or]
        exact ⟨⟨nL, fun e => mn e.symm, nR⟩, nc⟩)
  rw [e0]
  refine ⟨_, fin.1, fun q q1 q2 q3 q4 => ?_⟩
  rw [fin.2 q q1 q4]
  exact co q q1 q2 q3

theorem some_ne {a b : Nat} (h : a ≠ b) : (some a : Ptr) ≠ some b := by
  simpa using h

theorem replace_left {t : AVLTree} {c : Ctx} {ml R : FT} {n mi : Info} (sz nx : Nat)
    (hz : ZRep t c (node (node ml mi leaf) n R)) :
    ∃ ht, ZRep (AVLTree.mk (replace_node t.heap mi.id n.id)
        (if some n.id = t.root then some mi.id else t.root) sz nx) c
        (node ml ⟨mi.id, mi.key, mi.value, ht⟩ R) ∧
      (∀ q, q ≠ mi.id → R.rootPtr ≠ some q → ctxPar none c ≠ some q →
        (replace_node t.heap mi.id n.id).get q = t.heap.get q) := by
  obtain ⟨hroot, hctx, hfoc, hnd⟩ := hz
  simp only [Rep_node, rootPtr_node, rootPtr_leaf] at hfoc
  obtain ⟨⟨k1, k2, k3, k4, k5, k6, k7⟩, kh, ⟨⟨m1, m2, m3, m4, m5, m6, m7⟩, mh, rml, -⟩, kr⟩ :=
    hfoc
  have hp : (n.id :: (ml.ids ++ mi.id :: (R.ids ++ ctxIds c))).Nodup := by
    refine hnd.perm ?_
    simp only [ids_node, ids_leaf]
    rw [List.perm_iff_count]; intro x
    simp only [List.count_append, List.count_cons, List.count_nil]; omega
  obtain ⟨hn, nd2⟩ := List.nodup_cons.1 hp
  simp only [List.mem_append, List.mem_cons, not_or] at hn
  obtain ⟨nml, nmi, nR, nc⟩ := hn
  have nd3 := nd2
  simp only [List.nodup_append, List.nodup_cons, List.mem_append, List.mem_cons, not_or,
    List.disjoint_cons_right, List.disjoint_append_right] at nd3
  obtain ⟨ndml, ⟨⟨miR, mic⟩, ndR, ndc, dRc⟩, miml, dmlR, dmlc⟩ := nd3
  have mn : mi.id ≠ n.id := fun e => nmi e.symm
  have l1 : (some mi.id : Ptr) ≠ some n.id := by simpa using mn
  have r1 : R.rootPtr ≠ some n.id := rootPtr_ne_of_not_mem nR
  have r2 : R.rootPtr ≠ some mi.id := rootPtr_ne_of_not_mem miR
  have cn := replace_core_n mn k5 k6 l1 r1
  have co := replace_core_other mn k5 k6 l1 r1
  have cc := replace_core_child mn k5 k6 l1 r1
  have cm0 : { (replace_core t.heap mi.id n.id).get mi.id with height := 0 } =
      { t.heap.get mi.id with right := R.rootPtr, height := 0 } :=
    replace_core_m_left mn k5 k6 l1 r1 rfl r2 m6
  have cm := fields_of_height_eq (b := { t.heap.get mi.id with right := R.rootPtr }) cm0
  have e0 : replace_node t.heap mi.id n.id =
      setParent (change_parent_child (replace_core t.heap mi.id n.id) n.id (some mi.id)
        (ctxPar none c)) mi.id (ctxPar none c) := by
    rw [replace_node_eq _ _ _ mn, cn, k7, cpc_get_old _ nc, cn, k7]
  have hctx2 : RepCtx (replace_core t.heap mi.id n.id) none c (some n.id) :=
    RepCtx_congr (fun q hq => co q (fun e => mic (e ▸ hq))
      (some_ne (fun e => mic (e ▸ hq)))
      (rootPtr_ne_of_not_mem (fun h1 => dRc h1 hq))) hctx
  have rA : Rep (replace_core t.heap mi.id n.id) (some mi.id) ml :=
    Rep_congr (fun q hq => co q (fun e => miml (e ▸ hq))
      (some_ne (fun e => miml (e ▸ hq)))
      (rootPtr_ne_of_not_mem (fun h1 => dmlR hq h1))) rml
  have rB : Rep (replace_core t.heap mi.id n.id) (some mi.id) R := by
    refine Rep_child_moved ndR kr (fun x hx => cc x (Or.inr hx) ?_) (fun q hq hq2 => ?_)
    · rintro rfl; exact r2 hx
    · exact co q (fun e => miR (e ▸ hq)) (some_ne (fun e => miR (e ▸ hq))) hq2
  have hml : NodeLinks ((replace_core t.heap mi.id n.id).get mi.id) mi
      (t.heap.get mi.id).parent ml.rootPtr R.rootPtr := by
    obtain ⟨c1, c2, c3, c4, c5, c6, c7, -⟩ := cm
    exact ⟨c1.trans m1, c2.trans m2, c3.trans m3, c4.trans m4, c5.trans m5, c6, c7⟩
  have fin := replace_finish sz nx hroot hctx2 hml rA rB
    (by simpa [List.append_assoc] using nd2)
    (by simp only [ids_node, List.mem_append, List.mem_cons, not_or]
        exact ⟨⟨nml, nmi, nR⟩, nc⟩)
  rw [e0]
  refine ⟨_, fin.1, fun q q1 q2 q3 => ?_⟩
  rw [fin.2 q q1 q3]
  exact co q q1 (by simpa using fun e => q1 e.symm) q2

theorem replace_right {t : AVLTree} {c : Ctx} {rr : FT} {n ri : Info} (sz nx : Nat)
    (hz : ZRep t c (node leaf n (node leaf ri rr))) :
    ∃ ht, ZRep (AVLTree.mk (replace_node t.heap ri.id n.id)
        (if some n.id = t.root then some ri.id else t.root) sz nx) c
        (node leaf ⟨ri.id, ri.key, ri.value, ht⟩ rr) ∧
      (∀ q, q ≠ ri.id → ctxPar none c ≠ some q →
        (replace_node t.heap ri.id n.id).get q = t.heap.get q) := by
  obtain ⟨hroot, hctx, hfoc, hnd⟩ := hz
  simp only [Rep_node, rootPtr_node, rootPtr_leaf] at hfoc
  obtain ⟨⟨k1, k2, k3, k4, k5, k6, k7⟩, kh, -, ⟨⟨m1, m2, m3, m4, m5, m6, m7⟩, mh, -, rrr⟩⟩ :=
    hfoc
  have hp : (n.id :: ri.id :: (rr.ids ++ ctxIds c)).Nodup := by
    refine hnd.perm ?_
    simp only [ids_node, ids_leaf]
    rw [List.perm_iff_count]; intro x
    simp only [List.count_append, List.count_cons, List.count_nil]; omega
  obtain ⟨hn, nd2⟩ := List.nodup_cons.1 hp
  simp only [List.mem_append, List.mem_cons, not_or] at hn
  obtain ⟨nri, nrr, nc⟩ := hn
  have nd3 := nd2
  simp only [List.nodup_append, List.nodup_cons, List.mem_append, not_or] at nd3
  obtain ⟨⟨rirr, ric⟩, ndrr, ndc, drc⟩ := nd3
  have mn : ri.id ≠ n.id := fun e => nri e.symm
  have l1 : (none : Ptr) ≠ some n.id := by simp
  have r1 : (some ri.id : Ptr) ≠ some n.id := by simpa using mn
  have cn := replace_core_n mn k5 k6 l1 r1
  have co := replace_core_other mn k5 k6 l1 r1
  have cm0 : { (replace_core t.heap ri.id n.id).get ri.id with height := 0 } =
      { t.heap.get ri.id with left := none, height := 0 } :=
    replace_core_m_right mn k5 k6 l1 r1 rfl rfl
  have cm := fields_of_height_eq (b := { t.heap.get ri.id with left := none }) cm0
  have e0 : replace_node t.heap ri.id n.id =
      setParent (change_parent_child (replace_core t.heap ri.id n.id) n.id (some ri.id)
        (ctxPar none c)) ri.id (ctxPar none c) := by
    rw [replace_node_eq _ _ _ mn, cn, k7, cpc_get_old _ nc, cn, k7]
  have hctx2 : RepCtx (replace_core t.heap ri.id n.id) none c (some n.id) :=
    RepCtx_congr (fun q hq => co q (fun e => ric (e ▸ hq)) (by simp)
      (some_ne (fun e => ric (e ▸ hq)))) hctx
  have rB : Rep (replace_core t.heap ri.id n.id) (some ri.id) rr :=
    Rep_congr (fun q hq => co q (fun e => rirr (e ▸ hq)) (by simp)
      (some_ne (fun e => rirr (e ▸ hq)))) rrr
  have hml : NodeLinks ((replace_core t.heap ri.id n.id).get ri.id) ri
      (t.heap.get ri.id).parent leaf.rootPtr rr.rootPtr := by
    obtain ⟨c1, c2, c3, c4, c5, c6, c7, -⟩ := cm
    exact ⟨c1.trans m1, c2.trans m2, c3.trans m3, c4.trans m4, c5, c6.trans m6, c7⟩
  have fin := replace_finish sz nx hroot hctx2 hml (Rep_leaf _ _) rB
    (by simpa using nd2)
    (by simp only [ids_node, ids_leaf, List.nil_append, List.mem_append, List.mem_cons, not_or]
        exact ⟨⟨nri, nrr⟩, nc⟩)
  rw [e0]
  refine ⟨_, fin.1, fun q q1 q2 => ?_⟩
  rw [fin.2 q q1 q2]
  exact co q q1 (by simp) (by simpa using fun e => q1 e.symm)

theorem lastLeft_plug_del (c : Ctx) (g g2 : FT) (ha : entsAfter c ≠ []) (hg : g ≠ leaf)
    (h2 : lastLeft (plug c g2) ≠ leaf) : lastLeft (plug c g) ≠ leaf := by
  by_cases hg2 : g2 = leaf
  · subst hg2
    cases c with
    | nil => simp [entsAfter] at ha
    | cons fr c =>
      cases fr with
      | mk d i sib =>
        cases d with
        | R =>
          simp only [entsAfter] at ha
          simp only [plug, Frame.fill] at h2 ⊢
          exact lastLeft_plug_indep c _ _ ha (by simp) (by simp) h2
        | L =>
          simp only [plug, Frame.fill] at h2 ⊢
          by_cases ha2 : entsAfter c = []
          · rw [lastLeft_plug_last c _ ha2 (by simp)] at h2 ⊢
            cases sib with
            | leaf => exact absurd rfl h2
            | node a b d => exact h2
          · exact lastLeft_plug_indep c _ _ ha2 (by simp) (by simp) h2
  · exact lastLeft_plug_indep c g g2 ha hg hg2 h2

theorem erase_sleft {T : FT} {k : Int} {c : Ctx} {l r G : FT} {i : Info} (g : Good T)
    (hp : plug c (node l i r) = T) (L : Located T k c l i r) (hi : i.id ≠ 0)
    (hG : r ≠ leaf → G ≠ leaf ∧ (lastLeft G ≠ leaf → lastLeft r ≠ leaf))
    (h2 : lastLeft (plug c G) ≠ leaf) : lastLeft T ≠ leaf := by
  rw [← hp]
  by_cases ha : entsAfter c = []
  · have hr : r ≠ leaf := by
      rintro rfl
      exact hi (L.last_is_sent g ha)
    obtain ⟨g1, g2⟩ := hG hr
    rw [lastLeft_plug_last c _ ha g1] at h2
    rw [lastLeft_plug_last c _ ha (by simp)]
    cases r with
    | leaf => exact absurd rfl hr
    | node a b d => exact g2 h2
  · exact lastLeft_plug_del c _ G ha (by simp) h2

theorem ents_allR {cl : Ctx} (h : ∀ fr ∈ cl, fr.dir = Dir.R) (ml : FT) (mi : Info) :
    (plug cl (node ml mi leaf)).ents = (plug cl ml).ents ++ [(mi.id, mi.key, mi.value)] := by
  rw [ents_plug, ents_plug, entsAfter_allR h]
  simp

theorem ids_allR {cl : Ctx} (h : ∀ fr ∈ cl, fr.dir = Dir.R) (ml : FT) (mi : Info) :
    (plug cl (node ml mi leaf)).ids = (plug cl ml).ids ++ [mi.id] := by
  rw [ids_eq_ents, ids_eq_ents, ents_allR h]
  simp

theorem RefSame.sRefl (h : Heap) : RefSame h h := fun _ => rfl

theorem RefSame.sTrans {h h2 h3 : Heap} (a : RefSame h h2) (b : RefSame h2 h3) : RefSame h h3 :=
  fun q => (b q).trans (a q)

@[simp] theorem setLeft_ref (h : Heap) (p q : Nat) (v : Ptr) :
    ((setLeft h p v).get q).ref_count = (h.get q).ref_count := by
  by_cases e : q = p
  · subst e; simp
  · simp [e]

@[simp] theorem setRight_ref (h : Heap) (p q : Nat) (v : Ptr) :
    ((setRight h p v).get q).ref_count = (h.get q).ref_count := by
  by_cases e : q = p
  · subst e; simp
  · simp [e]

@[simp] theorem setParent_ref (h : Heap) (p q : Nat) (v : Ptr) :
    ((setParent h p v).get q).ref_count = (h.get q).ref_count := by
  by_cases e : q = p
  · subst e; simp
  · simp [e]

@[simp] theorem setHeight_ref (h : Heap) (p q : Nat) (v : Int) :
    ((setHeight h p v).get q).ref_count = (h.get q).ref_count := by
  by_cases e : q = p
  · subst e; simp
  · simp [e]

theorem cpc_ref (h : Heap) (old : Nat) (new par : Ptr) :
    RefSame h (change_parent_child h old new par) := by
  intro q
  unfold change_parent_child
  cases par with
  | none => rfl
  | some p =>
    simp only
    split_ifs <;> simp

theorem erase_splice_ref (h : Heap) (a b : Nat) : RefSame h (erase_splice h a b) := by
  intro q
  unfold erase_splice
  split_ifs
  · split
    · simp [cpc_ref _ _ _ _ q]
    · split
      · simp [cpc_ref _ _ _ _ q]
      · exact cpc_ref _ _ _ _ q
  · rfl

theorem optParent_ref (g : Heap) (x : Ptr) (a : Nat) :
    RefSame g (match x with
      | some c => if c ≠ a then setParent g c (some a) else g
      | none => g) := by
  intro q
  cases x with
  | none => rfl
  | some c =>
    simp only
    split_ifs <;> simp

theorem iteLeft_ref (g : Heap) (c : Prop) [Decidable c] (a : Nat) (X Y : Ptr) :
    RefSame g (if c then setLeft g a X else setLeft g a Y) := by
  intro q
  split_ifs <;> simp

theorem iteRight_ref (g : Heap) (c : Prop) [Decidable c] (a : Nat) (X Y : Ptr) :
    RefSame g (if c then setRight g a X else setRight g a Y) := by
  intro q
  split_ifs <;> simp

theorem setHeight_RefSame (h : Heap) (p : Nat) (v : Int) : RefSame h (setHeight h p v) :=
  fun q => setHeight_ref h p q v

theorem setLeft_RefSame (h : Heap) (p : Nat) (v : Ptr) : RefSame h (setLeft h p v) :=
  fun q => setLeft_ref h p q v

theorem setRight_RefSame (h : Heap) (p : Nat) (v : Ptr) : RefSame h (setRight h p v) :=
  fun q => setRight_ref h p q v

theorem setParent_RefSame (h : Heap) (p : Nat) (v : Ptr) : RefSame h (setParent h p v) :=
  fun q => setParent_ref h p q v

theorem replace_core_ref (h : Heap) (a b : Nat) : RefSame h (replace_core h a b) := by
  unfold replace_core
  exact (((optParent_ref h _ a).sTrans (optParent_ref _ _ a)).sTrans
    (iteLeft_ref _ _ a _ _)).sTrans ((iteRight_ref _ _ a _ _).sTrans (setHeight_RefSame _ _ _))

theorem replace_node_ref (h : Heap) (a b : Nat) : RefSame h (replace_node h a b) := by
  by_cases e : a = b
  · subst e
    intro q
    simp [replace_node]
  · rw [replace_node_eq _ _ _ e]
    intro q
    rw [setParent_ref, cpc_ref _ _ _ _ q]
    exact replace_core_ref h a b q

theorem swap_child_ref (h : Heap) (a b : Nat) : RefSame h (swap_child h a b) := by
  unfold swap_child
  exact ((((optParent_ref h _ b).sTrans (optParent_ref _ _ b)).sTrans
    ((optParent_ref _ _ a).sTrans (optParent_ref _ _ a))).sTrans
    ((setLeft_RefSame _ _ _).sTrans (setLeft_RefSame _ _ _))).sTrans
    ((setRight_RefSame _ _ _).sTrans (setRight_RefSame _ _ _))

theorem swap_ref (t : AVLTree) (a b : Nat) : RefSame t.heap (swap t a b).heap := by
  unfold swap
  split_ifs
  · exact (((cpc_ref _ _ _ _).sTrans (cpc_ref _ _ _ _)).sTrans (swap_child_ref _ _ _)).sTrans
      (((setParent_RefSame _ _ _).sTrans (setParent_RefSame _ _ _)).sTrans
        ((setHeight_RefSame _ _ _).sTrans (setHeight_RefSame _ _ _)))
  · exact RefSame.sRefl _

theorem LL_ref {t t2 : AVLTree} {n : Nat} (e : left_leftRotate t n = some t2) :
    RefSame t.heap t2.heap := by
  intro q
  unfold left_leftRotate at e
  split at e
  · cases e
  · simp only [Option.some.injEq] at e
    subst e
    simp only [setHeight_ref]
    split <;> simp only [setParent_ref, setRight_ref, setLeft_ref] <;>
      (split_ifs <;> first | rfl | exact cpc_ref _ _ _ _ q)

theorem RR_ref {t t2 : AVLTree} {n : Nat} (e : right_rightRotate t n = some t2) :
    RefSame t.heap t2.heap := by
  intro q
  unfold right_rightRotate at e
  split at e
  · cases e
  · simp only [Option.some.injEq] at e
    subst e
    simp only [setHeight_ref]
    split <;> simp only [setParent_ref, setRight_ref, setLeft_ref] <;>
      (split_ifs <;> first | rfl | exact cpc_ref _ _ _ _ q)

theorem LR_ref {t t2 : AVLTree} {n : Nat} (e : left_rightRotate t n = some t2) :
    RefSame t.heap t2.heap := by
  unfold left_rightRotate at e
  split at e
  · cases e
  · split at e
    · cases e
    · rename_i t1 h1
      exact (RR_ref h1).sTrans (LL_ref e)

theorem RL_ref {t t2 : AVLTree} {n : Nat} (e : right_leftRotate t n = some t2) :
    RefSame t.heap t2.heap := by
  unfold right_leftRotate at e
  split at e
  · cases e
  · split at e
    · cases e
    · rename_i t1 h1
      exact (LL_ref h1).sTrans (RR_ref e)

theorem balance_delete_ref {t t2 : AVLTree} {n : Nat} (e : balance_delete t n = some t2) :
    RefSame t.heap t2.heap := by
  unfold balance_delete at e
  simp only at e
  split_ifs at e
  · exact (setHeight_RefSame _ _ _).sTrans (LL_ref e)
  · exact (setHeight_RefSame _ _ _).sTrans (LR_ref e)
  · exact (setHeight_RefSame _ _ _).sTrans (LL_ref e)
  · exact (setHeight_RefSame _ _ _).sTrans (RR_ref e)
  · exact (setHeight_RefSame _ _ _).sTrans (RL_ref e)
  · exact (setHeight_RefSame _ _ _).sTrans (RR_ref e)
  · simp only [Option.some.injEq] at e
    subst e
    exact setHeight_RefSame _ _ _

theorem balance_insert_step_ref {t t2 : AVLTree} {n : Nat}
    (e : balance_insert_step t n = some t2) : RefSame t.heap t2.heap := by
  unfold balance_insert_step at e
  simp only at e
  split_ifs at e
  · exact (setHeight_RefSame _ _ _).sTrans (LL_ref e)
  · exact (setHeight_RefSame _ _ _).sTrans (RR_ref e)
  · exact (setHeight_RefSame _ _ _).sTrans (RL_ref e)
  · exact (setHeight_RefSame _ _ _).sTrans (LR_ref e)
  · simp only [Option.some.injEq] at e
    subst e
    exact setHeight_RefSame _ _ _

theorem balance_delete_loop_ref : ∀ (F : Nat) (t t2 : AVLTree) (p : Ptr),
    balance_delete_loop F t p = some t2 → RefSame t.heap t2.heap := by
  intro F
  induction F with
  | zero =>
    intro t t2 p e
    cases p with
    | none => simp only [balance_delete_loop, Option.some.injEq] at e; subst e; exact RefSame.sRefl _
    | some n => simp [balance_delete_loop] at e
  | succ F ih =>
    intro t t2 p e
    cases p with
    | none => simp only [balance_delete_loop, Option.some.injEq] at e; subst e; exact RefSame.sRefl _
    | some n =>
      simp only [balance_delete_loop] at e
      split at e
      · cases e
      · rename_i t1 h1
        exact (balance_delete_ref h1).sTrans (ih _ _ _ e)

theorem balance_insert_ref : ∀ (F : Nat) (t t2 : AVLTree) (p : Ptr),
    balance_insert F t p = some t2 → RefSame t.heap t2.heap := by
  intro F
  induction F with
  | zero =>
    intro t t2 p e
    cases p with
    | none => simp only [balance_insert, Option.some.injEq] at e; subst e; exact RefSame.sRefl _
    | some n => simp [balance_insert] at e
  | succ F ih =>
    intro t t2 p e
    cases p with
    | none => simp only [balance_insert, Option.some.injEq] at e; subst e; exact RefSame.sRefl _
    | some n =>
      simp only [balance_insert] at e
      split at e
      · cases e
      · rename_i t1 h1
        exact (balance_insert_step_ref h1).sTrans (ih _ _ _ e)

@[simp] theorem setState_same (h : Heap) (p : Nat) (v : State) :
    (setState h p v).get p = { h.get p with state := v } := by
  simp [setState]

@[simp] theorem setState_other (h : Heap) (p q : Nat) (v : State) (hne : q ≠ p) :
    (setState h p v).get q = h.get q := by
  simp [setState, hne]

@[simp] theorem setFreed_same (h : Heap) (p : Nat) :
    (setFreed h p).get p = { h.get p with freed := true } := by
  simp [setFreed]

@[simp] theorem setFreed_other (h : Heap) (p q : Nat) (hne : q ≠ p) :
    (setFreed h p).get q = h.get q := by
  simp [setFreed, hne]

theorem inc_other (h : Heap) (p : Ptr) (q : Nat) (hq : p ≠ some q) :
    (inc_ref_count h p).get q = h.get q := by
  cases p with
  | none => rfl
  | some a =>
    simp only [inc_ref_count]
    exact setRef_other _ _ _ _ (fun e => hq (by rw [e]))

theorem dec_other (h : Heap) (p : Ptr) (q : Nat) (hq : p ≠ some q) :
    (dec_ref_count h p).get q = h.get q := by
  cases p with
  | none => rfl
  | some a =>
    simp only [dec_ref_count]
    exact setRef_other _ _ _ _ (fun e => hq (by rw [e]))

theorem pin3_refs (h : Heap) (node : Nat) : RefUpd h (pin3 h node) :=
  ((RefUpd.inc _ _).uTrans (RefUpd.inc _ _)).uTrans (RefUpd.inc _ _)

theorem pin3_other (h : Heap) (node q : Nat) (h1 : (h.get node).parent ≠ some q)
    (h2 : (h.get node).left ≠ some q) (h3 : (h.get node).right ≠ some q) :
    (pin3 h node).get q = h.get q := by
  unfold pin3
  simp only
  by_cases e : q = node
  · subst e
    have a1 : (inc_ref_count h (h.get q).parent).get q = h.get q := inc_other _ _ _ h1
    rw [show (inc_ref_count h (h q).parent) q = (inc_ref_count h (h.get q).parent).get q from rfl,
      a1]
    have a2 : (inc_ref_count (inc_ref_count h (h.get q).parent) (h.get q).left).get q = h.get q := by
      rw [inc_other _ _ _ h2, a1]
    rw [show (inc_ref_count (inc_ref_count h (h q).parent) (h.get q).left) q =
      (inc_ref_count (inc_ref_count h (h.get q).parent) (h.get q).left).get q from rfl, a2]
    rw [inc_other _ _ _ h3, a2]
  · obtain ⟨v1, e1⟩ := RefUpd.inc h (h.get node).parent node
    have b1 : ((inc_ref_count h (h.get node).parent).get node).left = (h.get node).left := by
      rw [e1]
    obtain ⟨v2, e2⟩ := ((RefUpd.inc h (h.get node).parent).uTrans
      (RefUpd.inc _ ((inc_ref_count h (h.get node).parent).get node).left)) node
    have b2 : ((inc_ref_count (inc_ref_count h (h.get node).parent)
        ((inc_ref_count h (h.get node).parent).get node).left).get node).right =
        (h.get node).right := by
      rw [e2]
    rw [inc_other _ _ _ (by rw [show ∀ (g : Heap), g node = g.get node from fun _ => rfl, b2]; exact h3),
      inc_other _ _ _ (by rw [show ∀ (g : Heap), g node = g.get node from fun _ => rfl, b1]; exact h2),
      inc_other _ _ _ h1]

theorem delete_node_eq (h : Heap) (node : Nat) :
    delete_node h node =
      if (h.get node).ref_count = 0 then setFreed (setState h node State.DELETED) node
      else pin3 (setState h node State.DELETED) node := by
  unfold delete_node pin3
  simp only [setState_same]

theorem delete_node_refs (h : Heap) (node q : Nat) (hq : q ≠ node) :
    ∃ v, (delete_node h node).get q = { h.get q with ref_count := v } := by
  rw [delete_node_eq]
  split_ifs
  · exact ⟨(h.get q).ref_count, by simp [hq]⟩
  · obtain ⟨v, hv⟩ := pin3_refs (setState h node State.DELETED) node q
    exact ⟨v, by rw [hv, setState_other _ _ _ _ hq]⟩

theorem delete_node_other (h : Heap) (node q : Nat) (hq : q ≠ node)
    (h1 : (h.get node).parent ≠ some q) (h2 : (h.get node).left ≠ some q)
    (h3 : (h.get node).right ≠ some q) : (delete_node h node).get q = h.get q := by
  rw [delete_node_eq]
  split_ifs
  · simp [hq]
  · rw [pin3_other _ _ _ (by simpa using h1) (by simpa using h2) (by simpa using h3)]
    simp [hq]

theorem delete_node_self (h : Heap) (node : Nat)
    (h1 : (h.get node).parent ≠ some node) (h2 : (h.get node).left ≠ some node)
    (h3 : (h.get node).right ≠ some node) :
    (delete_node h node).get node =
      { h.get node with state := State.DELETED,
                        freed := (h.get node).freed || decide ((h.get node).ref_count = 0) } := by
  rw [delete_node_eq]
  split_ifs with hr
  · simp [hr]
  · rw [pin3_other _ _ _ (by simpa using h1) (by simpa using h2) (by simpa using h3)]
    simp [hr]

theorem delete_node_ref0 (h : Heap) (node : Nat) (hr : (h.get node).ref_count = 0) :
    RefSame h (delete_node h node) := by
  intro q
  rw [delete_node_eq, if_pos hr]
  by_cases e : q = node
  · subst e; simp
  · simp [e]

theorem ids_of_ents_eq {A B : FT} (e : A.ents = B.ents) : A.ids = B.ids := by
  rw [ids_eq_ents, ids_eq_ents, e]

theorem erase_build {t : AVLTree} {T : FT} (hI : Inv t T) {k : Int} {c : Ctx} {l r : FT}
    {i : Info} (hz : ZRep t c (node l i r)) (hp : plug c (node l i r) = T)
    (L : Located T k c l i r) (hk : i.key = k) (hi : i.id ≠ 0)
    {t1 : AVLTree} {C : Ctx} {g : FT} (o : Int)
    (hz1 : ZRep t1 C g) (hn : t1.next = t.next) (hs : t1.set_size + 1 = t.set_size)
    (hout : ∀ q, q ∉ T.ids → t1.heap.get q = t.heap.get q)
    (hself : t1.heap.get i.id = t.heap.get i.id)
    (href : RefSame t.heap t1.heap)
    (ga : g.Acc) (gb : g.Bal) (cb : CtxBal C o) (ho : g.ht = o ∨ g.ht + 1 = o)
    (hents : (plug C g).ents = (entsBefore c ++ l.ents) ++ (r.ents ++ entsAfter c))
    (hsl : lastLeft (plug C g) ≠ leaf → lastLeft T ≠ leaf) :
    ∃ t2, balance_delete_loop t1.fuel t1 (ctxPar none C) = some t2 ∧
      ErasePost t T k (some (AVLTree.mk (delete_node t2.heap i.id) t2.root t2.set_size t2.next)) := by
  have hTe : T.ents = (entsBefore c ++ l.ents) ++ (i.id, k, i.value) :: (r.ents ++ entsAfter c) := by
    rw [L.ents, hk]; simp
  have hTi : T.ids = ((entsBefore c ++ l.ents).map (fun e => e.1)) ++
      i.id :: ((r.ents ++ entsAfter c).map (fun e => e.1)) := by
    rw [ids_eq_ents, hTe]; simp
  have hGi : (plug C g).ids = ((entsBefore c ++ l.ents).map (fun e => e.1)) ++
      ((r.ents ++ entsAfter c).map (fun e => e.1)) := by
    rw [ids_eq_ents, hents]; simp
  have ndT : T.ids.Nodup := by simpa [ctxIds] using hI.rep.nodup
  have hsub : ∀ q, q ∈ (plug C g).ids → q ∈ T.ids ∧ q ≠ i.id := by
    intro q hq
    rw [hGi] at hq
    rw [hTi] at ndT ⊢
    have nd := ndT
    simp only [List.nodup_append, List.nodup_cons, List.mem_append, List.mem_cons, not_or,
      List.disjoint_cons_right] at nd
    rw [List.mem_append] at hq
    rcases hq with h | h
    · exact ⟨List.mem_append.2 (Or.inl h), fun e => nd.2.2.1 (e ▸ h)⟩
    · exact ⟨List.mem_append.2 (Or.inr (List.mem_cons_of_mem _ h)), fun e => nd.2.1.1 (e ▸ h)⟩
  have hzm : ∀ q, q ∈ g.ids ++ ctxIds C → q ∈ T.ids ∧ q ≠ i.id :=
    fun q hq => hsub q ((zids_mem rfl q).1 hq)
  have hF : 2 * C.length ≤ t1.fuel := by
    have h1 := ctx_length_le C
    have h2 : (g.ids ++ ctxIds C).length ≤ t.next :=
      length_le_of_nodup_lt hz1.nodup (fun q hq => hI.alloc q (hzm q hq).1)
    simp only [List.length_append] at h2
    simp only [AVLTree.fuel, hn]
    omega
  obtain ⟨t2, T2, e2, hz2, a2, b2, ents2, keeps, ll⟩ := del_up C t1 g o t1.fuel hz1 ga gb cb ho hF
  have hT2i : T2.ids = (plug C g).ids := ids_of_ents_eq ents2
  have rp := hz.foc
  rw [Rep_node] at rp
  obtain ⟨⟨k1, k2, k3, k4, k5, k6, k7⟩, kh, kl, kr⟩ := rp
  have hiT : i.id ∈ T.ids := (zids_mem hp _).1 (by simp)
  have nd0 := hz.nodup
  have hpi : ∀ q, ctxPar none c = some q → q ∈ T.ids ∧ q ≠ i.id := by
    intro q hq
    cases c with
    | nil => simp [ctxPar] at hq
    | cons f c =>
      simp only [ctxPar, Option.some.injEq] at hq
      subst hq
      refine ⟨(zids_mem hp _).1 (by simp [ctxIds]), fun e => ?_⟩
      have := (List.nodup_append.1 nd0).2.2 (show i.id ∈ (node l i r).ids by simp)
        (show i.id ∈ ctxIds (f :: c) by simp [ctxIds, e])
      exact this
  have ndf : (node l i r).ids.Nodup := (List.nodup_append.1 nd0).1
  simp only [ids_node, List.nodup_append, List.nodup_cons, List.mem_append, List.mem_cons,
    not_or, List.disjoint_cons_right] at ndf
  obtain ⟨ndl, ⟨ir, ndr⟩, il, dlr⟩ := ndf
  have hli : ∀ q, l.rootPtr = some q → q ∈ T.ids ∧ q ≠ i.id := by
    intro q hq
    cases l with
    | leaf => simp at hq
    | node a b d =>
      simp only [rootPtr_node, Option.some.injEq] at hq
      subst hq
      exact ⟨(zids_mem hp _).1 (by simp), fun e => il (by simp [← e])⟩
  have hri : ∀ q, r.rootPtr = some q → q ∈ T.ids ∧ q ≠ i.id := by
    intro q hq
    cases r with
    | leaf => simp at hq
    | node a b d =>
      simp only [rootPtr_node, Option.some.injEq] at hq
      subst hq
      exact ⟨(zids_mem hp _).1 (by simp), fun e => ir (by simp [← e])⟩
  have hi2 : i.id ∉ g.ids ++ ctxIds C := fun h => (hzm _ h).2 rfl
  have e2i : t2.heap.get i.id = t.heap.get i.id := by
    rw [keeps.out _ hi2, hself]
  have p1 : (t2.heap.get i.id).parent ≠ some i.id := by
    rw [e2i, k7]; exact fun e => (hpi _ e).2 rfl
  have p2 : (t2.heap.get i.id).left ≠ some i.id := by
    rw [e2i, k5]; exact fun e => (hli _ e).2 rfl
  have p3 : (t2.heap.get i.id).right ≠ some i.id := by
    rw [e2i, k6]; exact fun e => (hri _ e).2 rfl
  refine ⟨t2, e2, _, T2, entsBefore c ++ l.ents, r.ents ++ entsAfter c, i.id, i.value, rfl,
    ⟨⟨hz2.root, trivial, ?_, hz2.nodup⟩, ⟨a2, b2, ?_, ?_, ?_⟩, ?_, ?_⟩, hTe, ents2.trans hents,
    hi, keeps.next.trans hn, ?_, ?_, ?_, ?_⟩
  · refine Rep_refs (fun q hq => ?_) hz2.foc
    refine delete_node_refs _ _ _ ?_
    rw [hT2i] at hq
    exact (hsub q hq).2
  · rw [ents2, hents]
    have := hI.good.sorted
    rw [hTe] at this
    exact this.erase_mid
  · obtain ⟨v, hv⟩ := hI.good.hasS
    refine ⟨v, ?_⟩
    rw [ents2, hents]
    rw [hTe] at hv
    simp only [List.mem_append, List.mem_cons, Prod.mk.injEq] at hv ⊢
    rcases hv with h | ⟨h, -⟩ | h
    · exact Or.inl h
    · exact absurd h.symm hi
    · exact Or.inr h
  · intro h1 e he h0
    refine hI.good.sleft (hsl (ll h1)) e ?_ h0
    rw [ents2, hents] at he
    rw [hTe]
    simp only [List.mem_append, List.mem_cons] at he ⊢
    tauto
  · intro q hq
    rw [hT2i] at hq
    show q < t2.next
    rw [keeps.next, hn]
    exact hI.alloc q (hsub q hq).1
  · show t2.set_size + 1 = T2.ids.length
    have h1 := hI.size
    rw [hT2i, hGi, keeps.size]
    rw [hTi] at h1
    simp only [List.length_append, List.length_cons, List.length_map] at h1 ⊢
    omega
  · show t2.set_size + 1 = t.set_size
    rw [keeps.size, hs]
  · intro q hq
    show (delete_node t2.heap i.id).get q = t.heap.get q
    have qi : q ≠ i.id := fun e => hq (e ▸ hiT)
    rw [delete_node_other _ _ _ qi
      (by rw [e2i, k7]; exact fun e => hq (hpi _ e).1)
      (by rw [e2i, k5]; exact fun e => hq (hli _ e).1)
      (by rw [e2i, k6]; exact fun e => hq (hri _ e).1)]
    rw [keeps.out q (fun h => hq (hzm q h).1)]
    exact hout q hq
  · show (delete_node t2.heap i.id).get i.id = _
    rw [delete_node_self _ _ p1 p2 p3, e2i, k4]
    simp
  · intro h0
    refine (href.sTrans (balance_delete_loop_ref _ _ _ _ e2)).sTrans ?_
    exact delete_node_ref0 _ _ (by rw [e2i]; exact h0)

theorem erase_eq (t : AVLTree) (k : Int) (node : Nat) (hne : t.set_size ≠ 0)
    (hf : find_node lt t k = some (some node))
    (hc : (t.heap.get node).key = k ∧ (t.heap.get node).state = State.NOT_DELETE) :
    erase lt t k =
      match erase_lower t node with
      | none => none
      | some lower => erase_tail t node lower := by
  unfold erase
  have he : ¬ (t.empty = true) := by simpa [AVLTree.empty] using hne
  rw [if_pos he, hf]
  simp only
  rw [if_pos hc]
  rfl

theorem erase_skip (t : AVLTree) (k : Int) (node : Nat)
    (hf : find_node lt t k = some (some node))
    (hc : ¬ ((t.heap.get node).key = k ∧ (t.heap.get node).state = State.NOT_DELETE)) :
    erase lt t k = some t := by
  unfold erase
  split_ifs with he
  · rfl
  · rw [hf]
    simp only
    rw [if_neg hc]

theorem erase_empty (t : AVLTree) (k : Int) (h0 : t.set_size = 0) : erase lt t k = some t := by
  unfold erase
  have he : ¬ ¬ (t.empty = true) := by simp [AVLTree.empty, h0]
  rw [if_neg he]

theorem erase_tail_eq {t : AVLTree} {node lower : Nat} {t2 : AVLTree}
    (e : balance_delete_loop (erase_mid t node lower).fuel (erase_mid t node lower)
      (erase_start t node lower) = some t2) :
    erase_tail t node lower =
      some (AVLTree.mk (delete_node t2.heap node) t2.root t2.set_size t2.next) := by
  unfold erase_tail
  rw [e]

theorem plugH_ids_mem (h : Heap) (a : Ctx) (g : FT) (c : Ctx) (q : Nat) :
    q ∈ (plugH h a g).ids ++ ctxIds c ↔ q ∈ g.ids ++ ctxIds (a ++ c) := by
  induction a generalizing g with
  | nil => rfl
  | cons f a ih =>
    simp only [plugH, List.cons_append]
    rw [ih, ← fillH_ids_mem f h g (a ++ c) q]

theorem Inv.size_pos {t : AVLTree} {T : FT} (hI : Inv t T) {e : Nat × Int × Int}
    (he : e ∈ T.ents) (h0 : e.1 ≠ 0) : t.set_size ≠ 0 := by
  obtain ⟨v, hv⟩ := hI.good.hasS
  have h1 := hI.size
  have nd : T.ids.Nodup := by simpa [ctxIds] using hI.rep.nodup
  have hsub : [e.1, 0].Subperm T.ids := by
    refine List.subperm_of_subset (by simpa using h0) ?_
    intro x hx
    simp only [List.mem_cons, List.mem_singleton, List.not_mem_nil, or_false] at hx
    rcases hx with rfl | rfl
    · exact ents_ids_mem he
    · exact ents_ids_mem hv
  have := hsub.length_le
  simp only [List.length_cons, List.length_nil] at this
  omega

theorem replace_node_self (h : Heap) (x : Nat) : replace_node h x x = h := by
  simp [replace_node]

theorem root_ite_self (t : AVLTree) (x : Nat) :
    (if some x = t.root then some x else t.root) = t.root := by
  split_ifs with h
  · exact h
  · rfl

theorem erase_leaf {t : AVLTree} {T : FT} (hI : Inv t T) {k : Int} {c : Ctx} {i : Info}
    (hz : ZRep t c (node leaf i leaf)) (hp : plug c (node leaf i leaf) = T)
    (L : Located T k c leaf i leaf) (hk : i.key = k) (hi : i.id ≠ 0) :
    ErasePost t T k (erase_tail t i.id i.id) := by
  cases c with
  | nil => exact absurd (L.last_is_sent hI.good rfl) hi
  | cons fr c =>
    have rp := hz.foc
    rw [Rep_node] at rp
    obtain ⟨⟨k1, k2, k3, k4, k5, k6, k7⟩, kh, -, -⟩ := rp
    simp only [ctxPar] at k7
    have nd := hz.nodup
    have hx : i.id ≠ fr.i.id := by
      intro e
      exact (List.nodup_append.1 nd).2.2 (show i.id ∈ (node leaf i leaf).ids by simp)
        (show i.id ∈ ctxIds (fr :: c) by simp [ctxIds, e])
    obtain ⟨sp1, sp2⟩ := splice_ok hz i.id hx
    have hself : (erase_splice t.heap i.id i.id).get i.id = t.heap.get i.id :=
      sp2 _ hx (by simp)
    have hz1 : ZRep (erase_mid t i.id i.id) (fr :: c) leaf :=
      ZRep.fields sp1 (by simp [erase_mid, replace_node_self])
        (by simp only [erase_mid]; exact root_ite_self t i.id)
    have hst : erase_start t i.id i.id = ctxPar none (fr :: c) := by
      unfold erase_start
      rw [hself, k7, if_neg (by simpa using fun e => hx e.symm)]
      rfl
    have hsz : t.set_size ≠ 0 := hI.size_pos L.mem_self hi
    obtain ⟨cb, -, -⟩ := CtxBal_of_plug (fr :: c) (node leaf i leaf)
      (by rw [hp]; exact hI.good.acc) (by rw [hp]; exact hI.good.bal)
    have hfr : fr.i.id ∈ T.ids := (zids_mem hp _).1 (by simp [ctxIds])
    obtain ⟨t2, e2, post⟩ := erase_build hI hz hp L hk hi 0 hz1 rfl
      (by simp only [erase_mid]; omega)
      (fun q hq => by
        simp only [erase_mid, replace_node_self]
        exact sp2 q (fun e => hq (e ▸ hfr)) (by simp))
      (by simp only [erase_mid, replace_node_self]; exact hself)
      (by simp only [erase_mid, replace_node_self]; exact erase_splice_ref _ _ _)
      trivial trivial (by simpa using cb) (Or.inr (by simp))
      (by rw [ents_plug]; simp)
      (erase_sleft hI.good hp L hi (fun h => absurd rfl h))
    rw [← hst] at e2
    rw [erase_tail_eq e2]
    exact post

theorem erase_splice_direct (h : Heap) (lower node : Nat)
    (hp : (h.get lower).parent = some node) : erase_splice h lower node = h := by
  unfold erase_splice
  rw [if_neg]
  rw [show h lower = h.get lower from rfl, hp]
  simp

theorem erase_left {t : AVLTree} {T : FT} (hI : Inv t T) {k : Int} {c : Ctx} {ml r : FT}
    {i mi : Info} (hz : ZRep t c (node (node ml mi leaf) i r))
    (hp : plug c (node (node ml mi leaf) i r) = T)
    (L : Located T k c (node ml mi leaf) i r) (hk : i.key = k) (hi : i.id ≠ 0) :
    ErasePost t T k (erase_tail t i.id mi.id) := by
  have rp := hz.foc
  simp only [Rep_node, rootPtr_node, rootPtr_leaf] at rp
  obtain ⟨⟨k1, k2, k3, k4, k5, k6, k7⟩, kh, ⟨⟨m1, m2, m3, m4, m5, m6, m7⟩, mh, rml, -⟩, kr⟩ := rp
  have hsp : erase_splice t.heap mi.id i.id = t.heap := erase_splice_direct _ _ _ m7
  obtain ⟨ht, rz, rout⟩ := replace_left (t.set_size - 1) t.next hz
  have hmid : erase_mid t i.id mi.id = AVLTree.mk (replace_node t.heap mi.id i.id)
      (if some i.id = t.root then some mi.id else t.root) (t.set_size - 1) t.next := by
    simp only [erase_mid, hsp]
  have hz1 : ZRep (erase_mid t i.id mi.id) (⟨Dir.L, ⟨mi.id, mi.key, mi.value, ht⟩, r⟩ :: c) ml := by
    rw [hmid]
    exact rz.down_left
  have hst : erase_start t i.id mi.id =
      ctxPar none (⟨Dir.L, ⟨mi.id, mi.key, mi.value, ht⟩, r⟩ :: c) := by
    unfold erase_start
    rw [hsp, m7, if_pos rfl]
    rfl
  have hsz : t.set_size ≠ 0 := hI.size_pos L.mem_self hi
  obtain ⟨cb, fa, fb⟩ := CtxBal_of_plug c (node (node ml mi leaf) i r)
    (by rw [hp]; exact hI.good.acc) (by rw [hp]; exact hI.good.bal)
  simp only [Acc_node, Bal_node, ht_node, ht_leaf, Acc_leaf, Bal_leaf, true_and, and_true] at fa fb cb
  have hml := FT.ht_ge ml
  have hmax : max ml.ht (-1) = ml.ht := max_eq_left hml
  rw [hmax] at fa fb cb
  have nd := hz.nodup
  have hmem : ∀ q, q ∈ (node (node ml mi leaf) i r).ids ++ ctxIds c → q ∈ T.ids :=
    fun q hq => (zids_mem hp q).1 hq
  have hpi : ∀ q, ctxPar none c = some q → q ∈ T.ids ∧ q ≠ i.id := by
    intro q hq
    cases c with
    | nil => simp [ctxPar] at hq
    | cons f c =>
      simp only [ctxPar, Option.some.injEq] at hq
      subst hq
      refine ⟨hmem _ (by simp [ctxIds]), fun e => ?_⟩
      exact (List.nodup_append.1 nd).2.2 (show i.id ∈ (node (node ml mi leaf) i r).ids by simp)
        (show i.id ∈ ctxIds (f :: c) by simp [ctxIds, e])
  have ndf : (node (node ml mi leaf) i r).ids.Nodup := (List.nodup_append.1 nd).1
  simp only [ids_node, ids_leaf, List.nodup_append, List.nodup_cons, List.mem_append,
    List.mem_cons, not_or, List.disjoint_cons_right, List.append_nil, List.mem_singleton,
    List.nodup_nil, List.not_mem_nil, not_false_eq_true, and_true, true_and,
    List.disjoint_singleton] at ndf
  have hri : ∀ q, r.rootPtr = some q → q ∈ T.ids ∧ q ≠ i.id := by
    intro q hq
    cases r with
    | leaf => simp at hq
    | node a b d =>
      simp only [rootPtr_node, Option.some.injEq] at hq
      subst hq
      refine ⟨hmem _ (by simp), fun e => ?_⟩
      have := ndf.2.1.1
      exact this (by simp [← e])
  have hmi : mi.id ≠ i.id := by
    intro e
    have := ndf.2.2.1
    simp only [not_or] at this
    exact this.2 e.symm
  obtain ⟨t2, e2, post⟩ := erase_build hI hz hp L hk hi (ml.ht + 1) hz1
    (by rw [hmid])
    (by rw [hmid]; simp only; omega)
    (fun q hq => by
      rw [hmid]
      exact rout q (fun e => hq (e ▸ hmem _ (by simp))) (fun e => hq (hri q e).1)
        (fun e => hq (hpi q e).1))
    (by rw [hmid]
        exact rout _ hmi.symm (fun e => (hri _ e).2 rfl) (fun e => (hpi _ e).2 rfl))
    (by rw [hmid]; exact replace_node_ref _ _ _)
    fa.1.1 fb.1.1
    (by simp only [CtxBal]
        refine ⟨fa.2.1, fb.2.1, fb.2.2.1, fb.2.2.2, cb⟩)
    (Or.inr rfl)
    (by rw [ents_plug]; simp [entsBefore, entsAfter])
    (erase_sleft hI.good hp L hi (G := node ml ⟨mi.id, mi.key, mi.value, ht⟩ r) (fun h => by
      cases r with
      | leaf => exact absurd rfl h
      | node a b d => exact ⟨by simp, id⟩))
  rw [← hst] at e2
  rw [erase_tail_eq e2]
  exact post

theorem erase_right {t : AVLTree} {T : FT} (hI : Inv t T) {k : Int} {c : Ctx}
    {i ri : Info} (hz : ZRep t c (node leaf i (node leaf ri leaf)))
    (hp : plug c (node leaf i (node leaf ri leaf)) = T)
    (L : Located T k c leaf i (node leaf ri leaf)) (hk : i.key = k) (hi : i.id ≠ 0) :
    ErasePost t T k (erase_tail t i.id ri.id) := by
  have rp := hz.foc
  simp only [Rep_node, rootPtr_node, rootPtr_leaf] at rp
  obtain ⟨⟨k1, k2, k3, k4, k5, k6, k7⟩, kh, -, ⟨⟨m1, m2, m3, m4, m5, m6, m7⟩, mh, -, -⟩⟩ := rp
  have hsp : erase_splice t.heap ri.id i.id = t.heap := erase_splice_direct _ _ _ m7
  obtain ⟨ht, rz, rout⟩ := replace_right (t.set_size - 1) t.next hz
  have hmid : erase_mid t i.id ri.id = AVLTree.mk (replace_node t.heap ri.id i.id)
      (if some i.id = t.root then some ri.id else t.root) (t.set_size - 1) t.next := by
    simp only [erase_mid, hsp]
  have hz1 : ZRep (erase_mid t i.id ri.id) (⟨Dir.L, ⟨ri.id, ri.key, ri.value, ht⟩, leaf⟩ :: c)
      leaf := by
    rw [hmid]
    exact rz.down_left
  have hst : erase_start t i.id ri.id =
      ctxPar none (⟨Dir.L, ⟨ri.id, ri.key, ri.value, ht⟩, leaf⟩ :: c) := by
    unfold erase_start
    rw [hsp, m7, if_pos rfl]
    rfl
  have hsz : t.set_size ≠ 0 := hI.size_pos L.mem_self hi
  obtain ⟨cb, fa, fb⟩ := CtxBal_of_plug c (node leaf i (node leaf ri leaf))
    (by rw [hp]; exact hI.good.acc) (by rw [hp]; exact hI.good.bal)
  simp only [ht_node, ht_leaf] at cb
  have nd := hz.nodup
  have hmem : ∀ q, q ∈ (node leaf i (node leaf ri leaf)).ids ++ ctxIds c → q ∈ T.ids :=
    fun q hq => (zids_mem hp q).1 hq
  have hpi : ∀ q, ctxPar none c = some q → q ∈ T.ids ∧ q ≠ i.id := by
    intro q hq
    cases c with
    | nil => simp [ctxPar] at hq
    | cons f c =>
      simp only [ctxPar, Option.some.injEq] at hq
      subst hq
      refine ⟨hmem _ (by simp [ctxIds]), fun e => ?_⟩
      exact (List.nodup_append.1 nd).2.2
        (show i.id ∈ (node leaf i (node leaf ri leaf)).ids by simp)
        (show i.id ∈ ctxIds (f :: c) by simp [ctxIds, e])
  have ndf : (node leaf i (node leaf ri leaf)).ids.Nodup := (List.nodup_append.1 nd).1
  have hmi : ri.id ≠ i.id := by
    intro e
    simp [e] at ndf
  obtain ⟨t2, e2, post⟩ := erase_build hI hz hp L hk hi 0 hz1
    (by rw [hmid])
    (by rw [hmid]; simp only; omega)
    (fun q hq => by
      rw [hmid]
      exact rout q (fun e => hq (e ▸ hmem _ (by simp))) (fun e => hq (hpi q e).1))
    (by rw [hmid]
        exact rout _ hmi.symm (fun e => (hpi _ e).2 rfl))
    (by rw [hmid]; exact replace_node_ref _ _ _)
    trivial trivial
    (by simp only [CtxBal, Acc_leaf, Bal_leaf, ht_leaf, true_and]
        refine ⟨by omega, by omega, ?_⟩
        simpa using cb)
    (Or.inr rfl)
    (by rw [ents_plug]; simp [entsBefore, entsAfter])
    (erase_sleft hI.good hp L hi (G := node leaf ⟨ri.id, ri.key, ri.value, ht⟩ leaf)
      (fun _ => ⟨by simp, fun h => absurd rfl h⟩))
  rw [← hst] at e2
  rw [erase_tail_eq e2]
  exact post

theorem rootPtr_mem {t : FT} {q : Nat} (h : t.rootPtr = some q) : q ∈ t.ids := by
  cases t with
  | leaf => simp at h
  | node l i r =>
    simp only [rootPtr_node, Option.some.injEq] at h
    subst h
    simp

theorem ctxPar_mem {c : Ctx} {q : Nat} (h : ctxPar none c = some q) : q ∈ ctxIds c := by
  cases c with
  | nil => simp [ctxPar] at h
  | cons f c =>
    simp only [ctxPar, Option.some.injEq] at h
    subst h
    simp [ctxIds]

theorem erase_far {t : AVLTree} {T : FT} (hI : Inv t T) {k : Int} {c : Ctx} {r : FT}
    {i : Info} {fr : Frame} {cl : Ctx} {ml : FT} {mi : Info}
    (hz : ZRep t c (node (plug (fr :: cl) (node ml mi leaf)) i r))
    (hp : plug c (node (plug (fr :: cl) (node ml mi leaf)) i r) = T)
    (L : Located T k c (plug (fr :: cl) (node ml mi leaf)) i r)
    (hR : ∀ f ∈ fr :: cl, f.dir = Dir.R) (hk : i.key = k) (hi : i.id ≠ 0) :
    ErasePost t T k (erase_tail t i.id mi.id) := by
  have hzl : ZRep t (fr :: (cl ++ ⟨Dir.L, i, r⟩ :: c)) (node ml mi leaf) :=
    ZRep.down_plug (fr :: cl) hz.down_left
  have hpl : plug (fr :: (cl ++ ⟨Dir.L, i, r⟩ :: c)) (node ml mi leaf) = T := by
    rw [← hp, ← List.cons_append, plug_append]
    rfl
  have rp := hzl.foc
  simp only [Rep_node, rootPtr_node, rootPtr_leaf, ctxPar] at rp
  obtain ⟨⟨m1, m2, m3, m4, m5, m6, m7⟩, mh, rml, -⟩ := rp
  have ndl := hzl.nodup
  have hpn : (mi.id :: (ml.ids ++ ctxIds (fr :: (cl ++ ⟨Dir.L, i, r⟩ :: c)))).Nodup := by
    refine ndl.perm ?_
    simp only [ids_node, ids_leaf]
    rw [List.perm_iff_count]; intro x
    simp only [List.count_append, List.count_cons, List.count_nil]; omega
  obtain ⟨hmi0, ndz⟩ := List.nodup_cons.1 hpn
  have hiC : i.id ∈ ctxIds (fr :: (cl ++ ⟨Dir.L, i, r⟩ :: c)) := by
    have := (ctxIds_append (fr :: cl) (⟨Dir.L, i, r⟩ :: c)).mem_iff (a := i.id)
    rw [List.cons_append] at this
    rw [this]
    simp [ctxIds]
  have hfC : fr.i.id ∈ ctxIds (fr :: (cl ++ ⟨Dir.L, i, r⟩ :: c)) := by simp [ctxIds]
  have hx : i.id ≠ fr.i.id := by
    intro e
    have h1 := hz.nodup
    have : fr.i.id ∈ (plug (fr :: cl) (node ml mi leaf)).ids :=
      ((ids_plug_perm (fr :: cl) _).mem_iff).2 (by simp [ctxIds])
    simp only [ids_node, List.nodup_append, List.nodup_cons, List.mem_append, List.mem_cons,
      not_or, List.disjoint_cons_right] at h1
    exact h1.1.2.2.1 (e ▸ this)
  have hmi_i : mi.id ≠ i.id := fun e => hmi0 (by rw [e]; simp [hiC])
  have hmi_f : mi.id ≠ fr.i.id := fun e => hmi0 (by rw [e]; simp [hfC])
  have hmi_ml : mi.id ∉ ml.ids := fun h => hmi0 (by simp [h])
  have hi_ml : i.id ∉ ml.ids := fun h => (List.nodup_append.1 ndz).2.2 h hiC
  obtain ⟨sp1, sp2⟩ := splice_ok hzl i.id hx
  have hzu := (ZRep.up_plug (fr :: cl) (c := ⟨Dir.L, i, r⟩ :: c) sp1).up
  simp only [Frame.fillH] at hzu
  have hmemU : ∀ q, q ∈ (node (plugH (erase_splice t.heap mi.id i.id) (fr :: cl) ml)
      { i with height := ((erase_splice t.heap mi.id i.id).get i.id).height } r).ids ++ ctxIds c →
      q ∈ T.ids ∧ q ≠ mi.id := by
    intro q hq
    have h1 := (fillH_ids_mem ⟨Dir.L, i, r⟩ (erase_splice t.heap mi.id i.id)
      (plugH (erase_splice t.heap mi.id i.id) (fr :: cl) ml) c q).1
      (by simpa [Frame.fillH] using hq)
    have h2 := (plugH_ids_mem _ (fr :: cl) ml (⟨Dir.L, i, r⟩ :: c) q).1 h1
    refine ⟨(zids_mem hpl q).1 ?_, fun e => hmi0 (e ▸ h2)⟩
    simp only [ids_node, ids_leaf, List.mem_append, List.mem_cons] at h2 ⊢
    tauto
  have esm : (erase_splice t.heap mi.id i.id).get mi.id = t.heap.get mi.id :=
    sp2 _ hmi_f (rootPtr_ne_of_not_mem hmi_ml)
  obtain ⟨ht, rz, rout⟩ := replace_far (t.set_size - 1) t.next hzu
    (m := ⟨mi.id, mi.key, mi.value, 0⟩) (fun h => (hmemU _ h).2 rfl)
    (by rw [esm]; exact m1) (by rw [esm]; exact m2) (by rw [esm]; exact m3)
    (by rw [esm]; exact m4)
  simp only at rz rout
  have hz1 : ZRep (erase_mid t i.id mi.id)
      ((fr :: cl).map (Frame.updH (erase_splice t.heap mi.id i.id)) ++
        ⟨Dir.L, ⟨mi.id, mi.key, mi.value, ht⟩, r⟩ :: c) ml := by
    have := rz.down_left
    rw [plugH_eq] at this
    exact ZRep.down_plug _ this
  have hst : erase_start t i.id mi.id =
      ctxPar none ((fr :: cl).map (Frame.updH (erase_splice t.heap mi.id i.id)) ++
        ⟨Dir.L, ⟨mi.id, mi.key, mi.value, ht⟩, r⟩ :: c) := by
    unfold erase_start
    rw [esm, m7, if_neg (by simpa using fun e => hx e.symm)]
    rfl
  have hsz : t.set_size ≠ 0 := hI.size_pos L.mem_self hi
  obtain ⟨cb, fa, fb⟩ := CtxBal_of_plug (fr :: (cl ++ ⟨Dir.L, i, r⟩ :: c)) (node ml mi leaf)
    (by rw [hpl]; exact hI.good.acc) (by rw [hpl]; exact hI.good.bal)
  simp only [Acc_node, Bal_node, ht_node, ht_leaf, Acc_leaf, Bal_leaf, true_and, and_true] at fa fb cb
  have hml := FT.ht_ge ml
  have hmax : max ml.ht (-1) = ml.ht := max_eq_left hml
  rw [hmax] at cb
  have ndu := hzu.nodup
  have hiL : i.id ∉ (plugH (erase_splice t.heap mi.id i.id) (fr :: cl) ml).ids := by
    have := (List.nodup_append.1 ndu).1
    simp only [ids_node, List.nodup_append, List.nodup_cons, List.mem_append, List.mem_cons,
      not_or, List.disjoint_cons_right] at this
    exact this.2.2.1
  have hir : i.id ∉ r.ids := by
    have := (List.nodup_append.1 ndu).1
    simp only [ids_node, List.nodup_append, List.nodup_cons, List.mem_append, List.mem_cons,
      not_or, List.disjoint_cons_right] at this
    exact this.2.1.1
  have hic : i.id ∉ ctxIds c := fun h =>
    (List.nodup_append.1 ndu).2.2 (show i.id ∈ (node _ _ r).ids by simp) h
  have hsl : lastLeft (plug c (node
      (plug ((fr :: cl).map (Frame.updH (erase_splice t.heap mi.id i.id))) ml)
      ⟨mi.id, mi.key, mi.value, ht⟩ r)) ≠ leaf → lastLeft T ≠ leaf :=
    erase_sleft hI.good hp L hi (fun h => by
      cases r with
      | leaf => exact absurd rfl h
      | node a b d => exact ⟨by simp, id⟩)
  obtain ⟨t2, e2, post⟩ := erase_build hI hz hp L hk hi (ml.ht + 1) hz1 rfl
    (by simp only [erase_mid]; omega)
    (fun q hq => by
      simp only [erase_mid]
      rw [rout q (fun e => hq (e ▸ (zids_mem hpl _).1 (by simp)))
        (fun e => hq (hmemU q (by simp [rootPtr_mem e])).1)
        (fun e => hq (hmemU q (by simp [rootPtr_mem e])).1)
        (fun e => hq (hmemU q (by simp [ctxPar_mem e])).1)]
      exact sp2 q (fun e => hq (e ▸ (zids_mem hpl _).1 (by simp [hfC])))
        (fun e => hq ((zids_mem hpl _).1 (by simp [rootPtr_mem e]))))
    (by simp only [erase_mid]
        rw [rout _ hmi_i.symm (rootPtr_ne_of_not_mem hiL) (rootPtr_ne_of_not_mem hir)
          (ctxPar_ne_of_not_mem hic)]
        exact sp2 _ hx (rootPtr_ne_of_not_mem hi_ml))
    (by simp only [erase_mid]
        exact (erase_splice_ref _ _ _).sTrans (replace_node_ref _ _ _))
    fa.1 fb.1
    (CtxBal_sibs (fr :: (cl ++ ⟨Dir.L, i, r⟩ :: c)) _ _
      (by simp [ctxSibs, Frame.updH, Function.comp_def]) cb)
    (Or.inr rfl)
    (by rw [ents_plug, ents_plug, entsBefore_append, entsAfter_append, entsBefore_updH,
          entsAfter_updH, entsAfter_allR hR]
        simp [entsBefore, entsAfter])
    (by rw [plug_append]
        exact hsl)
  rw [← hst] at e2
  rw [erase_tail_eq e2]
  exact post

/-- Effect of `erase` on a well-formed tree. -/
theorem erase_ok {t : AVLTree} {T : FT} (hI : Inv t T) (k : Int) :
    ((¬ ∃ e ∈ T.ents, e.1 ≠ 0 ∧ e.2.1 = k) ∧ erase lt t k = some t) ∨
    ((∃ e ∈ T.ents, e.1 ≠ 0 ∧ e.2.1 = k) ∧ ErasePost t T k (erase lt t k)) := by
  by_cases h0 : t.set_size = 0
  · left
    exact ⟨fun ⟨e, he, hne, _⟩ => hI.size_pos he hne h0, erase_empty t k h0⟩
  obtain ⟨c, l, i, r, hfind, hz, hp, pk, st⟩ := locate hI k
  have L := located hI.good hp pk
  have rp := hz.foc
  rw [Rep_node] at rp
  obtain ⟨⟨k1, k2, k3, k4, k5, k6, k7⟩, kh, kl, kr⟩ := rp
  by_cases hdup : i.key = k ∧ i.id ≠ 0
  · right
    obtain ⟨hk, hi⟩ := hdup
    refine ⟨⟨_, L.mem_self, hi, hk⟩, ?_⟩
    rw [erase_eq t k i.id h0 hfind ⟨by rw [k1, hk], by rw [k3, stateOf_ne hi]⟩]
    have hlen : (node l i r).ids.length ≤ t.next := by
      have h1 := hI.ids_len
      have h2 := (ids_plug_perm c (node l i r)).length_eq
      rw [hp] at h2
      simp only [List.length_append] at h2
      omega
    simp only [ids_node, List.length_append, List.length_cons] at hlen
    cases l with
    | node a b d =>
      obtain ⟨cl, ml, mi, hR, hpl, hzl, hget⟩ := lower_right_ok t (node a b d)
        (⟨Dir.L, i, r⟩ :: c) t.fuel hz.down_left
        (by simp only [AVLTree.fuel]; simp only [ids_node, List.length_append,
              List.length_cons] at hlen ⊢; omega) b.id rfl
      have hlow : erase_lower t i.id = some mi.id := by
        unfold erase_lower
        rw [show t.heap i.id = t.heap.get i.id from rfl, k5]
        exact hget
      rw [hlow]
      simp only
      rw [← hpl] at hz hp L
      cases cl with
      | nil => exact erase_left hI hz hp L hk hi
      | cons fr cl => exact erase_far hI hz hp L hR hk hi
    | leaf =>
      cases r with
      | leaf =>
        have hlow : erase_lower t i.id = some i.id := by
          unfold erase_lower
          rw [show t.heap i.id = t.heap.get i.id from rfl, k5, k6]
          rfl
        rw [hlow]
        exact erase_leaf hI hz hp L hk hi
      | node rl ri rr =>
        obtain ⟨-, -, fb⟩ := CtxBal_of_plug c (node leaf i (node rl ri rr))
          (by rw [hp]; exact hI.good.acc) (by rw [hp]; exact hI.good.bal)
        simp only [Bal_node, ht_node, ht_leaf, Bal_leaf, true_and] at fb
        have g1 := FT.ht_ge rl
        have g2 := FT.ht_ge rr
        have e1 : rl = leaf := (FT.ht_leaf_iff rl).1 (by omega)
        have e2 : rr = leaf := (FT.ht_leaf_iff rr).1 (by omega)
        subst e1 e2
        have rp2 := kr
        simp only [Rep_node, rootPtr_leaf] at rp2
        have hlow : erase_lower t i.id = some ri.id := by
          unfold erase_lower
          rw [show t.heap i.id = t.heap.get i.id from rfl, k5, k6]
          simp only [rootPtr_leaf, rootPtr_node, AVLTree.fuel, get_lower_left_child]
          rw [show t.heap ri.id = t.heap.get ri.id from rfl, rp2.1.2.2.2.2.1]
        rw [hlow]
        exact erase_right hI hz hp L hk hi
  · left
    refine ⟨fun ⟨e, he, hne, hk⟩ => ?_, ?_⟩
    · have := found_of_stop L st he hne hk
      subst this
      exact hdup ⟨hk, hne⟩
    · refine erase_skip t k i.id hfind ?_
      rintro ⟨h1, h2⟩
      rw [k1] at h1
      rw [k3] at h2
      refine hdup ⟨h1, fun hi0 => ?_⟩
      simp [stateOf, hi0] at h2

theorem end_loop_ok {h : Heap} : ∀ (g : FT) (par : Ptr) (F : Nat), Rep h par g →
    g.ids.length < F → ∀ x, g.rootPtr = some x →
    ∃ A y, g.ids = A ++ [y] ∧ end_loop h F x = some y := by
  intro g
  induction g with
  | leaf => intro par F _ _ x hx; simp at hx
  | node l i r _ ihr =>
    intro par F rp hF x hx
    simp only [rootPtr_node, Option.some.injEq] at hx
    subst hx
    obtain ⟨F, rfl⟩ : ∃ F2, F = F2 + 1 := ⟨F - 1, by omega⟩
    rw [Rep_node] at rp
    obtain ⟨⟨k1, k2, k3, k4, k5, k6, k7⟩, kh, kl, kr⟩ := rp
    simp only [ids_node, List.length_append, List.length_cons] at hF
    simp only [end_loop]
    rw [show h i.id = h.get i.id from rfl, k6]
    cases r with
    | leaf => exact ⟨l.ids, i.id, by simp, rfl⟩
    | node rl ri rr =>
      obtain ⟨A, y, e1, e2⟩ := ihr (some i.id) F kr (by omega) ri.id rfl
      refine ⟨l.ids ++ i.id :: A, y, ?_, by simpa using e2⟩
      rw [ids_node, e1]
      simp

theorem begin_loop_ok {h : Heap} : ∀ (g : FT) (par : Ptr) (F : Nat), Rep h par g →
    g.ids.length < F → ∀ x, g.rootPtr = some x →
    ∃ y B, g.ids = y :: B ∧ begin_loop h F x = some y := by
  intro g
  induction g with
  | leaf => intro par F _ _ x hx; simp at hx
  | node l i r ihl _ =>
    intro par F rp hF x hx
    simp only [rootPtr_node, Option.some.injEq] at hx
    subst hx
    obtain ⟨F, rfl⟩ : ∃ F2, F = F2 + 1 := ⟨F - 1, by omega⟩
    rw [Rep_node] at rp
    obtain ⟨⟨k1, k2, k3, k4, k5, k6, k7⟩, kh, kl, kr⟩ := rp
    simp only [ids_node, List.length_append, List.length_cons] at hF
    simp only [begin_loop]
    rw [show h i.id = h.get i.id from rfl, k5]
    cases l with
    | leaf => exact ⟨i.id, r.ids, by simp, rfl⟩
    | node ll li lr =>
      obtain ⟨y, B, e1, e2⟩ := ihl (some i.id) F kl (by omega) li.id rfl
      refine ⟨y, B ++ i.id :: r.ids, ?_, by simpa using e2⟩
      rw [ids_node, e1]
      simp

/-- The entries of a well-formed tree: the stored ones, then the sentinel. -/
theorem Inv.ents_split {t : AVLTree} {T : FT} (hI : Inv t T) :
    ∃ L v, T.ents = L ++ [(0, 0, v)] ∧ ∀ a ∈ L, a.1 ≠ 0 := by
  obtain ⟨v, hv⟩ := hI.good.hasS
  obtain ⟨L, e, hL⟩ := hI.good.sorted.sent_last hv rfl
  exact ⟨L, v, e, hL⟩

theorem Inv.rootId {t : AVLTree} {T : FT} (hI : Inv t T) : ∃ x, T.rootPtr = some x := by
  cases T with
  | leaf => exact absurd rfl hI.ne_leaf
  | node l i r => exact ⟨i.id, rfl⟩

theorem end_ok {t : AVLTree} {T : FT} (hI : Inv t T) :
    AVLTree.end t =
      some (AVLTree.mk (inc_ref_count t.heap (some 0)) t.root t.set_size t.next, some 0) := by
  obtain ⟨x, hx⟩ := hI.rootId
  obtain ⟨A, y, e1, e2⟩ := end_loop_ok T none t.fuel hI.rep.foc
    (by have := hI.ids_len; simp only [AVLTree.fuel]; omega) x hx
  obtain ⟨L, v, e3, -⟩ := hI.ents_split
  have hy : y = 0 := by
    have h1 : T.ids = L.map (fun e => e.1) ++ [0] := by rw [ids_eq_ents, e3]; simp
    rw [e1] at h1
    have := List.append_inj_right' h1 rfl
    simpa using this
  subst hy
  unfold AVLTree.end
  rw [hI.root, hx]
  simp only
  rw [e2]

theorem begin_ok {t : AVLTree} {T : FT} (hI : Inv t T) :
    ∃ e rest, T.ents = e :: rest ∧
      AVLTree.begin t =
        some (AVLTree.mk (inc_ref_count t.heap (some e.1)) t.root t.set_size t.next, some e.1) := by
  obtain ⟨x, hx⟩ := hI.rootId
  obtain ⟨y, B, e1, e2⟩ := begin_loop_ok T none t.fuel hI.rep.foc
    (by have := hI.ids_len; simp only [AVLTree.fuel]; omega) x hx
  cases he : T.ents with
  | nil =>
    rw [ids_eq_ents, he] at e1
    simp at e1
  | cons e rest =>
    refine ⟨e, rest, rfl, ?_⟩
    have hy : y = e.1 := by
      rw [ids_eq_ents, he] at e1
      simp only [List.map_cons, List.cons.injEq] at e1
      exact e1.1.symm
    subst hy
    unfold AVLTree.begin
    rw [hI.root, hx]
    simp only
    rw [e2]

theorem iterator_destroy_live (F : Nat) (h : Heap) (v : Nat)
    (hs : (h.get v).state ≠ State.DELETED) :
    iterator_destroy (F + 1) h (some v) = some (dec_ref_count h (some v)) := by
  unfold iterator_destroy
  simp only
  have hs2 : ((dec_ref_count h (some v)).get v).state ≠ State.DELETED := by
    obtain ⟨w, hw⟩ := RefUpd.dec h (some v) v
    rw [hw]
    exact hs
  split_ifs with h0
  · simp only [remove, remove_loop]
    rw [if_neg (fun hh => hs2 hh.1)]
  · rfl

theorem stateOf_ne_deleted (n : Nat) : stateOf n ≠ State.DELETED := by
  unfold stateOf
  split_ifs <;> simp

/-- What `find` returns on a well-formed tree. -/
theorem find_ok {t : AVLTree} {T : FT} (hI : Inv t T) (k : Int) :
    ∃ t2 p, find lt t k = some (t2, some p) ∧ RefUpd t.heap t2.heap ∧ t2.root = t.root ∧
      t2.set_size = t.set_size ∧ t2.next = t.next ∧
      ((∃ v, (p, k, v) ∈ T.ents ∧ p ≠ 0 ∧ t2.heap = inc_ref_count t.heap (some p)) ∨
        ((¬ ∃ e ∈ T.ents, e.1 ≠ 0 ∧ e.2.1 = k) ∧ p = 0)) := by
  obtain ⟨c, l, i, r, hfind, hz, hp, pk, st⟩ := locate hI k
  have L := located hI.good hp pk
  have rp := hz.foc
  rw [Rep_node] at rp
  obtain ⟨⟨k1, k2, k3, k4, k5, k6, k7⟩, kh, kl, kr⟩ := rp
  have hkey : ((inc_ref_count t.heap (some i.id)).get i.id).key = i.key := by
    obtain ⟨w, hw⟩ := RefUpd.inc t.heap (some i.id) i.id
    rw [hw]
    exact k1
  have hnot : ¬ (i.key = k ∧ i.id ≠ 0) → ¬ ∃ e ∈ T.ents, e.1 ≠ 0 ∧ e.2.1 = k := by
    rintro hdup ⟨e, he, hne, hk⟩
    have := found_of_stop L st he hne hk
    subst this
    exact hdup ⟨hk, hne⟩
  unfold find
  rw [hfind]
  simp only
  rw [show (inc_ref_count t.heap (some i.id)) i.id = (inc_ref_count t.heap (some i.id)).get i.id
    from rfl, hkey]
  by_cases hk : i.key = k
  · rw [if_neg (by simpa using hk)]
    refine ⟨_, i.id, rfl, RefUpd.inc t.heap (some i.id), rfl, rfl, rfl, ?_⟩
    by_cases hi : i.id = 0
    · right
      exact ⟨hnot (fun h => h.2 hi), hi⟩
    · left
      refine ⟨i.value, ?_, hi, rfl⟩
      rw [← hk]
      exact L.mem_self
  · rw [if_pos hk]
    have hI1 : Inv (AVLTree.mk (inc_ref_count t.heap (some i.id)) t.root t.set_size t.next) T :=
      Inv_refs hI _ (fun q _ => RefUpd.inc t.heap (some i.id) q)
    rw [show ({ t with heap := inc_ref_count t.heap (some i.id) } : AVLTree) =
      AVLTree.mk (inc_ref_count t.heap (some i.id)) t.root t.set_size t.next from rfl,
      end_ok hI1]
    simp only
    have hs : ((inc_ref_count (inc_ref_count t.heap (some i.id)) (some 0)).get i.id).state ≠
        State.DELETED := by
      obtain ⟨w, hw⟩ := ((RefUpd.inc t.heap (some i.id)).uTrans
        (RefUpd.inc _ (some 0))) i.id
      rw [hw]
      show (t.heap.get i.id).state ≠ State.DELETED
      rw [k3]
      exact stateOf_ne_deleted _
    rw [show 4 * t.next + 4 = (4 * t.next + 3) + 1 from rfl, iterator_destroy_live _ _ _ hs]
    refine ⟨_, 0, rfl, ?_, rfl, rfl, rfl, Or.inr ⟨hnot (fun h => hk h.1), rfl⟩⟩
    exact ((RefUpd.inc t.heap (some i.id)).uTrans (RefUpd.inc _ (some 0))).uTrans (RefUpd.dec _ (some i.id))

theorem zip_of_mem (t : AVLTree) : ∀ (g : FT) (c : Ctx), ZRep t c g → ∀ p ∈ g.ids,
    ∃ c2 l i r, i.id = p ∧ plug c2 (node l i r) = plug c g ∧ ZRep t c2 (node l i r) := by
  intro g
  induction g with
  | leaf => intro c _ p hp; simp at hp
  | node l i r ihl ihr =>
    intro c hz p hp
    simp only [ids_node, List.mem_append, List.mem_cons] at hp
    rcases hp with h | h | h
    · obtain ⟨c2, l2, i2, r2, e1, e2, e3⟩ := ihl (⟨Dir.L, i, r⟩ :: c) hz.down_left p h
      exact ⟨c2, l2, i2, r2, e1, e2, e3⟩
    · exact ⟨c, l, i, r, h.symm, rfl, hz⟩
    · obtain ⟨c2, l2, i2, r2, e1, e2, e3⟩ := ihr (⟨Dir.R, i, l⟩ :: c) hz.down_right p h
      exact ⟨c2, l2, i2, r2, e1, e2, e3⟩

theorem RepCtx_refs {h h2 : Heap} {par0 : Ptr} {c : Ctx} {hp : Ptr}
    (e : RefUpd h h2) (r : RepCtx h par0 c hp) : RepCtx h2 par0 c hp := by
  induction c generalizing hp with
  | nil => trivial
  | cons f c ih =>
    simp only [RepCtx] at r ⊢
    obtain ⟨v, hv⟩ := e f.i.id
    exact ⟨NodeLinks_refs v hv r.1, Rep_refs (fun q _ => e q) r.2.1, ih r.2.2⟩

theorem ZRep_refs {t : AVLTree} {c : Ctx} {g : FT} (hz : ZRep t c g) {h2 : Heap}
    (e : RefUpd t.heap h2) : ZRep (AVLTree.mk h2 t.root t.set_size t.next) c g :=
  ⟨hz.root, RepCtx_refs e hz.ctx, Rep_refs (fun q _ => e q) hz.foc, hz.nodup⟩

/-- In a list without repeated first components an entry has one position. -/
theorem split_unique {A A2 R R2 : List (Nat × Int × Int)} {x x2 : Nat × Int × Int}
    (nd : ((A ++ x :: R).map (fun e => e.1)).Nodup) (e : A ++ x :: R = A2 ++ x2 :: R2)
    (hx : x.1 = x2.1) : A = A2 ∧ x = x2 ∧ R = R2 := by
  induction A generalizing A2 with
  | nil =>
    cases A2 with
    | nil =>
      simp only [List.nil_append, List.cons.injEq] at e
      exact ⟨rfl, e.1, e.2⟩
    | cons a A2 =>
      simp only [List.nil_append, List.cons_append, List.cons.injEq] at e
      exfalso
      simp only [List.nil_append, List.map_cons, List.nodup_cons, List.mem_map] at nd
      apply nd.1
      refine ⟨x2, ?_, hx.symm⟩
      rw [e.2]
      simp
  | cons a A ih =>
    cases A2 with
    | nil =>
      simp only [List.nil_append, List.cons_append, List.cons.injEq] at e
      exfalso
      simp only [List.cons_append, List.map_cons, List.nodup_cons, List.mem_map] at nd
      apply nd.1
      refine ⟨x, by simp, ?_⟩
      rw [hx, ← e.1]
    | cons a2 A2 =>
      simp only [List.cons_append, List.cons.injEq] at e
      simp only [List.cons_append, List.map_cons, List.nodup_cons] at nd
      obtain ⟨h1, h2, h3⟩ := ih nd.2 e.2
      exact ⟨by rw [e.1, h1], h2, h3⟩

/-- A path with something after it turns left somewhere: the part below the
first left turn only goes right. -/
theorem split_R : ∀ (c : Ctx), entsAfter c ≠ [] →
    ∃ a j s c2, c = a ++ ⟨Dir.L, j, s⟩ :: c2 ∧ (∀ f ∈ a, f.dir = Dir.R) := by
  intro c
  induction c with
  | nil => intro h; simp [entsAfter] at h
  | cons f c ih =>
    intro h
    cases f with
    | mk d i s =>
      cases d with
      | L => exact ⟨[], i, s, c, rfl, by simp⟩
      | R =>
        simp only [entsAfter] at h
        obtain ⟨a, j, s2, c2, e1, e2⟩ := ih h
        refine ⟨⟨Dir.R, i, s⟩ :: a, j, s2, c2, by rw [e1]; rfl, ?_⟩
        intro f hf
        simp only [List.mem_cons] at hf
        rcases hf with rfl | hf
        · rfl
        · exact e2 f hf

theorem live_of_lt {a b : Nat × Int × Int} (h : ek a < ek b) : a.1 ≠ 0 := by
  intro h0
  rw [ek_sent h0] at h
  exact absurd h not_top_lt

theorem advance_down_ok {h : Heap} (pk : Int) : ∀ (g : FT) (par : Ptr) (F : Nat),
    Rep h par g → g.ids.length < F → SortedE g.ents →
    (∀ e ∈ g.ents, e.1 ≠ 0 → pk < e.2.1) → ∀ x, g.rootPtr = some x →
    ∃ y B, g.ents = y :: B ∧ advance_down h pk F x = some y.1 := by
  intro g
  induction g with
  | leaf => intro par F _ _ _ _ x hx; simp at hx
  | node l i r ihl _ =>
    intro par F rp hF hs hk x hx
    simp only [rootPtr_node, Option.some.injEq] at hx
    subst hx
    obtain ⟨F, rfl⟩ : ∃ F2, F = F2 + 1 := ⟨F - 1, by omega⟩
    rw [Rep_node] at rp
    obtain ⟨⟨k1, k2, k3, k4, k5, k6, k7⟩, kh, kl, kr⟩ := rp
    simp only [ids_node, List.length_append, List.length_cons] at hF
    simp only [advance_down]
    rw [show h i.id = h.get i.id from rfl, k5]
    cases l with
    | leaf => exact ⟨(i.id, i.key, i.value), r.ents, by simp, rfl⟩
    | node ll li lr =>
      simp only [rootPtr_node]
      have rl := kl
      rw [Rep_node] at rl
      have hmem : ((li.id, li.key, li.value) : Nat × Int × Int) ∈ (node ll li lr).ents := by simp
      simp only [ents_node (node ll li lr)] at hs hk
      have hlive : li.id ≠ 0 :=
        live_of_lt (hs.lt_of_split hmem (List.mem_cons_self _ _))
      have hlt : pk < li.key := hk _ (List.mem_append_left _ hmem) hlive
      rw [show h li.id = h.get li.id from rfl, rl.1.1, if_pos hlt]
      obtain ⟨y, B, e1, e2⟩ := ihl (some i.id) F kl (by omega) hs.left
        (fun e he h0 => hk e (List.mem_append_left _ he) h0) li.id rfl
      refine ⟨y, B ++ (i.id, i.key, i.value) :: r.ents, ?_, e2⟩
      rw [ents_node, e1]
      simp

theorem advance_up_ok {h : Heap} (j : Info) (s : FT) (c : Ctx) : ∀ (a : Ctx) (x : Nat) (F : Nat),
    (∀ f ∈ a, f.dir = Dir.R) → RepCtx h none (a ++ ⟨Dir.L, j, s⟩ :: c) (some x) →
    (h.get x).parent = ctxPar none (a ++ ⟨Dir.L, j, s⟩ :: c) →
    (x :: ctxIds (a ++ ⟨Dir.L, j, s⟩ :: c)).Nodup → a.length < F →
    ∃ w, advance_up h F x = some w ∧ (h.get w).parent = some j.id := by
  intro a
  induction a with
  | nil =>
    intro x F _ rc hp nd hF
    obtain ⟨F, rfl⟩ : ∃ F2, F = F2 + 1 := ⟨F - 1, by omega⟩
    simp only [List.nil_append, ctxPar] at hp rc
    simp only [RepCtx, Frame.lptr, Frame.rptr] at rc
    obtain ⟨⟨k1, k2, k3, k4, k5, k6, k7⟩, -, -⟩ := rc
    have hxs : s.rootPtr ≠ some x := by
      apply rootPtr_ne_of_not_mem
      simp only [List.nil_append, ctxIds, List.nodup_cons, List.mem_cons, List.mem_append,
        not_or] at nd
      exact nd.1.2.1
    simp only [advance_up]
    rw [show h x = h.get x from rfl, hp]
    simp only
    rw [show h j.id = h.get j.id from rfl, k6, if_neg hxs]
    exact ⟨x, rfl, hp⟩
  | cons f a ih =>
    intro x F hR rc hp nd hF
    obtain ⟨F, rfl⟩ : ∃ F2, F = F2 + 1 := ⟨F - 1, by omega⟩
    have hf : f.dir = Dir.R := hR f (by simp)
    simp only [List.cons_append, ctxPar] at hp rc
    simp only [RepCtx, Frame.lptr, Frame.rptr, hf] at rc
    obtain ⟨⟨k1, k2, k3, k4, k5, k6, k7⟩, -, rc2⟩ := rc
    simp only [advance_up]
    rw [show h x = h.get x from rfl, hp]
    simp only
    rw [show h f.i.id = h.get f.i.id from rfl, k6, if_pos rfl]
    refine ih f.i.id F (fun g hg => hR g (by simp [hg])) rc2 k7 ?_ (by simpa using hF)
    simp only [List.cons_append, ctxIds, List.nodup_cons, List.mem_cons, List.mem_append,
      not_or, List.nodup_append] at nd ⊢
    exact ⟨nd.2.1.2, nd.2.2.2.1⟩

theorem advance_unfold (F : Nat) (h : Heap) (v : Nat) :
    advance F h (some v) =
      if (h.get v).state ≠ State.TAIL then
        match advance_move (dec_ref_count h (some v)) F v with
        | none => none
        | some value2 =>
          if ((inc_ref_count (dec_ref_count h (some v)) value2).get v).ref_count = 0 ∧
              ((inc_ref_count (dec_ref_count h (some v)) value2).get v).state = State.DELETED then
            match remove F (inc_ref_count (dec_ref_count h (some v)) value2) (some v) with
            | none => none
            | some h3 => some (h3, value2)
          else some (inc_ref_count (dec_ref_count h (some v)) value2, value2)
      else some (h, some v) := rfl

theorem advance_eq (F : Nat) (h : Heap) (v : Nat) (hs : (h.get v).state ≠ State.TAIL)
    (hd : (h.get v).state ≠ State.DELETED) (y : Ptr)
    (hm : advance_move (dec_ref_count h (some v)) F v = some y) :
    advance F h (some v) = some (inc_ref_count (dec_ref_count h (some v)) y, y) := by
  rw [advance_unfold, if_pos hs, hm]
  simp only
  have : ((inc_ref_count (dec_ref_count h (some v)) y).get v).state ≠ State.DELETED := by
    obtain ⟨w, hw⟩ := ((RefUpd.dec h (some v)).uTrans (RefUpd.inc _ y)) v
    rw [hw]
    exact hd
  rw [if_neg (fun hh => this hh.2)]

theorem advance_move_ok {t : AVLTree} {T : FT} (hI : Inv t T) {A B : List (Nat × Int × Int)}
    {x y : Nat × Int × Int} (he : T.ents = A ++ x :: y :: B) (F : Nat) (hF : t.next < F) :
    x.1 ≠ 0 ∧ advance_move t.heap F x.1 = some (some y.1) := by
  have ndT : T.ids.Nodup := by simpa [ctxIds] using hI.rep.nodup
  have hxT : x.1 ∈ T.ids := by rw [ids_eq_ents, he]; simp
  obtain ⟨c, l, i, r, hid, hp, hz⟩ := zip_of_mem t T [] hI.rep x.1 hxT
  simp only [plug] at hp
  have hents : T.ents =
      (entsBefore c ++ l.ents) ++ (i.id, i.key, i.value) :: (r.ents ++ entsAfter c) := by
    rw [← hp, ents_plug]; simp
  have hsp := split_unique (by rw [← he, ← ids_eq_ents]; exact ndT) (he.symm.trans hents) hid.symm
  obtain ⟨hA, hx, hR⟩ := hsp
  have hs := hI.good.sorted
  have hxy : ek x < ek y := by
    rw [he] at hs
    have := hs.right
    simp only [SortedE, List.pairwise_cons] at this
    exact this.1 y (by simp)
  have hx0 : x.1 ≠ 0 := live_of_lt hxy
  refine ⟨hx0, ?_⟩
  have rp := hz.foc
  rw [Rep_node] at rp
  obtain ⟨⟨k1, k2, k3, k4, k5, k6, k7⟩, kh, kl, kr⟩ := rp
  have hlen : T.ids.length ≤ t.next := hI.ids_len
  have hTl : T.ids.length = (node l i r).ids.length + (ctxIds c).length := by
    rw [← hp, (ids_plug_perm c (node l i r)).length_eq, List.length_append]
  simp only [ids_node, List.length_append, List.length_cons] at hTl
  rw [← hid]
  unfold advance_move
  rw [show t.heap i.id = t.heap.get i.id from rfl, k6, k7, k1]
  cases r with
  | node rl ri rr =>
    simp only [rootPtr_node]
    have hsr : SortedE (node rl ri rr).ents := by
      rw [hents] at hs
      have := hs.right
      simp only [SortedE, List.pairwise_cons, List.pairwise_append] at this ⊢
      exact this.2.1
    have hkr : ∀ e ∈ (node rl ri rr).ents, e.1 ≠ 0 → i.key < e.2.1 := by
      intro e hee h0
      rw [hents] at hs
      have := hs.right
      simp only [SortedE, List.pairwise_cons] at this
      have h1 := this.1 e (List.mem_append_left _ hee)
      rw [ek_live (e := (i.id, i.key, i.value)) (by rw [hid]; exact hx0), ek_live h0] at h1
      exact WithTop.coe_lt_coe.1 h1
    obtain ⟨y2, B2, e1, e2⟩ := advance_down_ok i.key (node rl ri rr) (some i.id) F kr
      (by simp only [ids_node, List.length_append, List.length_cons] at hTl ⊢; omega) hsr hkr
      ri.id rfl
    rw [e2]
    rw [e1] at hR
    simp only [List.cons_append, List.cons.injEq] at hR
    rw [hR.1]
  | leaf =>
    simp only [rootPtr_leaf, ents_leaf, List.nil_append] at hR ⊢
    have hne : entsAfter c ≠ [] := by rw [← hR]; simp
    obtain ⟨a, j, s, c2, ec, hRa⟩ := split_R c hne
    subst ec
    have hy : y = (j.id, j.key, j.value) := by
      rw [entsAfter_append, entsAfter_allR hRa] at hR
      simp only [entsAfter, List.nil_append, List.cons.injEq] at hR
      exact hR.1
    subst hy
    have nd0 := hz.nodup
    have ndx : (i.id :: ctxIds (a ++ ⟨Dir.L, j, s⟩ :: c2)).Nodup := by
      refine nd0.sublist ?_
      simp only [ids_node, ids_leaf, List.append_assoc, List.cons_append, List.nil_append]
      exact List.sublist_append_right _ _
    have hal : a.length < F := by
      have h1 := ctx_length_le (a ++ ⟨Dir.L, j, s⟩ :: c2)
      simp only [List.length_append, List.length_cons] at h1
      omega
    cases a with
    | nil =>
      simp only [List.nil_append, ctxPar]
      have rc := hz.ctx
      simp only [List.nil_append, RepCtx, Frame.lptr, Frame.rptr, rootPtr_node] at rc
      rw [show t.heap j.id = t.heap.get j.id from rfl, rc.1.2.2.2.2.1, if_pos rfl]
    | cons f a =>
      have hf : f.dir = Dir.R := hRa f (by simp)
      simp only [List.cons_append, ctxPar]
      have rc := hz.ctx
      simp only [List.cons_append, RepCtx, Frame.lptr, Frame.rptr, rootPtr_node, hf] at rc
      have hsib : f.sib.rootPtr ≠ some i.id := by
        apply rootPtr_ne_of_not_mem
        simp only [List.cons_append, ctxIds, List.nodup_cons, List.mem_cons, List.mem_append,
          not_or] at ndx
        exact ndx.1.2.1
      rw [show t.heap f.i.id = t.heap.get f.i.id from rfl, rc.1.2.2.2.2.1, if_neg hsib,
        rc.1.2.2.2.2.2.1, if_pos rfl]
      obtain ⟨w, e1, e2⟩ := advance_up_ok j s c2 (f :: a) i.id F hRa hz.ctx k7 ndx hal
      rw [e1]
      simp only
      rw [show t.heap w = t.heap.get w from rfl, e2]

theorem advance_ok {t : AVLTree} {T : FT} (hI : Inv t T) {A B : List (Nat × Int × Int)}
    {x y : Nat × Int × Int} (he : T.ents = A ++ x :: y :: B) (F : Nat) (hF : t.next < F) :
    x.1 ≠ 0 ∧ advance F t.heap (some x.1) =
      some (inc_ref_count (dec_ref_count t.heap (some x.1)) (some y.1), some y.1) := by
  have hI1 : Inv (AVLTree.mk (dec_ref_count t.heap (some x.1)) t.root t.set_size t.next) T :=
    Inv_refs hI _ (fun q _ => RefUpd.dec t.heap (some x.1) q)
  obtain ⟨hx0, hm⟩ := advance_move_ok hI1 he F hF
  have hst := (Rep_ent hI.rep.foc (show x ∈ T.ents by rw [he]; simp)).2.2.1
  refine ⟨hx0, advance_eq F t.heap x.1 ?_ ?_ _ hm⟩
  · rw [hst, stateOf_ne hx0]; simp
  · rw [hst]; exact stateOf_ne_deleted _

theorem walk_ok {T : FT} (F : Nat) : ∀ (V A : List (Nat × Int × Int)) (s z : Nat × Int × Int)
    (B : List (Nat × Int × Int)) (t : AVLTree), Inv t T → t.next < F →
    T.ents = A ++ (V ++ z :: B) → (V ++ [z]).head? = some s →
    ∃ h2, walk F V.length t.heap (some s.1) = some (V.map (fun e => e.1), h2, some z.1) ∧
      RefUpd t.heap h2 := by
  intro V
  induction V with
  | nil =>
    intro A s z B t _ _ _ hs
    simp only [List.nil_append, List.head?_cons, Option.some.injEq] at hs
    subst hs
    exact ⟨t.heap, rfl, RefUpd.uRefl _⟩
  | cons x V ih =>
    intro A s z B t hI hF he hs
    simp only [List.cons_append, List.head?_cons, Option.some.injEq] at hs
    subst hs
    obtain ⟨y, hy⟩ : ∃ y, (V ++ [z]).head? = some y := by
      cases V with
      | nil => exact ⟨z, rfl⟩
      | cons a V => exact ⟨a, rfl⟩
    obtain ⟨R, hR⟩ : ∃ R, V ++ z :: B = y :: R := by
      cases V with
      | nil =>
        simp only [List.nil_append, List.head?_cons, Option.some.injEq] at hy
        exact ⟨B, by rw [hy]; rfl⟩
      | cons a V =>
        simp only [List.cons_append, List.head?_cons, Option.some.injEq] at hy
        exact ⟨V ++ z :: B, by rw [hy]; rfl⟩
    have he2 : T.ents = A ++ x :: y :: R := by rw [he, List.cons_append, hR]
    obtain ⟨hx0, hadv⟩ := advance_ok hI he2 F hF
    have hI2 : Inv (AVLTree.mk (inc_ref_count (dec_ref_count t.heap (some x.1)) (some y.1))
        t.root t.set_size t.next) T :=
      Inv_refs hI _ (fun q _ => ((RefUpd.dec t.heap (some x.1)).uTrans (RefUpd.inc _ (some y.1))) q)
    obtain ⟨h2, hw, hr⟩ := ih (A ++ [x]) y z B _ hI2 hF (by rw [he]; simp) hy
    refine ⟨h2, ?_, ((RefUpd.dec t.heap (some x.1)).uTrans (RefUpd.inc _ (some y.1))).uTrans hr⟩
    simp only [List.length_cons, walk, List.map_cons]
    rw [hadv]
    simp only
    rw [hw]

theorem true_height_ok {h : Heap} : ∀ (g : FT) (par : Ptr) (F : Nat), Rep h par g →
    g.ids.length < F → true_height h F g.rootPtr = some g.ht := by
  intro g
  induction g with
  | leaf =>
    intro par F _ hF
    obtain ⟨F, rfl⟩ : ∃ F2, F = F2 + 1 := ⟨F - 1, by omega⟩
    rfl
  | node l i r ihl ihr =>
    intro par F rp hF
    obtain ⟨F, rfl⟩ : ∃ F2, F = F2 + 1 := ⟨F - 1, by omega⟩
    rw [Rep_node] at rp
    obtain ⟨⟨k1, k2, k3, k4, k5, k6, k7⟩, kh, kl, kr⟩ := rp
    simp only [ids_node, List.length_append, List.length_cons] at hF
    simp only [rootPtr_node, true_height]
    rw [show h i.id = h.get i.id from rfl, k5, k6, ihl _ F kl (by omega), ihr _ F kr (by omega)]
    rfl

theorem avl_balanced_ok {h : Heap} : ∀ (g : FT) (par : Ptr) (F : Nat), Rep h par g →
    g.ids.length < F → g.Bal → avl_balanced h F g.rootPtr = true := by
  intro g
  induction g with
  | leaf =>
    intro par F _ hF _
    obtain ⟨F, rfl⟩ : ∃ F2, F = F2 + 1 := ⟨F - 1, by omega⟩
    rfl
  | node l i r ihl ihr =>
    intro par F rp hF hb
    obtain ⟨F, rfl⟩ : ∃ F2, F = F2 + 1 := ⟨F - 1, by omega⟩
    have rp0 := rp
    rw [Rep_node] at rp
    obtain ⟨⟨k1, k2, k3, k4, k5, k6, k7⟩, kh, kl, kr⟩ := rp
    simp only [ids_node, List.length_append, List.length_cons] at hF
    simp only [Bal_node] at hb
    simp only [rootPtr_node, avl_balanced]
    rw [show h i.id = h.get i.id from rfl, k5, k6, true_height_ok l _ F kl (by omega),
      true_height_ok r _ F kr (by omega)]
    simp only [Bool.and_eq_true, decide_eq_true_eq]
    exact ⟨⟨⟨hb.2.2.1, hb.2.2.2⟩, ihl _ F kl (by omega) hb.1⟩, ihr _ F kr (by omega) hb.2.1⟩

theorem heights_ok_ok {h : Heap} : ∀ (g : FT) (par : Ptr) (F : Nat), Rep h par g →
    g.ids.length < F → g.Acc → heights_ok h F g.rootPtr = true := by
  intro g
  induction g with
  | leaf =>
    intro par F _ hF _
    obtain ⟨F, rfl⟩ : ∃ F2, F = F2 + 1 := ⟨F - 1, by omega⟩
    rfl
  | node l i r ihl ihr =>
    intro par F rp hF ha
    obtain ⟨F, rfl⟩ : ∃ F2, F = F2 + 1 := ⟨F - 1, by omega⟩
    have rp0 := rp
    rw [Rep_node] at rp
    obtain ⟨⟨k1, k2, k3, k4, k5, k6, k7⟩, kh, kl, kr⟩ := rp
    have hF0 := hF
    simp only [ids_node, List.length_append, List.length_cons] at hF
    simp only [Acc_node] at ha
    have ht := true_height_ok (node l i r) par (F + 1) rp0 hF0
    simp only [rootPtr_node] at ht
    simp only [rootPtr_node, heights_ok]
    rw [ht, show h i.id = h.get i.id from rfl, k5, k6, kh, ha.2.2]
    simp only [ht_node, decide_True, Bool.true_and, Bool.and_eq_true]
    exact ⟨ihl _ F kl (by omega) ha.1, ihr _ F kr (by omega) ha.2.1⟩

theorem count_live_ok {h : Heap} : ∀ (g : FT) (par : Ptr) (F : Nat), Rep h par g →
    g.ids.length < F → count_live h F g.rootPtr = some (g.ids.filter (fun q => q ≠ 0)).length := by
  intro g
  induction g with
  | leaf =>
    intro par F _ hF
    obtain ⟨F, rfl⟩ : ∃ F2, F = F2 + 1 := ⟨F - 1, by omega⟩
    rfl
  | node l i r ihl ihr =>
    intro par F rp hF
    obtain ⟨F, rfl⟩ : ∃ F2, F = F2 + 1 := ⟨F - 1, by omega⟩
    rw [Rep_node] at rp
    obtain ⟨⟨k1, k2, k3, k4, k5, k6, k7⟩, kh, kl, kr⟩ := rp
    simp only [ids_node, List.length_append, List.length_cons] at hF
    simp only [rootPtr_node, count_live]
    rw [show h i.id = h.get i.id from rfl, k5, k6, ihl _ F kl (by omega), ihr _ F kr (by omega),
      k3]
    simp only [ids_node, List.filter_append, List.length_append, List.filter_cons,
      Option.some.injEq]
    by_cases h0 : i.id = 0
    · simp [stateOf, h0]
    · simp [stateOf, h0]
      omega

theorem Agrees.stored {T : FT} {m : Int → Option Int} (hA : Agrees T m) (k : Int) :
    (∃ e ∈ T.ents, e.1 ≠ 0 ∧ e.2.1 = k) ↔ (m k).isSome = true := by
  constructor
  · rintro ⟨⟨id, k2, v⟩, he, h0, hk⟩
    simp only at h0 hk
    subst hk
    rw [(hA k2 v).2 ⟨id, h0, he⟩]
    rfl
  · intro h
    obtain ⟨v, hv⟩ := Option.isSome_iff_exists.1 h
    obtain ⟨id, h0, he⟩ := (hA k v).1 hv
    exact ⟨_, he, h0, rfl⟩

theorem Agrees.absent {T : FT} {m : Int → Option Int} (hA : Agrees T m) (k : Int) :
    (¬ ∃ e ∈ T.ents, e.1 ≠ 0 ∧ e.2.1 = k) ↔ m k = none := by
  rw [hA.stored k]
  cases m k <;> simp

theorem Agrees_new : Agrees (node leaf ⟨0, 0, 0, 0⟩ leaf) (fun _ => none) := by
  intro k v
  simp

theorem Agrees.congr {T : FT} {m m2 : Int → Option Int} (hA : Agrees T m) (e : ∀ x, m2 x = m x) :
    Agrees T m2 := by
  intro k v
  rw [e k]
  exact hA k v

theorem agrees_insert_dup {T : FT} {m : Int → Option Int} (hA : Agrees T m) (v k : Int)
    (h : ∃ e ∈ T.ents, e.1 ≠ 0 ∧ e.2.1 = k) : Agrees T (stepModel m (Op.ins v k)) := by
  refine hA.congr (fun x => ?_)
  obtain ⟨v0, hv0⟩ := Option.isSome_iff_exists.1 ((hA.stored k).1 h)
  simp only [stepModel]
  split_ifs with hx
  · rw [hv0, hx, hv0]
  · rfl

theorem agrees_insert_new {T T2 : FT} {m : Int → Option Int} (hA : Agrees T m) (v k : Int)
    {n : Nat} (hn : n ≠ 0) {P Q : List (Nat × Int × Int)}
    (h : ¬ ∃ e ∈ T.ents, e.1 ≠ 0 ∧ e.2.1 = k) (e1 : T.ents = P ++ Q)
    (e2 : T2.ents = P ++ (n, k, v) :: Q) : Agrees T2 (stepModel m (Op.ins v k)) := by
  have hmk : m k = none := (hA.absent k).1 h
  intro k2 v2
  simp only [stepModel, hmk]
  rw [e2]
  split_ifs with hx
  · subst hx
    constructor
    · intro hv
      simp only [Option.some.injEq] at hv
      subst hv
      exact ⟨n, hn, by simp⟩
    · rintro ⟨id, h0, he⟩
      simp only [List.mem_append, List.mem_cons, Prod.mk.injEq] at he
      rcases he with he | ⟨-, -, he⟩ | he
      · exact absurd ⟨_, by rw [e1]; exact List.mem_append_left _ he, h0, rfl⟩ h
      · rw [he]
      · exact absurd ⟨_, by rw [e1]; exact List.mem_append_right _ he, h0, rfl⟩ h
  · rw [hA k2 v2, e1]
    constructor
    · rintro ⟨id, h0, he⟩
      refine ⟨id, h0, ?_⟩
      simp only [List.mem_append, List.mem_cons] at he ⊢
      tauto
    · rintro ⟨id, h0, he⟩
      refine ⟨id, h0, ?_⟩
      simp only [List.mem_append, List.mem_cons, Prod.mk.injEq] at he ⊢
      rcases he with he | ⟨-, hk, -⟩ | he
      · exact Or.inl he
      · exact absurd hk hx
      · exact Or.inr he

theorem agrees_erase_absent {T : FT} {m : Int → Option Int} (hA : Agrees T m) (k : Int)
    (h : ¬ ∃ e ∈ T.ents, e.1 ≠ 0 ∧ e.2.1 = k) : Agrees T (stepModel m (Op.del k)) := by
  refine hA.congr (fun x => ?_)
  have hmk : m k = none := (hA.absent k).1 h
  simp only [stepModel]
  split_ifs with hx
  · rw [hx, hmk]
  · rfl

theorem sorted_not_mem {P Q : List (Nat × Int × Int)} {x : Nat × Int × Int}
    (s : SortedE (P ++ x :: Q)) {e : Nat × Int × Int} (he : e ∈ P ++ Q) : ek e ≠ ek x := by
  simp only [SortedE, List.pairwise_append, List.pairwise_cons, List.mem_cons] at s
  rw [List.mem_append] at he
  rcases he with he | he
  · exact ne_of_lt (s.2.2 e he x (Or.inl rfl))
  · exact ne_of_gt (s.2.1.1 e he)

theorem agrees_erase_stored {T T2 : FT} {m : Int → Option Int} (hA : Agrees T m) (k : Int)
    (hs : SortedE T.ents) {id : Nat} {v : Int} (hid : id ≠ 0) {P Q : List (Nat × Int × Int)}
    (e1 : T.ents = P ++ (id, k, v) :: Q) (e2 : T2.ents = P ++ Q) :
    Agrees T2 (stepModel m (Op.del k)) := by
  intro k2 v2
  simp only [stepModel]
  rw [e2]
  rw [e1] at hs
  split_ifs with hx
  · subst hx
    constructor
    · intro hv; cases hv
    · rintro ⟨id2, h0, he⟩
      exfalso
      refine sorted_not_mem hs he ?_
      rw [ek_live (e := (id2, k2, v2)) h0, ek_live (e := (id, k2, v)) hid]
  · rw [hA k2 v2, e1]
    constructor
    · rintro ⟨id2, h0, he⟩
      refine ⟨id2, h0, ?_⟩
      simp only [List.mem_append, List.mem_cons, Prod.mk.injEq] at he ⊢
      rcases he with he | ⟨-, hk, -⟩ | he
      · exact Or.inl he
      · exact absurd hk hx
      · exact Or.inr he
    · rintro ⟨id2, h0, he⟩
      refine ⟨id2, h0, ?_⟩
      simp only [List.mem_append, List.mem_cons] at he ⊢
      tauto

theorem attach_heap_ref0 (t : AVLTree) (v k : Int) (p : Nat)
    (h0 : ∀ q, (t.heap.get q).ref_count = 0) :
    ∀ q, ((attach_heap t v k p).get q).ref_count = 0 := by
  intro q
  have : ((t.heap.set t.next (Node.mkLive v k (some p))).get q).ref_count = 0 := by
    by_cases e : q = t.next
    · subst e; simp [Node.mkLive]
    · simp [e, h0 q]
  unfold attach_heap
  split_ifs <;> simp [this]

theorem insert_ref0 {t : AVLTree} {T : FT} (hI : Inv t T) (v k : Int) {t2 : AVLTree}
    (e : insert lt t v k = some t2) (h0 : ∀ q, (t.heap.get q).ref_count = 0) :
    ∀ q, (t2.heap.get q).ref_count = 0 := by
  obtain ⟨c, l, i, r, hfind, hz, hp, pk, st⟩ := locate hI k
  have hiT : i.id ∈ T.ids := (zids_mem hp _).1 (by simp)
  have hin : i.id ≠ t.next := fun e => hI.fresh (e ▸ hiT)
  by_cases hc : (t.heap.get i.id).key ≠ k ∨ (t.heap.get i.id).state = State.TAIL
  · rw [insert_new t v k i.id hin hfind hc] at e
    have ha := attach_heap_ref0 t v k i.id h0
    intro q
    split_ifs at e
    · rw [balance_insert_ref _ _ _ _ e q]
      show ((swap (AVLTree.mk (attach_heap t v k i.id) t.root t.set_size (t.next + 1)) i.id
        t.next).heap.get q).ref_count = 0
      rw [swap_ref _ _ _ q]
      exact ha q
    · rw [balance_insert_ref _ _ _ _ e q]
      exact ha q
  · rw [insert_dup t v k i.id hfind hc] at e
    simp only [Option.some.injEq] at e
    subst e
    exact h0

theorem mem_ids_of_ents {T : FT} {q : Nat} (h : q ∈ T.ids) : ∃ e ∈ T.ents, e.1 = q := by
  rw [ids_eq_ents] at h
  simpa using h

/-- One operation keeps the tree well formed and in step with the dictionary. -/
theorem step_ok {t : AVLTree} {T : FT} {m : Int → Option Int} (hI : Inv t T) (hA : Agrees T m)
    (op : Op) :
    ∃ t2 T2, applyOp t op = some t2 ∧ Inv t2 T2 ∧ Agrees T2 (stepModel m op) ∧
      (∀ q, q ∉ T.ids → q < t.next → t2.heap.get q = t.heap.get q) ∧
      (∀ q, q ∈ T2.ids → q ∈ T.ids ∨ q = t.next) ∧ t.next ≤ t2.next ∧
      ((∀ q, (t.heap.get q).ref_count = 0) → ∀ q, (t2.heap.get q).ref_count = 0) := by
  cases op with
  | ins v k =>
    simp only [applyOp]
    rcases insert_ok hI v k with ⟨hs, e⟩ | ⟨hs, t2, T2, P, Q, e, hI2, e1, e2, hn, hout⟩
    · exact ⟨t, T, e, hI, agrees_insert_dup hA v k hs, fun _ _ _ => rfl, fun q hq => Or.inl hq,
        le_refl _, id⟩
    · refine ⟨t2, T2, e, hI2, agrees_insert_new hA v k (Nat.pos_iff_ne_zero.1 hI.zero_lt) hs e1 e2,
        fun q hq hlt => hout q hq (Nat.ne_of_lt hlt), ?_, by omega,
        fun h0 => insert_ref0 hI v k e h0⟩
      intro q hq
      rw [ids_eq_ents, e2] at hq
      rw [ids_eq_ents, e1]
      simp only [List.map_append, List.map_cons, List.mem_append, List.mem_cons] at hq ⊢
      tauto
  | del k =>
    simp only [applyOp]
    rcases erase_ok hI k with ⟨hs, e⟩ | ⟨hs, t2, T2, P, Q, id, v, e, hI2, e1, e2, hid, hn, hsz,
      hout, hself, href⟩
    · exact ⟨t, T, e, hI, agrees_erase_absent hA k hs, fun _ _ _ => rfl, fun q hq => Or.inl hq,
        le_refl _, id⟩
    · refine ⟨t2, T2, e, hI2, agrees_erase_stored hA k hI.good.sorted hid e1 e2,
        fun q hq _ => hout q hq, ?_, by omega, fun h0 q => (href (h0 id) q).trans (h0 q)⟩
      intro q hq
      rw [ids_eq_ents, e2] at hq
      rw [ids_eq_ents, e1]
      simp only [List.map_append, List.map_cons, List.mem_append, List.mem_cons] at hq ⊢
      tauto

/-- A run of operations keeps the tree well formed, in step with the
dictionary, and never touches a node outside the tree. -/
theorem run_ok : ∀ (ops : List Op) {t : AVLTree} {T : FT} {m : Int → Option Int}, Inv t T →
    Agrees T m →
    ∃ t2 T2, runFrom t ops = some t2 ∧ Inv t2 T2 ∧ Agrees T2 (modelFrom m ops) ∧
      (∀ q, q ∉ T.ids → q < t.next → t2.heap.get q = t.heap.get q ∧ q ∉ T2.ids) ∧
      t.next ≤ t2.next ∧
      ((∀ q, (t.heap.get q).ref_count = 0) → ∀ q, (t2.heap.get q).ref_count = 0) := by
  intro ops
  induction ops with
  | nil =>
    intro t T m hI hA
    exact ⟨t, T, rfl, hI, hA, fun q hq _ => ⟨rfl, hq⟩, le_refl _, id⟩
  | cons op ops ih =>
    intro t T m hI hA
    obtain ⟨t1, T1, e1, hI1, hA1, f1, s1, n1, r1⟩ := step_ok hI hA op
    obtain ⟨t2, T2, e2, hI2, hA2, f2, n2, r2⟩ := ih hI1 hA1
    refine ⟨t2, T2, ?_, hI2, hA2, ?_, by omega, fun h0 => r2 (r1 h0)⟩
    · simp only [runFrom, e1]
      exact e2
    · intro q hq hlt
      have hq1 : q ∉ T1.ids := by
        intro h
        rcases s1 q h with h | h
        · exact hq h
        · omega
      obtain ⟨a, b⟩ := f2 q hq1 (by omega)
      exact ⟨a.trans (f1 q hq hlt), b⟩

/-- Every tree built by the public operations is well formed and stores the
dictionary of the run; no reference is held on any node. -/
theorem reach (ops : List Op) :
    ∃ t T, runOps ops = some t ∧ Inv t T ∧ Agrees T (model ops) ∧
      ∀ q, (t.heap.get q).ref_count = 0 := by
  obtain ⟨t, T, e, hI, hA, -, -, r⟩ := run_ok ops Inv_new Agrees_new
  exact ⟨t, T, e, hI, hA, r (fun q => rfl)⟩

theorem modelFrom_append (m : Int → Option Int) (a b : List Op) :
    modelFrom m (a ++ b) = modelFrom (modelFrom m a) b := by
  induction a generalizing m with
  | nil => rfl
  | cons op a ih => exact ih (stepModel m op)

theorem modelFrom_dels (ks : List Int) : ∀ (m : Int → Option Int) (x : Int),
    modelFrom m (ks.map Op.del) x = if x ∈ ks then none else m x := by
  induction ks with
  | nil => intro m x; simp [modelFrom]
  | cons k ks ih =>
    intro m x
    simp only [List.map_cons, modelFrom, ih, stepModel, List.mem_cons]
    by_cases h1 : x ∈ ks
    · simp [h1]
    · by_cases h2 : x = k
      · simp [h2]
      · simp [h1, h2]

theorem sorted_keys : ∀ (L : List (Nat × Int × Int)), SortedE L → (∀ e ∈ L, e.1 ≠ 0) →
    (L.map (fun e => e.2.1)).Pairwise (fun a b => a < b) := by
  intro L
  induction L with
  | nil => intro _ _; simp
  | cons x L ih =>
    intro hs hl
    simp only [SortedE, List.pairwise_cons] at hs
    simp only [List.map_cons, List.pairwise_cons, List.mem_map, forall_exists_index, and_imp,
      forall_apply_eq_imp_iff₂]
    refine ⟨fun e he => ?_, ih hs.2 (fun e he => hl e (by simp [he]))⟩
    have := hs.1 e he
    rw [ek_live (hl x (by simp)), ek_live (hl e (by simp [he]))] at this
    exact WithTop.coe_lt_coe.1 this

theorem keys_of_ids {h : Heap} {par : Ptr} {T : FT} (rp : Rep h par T)
    (L : List (Nat × Int × Int)) (hL : ∀ e ∈ L, e ∈ T.ents) :
    (L.map (fun e => e.1)).map (fun p => (h.get p).key) = L.map (fun e => e.2.1) := by
  rw [List.map_map]
  apply List.map_congr_left
  intro e he
  exact (Rep_ent rp (hL e he)).1

theorem Inv.size_eq {t : AVLTree} {T : FT} (hI : Inv t T) {L : List (Nat × Int × Int)}
    {s : Nat × Int × Int} (e : T.ents = L ++ [s]) : t.set_size = L.length := by
  have h1 := hI.size
  rw [ids_eq_ents, e] at h1
  simp only [List.map_append, List.map_cons, List.map_nil, List.length_append, List.length_map,
    List.length_cons, List.length_nil] at h1
  omega

theorem Inv.fuel_gt {t : AVLTree} {T : FT} (hI : Inv t T) : T.ids.length < t.fuel := by
  have := hI.ids_len
  simp only [AVLTree.fuel]
  omega

theorem Inv.balanced {t : AVLTree} {T : FT} (hI : Inv t T) :
    avl_balanced t.heap t.fuel t.root = true ∧ heights_ok t.heap t.fuel t.root = true := by
  rw [hI.root]
  exact ⟨avl_balanced_ok T none t.fuel hI.rep.foc hI.fuel_gt hI.good.bal,
    heights_ok_ok T none t.fuel hI.rep.foc hI.fuel_gt hI.good.acc⟩

theorem Inv.count {t : AVLTree} {T : FT} (hI : Inv t T) :
    count_live t.heap t.fuel t.root = some t.size := by
  rw [hI.root, count_live_ok T none t.fuel hI.rep.foc hI.fuel_gt]
  obtain ⟨L, v, e, hL⟩ := hI.ents_split
  have hs := hI.size_eq e
  rw [ids_eq_ents, e]
  simp only [List.map_append, List.map_cons, List.map_nil, List.filter_append, List.filter_cons,
    List.filter_nil, ne_eq, not_true_eq_false, decide_False, Bool.false_eq_true, if_false,
    List.append_nil, Option.some.injEq, AVLTree.size]
  rw [hs, List.filter_eq_self.2, List.length_map]
  intro q hq
  simp only [List.mem_map] at hq
  obtain ⟨e2, he2, rfl⟩ := hq
  simpa using hL e2 he2

theorem Inv.empty_of_none {t : AVLTree} {T : FT} {m : Int → Option Int} (hI : Inv t T)
    (hA : Agrees T m) (hm : ∀ x, m x = none) : t.empty = true := by
  obtain ⟨L, v, e, hL⟩ := hI.ents_split
  have hs := hI.size_eq e
  cases L with
  | nil =>
    simp only [List.length_nil] at hs
    simp [AVLTree.empty, hs]
  | cons a L =>
    exfalso
    have := (hA a.2.1 a.2.2).2 ⟨a.1, hL a (by simp), by rw [e]; simp⟩
    rw [hm] at this
    cases this

theorem insert_size {t : AVLTree} {T : FT} {m : Int → Option Int} (hI : Inv t T)
    (hA : Agrees T m) (v k : Int) (hk : m k = none) :
    ∃ t2 T2, insert lt t v k = some t2 ∧ Inv t2 T2 ∧ Agrees T2 (stepModel m (Op.ins v k)) ∧
      t2.set_size = t.set_size + 1 := by
  rcases insert_ok hI v k with ⟨hs, -⟩ | ⟨hs, t2, T2, P, Q, e, hI2, e1, e2, hn, hout⟩
  · exact absurd hk (by rw [← hA.absent k]; exact fun h => h hs)
  · refine ⟨t2, T2, e, hI2,
      agrees_insert_new hA v k (Nat.pos_iff_ne_zero.1 hI.zero_lt) hs e1 e2, ?_⟩
    have h1 := hI.size
    have h2 := hI2.size
    rw [ids_eq_ents, e1] at h1
    rw [ids_eq_ents, e2] at h2
    simp only [List.map_append, List.map_cons, List.length_append, List.length_map,
      List.length_cons] at h1 h2
    omega

theorem inserts_size : ∀ (kvs : List (Int × Int)) {t : AVLTree} {T : FT} {m : Int → Option Int},
    Inv t T → Agrees T m → (kvs.map Prod.snd).Nodup → (∀ p ∈ kvs, m p.2 = none) →
    ∃ t2, runFrom t (kvs.map (fun p => Op.ins p.1 p.2)) = some t2 ∧
      t2.set_size = t.set_size + kvs.length := by
  intro kvs
  induction kvs with
  | nil => intro t T m _ _ _ _; exact ⟨t, rfl, rfl⟩
  | cons p kvs ih =>
    intro t T m hI hA hnd hm
    obtain ⟨t1, T1, e1, hI1, hA1, hs1⟩ := insert_size hI hA p.1 p.2 (hm p (by simp))
    simp only [List.map_cons, List.nodup_cons, List.mem_map, not_exists, not_and] at hnd
    obtain ⟨t2, e2, hs2⟩ := ih hI1 hA1 hnd.2 (fun q hq => by
      simp only [stepModel]
      rw [if_neg (fun e => hnd.1 q hq e), hm q (by simp [hq])])
    refine ⟨t2, ?_, by rw [hs2, hs1, List.length_cons]; omega⟩
    simp only [List.map_cons, runFrom, applyOp, e1]
    exact e2

theorem state_refs {h h2 : Heap} (e : RefUpd h h2) (q : Nat) :
    (h2.get q).state = (h.get q).state ∧ (h2.get q).value = (h.get q).value ∧
      (h2.get q).key = (h.get q).key ∧ (h2.get q).freed = (h.get q).freed := by
  obtain ⟨w, hw⟩ := e q
  rw [hw]
  exact ⟨rfl, rfl, rfl, rfl⟩

theorem Inv.sentinel_state {t : AVLTree} {T : FT} (hI : Inv t T) :
    (t.heap.get 0).state = State.TAIL := by
  obtain ⟨v, hv⟩ := hI.good.hasS
  exact (Rep_ent hI.rep.foc hv).2.2.1

theorem live_unique {T : FT} (g : Good T) {p q : Nat} {k v w : Int} (hp : p ≠ 0) (hq : q ≠ 0)
    (h1 : (p, k, v) ∈ T.ents) (h2 : (q, k, w) ∈ T.ents) : p = q ∧ v = w := by
  have := g.sorted.uniq h1 h2 (by rw [ek_live (e := (p, k, v)) hp, ek_live (e := (q, k, w)) hq])
  simp only [Prod.mk.injEq, true_and] at this
  exact ⟨this.1, this.2⟩

theorem Inv_of_refs {t t1 : AVLTree} {T : FT} (hI : Inv t T) (hr : RefUpd t.heap t1.heap)
    (h1 : t1.root = t.root) (h2 : t1.set_size = t.set_size) (h3 : t1.next = t.next) :
    Inv t1 T := by
  have := Inv_refs hI t1.heap (fun q _ => hr q)
  rw [← h1, ← h2, ← h3] at this
  exact this

/-- The links of a node of the tree stay inside the tree, and only the
sentinel lacks both a right child and a parent. -/
theorem Inv.links {t : AVLTree} {T : FT} (hI : Inv t T) {p : Nat} (hp : p ∈ T.ids) :
    (∀ c, (t.heap.get p).left = some c → c ∈ T.ids ∧ c ≠ p) ∧
    (∀ c, (t.heap.get p).right = some c → c ∈ T.ids ∧ c ≠ p) ∧
    (∀ c, (t.heap.get p).parent = some c → c ∈ T.ids ∧ c ≠ p) ∧
    (p ≠ 0 → (t.heap.get p).right = none → (t.heap.get p).parent ≠ none) := by
  obtain ⟨c2, l, i, r, rfl, hpl, hz⟩ := zip_of_mem t T [] hI.rep p hp
  have rp := hz.foc
  rw [Rep_node] at rp
  obtain ⟨⟨k1, k2, k3, k4, k5, k6, k7⟩, kh, kl, kr⟩ := rp
  have nd := hz.nodup
  have hmem := zids_mem (T := T) hpl
  simp only [ids_node, List.nodup_append, List.nodup_cons, List.mem_append, List.mem_cons] at nd
  refine ⟨fun c hc => ?_, fun c hc => ?_, fun c hc => ?_, fun h0 hr hpar => ?_⟩
  · rw [k5] at hc
    have hcl := rootPtr_mem hc
    refine ⟨(hmem c).1 (by simp [hcl]), ?_⟩
    rintro rfl
    exact nd.1.2.2 hcl (List.mem_cons_self _ _)
  · rw [k6] at hc
    have hcr := rootPtr_mem hc
    refine ⟨(hmem c).1 (by simp [hcr]), ?_⟩
    rintro rfl
    exact nd.1.2.1.1 hcr
  · rw [k7] at hc
    have hcc := ctxPar_mem hc
    refine ⟨(hmem c).1 (by simp [hcc]), ?_⟩
    rintro rfl
    exact nd.2.2 (by simp) hcc
  · rw [k7] at hpar
    rw [k6] at hr
    have hc2 : c2 = [] := by
      cases c2 with
      | nil => rfl
      | cons f c => simp [ctxPar] at hpar
    have hrl : r = leaf := by
      cases r with
      | leaf => rfl
      | node a b d => simp at hr
    subst hc2 hrl
    have hT : T = node l i leaf := hpl.symm
    obtain ⟨v, hv⟩ := hI.good.hasS
    have hs := hI.good.sorted
    rw [hT] at hv hs
    simp only [ents_node, ents_leaf, List.mem_append, List.mem_singleton] at hv hs
    rcases hv with hv | hv
    · have := hs.lt_of_split hv (List.mem_singleton_self _)
      rw [ek_sent (e := (0, 0, v)) rfl] at this
      exact absurd this not_top_lt
    · have := congrArg (fun e => e.1) hv
      exact h0 this.symm

theorem links_refs {h h2 : Heap} (e : RefUpd h h2) (q : Nat) :
    (h2.get q).left = (h.get q).left ∧ (h2.get q).right = (h.get q).right ∧
      (h2.get q).parent = (h.get q).parent := by
  obtain ⟨w, hw⟩ := e q
  rw [hw]
  exact ⟨rfl, rfl, rfl⟩

theorem remove_loop_some (f : Nat) (h : Heap) (n : Nat) (rest : List Ptr) :
    remove_loop (f + 1) h (some n :: rest) =
      if (h.get n).state = State.DELETED ∧ (h.get n).ref_count = 0 then
        remove_loop f
          (setFreed (dec_ref_count (dec_ref_count (dec_ref_count h (h.get n).left)
            ((dec_ref_count h (h.get n).left).get n).right)
            ((dec_ref_count (dec_ref_count h (h.get n).left)
              ((dec_ref_count h (h.get n).left).get n).right).get n).parent) n)
          (((dec_ref_count (dec_ref_count (dec_ref_count h (h.get n).left)
            ((dec_ref_count h (h.get n).left).get n).right)
            ((dec_ref_count (dec_ref_count h (h.get n).left)
              ((dec_ref_count h (h.get n).left).get n).right).get n).parent).get n).parent ::
            ((dec_ref_count (dec_ref_count h (h.get n).left)
              ((dec_ref_count h (h.get n).left).get n).right).get n).right ::
            (h.get n).left :: rest)
      else remove_loop f h rest := rfl

/-- A cursor obtained by `find` on a stored key, followed by the erasure of
that key: the node becomes a retained tombstone that still carries its old
links, and the tree loses exactly that node. -/
theorem own_erase {t : AVLTree} {T : FT} {m : Int → Option Int} {k v : Int} (hI : Inv t T)
    (hA : Agrees T m) (hr0 : ∀ q, (t.heap.get q).ref_count = 0) (hk : m k = some v) :
    ∃ t1 p t2 T2, find lt t k = some (t1, some p) ∧ erase lt t1 k = some t2 ∧ Inv t1 T ∧
      Inv t2 T2 ∧ Agrees T2 (stepModel m (Op.del k)) ∧ p ≠ 0 ∧ (p, k, v) ∈ T.ents ∧
      (∀ q, q ∈ T2.ids ↔ (q ∈ T.ids ∧ q ≠ p)) ∧ t1.next = t.next ∧ t2.next = t.next ∧
      t2.heap.get p = { t1.heap.get p with state := State.DELETED } ∧
      (t1.heap.get p).ref_count = 1 ∧ (t1.heap.get p).freed = false := by
  obtain ⟨id, hid, hmem⟩ := (hA k v).1 hk
  obtain ⟨t1, p, ef, hr, r1, r2, r3, hcase⟩ := find_ok hI k
  rcases hcase with ⟨w, hw, hp0, hheap⟩ | ⟨habs, -⟩
  swap
  · exact absurd ⟨_, hmem, hid, rfl⟩ habs
  obtain ⟨-, hvw⟩ := live_unique hI.good hp0 hid hw hmem
  subst hvw
  have hI1 : Inv t1 T := Inv_of_refs hI hr r1 r2 r3
  have href : (t1.heap.get p).ref_count = 1 := by
    rw [hheap]
    simp [inc_ref_count, hr0 p, SIZE_MOD]
  have hfr : (t1.heap.get p).freed = false := (Rep_ent hI1.rep.foc hw).2.2.2
  rcases erase_ok hI1 k with ⟨hs, -⟩ | ⟨hs, t2, T2, P, Q, id2, v2, ee, hI2, e1, e2, hid2, hn,
    hsz, hout, hself, -⟩
  · exact absurd ⟨_, hw, hp0, rfl⟩ hs
  have hid3 : p = id2 := (live_unique hI.good hp0 hid2 hw
    (show (id2, k, v2) ∈ T.ents by rw [e1]; simp)).1
  subst hid3
  have hA2 := agrees_erase_stored hA k hI.good.sorted hid2 e1 e2
  have ndT : T.ids.Nodup := by simpa [ctxIds] using hI.rep.nodup
  have hids : ∀ q, q ∈ T2.ids ↔ (q ∈ T.ids ∧ q ≠ p) := by
    intro q
    rw [ids_eq_ents, e2, ids_eq_ents, e1]
    rw [ids_eq_ents, e1] at ndT
    simp only [List.map_append, List.map_cons, List.nodup_append, List.nodup_cons,
      List.mem_append, List.mem_cons, not_or, List.disjoint_cons_right] at ndT ⊢
    constructor
    · rintro (h | h)
      · exact ⟨Or.inl h, fun e => ndT.2.2.1 (e ▸ h)⟩
      · exact ⟨Or.inr (Or.inr h), fun e => ndT.2.1.1 (e ▸ h)⟩
    · rintro ⟨h | h | h, hne⟩
      · exact Or.inl h
      · exact absurd h hne
      · exact Or.inr h
  refine ⟨t1, p, t2, T2, ef, ee, hI1, hI2, hA2, hp0, hw, hids, r3, hn.trans r3, ?_, href, hfr⟩
  rw [hself, href]
  simp only [hfr]
  rfl

theorem Inv.node_state {t : AVLTree} {T : FT} (hI : Inv t T) {q : Nat} (hq : q ∈ T.ids) :
    (t.heap.get q).state = stateOf q ∧ (t.heap.get q).freed = false := by
  obtain ⟨e, he, rfl⟩ := mem_ids_of_ents hq
  exact ⟨(Rep_ent hI.rep.foc he).2.2.1, (Rep_ent hI.rep.foc he).2.2.2⟩

theorem RefUpd.dec3 {h H : Heap} (u : RefUpd h H) (a b c : Ptr) :
    RefUpd h (dec_ref_count (dec_ref_count (dec_ref_count H a) b) c) :=
  ((u.uTrans (RefUpd.dec H a)).uTrans (RefUpd.dec _ b)).uTrans (RefUpd.dec _ c)

theorem reachable_ok {h : Heap} : ∀ (g : FT) (par : Ptr) (F : Nat), Rep h par g →
    g.ids.length < F → reachable h F g.rootPtr = some g.ids := by
  intro g
  induction g with
  | leaf =>
    intro par F _ hF
    obtain ⟨F, rfl⟩ : ∃ F2, F = F2 + 1 := ⟨F - 1, by omega⟩
    rfl
  | node l i r ihl ihr =>
    intro par F rp hF
    obtain ⟨F, rfl⟩ : ∃ F2, F = F2 + 1 := ⟨F - 1, by omega⟩
    rw [Rep_node] at rp
    obtain ⟨⟨k1, k2, k3, k4, k5, k6, k7⟩, kh, kl, kr⟩ := rp
    simp only [ids_node, List.length_append, List.length_cons] at hF
    simp only [rootPtr_node, reachable]
    rw [show h i.id = h.get i.id from rfl, k5, k6, ihl _ F kl (by omega), ihr _ F kr (by omega)]
    rfl

theorem Inv.reach_ids {t : AVLTree} {T : FT} (hI : Inv t T) :
    reachable t.heap t.fuel t.root = some T.ids := by
  rw [hI.root]
  exact reachable_ok T none t.fuel hI.rep.foc hI.fuel_gt

/-- The subtree below a node of the tree, with the order facts it inherits. -/
theorem Inv.view {t : AVLTree} {T : FT} (hI : Inv t T) {p : Nat} (hp : p ∈ T.ids) :
    ∃ l i r par, i.id = p ∧ Rep t.heap par (node l i r) ∧
      (node l i r).ids.length ≤ T.ids.length ∧ (i.id, i.key, i.value) ∈ T.ents ∧
      (∀ e ∈ l.ents, e ∈ T.ents ∧ ek e < ek (i.id, i.key, i.value)) ∧
      (∀ e ∈ r.ents, e ∈ T.ents ∧ ek (i.id, i.key, i.value) < ek e) := by
  obtain ⟨c2, l, i, r, rfl, hpl, hz⟩ := zip_of_mem t T [] hI.rep p hp
  have hT : plug c2 (node l i r) = T := hpl
  have hperm := ids_plug_perm c2 (node l i r)
  have he := ents_plug c2 (node l i r)
  rw [hT] at hperm he
  have hs := hI.good.sorted
  rw [he, ents_node] at hs
  have hs2 : SortedE (l.ents ++ (i.id, i.key, i.value) :: r.ents) := hs.right.left
  refine ⟨l, i, r, _, rfl, hz.foc, ?_, ?_, fun e hel => ⟨?_, ?_⟩, fun e her => ⟨?_, ?_⟩⟩
  · rw [hperm.length_eq, List.length_append]
    omega
  · rw [he]; simp
  · rw [he]; simp [hel]
  · exact hs2.lt_of_split hel (List.mem_cons_self _ _)
  · rw [he]; simp [her]
  · exact (List.pairwise_cons.1 hs2.right).1 e her

theorem Inv.sentinel_right {t : AVLTree} {T : FT} (hI : Inv t T) :
    (t.heap.get 0).right = none := by
  obtain ⟨v, hv⟩ := hI.good.hasS
  obtain ⟨l, i, r, par, h0, rp, -, -, -, hr⟩ := hI.view (ents_ids_mem hv)
  simp only at h0
  rw [Rep_node] at rp
  rw [← h0, rp.1.2.2.2.2.2.1]
  cases r with
  | leaf => rfl
  | node a b d =>
    have := (hr (b.id, b.key, b.value) (by simp)).2
    rw [ek_sent (e := (i.id, i.key, i.value)) h0] at this
    exact absurd this not_top_lt

theorem Inv.rightmost {t : AVLTree} {T : FT} (hI : Inv t T) :
    ∃ r, t.root = some r ∧ end_loop t.heap t.fuel r = some 0 := by
  obtain ⟨x, hx⟩ := hI.rootId
  have hroot : t.root = some x := hI.root.trans hx
  have h := end_ok hI
  simp only [AVLTree.end, hroot] at h
  refine ⟨x, hroot, ?_⟩
  cases hl : end_loop t.heap t.fuel x with
  | none => rw [hl] at h; simp at h
  | some y =>
    rw [hl] at h
    simp only [Option.some.injEq, Prod.mk.injEq] at h
    rw [h.2]

theorem Inv.tail_nodes {t : AVLTree} {T : FT} (hI : Inv t T) :
    T.ids.filter (fun q => decide ((t.heap.get q).state = State.TAIL)) = [0] := by
  obtain ⟨L, v, e, hL⟩ := hI.ents_split
  have hst : ∀ q ∈ T.ids, (t.heap.get q).state = stateOf q := fun q hq => (hI.node_state hq).1
  have h1 : T.ids = L.map (fun e => e.1) ++ [0] := by rw [ids_eq_ents, e]; simp
  rw [h1] at hst ⊢
  rw [List.filter_append, List.filter_eq_nil_iff.2, List.nil_append]
  · have := hst 0 (by simp)
    simp [this, stateOf]
  · intro q hq
    have hq0 : q ≠ 0 := by
      simp only [List.mem_map] at hq
      obtain ⟨e2, he2, rfl⟩ := hq
      exact hL e2 he2
    rw [hst q (by simp [hq]), stateOf_ne hq0]
    simp

theorem stateOf_live {n : Nat} (h : stateOf n = State.NOT_DELETE) : n ≠ 0 := by
  intro h0
  simp [stateOf, h0] at h

/-- The search-tree property at one node of the tree. -/
theorem Inv.bst_at {t : AVLTree} {T : FT} (hI : Inv t T) {n : Nat} (hn : n ∈ T.ids)
    (hs : (t.heap.get n).state = State.NOT_DELETE) :
    ∃ ls rs, reachable t.heap t.fuel (t.heap.get n).left = some ls ∧
      reachable t.heap t.fuel (t.heap.get n).right = some rs ∧
      (∀ x ∈ ls, (t.heap.get x).state = State.NOT_DELETE →
        lt (t.heap.get x).key (t.heap.get n).key = true) ∧
      (∀ x ∈ rs, (t.heap.get x).state = State.NOT_DELETE →
        lt (t.heap.get n).key (t.heap.get x).key = true) := by
  obtain ⟨l, i, r, par, rfl, rp, hlen, hi, hl, hr⟩ := hI.view hn
  rw [Rep_node] at rp
  obtain ⟨⟨k1, k2, k3, k4, k5, k6, k7⟩, kh, kl, kr⟩ := rp
  have hF := hI.fuel_gt
  simp only [ids_node, List.length_append, List.length_cons] at hlen
  have hi0 : i.id ≠ 0 := stateOf_live (k3 ▸ hs)
  have eki : ek (i.id, i.key, i.value) = ((i.key : Int) : WithTop Int) :=
    ek_live (e := (i.id, i.key, i.value)) hi0
  refine ⟨l.ids, r.ids, ?_, ?_, fun x hx hsx => ?_, fun x hx hsx => ?_⟩
  · rw [k5]
    exact reachable_ok l _ t.fuel kl (by omega)
  · rw [k6]
    exact reachable_ok r _ t.fuel kr (by omega)
  · obtain ⟨e, he, rfl⟩ := mem_ids_of_ents hx
    have h1 := (hl e he).2
    rw [eki] at h1
    rw [(Rep_ent hI.rep.foc (hl e he).1).1, k1]
    simpa [lt] using (ek_lt_coe h1).2
  · obtain ⟨e, he, rfl⟩ := mem_ids_of_ents hx
    have h1 := (hr e he).2
    have he0 : e.1 ≠ 0 := by
      apply stateOf_live
      rw [← (Rep_ent hI.rep.foc (hr e he).1).2.2.1]
      exact hsx
    rw [eki, ek_live he0] at h1
    rw [(Rep_ent hI.rep.foc (hr e he).1).1, k1]
    simpa [lt] using WithTop.coe_lt_coe.1 h1

theorem Inv.key_unique {t : AVLTree} {T : FT} (hI : Inv t T) {a b : Nat} (ha : a ∈ T.ids)
    (hb : b ∈ T.ids) (sa : (t.heap.get a).state = State.NOT_DELETE)
    (sb : (t.heap.get b).state = State.NOT_DELETE)
    (hk : (t.heap.get a).key = (t.heap.get b).key) : a = b := by
  obtain ⟨ea, hea, rfl⟩ := mem_ids_of_ents ha
  obtain ⟨eb, heb, rfl⟩ := mem_ids_of_ents hb
  have ra := Rep_ent hI.rep.foc hea
  have rb := Rep_ent hI.rep.foc heb
  have a0 : ea.1 ≠ 0 := stateOf_live (ra.2.2.1 ▸ sa)
  have b0 : eb.1 ≠ 0 := stateOf_live (rb.2.2.1 ▸ sb)
  have := hI.good.sorted.uniq hea heb (by rw [ek_live a0, ek_live b0, ← ra.1, ← rb.1, hk])
  rw [this]

theorem true_height_ge (h : Heap) : ∀ (F : Nat) (p : Ptr) (a : Int),
    true_height h F p = some a → -1 ≤ a := by
  intro F
  induction F with
  | zero => intro p a e; simp [true_height] at e
  | succ F ih =>
    intro p a e
    cases p with
    | none =>
      simp only [true_height, Option.some.injEq] at e
      omega
    | some n =>
      simp only [true_height] at e
      cases hl : true_height h F (h n).left with
      | none => rw [hl] at e; simp at e
      | some x =>
        cases hr : true_height h F (h n).right with
        | none => rw [hl, hr] at e; simp at e
        | some y =>
          rw [hl, hr] at e
          simp only [Option.some.injEq] at e
          have := ih _ x hl
          omega

theorem true_height_none (h : Heap) (F : Nat) (a : Int) (e : true_height h F none = some a) :
    a = -1 := by
  cases F with
  | zero => simp [true_height] at e
  | succ F =>
    simp only [true_height, Option.some.injEq] at e
    omega

theorem Inv.no_link_to {t : AVLTree} {T : FT} (hI : Inv t T) {p : Nat} (hp : p ∉ T.ids)
    {q : Nat} (hq : q ∈ T.ids) :
    (t.heap.get q).parent ≠ some p ∧ (t.heap.get q).left ≠ some p ∧
      (t.heap.get q).right ≠ some p := by
  obtain ⟨l1, l2, l3, -⟩ := hI.links hq
  exact ⟨fun e => hp (l3 p e).1, fun e => hp (l1 p e).1, fun e => hp (l2 p e).1⟩

theorem deref_ent {t : AVLTree} {T : FT} (hI : Inv t T) {e : Nat × Int × Int}
    (he : e ∈ T.ents) : deref t.heap (some e.1) = some e.2.2 := by
  simp only [deref]
  rw [show t.heap e.1 = t.heap.get e.1 from rfl, (Rep_ent hI.rep.foc he).2.1]

/-- What `find` returns, with the tree it leaves behind. -/
theorem find_char {t : AVLTree} {T : FT} (hI : Inv t T) (k : Int) :
    ∃ t2 p, find lt t k = some (t2, some p) ∧ Inv t2 T ∧
      ((∃ v, (p, k, v) ∈ T.ents ∧ p ≠ 0) ∨ ((¬ ∃ e ∈ T.ents, e.1 ≠ 0 ∧ e.2.1 = k) ∧ p = 0)) := by
  obtain ⟨t2, p, ef, hr, r1, r2, r3, hcase⟩ := find_ok hI k
  refine ⟨t2, p, ef, Inv_of_refs hI hr r1 r2 r3, ?_⟩
  rcases hcase with ⟨v, hv, hp, -⟩ | h
  · exact Or.inl ⟨v, hv, hp⟩
  · exact Or.inr h

/-- A search for a key whose entries two trees share ends at the same node in
both, with the same value. -/
theorem find_after {ti : AVLTree} {T T2 : FT} (hIi : Inv ti T2) (k2 : Int)
    (hsame : ∀ e : Nat × Int × Int, e.1 ≠ 0 → e.2.1 = k2 → (e ∈ T2.ents ↔ e ∈ T.ents))
    (pa : Nat)
    (hcase : (∃ v, (pa, k2, v) ∈ T.ents ∧ pa ≠ 0) ∨
      ((¬ ∃ e ∈ T.ents, e.1 ≠ 0 ∧ e.2.1 = k2) ∧ pa = 0)) :
    ∃ tb, find lt ti k2 = some (tb, some pa) ∧
      ∀ va, (pa, k2, va) ∈ T.ents → pa ≠ 0 → deref tb.heap (some pa) = some va := by
  obtain ⟨tb, pb, ef, hIb, hc2⟩ := find_char hIi k2
  rcases hcase with ⟨va, hva, hpa⟩ | ⟨habs, rfl⟩
  · have hva2 : (pa, k2, va) ∈ T2.ents := (hsame (pa, k2, va) hpa rfl).2 hva
    rcases hc2 with ⟨vb, hvb, hpb⟩ | ⟨habs2, -⟩
    · obtain ⟨rfl, rfl⟩ := live_unique hIi.good hpb hpa hvb hva2
      refine ⟨tb, ef, fun v hv _ => ?_⟩
      have hv2 : (pb, k2, v) ∈ T2.ents := (hsame (pb, k2, v) hpa rfl).2 hv
      exact deref_ent hIb hv2
    · exact absurd ⟨_, hva2, hpa, rfl⟩ habs2
  · rcases hc2 with ⟨vb, hvb, hpb⟩ | ⟨-, rfl⟩
    · exact absurd ⟨_, (hsame (pb, k2, vb) hpb rfl).1 hvb, hpb, rfl⟩ habs
    · exact ⟨tb, ef, fun _ _ h => absurd rfl h⟩

theorem balance_insert_rotations_some (f : Nat) (t : AVLTree) (x : Nat) :
    balance_insert_rotations (f + 1) t (some x) =
      match balance_insert_step t x with
      | none => none
      | some t1 =>
        match balance_insert_rotations f t1 (t1.heap x).parent with
        | none => none
        | some n => some (n + if rotation_case t x then 1 else 0) := rfl

theorem balance_insert_rotations_none (f : Nat) (t : AVLTree) :
    balance_insert_rotations f t none = some 0 := by
  cases f <;> rfl

theorem rotation_case_eq {t : AVLTree} {c : Ctx} {l r : FT} {i : Info}
    (hz : ZRep t c (node l i r)) (al : l.Acc) (ar : r.Acc) :
    rotation_case t i.id =
      decide ((l.ht - r.ht = 2 ∧ l.bf = 1) ∨ (l.ht - r.ht = -2 ∧ r.bf = -1) ∨
        (l.ht - r.ht = -2 ∧ r.bf = 1) ∨ (l.ht - r.ht = 2 ∧ l.bf = -1)) := by
  obtain ⟨z1, k1⟩ := ZRep_fixroot hz al ar
  have rp := z1.foc
  have a1 : (node l { i with height := max l.ht r.ht + 1 } r).Acc := by simp [al, ar]
  have e0 := get_bf_eq rp a1
  rw [Rep_node] at rp
  have el := get_bf_eq rp.2.2.1 al
  have er := get_bf_eq rp.2.2.2 ar
  rw [← rp.1.2.2.2.2.1] at el
  rw [← rp.1.2.2.2.2.2.1] at er
  simp only [rootPtr_node, bf_node] at e0
  simp only [rotation_case]
  simp only [] at e0 el er
  rw [e0, el, er]

theorem FT.bf_range {g : FT} (b : g.Bal) : -1 ≤ g.bf ∧ g.bf ≤ 1 := by
  cases g with
  | leaf => simp
  | node l i r =>
    simp only [Bal_node] at b
    simp only [bf_node]
    omega

theorem rotation_case_iff {t : AVLTree} {c : Ctx} {l r : FT} {i : Info}
    (hz : ZRep t c (node l i r)) (al : l.Acc) (ar : r.Acc) (bl : l.Bal) (br : r.Bal)
    (h3 : l.ht = r.ht + 2 → l.bf ≠ 0) (h4 : r.ht = l.ht + 2 → r.bf ≠ 0) :
    rotation_case t i.id = decide (l.ht = r.ht + 2 ∨ r.ht = l.ht + 2) := by
  rw [rotation_case_eq hz al ar, decide_eq_decide]
  have rl := FT.bf_range bl
  have rr := FT.bf_range br
  constructor
  · rintro (⟨a, -⟩ | ⟨a, -⟩ | ⟨a, -⟩ | ⟨a, -⟩)
    · exact Or.inl (by omega)
    · exact Or.inr (by omega)
    · exact Or.inr (by omega)
    · exact Or.inl (by omega)
  · rintro (a | a)
    · have n0 := h3 a
      by_cases e : l.bf = 1
      · exact Or.inl ⟨by omega, e⟩
      · exact Or.inr (Or.inr (Or.inr ⟨by omega, by omega⟩))
    · have n0 := h4 a
      by_cases e : r.bf = 1
      · exact Or.inr (Or.inr (Or.inl ⟨by omega, e⟩))
      · exact Or.inr (Or.inl ⟨by omega, by omega⟩)

/-- One visit of the insert rebalancing walk, counting its rotation. -/
theorem rot_visit {t : AVLTree} {c : Ctx} {l r : FT} {i : Info}
    (hz : ZRep t c (node l i r)) (al : l.Acc) (ar : r.Acc) (bl : l.Bal) (br : r.Bal)
    (h1 : l.ht ≤ r.ht + 2) (h2 : r.ht ≤ l.ht + 2) (h3 : l.ht = r.ht + 2 → l.bf ≠ 0)
    (h4 : r.ht = l.ht + 2 → r.bf ≠ 0) :
    ∃ t2 k, k ≤ 1 ∧ ZRep t2 c (rebal_ins (node l i r)) ∧
      ∀ F n, balance_insert_rotations (F + k) t2 (ctxPar none c) = some n →
        balance_insert_rotations (F + 2) t (some i.id) =
          some (n + if l.ht = r.ht + 2 ∨ r.ht = l.ht + 2 then 1 else 0) := by
  obtain ⟨t2, e2, z2, -⟩ := ins_step_ok hz al ar
  obtain ⟨sa, sb, _, _⟩ := rebal_ins_spec (i := i) al ar bl br h1 h2 h3 h4
  have hrc := rotation_case_iff hz al ar bl br h3 h4
  rcases near_parent z2 (rebal_ins_near l r i) with ⟨_, ep⟩ | ⟨ner, ep⟩
  · refine ⟨t2, 1, le_refl _, z2, fun F n hn => ?_⟩
    rw [balance_insert_rotations_some, e2]
    simp only []
    rw [show t2.heap i.id = t2.heap.get i.id from rfl, ep, hn, hrc]
    simp only [decide_eq_true_eq]
  · cases hf : rebal_ins (node l i r) with
    | leaf =>
      have := (rebal_ins_lmono l r i).1.1 hf
      cases this
    | node X j Y =>
      rw [hf] at z2 sa sb ep
      obtain ⟨t3, e3, z3, -⟩ := ins_step_ok z2 sa.1 sa.2.1
      have hrc2 : rotation_case t2 j.id = false := by
        rw [rotation_case_eq z2 sa.1 sa.2.1, decide_eq_false_iff_not]
        have := sb.2.2
        omega
      rw [rebal_ins_noop sa sb] at z3
      have ep3 := Rep_root_parent z3.foc rfl
      refine ⟨t3, 0, Nat.zero_le _, z3, fun F n hn => ?_⟩
      rw [balance_insert_rotations_some, e2]
      simp only []
      rw [show t2.heap i.id = t2.heap.get i.id from rfl, ep]
      simp only [rootPtr_node]
      rw [balance_insert_rotations_some, e3]
      simp only []
      rw [show t3.heap j.id = t3.heap.get j.id from rfl, ep3]
      rw [Nat.add_zero] at hn
      rw [hn, hrc2, hrc]
      simp only [decide_eq_true_eq, Bool.false_eq_true, if_false, Nat.add_zero]

/-- The height bookkeeping of one level of the insert rebalancing walk. -/
theorem rot_arith (lh rh gh sh o : Int) (hm : max lh rh = max gh sh) (s1 : o ≤ sh + 1)
    (s2 : sh ≤ o + 1) (hgo : gh = o ∨ gh = o + 1)
    (hrot : (lh = rh + 2 ∨ rh = lh + 2) → gh = o + 1 ∧ sh + 1 = o)
    (hz0 : lh - rh = 0 → gh = sh) :
    ((lh = rh + 2 ∨ rh = lh + 2) → max lh rh = max o sh + 1) ∧
    (¬ (lh = rh + 2 ∨ rh = lh + 2) →
      (max lh rh + 1 = max o sh + 1 ∨
        (max lh rh + 1 = max o sh + 1 + 1 ∧ lh - rh ≠ 0))) ∧
    (gh = o → ¬ (lh = rh + 2 ∨ rh = lh + 2) ∧ max lh rh + 1 = max o sh + 1) := by
  refine ⟨fun hr => ?_, fun _ => ?_, fun e => ⟨fun hr => ?_, ?_⟩⟩
  · obtain ⟨a, b⟩ := hrot hr
    rw [hm]
    clear hrot hz0 hm hr hgo
    omega
  · rw [hm]
    by_cases e : gh = o
    · left; rw [e]
    · by_cases e3 : sh = o + 1
      · left
        clear hrot hz0 hm
        omega
      · right
        refine ⟨by clear hrot hz0 hm; omega, fun hz1 => ?_⟩
        have := hz0 hz1
        clear hrot hz0 hm
        omega
  · obtain ⟨a, -⟩ := hrot hr
    omega
  · rw [hm, e]

/-- One level of the insert rebalancing walk, given the count for the levels
above. -/
theorem rot_key {fr : Frame} {c : Ctx}
    (ih : ∀ (t : AVLTree) (g : FT) (o : Int) (F : Nat),
      ZRep t c g → g.Acc → g.Bal → CtxBal c o →
      (g.ht = o ∨ (g.ht = o + 1 ∧ (g.bf ≠ 0 ∨ g.ht = 0))) → 2 * c.length ≤ F →
      ∃ n, balance_insert_rotations F t (ctxPar none c) = some n ∧ n ≤ 1 ∧
        (g.ht = o → n = 0))
    {t : AVLTree} {g : FT} {o : Int} {F : Nat} (hF : 2 * c.length ≤ F)
    (cb2 : CtxBal c (max o fr.sib.ht + 1)) (s1 : o ≤ fr.sib.ht + 1) (s2 : fr.sib.ht ≤ o + 1)
    (hgo : g.ht = o ∨ g.ht = o + 1) (l r : FT) (i : Info)
    (zu : ZRep t c (node l i r)) (hi : i.id = fr.i.id)
    (al : l.Acc) (ar : r.Acc) (bl : l.Bal) (br : r.Bal)
    (h1 : l.ht ≤ r.ht + 2) (h2 : r.ht ≤ l.ht + 2) (h3 : l.ht = r.ht + 2 → l.bf ≠ 0)
    (h4 : r.ht = l.ht + 2 → r.bf ≠ 0) (hm : max l.ht r.ht = max g.ht fr.sib.ht)
    (hrot : (l.ht = r.ht + 2 ∨ r.ht = l.ht + 2) → g.ht = o + 1 ∧ fr.sib.ht + 1 = o)
    (hz0 : l.ht - r.ht = 0 → g.ht = fr.sib.ht) :
    ∃ n, balance_insert_rotations (F + 2) t (some fr.i.id) = some n ∧ n ≤ 1 ∧
      (g.ht = o → n = 0) := by
  obtain ⟨t2, k, hk, z2, run⟩ := rot_visit zu al ar bl br h1 h2 h3 h4
  obtain ⟨ra, rb, rh1, rh2⟩ := rebal_ins_spec (i := i) al ar bl br h1 h2 h3 h4
  obtain ⟨q1, q2, q3⟩ := rot_arith l.ht r.ht g.ht fr.sib.ht o hm s1 s2 hgo hrot hz0
  have hcond : (rebal_ins (node l i r)).ht = max o fr.sib.ht + 1 ∨
      ((rebal_ins (node l i r)).ht = max o fr.sib.ht + 1 + 1 ∧
        ((rebal_ins (node l i r)).bf ≠ 0 ∨ (rebal_ins (node l i r)).ht = 0)) := by
    by_cases hr : l.ht = r.ht + 2 ∨ r.ht = l.ht + 2
    · left
      rw [rh1 hr]
      exact q1 hr
    · rw [rh2 hr]
      simp only [ht_node, bf_node]
      rcases q2 hr with e | ⟨e, e2⟩
      · exact Or.inl e
      · exact Or.inr ⟨e, Or.inl e2⟩
  have hFk : 2 * c.length ≤ F + k := Nat.le_trans hF (Nat.le_add_right _ _)
  obtain ⟨n, e3, hn1, hn0⟩ :=
    ih t2 (rebal_ins (node l i r)) (max o fr.sib.ht + 1) (F + k) z2 ra rb cb2 hcond hFk
  refine ⟨_, by rw [← hi]; exact run F n e3, ?_, ?_⟩
  · split_ifs with hr
    · have h5 : (rebal_ins (node l i r)).ht = max o fr.sib.ht + 1 := by
        rw [rh1 hr]
        exact q1 hr
      rw [hn0 h5]
    · exact hn1
  · intro e
    obtain ⟨hr, e5⟩ := q3 e
    rw [if_neg hr, Nat.add_zero]
    apply hn0
    rw [rh2 hr]
    simp only [ht_node]
    exact e5

/-- The insert rebalancing walk rotates at most once, and not at all once the
subtree below has its old height again. -/
theorem rot_up (c : Ctx) : ∀ (t : AVLTree) (g : FT) (o : Int) (F : Nat),
    ZRep t c g → g.Acc → g.Bal → CtxBal c o →
    (g.ht = o ∨ (g.ht = o + 1 ∧ (g.bf ≠ 0 ∨ g.ht = 0))) → 2 * c.length ≤ F →
    ∃ n, balance_insert_rotations F t (ctxPar none c) = some n ∧ n ≤ 1 ∧
      (g.ht = o → n = 0) := by
  induction c with
  | nil =>
    intro t g o F _ _ _ _ _ _
    exact ⟨0, balance_insert_rotations_none F t, Nat.zero_le _, fun _ => rfl⟩
  | cons fr c ih =>
    intro t g o F hz ga gb cb hg hF
    obtain ⟨F, rfl⟩ : ∃ F2, F = F2 + 2 := ⟨F - 2, by simp only [List.length_cons] at hF; omega⟩
    simp only [List.length_cons] at hF
    obtain ⟨sa, sb, s1, s2, cb2⟩ := cb
    have hg0 := FT.ht_ge g
    have hs0 := FT.ht_ge fr.sib
    have zu := hz.up
    have hF2 : 2 * c.length ≤ F := by omega
    have hgo : g.ht = o ∨ g.ht = o + 1 := by
      rcases hg with e | ⟨e, -⟩
      · exact Or.inl e
      · exact Or.inr e
    have hbf : g.ht = o + 1 → fr.sib.ht + 2 = g.ht → g.bf ≠ 0 := by
      intro e1 e2
      rcases hg with e | ⟨-, e | e⟩
      · omega
      · exact e
      · omega
    cases hd : fr.dir with
    | L =>
      simp only [Frame.fillH, hd] at zu
      exact rot_key ih hF2 cb2 s1 s2 hgo g fr.sib _ zu rfl ga sa gb sb (by omega) (by omega)
        (fun e => hbf (by omega) (by omega)) (fun e => by omega) rfl (fun e => by omega)
        (fun e => by omega)
    | R =>
      simp only [Frame.fillH, hd] at zu
      exact rot_key ih hF2 cb2 s1 s2 hgo fr.sib g _ zu rfl sa ga sb gb (by omega) (by omega)
        (fun e => by omega) (fun e => hbf (by omega) (by omega)) (max_comm _ _)
        (fun e => by omega) (fun e => by omega)

/-- The rebalancing walk of `insert`, started at a freshly placed leaf, rotates
at most once. -/
theorem rot_finish {t : AVLTree} {c : Ctx} {x : Info} (hz : ZRep t c (node leaf x leaf))
    (hx : x.height = 0) (cb : CtxBal c (-1)) (F : Nat) (hF : 2 * c.length + 2 ≤ F) :
    ∃ n, balance_insert_rotations F t (some x.id) = some n ∧ n ≤ 1 := by
  obtain ⟨F, rfl⟩ : ∃ F2, F = F2 + 2 := ⟨F - 2, by omega⟩
  have ha : (node leaf x leaf).Acc := by simp [hx]
  have hb : (node leaf x leaf).Bal := by simp
  obtain ⟨t2, k, hk, z2, run⟩ := rot_visit hz trivial trivial trivial trivial
    (by simp) (by simp) (by simp) (by simp)
  rw [rebal_ins_noop ha hb] at z2
  obtain ⟨n, e3, hn, -⟩ :=
    rot_up c t2 (node leaf x leaf) (-1) (F + k) z2 ha hb cb (Or.inr ⟨by simp, Or.inr (by simp)⟩)
      (by omega)
  refine ⟨n, ?_, hn⟩
  rw [run F n e3]
  simp

theorem insert_rotations_dup (t : AVLTree) (v k : Int) (p : Nat)
    (hfind : find_node lt t k = some (some p))
    (hc : ¬ ((t.heap.get p).key ≠ k ∨ (t.heap.get p).state = State.TAIL)) :
    insert_rotations lt t v k = some 0 := by
  simp only [insert_rotations, hfind]
  rw [if_neg hc]

theorem insert_rotations_new (t : AVLTree) (v k : Int) (p : Nat) (hpn : p ≠ t.next)
    (hfind : find_node lt t k = some (some p))
    (hc : (t.heap.get p).key ≠ k ∨ (t.heap.get p).state = State.TAIL) :
    insert_rotations lt t v k =
      if ((attach_heap t v k p).get p).state = State.TAIL ∧
          ((attach_heap t v k p).get p).right ≠ none then
        balance_insert_rotations (2 * (t.next + 1) + 2)
          (AVLTree.mk (swap (AVLTree.mk (attach_heap t v k p) t.root t.set_size (t.next + 1))
              p t.next).heap
            (swap (AVLTree.mk (attach_heap t v k p) t.root t.set_size (t.next + 1)) p t.next).root
            (t.set_size + 1) (t.next + 1)) (some p)
      else
        balance_insert_rotations (2 * (t.next + 1) + 2)
          (AVLTree.mk (attach_heap t v k p) t.root (t.set_size + 1) (t.next + 1))
          (some t.next) := by
  simp only [insert_rotations, hfind]
  rw [if_pos hc]
  have e1 : ((t.heap.set t.next (Node.mkLive v k (some p))) t.next).key = k := by
    simp [Node.mkLive]
  have e2 : ((t.heap.set t.next (Node.mkLive v k (some p))) p).key = (t.heap.get p).key := by
    simp [hpn]
  simp only [e1, e2]
  have e3 : (if lt k (t.heap.get p).key = true then
      setLeft (t.heap.set t.next (Node.mkLive v k (some p))) p (some t.next)
    else setRight (t.heap.set t.next (Node.mkLive v k (some p))) p (some t.next))
      = attach_heap t v k p := rfl
  simp only [e3]
  split_ifs with h1
  · simp only [swap, AVLTree.fuel]
    split_ifs <;> rfl
  · rfl

/-- The path to a node of the tree is no longer than the tree is large. -/
theorem path_bound {t : AVLTree} {T : FT} (hI : Inv t T) {c : Ctx} {l r : FT} {i : Info}
    (hp : plug c (node l i r) = T) : c.length + 1 ≤ t.next := by
  have h1 := ctx_length_le c
  have h2 := (ids_plug_perm c (node l i r)).length_eq
  rw [hp] at h2
  simp only [ids_node, List.length_append, List.length_cons] at h2
  have h3 := hI.ids_len
  omega

theorem rot_left {t : AVLTree} {T : FT} (hI : Inv t T) (v k : Int) {c : Ctx} {r : FT}
    {i : Info} (hz : ZRep t c (node leaf i r)) (hp : plug c (node leaf i r) = T) :
    ∃ n, balance_insert_rotations (2 * (t.next + 1) + 2)
      (AVLTree.mk (setLeft (t.heap.set t.next (Node.mkLive v k (some i.id))) i.id (some t.next))
        t.root (t.set_size + 1) (t.next + 1)) (some t.next) = some n ∧ n ≤ 1 := by
  have hn0 : t.next ≠ 0 := Nat.pos_iff_ne_zero.1 hI.zero_lt
  have hfresh : t.next ∉ (node leaf i r).ids ++ ctxIds c :=
    fun h => hI.fresh ((zids_mem hp _).1 h)
  have z3 : ZRep (AVLTree.mk (setLeft (t.heap.set t.next (Node.mkLive v k (some i.id)))
      i.id (some t.next)) t.root (t.set_size + 1) (t.next + 1))
      (⟨Dir.L, i, r⟩ :: c) (node leaf ⟨t.next, k, v, 0⟩ leaf) :=
    (attach_left v k hz t.next hn0 hfresh).fields rfl rfl
  have cb : CtxBal (⟨Dir.L, i, r⟩ :: c) (-1) :=
    (CtxBal_of_plug (⟨Dir.L, i, r⟩ :: c) leaf (by simpa [plug, Frame.fill, hp] using hI.good.acc)
      (by simpa [plug, Frame.fill, hp] using hI.good.bal)).1
  have hb := path_bound hI hp
  exact rot_finish z3 rfl cb _ (by simp only [List.length_cons]; omega)

theorem rot_right {t : AVLTree} {T : FT} (hI : Inv t T) (v k : Int) {c : Ctx} {l : FT}
    {i : Info} (hz : ZRep t c (node l i leaf)) (hp : plug c (node l i leaf) = T) :
    ∃ n, balance_insert_rotations (2 * (t.next + 1) + 2)
      (AVLTree.mk (setRight (t.heap.set t.next (Node.mkLive v k (some i.id))) i.id (some t.next))
        t.root (t.set_size + 1) (t.next + 1)) (some t.next) = some n ∧ n ≤ 1 := by
  have hn0 : t.next ≠ 0 := Nat.pos_iff_ne_zero.1 hI.zero_lt
  have hfresh : t.next ∉ (node l i leaf).ids ++ ctxIds c :=
    fun h => hI.fresh ((zids_mem hp _).1 h)
  have z3 : ZRep (AVLTree.mk (setRight (t.heap.set t.next (Node.mkLive v k (some i.id)))
      i.id (some t.next)) t.root (t.set_size + 1) (t.next + 1))
      (⟨Dir.R, i, l⟩ :: c) (node leaf ⟨t.next, k, v, 0⟩ leaf) :=
    (attach_right v k hz t.next hn0 hfresh).fields rfl rfl
  have cb : CtxBal (⟨Dir.R, i, l⟩ :: c) (-1) :=
    (CtxBal_of_plug (⟨Dir.R, i, l⟩ :: c) leaf (by simpa [plug, Frame.fill, hp] using hI.good.acc)
      (by simpa [plug, Frame.fill, hp] using hI.good.bal)).1
  have hb := path_bound hI hp
  exact rot_finish z3 rfl cb _ (by simp only [List.length_cons]; omega)

theorem rot_swap {t : AVLTree} {T : FT} (hI : Inv t T) (v k : Int) {c : Ctx} {l : FT}
    {i : Info} (hz : ZRep t c (node l i leaf)) (hp : plug c (node l i leaf) = T) :
    ∃ n, balance_insert_rotations (2 * (t.next + 1) + 2)
      (AVLTree.mk (swap (AVLTree.mk (setRight (t.heap.set t.next
            (Node.mkLive v k (some i.id))) i.id (some t.next)) t.root t.set_size (t.next + 1))
          i.id t.next).heap
        (swap (AVLTree.mk (setRight (t.heap.set t.next
            (Node.mkLive v k (some i.id))) i.id (some t.next)) t.root t.set_size (t.next + 1))
          i.id t.next).root
        (t.set_size + 1) (t.next + 1)) (some i.id) = some n ∧ n ≤ 1 := by
  have hn0 : t.next ≠ 0 := Nat.pos_iff_ne_zero.1 hI.zero_lt
  have hfresh : t.next ∉ (node l i leaf).ids ++ ctxIds c :=
    fun h => hI.fresh ((zids_mem hp _).1 h)
  have z1 := (attach_right v k hz t.next hn0 hfresh).up
  simp only [Frame.fillH] at z1
  obtain ⟨z2, -⟩ := swap_ok z1
  have z3 := z2.down_right
  have z4 : ZRep (AVLTree.mk (swap (AVLTree.mk (setRight (t.heap.set t.next
            (Node.mkLive v k (some i.id))) i.id (some t.next)) t.root t.set_size (t.next + 1))
          i.id t.next).heap
        (swap (AVLTree.mk (setRight (t.heap.set t.next
            (Node.mkLive v k (some i.id))) i.id (some t.next)) t.root t.set_size (t.next + 1))
          i.id t.next).root
        (t.set_size + 1) (t.next + 1)) _ _ := z3.fields rfl rfl
  have cb : CtxBal (⟨Dir.R, i, l⟩ :: c) (-1) :=
    (CtxBal_of_plug (⟨Dir.R, i, l⟩ :: c) leaf (by simpa [plug, Frame.fill, hp] using hI.good.acc)
      (by simpa [plug, Frame.fill, hp] using hI.good.bal)).1
  have hb := path_bound hI hp
  exact rot_finish z4 rfl (CtxBal_info c (-1) Dir.R i _ l cb) _
    (by simp only [List.length_cons]; omega)

/-- An `insert` into a well-formed tree rotates at most once. -/
theorem insert_rotations_ok {t : AVLTree} {T : FT} (hI : Inv t T) (v k : Int) :
    ∃ n, insert_rotations lt t v k = some n ∧ n ≤ 1 := by
  obtain ⟨c, l, i, r, hfind, hz, hp, pk, st⟩ := locate hI k
  have L := located hI.good hp pk
  have rp := hz.foc
  rw [Rep_node] at rp
  obtain ⟨⟨k1, k2, k3, k4, k5, k6, k7⟩, kh, kl, kr⟩ := rp
  have hiT : i.id ∈ T.ids := (zids_mem hp _).1 (by simp)
  have hin : i.id ≠ t.next := fun e => hI.fresh (e ▸ hiT)
  by_cases hdup : i.key = k ∧ i.id ≠ 0
  · refine ⟨0, insert_rotations_dup t v k i.id hfind ?_, Nat.zero_le _⟩
    rw [k1, k3]
    simp [hdup.1, stateOf, hdup.2]
  · have hnew : i.key ≠ k ∨ i.id = 0 := by
      by_cases h : i.key = k
      · right; by_contra h2; exact hdup ⟨h, h2⟩
      · left; exact h
    have hc : (t.heap.get i.id).key ≠ k ∨ (t.heap.get i.id).state = State.TAIL := by
      rw [k1, k3]
      rcases hnew with h | h
      · exact Or.inl h
      · exact Or.inr (by simp [stateOf, h])
    rw [insert_rotations_new t v k i.id hin hfind hc]
    by_cases hlt : k < i.key
    · have hl : l = leaf := by
        rcases st with s | ⟨-, -, s⟩ | ⟨-, s, -⟩
        · omega
        · exact s
        · exact absurd hlt s
      subst hl
      have hah : attach_heap t v k i.id =
          setLeft (t.heap.set t.next (Node.mkLive v k (some i.id))) i.id (some t.next) := by
        simp only [attach_heap, k1, lt_iff, hlt, if_true]
      have hns : ¬ (((attach_heap t v k i.id).get i.id).state = State.TAIL ∧
          ((attach_heap t v k i.id).get i.id).right ≠ none) := by
        rw [hah]
        simp only [setLeft_same, Heap.get_set_other _ _ _ _ hin, k3, k6]
        rintro ⟨h1, h2⟩
        have : i.id = 0 := by
          by_contra h; rw [stateOf_ne h] at h1; cases h1
        exact h2 (by rw [(L.sent this).2.1]; rfl)
      rw [if_neg hns, hah]
      exact rot_left hI v k hz hp
    · have hr : r = leaf := by
        rcases st with s | ⟨-, s, -⟩ | ⟨-, -, s⟩
        · rcases hnew with h | h
          · exact absurd s h
          · exact (L.sent h).2.1
        · exact absurd s hlt
        · exact s
      subst hr
      have hah : attach_heap t v k i.id =
          setRight (t.heap.set t.next (Node.mkLive v k (some i.id))) i.id (some t.next) := by
        simp only [attach_heap, k1, lt_iff, hlt, if_false]
      by_cases hi : i.id = 0
      · have hs : ((attach_heap t v k i.id).get i.id).state = State.TAIL ∧
            ((attach_heap t v k i.id).get i.id).right ≠ none := by
          rw [hah]
          simp only [setRight_same, Heap.get_set_other _ _ _ _ hin, k3]
          simp [stateOf, hi]
        rw [if_pos hs, hah]
        exact rot_swap hI v k hz hp
      · have hns : ¬ (((attach_heap t v k i.id).get i.id).state = State.TAIL ∧
            ((attach_heap t v k i.id).get i.id).right ≠ none) := by
          rw [hah]
          simp only [setRight_same, Heap.get_set_other _ _ _ _ hin, k3]
          rintro ⟨h1, -⟩
          rw [stateOf_ne hi] at h1
          cases h1
        rw [if_neg hns, hah]
        exact rot_right hI v k hz hp

theorem inc_ref (h : Heap) (p : Ptr) (q : Nat) :
    ((inc_ref_count h p).get q).ref_count =
      if p = some q then ((h.get q).ref_count + 1) % SIZE_MOD else (h.get q).ref_count := by
  split_ifs with e
  · subst e
    simp [inc_ref_count]
  · rw [inc_other _ _ _ e]

theorem dec_ref (h : Heap) (p : Ptr) (q : Nat) :
    ((dec_ref_count h p).get q).ref_count =
      if p = some q then ((h.get q).ref_count + SIZE_MOD - 1) % SIZE_MOD
      else (h.get q).ref_count := by
  split_ifs with e
  · subst e
    simp [dec_ref_count]
  · rw [dec_other _ _ _ e]

theorem pins_succ (h : Heap) (k n : Nat) : pins h (k + 1) n = pins h k n + pin_count h k n := by
  simp [pins, List.range_succ]

theorem pins_congr {h h2 : Heap} {next n : Nat}
    (e : ∀ m, m < next → pin_count h2 m n = pin_count h m n) : pins h2 next n = pins h next n := by
  unfold pins
  congr 1
  apply List.map_congr_left
  intro m hm
  exact e m (List.mem_range.1 hm)

theorem pins_update {h h2 : Heap} {n id : Nat} : ∀ (next : Nat), id < next →
    (∀ m, m < next → m ≠ id → pin_count h2 m n = pin_count h m n) → pin_count h id n = 0 →
    pins h2 next n = pins h next n + pin_count h2 id n := by
  intro next
  induction next with
  | zero => intro hid; omega
  | succ k ih =>
    intro hid hsame h0
    rw [pins_succ, pins_succ]
    by_cases e : id = k
    · subst e
      rw [pins_congr (fun m hm => hsame m (by omega) (by omega)), h0]
      omega
    · rw [ih (by omega) (fun m hm hne => hsame m (by omega) hne) h0,
        hsame k (by omega) (fun e2 => e e2.symm)]
      omega

theorem pin_count_fields {h h2 : Heap} {m : Nat} (n : Nat)
    (e : ∃ v, h2.get m = { h.get m with ref_count := v }) : pin_count h2 m n = pin_count h m n := by
  obtain ⟨v, hv⟩ := e
  unfold pin_count
  rw [hv]

theorem pin_count_live {h : Heap} {m : Nat} (n : Nat) (hs : (h.get m).state ≠ State.DELETED) :
    pin_count h m n = 0 := by
  unfold pin_count
  rw [if_neg (fun e => hs e.1)]

theorem pin_count_freed {h : Heap} {m : Nat} (n : Nat) (hs : (h.get m).freed = true) :
    pin_count h m n = 0 := by
  unfold pin_count
  rw [if_neg (fun e => by rw [hs] at e; exact absurd e.2 (by simp))]

theorem attach_heap_ref (t : AVLTree) (v k : Int) (p q : Nat) :
    ((attach_heap t v k p).get q).ref_count =
      if q = t.next then 0 else (t.heap.get q).ref_count := by
  have : ((t.heap.set t.next (Node.mkLive v k (some p))).get q).ref_count =
      if q = t.next then 0 else (t.heap.get q).ref_count := by
    by_cases e : q = t.next
    · subst e; simp [Node.mkLive]
    · simp [e]
  unfold attach_heap
  split_ifs <;> simp_all

/-- Reference counts across `insert`: the new node starts at zero, no other
count changes. -/
theorem insert_refs {t : AVLTree} {T : FT} (hI : Inv t T) (v k : Int) {t2 : AVLTree}
    (e : insert lt t v k = some t2) :
    t2 = t ∨ ∀ q, (t2.heap.get q).ref_count =
      if q = t.next then 0 else (t.heap.get q).ref_count := by
  obtain ⟨c, l, i, r, hfind, hz, hp, pk, st⟩ := locate hI k
  have hiT : i.id ∈ T.ids := (zids_mem hp _).1 (by simp)
  have hin : i.id ≠ t.next := fun e => hI.fresh (e ▸ hiT)
  by_cases hc : (t.heap.get i.id).key ≠ k ∨ (t.heap.get i.id).state = State.TAIL
  · right
    rw [insert_new t v k i.id hin hfind hc] at e
    intro q
    split_ifs at e
    · rw [balance_insert_ref _ _ _ _ e q]
      show ((swap (AVLTree.mk (attach_heap t v k i.id) t.root t.set_size (t.next + 1)) i.id
        t.next).heap.get q).ref_count = _
      rw [swap_ref _ _ _ q]
      exact attach_heap_ref t v k i.id q
    · rw [balance_insert_ref _ _ _ _ e q]
      exact attach_heap_ref t v k i.id q
  · left
    rw [insert_dup t v k i.id hfind hc] at e
    simp only [Option.some.injEq] at e
    exact e.symm

/-- The heap `erase` hands to `delete_node` holds the reference counts the
tree had before. -/
theorem erase_heap {t : AVLTree} {T : FT} (hI : Inv t T) (k : Int) {t2 : AVLTree} {id : Nat}
    {v : Int} (hmem : (id, k, v) ∈ T.ents) (hid : id ≠ 0) (e : erase lt t k = some t2) :
    ∃ hb : Heap, RefSame t.heap hb ∧ t2.heap = delete_node hb id := by
  obtain ⟨c, l, i, r, hfind, hz, hp, pk, st⟩ := locate hI k
  have L := located hI.good hp pk
  have rp := hz.foc
  rw [Rep_node] at rp
  obtain ⟨⟨k1, k2, k3, k4, k5, k6, k7⟩, kh, kl, kr⟩ := rp
  have hfound := found_of_stop L st hmem hid rfl
  simp only [Prod.mk.injEq] at hfound
  obtain ⟨rfl, hk, -⟩ := hfound
  rw [erase_eq t k i.id (hI.size_pos hmem hid) hfind
    ⟨by rw [k1, ← hk], by rw [k3, stateOf_ne hid]⟩] at e
  cases hl : erase_lower t i.id with
  | none => rw [hl] at e; simp at e
  | some lower =>
    rw [hl] at e
    simp only [erase_tail] at e
    cases hb : balance_delete_loop (erase_mid t i.id lower).fuel (erase_mid t i.id lower)
        (erase_start t i.id lower) with
    | none => rw [hb] at e; simp at e
    | some tb =>
      rw [hb] at e
      simp only [Option.some.injEq] at e
      refine ⟨tb.heap, ?_, by rw [← e]⟩
      have r1 := erase_splice_ref t.heap lower i.id
      have r2 := replace_node_ref (erase_splice t.heap lower i.id) lower i.id
      have r3 := balance_delete_loop_ref _ _ _ _ hb
      exact (r1.sTrans r2).sTrans r3

theorem pin3_ref (h : Heap) (node q : Nat) (hM : (h.get q).ref_count < SIZE_MOD) :
    ((pin3 h node).get q).ref_count =
      ((h.get q).ref_count + (if (h.get node).parent = some q then 1 else 0) +
        (if (h.get node).left = some q then 1 else 0) +
        (if (h.get node).right = some q then 1 else 0)) % SIZE_MOD := by
  unfold pin3
  simp only [show ∀ (g : Heap) (x : Nat), g x = g.get x from fun _ _ => rfl]
  have u1 := RefUpd.inc h (h.get node).parent
  have u2 := u1.uTrans (RefUpd.inc _ (h.get node).left)
  rw [(links_refs u1 node).1, (links_refs u2 node).2.1]
  rw [inc_ref, inc_ref, inc_ref]
  simp only [SIZE_MOD] at hM ⊢
  split_ifs <;> omega

/-- Reference counts across `delete_node`. -/
theorem delete_node_ref (h : Heap) (node q : Nat) (hM : (h.get q).ref_count < SIZE_MOD) :
    ((delete_node h node).get q).ref_count =
      if (h.get node).ref_count = 0 then (h.get q).ref_count
      else ((h.get q).ref_count + (if (h.get node).parent = some q then 1 else 0) +
        (if (h.get node).left = some q then 1 else 0) +
        (if (h.get node).right = some q then 1 else 0)) % SIZE_MOD := by
  have hs : ∀ x, ((setState h node State.DELETED).get x).ref_count = (h.get x).ref_count ∧
      ((setState h node State.DELETED).get x).parent = (h.get x).parent ∧
      ((setState h node State.DELETED).get x).left = (h.get x).left ∧
      ((setState h node State.DELETED).get x).right = (h.get x).right := by
    intro x
    by_cases e : x = node
    · subst e; simp
    · simp [e]
  rw [delete_node_eq]
  by_cases h0 : (h.get node).ref_count = 0
  · rw [if_pos h0, if_pos h0]
    by_cases e : q = node
    · subst e; simp
    · simp [e]
  · rw [if_neg h0, if_neg h0, pin3_ref _ _ _ (by rw [(hs q).1]; exact hM), (hs q).1,
      (hs node).2.1, (hs node).2.2.1, (hs node).2.2.2]

theorem count_set_get {l : List Ptr} {i : Nat} {p : Ptr} (y n : Ptr) (h : l.get? i = some p) :
    (l.set i y).count n + (if p = n then 1 else 0) = l.count n + (if y = n then 1 else 0) := by
  induction l generalizing i with
  | nil => simp at h
  | cons a l ih =>
    cases i with
    | zero =>
      simp only [List.get?_cons_zero, Option.some.injEq] at h
      subst h
      simp only [List.set_cons_zero, List.count_cons, beq_iff_eq]
      split_ifs <;> omega
    | succ i =>
      simp only [List.get?_cons_succ] at h
      have := ih h
      simp only [List.set_cons_succ, List.count_cons]
      omega

theorem count_eraseIdx_get {l : List Ptr} {i : Nat} {p : Ptr} (n : Ptr)
    (h : l.get? i = some p) :
    (l.eraseIdx i).count n + (if p = n then 1 else 0) = l.count n := by
  induction l generalizing i with
  | nil => simp at h
  | cons a l ih =>
    cases i with
    | zero =>
      simp only [List.get?_cons_zero, Option.some.injEq] at h
      subst h
      simp only [List.eraseIdx_cons_zero, List.count_cons, beq_iff_eq]
    | succ i =>
      simp only [List.get?_cons_succ] at h
      have := ih h
      simp only [List.eraseIdx_cons_succ, List.count_cons]
      omega

theorem get_set_here {l : List Ptr} {i : Nat} {p : Ptr} (y : Ptr) (h : l.get? i = some p) :
    (l.set i y).get? i = some y := by
  induction l generalizing i with
  | nil => simp at h
  | cons a l ih =>
    cases i with
    | zero => rfl
    | succ i =>
      simp only [List.get?_cons_succ] at h
      simp only [List.set_cons_succ, List.get?_cons_succ, ih h]

theorem set_twice (l : List Ptr) (i : Nat) (x y : Ptr) : (l.set i x).set i y = l.set i y := by
  induction l generalizing i with
  | nil => rfl
  | cons a l ih =>
    cases i with
    | zero => rfl
    | succ i => simp only [List.set_cons_succ, ih]

theorem pins_zero {h : Heap} {next n : Nat} (e : ∀ m, m < next → pin_count h m n = 0) :
    pins h next n = 0 := by
  induction next with
  | zero => rfl
  | succ k ih => rw [pins_succ, ih (fun m hm => e m (by omega)), e k (by omega)]

theorem pin_count_lt {h : Heap} {m next n : Nat}
    (hl : (h.get m).state = State.DELETED → ∀ c, ((h.get m).parent = some c ∨
      (h.get m).left = some c ∨ (h.get m).right = some c) → c < next) (hn : next ≤ n) :
    pin_count h m n = 0 := by
  unfold pin_count
  split_ifs with a b c d <;> first | rfl | (exfalso; have := hl a.1 n (by tauto); omega)

theorem Released.frame {h h2 : Heap} (e : Released h h2) (q : Nat) :
    (h2.get q).state = (h.get q).state ∧ (h2.get q).value = (h.get q).value ∧
      (h2.get q).key = (h.get q).key ∧ (h2.get q).left = (h.get q).left ∧
      (h2.get q).right = (h.get q).right ∧ (h2.get q).parent = (h.get q).parent := by
  obtain ⟨v, f, hv, -⟩ := e q
  rw [hv]
  exact ⟨rfl, rfl, rfl, rfl, rfl, rfl⟩

theorem Released.of_refs {h h2 : Heap} (e : RefUpd h h2) : Released h h2 := by
  intro q
  obtain ⟨v, hv⟩ := e q
  exact ⟨v, (h.get q).freed, hv, fun _ => rfl⟩

theorem Released.rTrans {h h2 h3 : Heap} (a : Released h h2) (b : Released h2 h3) :
    Released h h3 := by
  intro q
  obtain ⟨v, f, hv, hf⟩ := a q
  obtain ⟨w, g, hw, hg⟩ := b q
  refine ⟨w, g, by rw [hw, hv], fun hs => ?_⟩
  rw [hg (by rw [(a.frame q).1]; exact hs), hv]
  exact hf hs

/-- The links of an erased node lead to allocated nodes. -/
theorem Book.lnk_lt {s : Scene} {T : FT} (B : Book s T) {m : Nat} (hm : m < s.t.next)
    (hs : (s.t.heap.get m).state = State.DELETED) {c : Nat}
    (hc : (s.t.heap.get m).parent = some c ∨ (s.t.heap.get m).left = some c ∨
      (s.t.heap.get m).right = some c) : c < s.t.next := by
  obtain ⟨rank, hr⟩ := B.lnk
  rcases (hr m hm hs).2 c hc with h | h
  · exact B.inv.alloc c h
  · exact h.1

theorem Inv.live {t : AVLTree} {T : FT} (hI : Inv t T) {q : Nat} (hq : q ∈ T.ids) :
    (t.heap.get q).state ≠ State.DELETED := by
  rw [(hI.node_state hq).1]
  exact stateOf_ne_deleted q

theorem Book.start : Book ⟨AVLTree.new, []⟩ (node leaf ⟨0, 0, 0, 0⟩ leaf) := by
  refine ⟨Inv_new, fun c hc => by simp at hc, fun m hm => ?_, ⟨fun _ => 0, fun m hm hs => ?_⟩,
    fun n hn => ?_, fun n => by simp [AVLTree.new, Node.mkState, SIZE_MOD]⟩
  · left
    have : m = 0 := by simp only [AVLTree.new] at hm; omega
    simp [this]
  · simp [AVLTree.new, Node.mkState] at hs
  · have h0 : pins AVLTree.new.heap 1 n = 0 :=
      pins_zero (fun m _ => pin_count_live n (by simp [AVLTree.new, Node.mkState]))
    simp only [AVLTree.new] at h0 ⊢
    rw [h0]
    simp [Node.mkState]

/-- A change of reference counts and deletions of erased nodes under which the
counts still match the cursors `cs`. -/
theorem Book.of_released {s : Scene} {T : FT} (B : Book s T) {h2 : Heap} {cs : List Ptr}
    (hr : Released s.t.heap h2) (hc : ∀ c, some c ∈ cs → c < s.t.next)
    (href : ∀ n, n < s.t.next →
      (h2.get n).ref_count = (cs.count (some n) + pins h2 s.t.next n) % SIZE_MOD)
    (hb : ∀ n, (h2.get n).ref_count < SIZE_MOD) :
    Book ⟨AVLTree.mk h2 s.t.root s.t.set_size s.t.next, cs⟩ T := by
  obtain ⟨rank, hrk⟩ := B.lnk
  refine ⟨Inv_refs B.inv h2 (fun q hq => ?_), hc, fun m hm => ?_, ⟨rank, fun m hm hs => ?_⟩,
    href, hb⟩
  · obtain ⟨v, f, hv, hf⟩ := hr q
    refine ⟨v, ?_⟩
    rw [hv, hf (B.inv.live hq)]
  · simp only [(hr.frame m).1]
    exact B.own m hm
  · simp only [(hr.frame m).1] at hs
    refine ⟨(hrk m hm hs).1, fun c hc => ?_⟩
    simp only [(hr.frame m).2.2.2.1, (hr.frame m).2.2.2.2.1, (hr.frame m).2.2.2.2.2] at hc
    rcases (hrk m hm hs).2 c hc with h | h
    · exact Or.inl h
    · exact Or.inr ⟨h.1, by simp only [(hr.frame c).1]; exact h.2.1, h.2.2⟩

/-- A change of reference counts under which the counts match the cursors `cs`. -/
theorem Book.refs_only {s : Scene} {T : FT} (B : Book s T) {h2 : Heap} {cs : List Ptr}
    (hr : RefUpd s.t.heap h2) (hc : ∀ c, some c ∈ cs → c < s.t.next)
    (href : ∀ n, n < s.t.next →
      (h2.get n).ref_count = (cs.count (some n) + pins s.t.heap s.t.next n) % SIZE_MOD)
    (hb : ∀ n, (h2.get n).ref_count < SIZE_MOD) :
    Book ⟨AVLTree.mk h2 s.t.root s.t.set_size s.t.next, cs⟩ T := by
  refine B.of_released (Released.of_refs hr) hc (fun n hn => ?_) hb
  have hpins : pins h2 s.t.next n = pins s.t.heap s.t.next n :=
    pins_congr (fun m _ => pin_count_fields n (hr m))
  rw [hpins]
  exact href n hn

/-- The bookkeeping invariant across `insert`. -/
theorem Book.ins {s : Scene} {T : FT} (B : Book s T) (v k : Int) :
    ∃ t2 T2, insert lt s.t v k = some t2 ∧ Book ⟨t2, s.cursors⟩ T2 := by
  rcases insert_ok B.inv v k with ⟨-, e⟩ | ⟨-, t2, T2, P, Q, e, hI2, e1, e2, hn, hout⟩
  · exact ⟨s.t, T, e, B⟩
  · have hrefs : ∀ q, (t2.heap.get q).ref_count =
        if q = s.t.next then 0 else (s.t.heap.get q).ref_count := by
      rcases insert_refs B.inv v k e with h | h
      · rw [h] at hn; omega
      · exact h
    have hids : ∀ q, q ∈ T2.ids ↔ (q ∈ T.ids ∨ q = s.t.next) := by
      intro q
      rw [ids_eq_ents, e2, ids_eq_ents, e1]
      simp only [List.map_append, List.map_cons, List.mem_append, List.mem_cons]
      tauto
    have hlen : T2.ids.length = T.ids.length + 1 := by
      rw [ids_eq_ents T, ids_eq_ents T2, e2, e1]
      simp only [List.map_append, List.map_cons, List.length_append, List.length_cons,
        List.length_map]
      omega
    have hpc : ∀ m n, m < s.t.next → pin_count t2.heap m n = pin_count s.t.heap m n := by
      intro m n hm
      by_cases hmT : m ∈ T.ids
      · rw [pin_count_live n (hI2.live ((hids m).2 (Or.inl hmT))),
          pin_count_live n (B.inv.live hmT)]
      · unfold pin_count
        rw [hout m hmT (by omega)]
    have hold : ∀ m, m < t2.next → (t2.heap.get m).state = State.DELETED →
        m < s.t.next ∧ t2.heap.get m = s.t.heap.get m := by
      intro m hm hs
      have hmT2 : m ∉ T2.ids := fun h => hI2.live h hs
      have hmT : m ∉ T.ids := fun h => hmT2 ((hids m).2 (Or.inl h))
      have hmn : m ≠ s.t.next := fun h => hmT2 ((hids m).2 (Or.inr h))
      exact ⟨by omega, hout m hmT hmn⟩
    obtain ⟨rank, hrk⟩ := B.lnk
    refine ⟨t2, T2, e, ⟨hI2, fun c hc => ?_, fun m hm => ?_, ⟨rank, fun m hm hs => ?_⟩,
      fun n hn2 => ?_, fun n => ?_⟩⟩
    · have := B.cur c hc
      show c < t2.next
      omega
    · have hm2 : m < s.t.next + 1 := hn ▸ hm
      show m ∈ T2.ids ∨ (t2.heap.get m).state = State.DELETED
      by_cases hmT : m ∈ T.ids
      · exact Or.inl ((hids m).2 (Or.inl hmT))
      · by_cases hmn : m = s.t.next
        · exact Or.inl ((hids m).2 (Or.inr hmn))
        · rw [hout m hmT hmn]
          rcases B.own m (by omega) with h | h
          · exact absurd h hmT
          · exact Or.inr h
    · have hm1 : m < t2.next := hm
      have hs1 : (t2.heap.get m).state = State.DELETED := hs
      obtain ⟨hm2, hrec⟩ := hold m hm1 hs1
      rw [hrec] at hs1
      obtain ⟨hb, hl⟩ := hrk m hm2 hs1
      show rank m + T2.ids.length < t2.next ∧ ∀ c, ((t2.heap.get m).parent = some c ∨
        (t2.heap.get m).left = some c ∨ (t2.heap.get m).right = some c) →
        c ∈ T2.ids ∨ (c < t2.next ∧ (t2.heap.get c).state = State.DELETED ∧ rank m < rank c)
      rw [hrec]
      refine ⟨by omega, fun c hc => ?_⟩
      rcases hl c hc with h | ⟨h1, h2, h3⟩
      · exact Or.inl ((hids c).2 (Or.inl h))
      · have hcT : c ∉ T.ids := fun h => B.inv.live h h2
        exact Or.inr ⟨by omega, by rw [hout c hcT (by omega)]; exact h2, h3⟩
    · have hn3 : n < s.t.next + 1 := hn ▸ hn2
      show (t2.heap.get n).ref_count =
        (s.cursors.count (some n) + pins t2.heap t2.next n) % SIZE_MOD
      have hp1 : pins t2.heap t2.next n = pins s.t.heap s.t.next n := by
        rw [hn, pins_succ, pin_count_live n (hI2.live ((hids _).2 (Or.inr rfl))), Nat.add_zero]
        exact pins_congr (fun m hm => hpc m n hm)
      rw [hp1, hrefs n]
      by_cases hnn : n = s.t.next
      · rw [if_pos hnn]
        have c0 : s.cursors.count (some n) = 0 :=
          List.count_eq_zero_of_not_mem (fun h => by have := B.cur n h; omega)
        have p0 : pins s.t.heap s.t.next n = 0 :=
          pins_zero (fun m hm => pin_count_lt (fun hs c hc => B.lnk_lt hm hs hc) (by omega))
        rw [c0, p0]
        rfl
      · rw [if_neg hnn]
        exact B.refs n (by omega)
    · show (t2.heap.get n).ref_count < SIZE_MOD
      rw [hrefs n]
      split_ifs
      · simp [SIZE_MOD]
      · exact B.bound n

theorem delete_node_links (h : Heap) (node : Nat) :
    ((delete_node h node).get node).parent = (h.get node).parent ∧
      ((delete_node h node).get node).left = (h.get node).left ∧
      ((delete_node h node).get node).right = (h.get node).right := by
  rw [delete_node_eq]
  split_ifs
  · simp
  · have u := links_refs (pin3_refs (setState h node State.DELETED) node) node
    rw [u.1, u.2.1, u.2.2]
    simp

/-- The bookkeeping invariant across `erase`. -/
theorem Book.del {s : Scene} {T : FT} (B : Book s T) (k : Int) :
    ∃ t2 T2, erase lt s.t k = some t2 ∧ Book ⟨t2, s.cursors⟩ T2 := by
  rcases erase_ok B.inv k with ⟨-, e⟩ | ⟨-, t2, T2, P, Q, id, v, e, hI2, e1, e2, hid, hn, -,
    hout, hself, -⟩
  · exact ⟨s.t, T, e, B⟩
  have hmem : (id, k, v) ∈ T.ents := by rw [e1]; simp
  have hidT : id ∈ T.ids := ents_ids_mem hmem
  have hidn : id < s.t.next := B.inv.alloc id hidT
  obtain ⟨hb, hrs, eh⟩ := erase_heap B.inv k hmem hid e
  have ndT : T.ids.Nodup := by simpa [ctxIds] using B.inv.rep.nodup
  have hids : ∀ q, q ∈ T2.ids ↔ (q ∈ T.ids ∧ q ≠ id) := by
    intro q
    rw [ids_eq_ents, e2, ids_eq_ents, e1]
    rw [ids_eq_ents, e1] at ndT
    simp only [List.map_append, List.map_cons, List.nodup_append, List.nodup_cons,
      List.mem_append, List.mem_cons, not_or, List.disjoint_cons_right] at ndT ⊢
    constructor
    · rintro (h | h)
      · exact ⟨Or.inl h, fun e => ndT.2.2.1 (e ▸ h)⟩
      · exact ⟨Or.inr (Or.inr h), fun e => ndT.2.1.1 (e ▸ h)⟩
    · rintro ⟨h | h | h, hne⟩
      · exact Or.inl h
      · exact absurd h hne
      · exact Or.inr h
  have hlen : T.ids.length = T2.ids.length + 1 := by
    rw [ids_eq_ents T, ids_eq_ents T2, e2, e1]
    simp only [List.map_append, List.map_cons, List.length_append, List.length_cons,
      List.length_map]
    omega
  have hle := B.inv.ids_len
  -- the links of the erased node
  have hlk : (hb.get id).parent = (s.t.heap.get id).parent ∧
      (hb.get id).left = (s.t.heap.get id).left ∧
      (hb.get id).right = (s.t.heap.get id).right := by
    have d := delete_node_links hb id
    rw [← eh, hself] at d
    exact ⟨d.1.symm, d.2.1.symm, d.2.2.symm⟩
  have hrefs : ∀ q, (t2.heap.get q).ref_count =
      if (s.t.heap.get id).ref_count = 0 then (s.t.heap.get q).ref_count
      else ((s.t.heap.get q).ref_count +
        (if (s.t.heap.get id).parent = some q then 1 else 0) +
        (if (s.t.heap.get id).left = some q then 1 else 0) +
        (if (s.t.heap.get id).right = some q then 1 else 0)) % SIZE_MOD := by
    intro q
    rw [eh, delete_node_ref hb id q (by rw [hrs q]; exact B.bound q), hrs q, hrs id, hlk.1,
      hlk.2.1, hlk.2.2]
  have hpc : ∀ m n, m ≠ id → pin_count t2.heap m n = pin_count s.t.heap m n := by
    intro m n hm
    by_cases hmT : m ∈ T.ids
    · rw [pin_count_live n (hI2.live ((hids m).2 ⟨hmT, hm⟩)), pin_count_live n (B.inv.live hmT)]
    · unfold pin_count
      rw [hout m hmT]
  have hpid : ∀ n, pin_count s.t.heap id n = 0 := fun n => pin_count_live n (B.inv.live hidT)
  have hlinks := B.inv.links hidT
  obtain ⟨rank, hrk⟩ := B.lnk
  refine ⟨t2, T2, e, ⟨hI2, fun c hc => ?_, fun m hm => ?_,
    ⟨fun m => if m = id then s.t.next - T.ids.length else rank m, fun m hm hs => ?_⟩,
    fun n hn2 => ?_, fun n => ?_⟩⟩
  · have := B.cur c hc
    show c < t2.next
    omega
  · have hm2 : m < s.t.next := hn ▸ hm
    show m ∈ T2.ids ∨ (t2.heap.get m).state = State.DELETED
    by_cases hmi : m = id
    · right
      rw [hmi, hself]
    · rcases B.own m hm2 with h | h
      · exact Or.inl ((hids m).2 ⟨h, hmi⟩)
      · right
        have hmT : m ∉ T.ids := fun h2 => B.inv.live h2 h
        rw [hout m hmT]
        exact h
  · have hm2 : m < s.t.next := hn ▸ hm
    have hs2 : (t2.heap.get m).state = State.DELETED := hs
    show (if m = id then s.t.next - T.ids.length else rank m) + T2.ids.length < t2.next ∧
      ∀ c, ((t2.heap.get m).parent = some c ∨ (t2.heap.get m).left = some c ∨
        (t2.heap.get m).right = some c) →
        c ∈ T2.ids ∨ (c < t2.next ∧ (t2.heap.get c).state = State.DELETED ∧
          (if m = id then s.t.next - T.ids.length else rank m) <
            (if c = id then s.t.next - T.ids.length else rank c))
    rw [hn]
    by_cases hmi : m = id
    · rw [if_pos hmi, hmi, hself]
      refine ⟨by omega, fun c hc => ?_⟩
      left
      rcases hc with h | h | h
      · exact (hids c).2 (hlinks.2.2.1 c h)
      · exact (hids c).2 (hlinks.1 c h)
      · exact (hids c).2 (hlinks.2.1 c h)
    · have hmT2 : m ∉ T2.ids := fun h => hI2.live h hs2
      have hmT : m ∉ T.ids := fun h => hmT2 ((hids m).2 ⟨h, hmi⟩)
      rw [hout m hmT] at hs2
      rw [if_neg hmi, hout m hmT]
      obtain ⟨hbd, hl⟩ := hrk m hm2 hs2
      refine ⟨by omega, fun c hc => ?_⟩
      rcases hl c hc with h | ⟨h1, h2, h3⟩
      · by_cases hci : c = id
        · right
          rw [if_pos hci, hci, hself]
          exact ⟨hidn, rfl, by omega⟩
        · exact Or.inl ((hids c).2 ⟨h, hci⟩)
      · have hcT : c ∉ T.ids := fun h => B.inv.live h h2
        have hci : c ≠ id := fun h => hcT (h ▸ hidT)
        right
        rw [if_neg hci, hout c hcT]
        exact ⟨h1, h2, h3⟩
  · have hn3 : n < s.t.next := hn ▸ hn2
    show (t2.heap.get n).ref_count =
      (s.cursors.count (some n) + pins t2.heap t2.next n) % SIZE_MOD
    rw [hn, hrefs n]
    by_cases h0 : (s.t.heap.get id).ref_count = 0
    · rw [if_pos h0]
      have hp1 : pins t2.heap s.t.next n = pins s.t.heap s.t.next n := by
        apply pins_congr
        intro m _
        by_cases hmi : m = id
        · rw [hmi, hpid n]
          exact pin_count_freed n (by rw [hself]; simp [h0])
        · exact hpc m n hmi
      rw [hp1]
      exact B.refs n hn3
    · rw [if_neg h0]
      have hp1 := @pins_update s.t.heap t2.heap n id s.t.next hidn
        (fun m _ hm => hpc m n hm) (hpid n)
      have hp2 : pin_count t2.heap id n =
          (if (s.t.heap.get id).parent = some n then 1 else 0) +
          (if (s.t.heap.get id).left = some n then 1 else 0) +
          (if (s.t.heap.get id).right = some n then 1 else 0) := by
        unfold pin_count
        rw [hself]
        simp [h0]
      rw [hp1, hp2, B.refs n hn3]
      generalize (if (s.t.heap.get id).parent = some n then 1 else 0) = x
      generalize (if (s.t.heap.get id).left = some n then 1 else 0) = y
      generalize (if (s.t.heap.get id).right = some n then 1 else 0) = z
      generalize s.cursors.count (some n) = a
      generalize pins s.t.heap s.t.next n = b
      simp only [SIZE_MOD]
      omega
  · show (t2.heap.get n).ref_count < SIZE_MOD
    rw [hrefs n]
    split_ifs <;> first | exact B.bound n | exact Nat.mod_lt _ (by simp [SIZE_MOD])

theorem sum_range_point (F G : Nat → Nat) (id : Nat) : ∀ (next : Nat), id < next →
    (∀ m, m < next → m ≠ id → G m = F m) →
    ((List.range next).map G).sum + F id = ((List.range next).map F).sum + G id := by
  intro next
  induction next with
  | zero => intro hid; omega
  | succ k ih =>
    intro hid hsame
    simp only [List.range_succ, List.map_append, List.sum_append, List.map_cons, List.map_nil,
      List.sum_cons, List.sum_nil, Nat.add_zero]
    by_cases e : id = k
    · subst e
      have : (List.range id).map G = (List.range id).map F :=
        List.map_congr_left (fun m hm => hsame m (by have := List.mem_range.1 hm; omega)
          (by have := List.mem_range.1 hm; omega))
      rw [this]
      omega
    · have := ih (by omega) (fun m hm hne => hsame m (by omega) hne)
      rw [hsame k (by omega) (fun e2 => e e2.symm)]
      omega

theorem tombs_le (h : Heap) (next : Nat) : tombs h next ≤ next := by
  unfold tombs
  induction next with
  | zero => simp
  | succ k ih =>
    simp only [List.range_succ, List.map_append, List.sum_append, List.map_cons, List.map_nil,
      List.sum_cons, List.sum_nil, Nat.add_zero]
    split_ifs <;> omega

theorem release_node_get (h : Heap) (n q : Nat) :
    ∃ v, (release_node h n).get q =
      { h.get q with ref_count := v, freed := if q = n then true else (h.get q).freed } := by
  have u := RefUpd.dec3 (RefUpd.uRefl h) (h.get n).left (h.get n).right (h.get n).parent
  obtain ⟨v, hv⟩ := u q
  refine ⟨v, ?_⟩
  unfold release_node
  by_cases e : q = n
  · subst e
    rw [if_pos rfl]
    simp only [setFreed, Heap.get_set_same]
    rw [show ∀ (g : Heap) (x : Nat), g x = g.get x from fun _ _ => rfl, hv]
  · rw [if_neg e, setFreed_other _ _ _ e, hv]

theorem release_node_rel (h : Heap) (n : Nat) (hs : (h.get n).state = State.DELETED) :
    Released h (release_node h n) := by
  intro q
  obtain ⟨v, hv⟩ := release_node_get h n q
  refine ⟨v, _, hv, fun hq => ?_⟩
  rw [if_neg (fun (e : q = n) => hq (by rw [e]; exact hs))]

theorem release_node_ref (h : Heap) (n q : Nat) :
    ((release_node h n).get q).ref_count =
      if (h.get n).parent = some q then
        ((if (h.get n).right = some q then
          ((if (h.get n).left = some q then ((h.get q).ref_count + SIZE_MOD - 1) % SIZE_MOD
            else (h.get q).ref_count) + SIZE_MOD - 1) % SIZE_MOD
          else (if (h.get n).left = some q then ((h.get q).ref_count + SIZE_MOD - 1) % SIZE_MOD
            else (h.get q).ref_count)) + SIZE_MOD - 1) % SIZE_MOD
      else
        (if (h.get n).right = some q then
          ((if (h.get n).left = some q then ((h.get q).ref_count + SIZE_MOD - 1) % SIZE_MOD
            else (h.get q).ref_count) + SIZE_MOD - 1) % SIZE_MOD
          else (if (h.get n).left = some q then ((h.get q).ref_count + SIZE_MOD - 1) % SIZE_MOD
            else (h.get q).ref_count)) := by
  have e : ((release_node h n).get q).ref_count =
      ((dec_ref_count (dec_ref_count (dec_ref_count h (h.get n).left) (h.get n).right)
        (h.get n).parent).get q).ref_count := by
    unfold release_node
    by_cases e : q = n
    · subst e
      simp only [setFreed, Heap.get_set_same]
    · rw [setFreed_other _ _ _ e]
  rw [e, dec_ref, dec_ref, dec_ref]

theorem remove_loop_step (f : Nat) (h : Heap) (n : Nat) (rest : List Ptr) :
    remove_loop (f + 1) h (some n :: rest) =
      if (h.get n).state = State.DELETED ∧ (h.get n).ref_count = 0 then
        remove_loop f (release_node h n)
          ((h.get n).parent :: (h.get n).right :: (h.get n).left :: rest)
      else remove_loop f h rest := by
  have u1 := RefUpd.dec h (h.get n).left
  have u2 := u1.uTrans (RefUpd.dec _ (h.get n).right)
  have e1 : ((dec_ref_count h (h.get n).left).get n).right = (h.get n).right :=
    (links_refs u1 n).2.1
  have e2 : ((dec_ref_count (dec_ref_count h (h.get n).left) (h.get n).right).get n).parent =
      (h.get n).parent := (links_refs u2 n).2.2
  have u3 := u2.uTrans (RefUpd.dec _ (h.get n).parent)
  have e3 : ((dec_ref_count (dec_ref_count (dec_ref_count h (h.get n).left)
      (h.get n).right) (h.get n).parent).get n).parent = (h.get n).parent := (links_refs u3 n).2.2
  have e4 : ((dec_ref_count (dec_ref_count h (h.get n).left) (h.get n).right).get n).right =
      (h.get n).right := (links_refs u2 n).2.1
  rw [remove_loop_some]
  simp only [e1, e2, e3, e4]
  rfl

theorem release_once_step (f : Nat) (h : Heap) (n : Nat) (rest : List Ptr) :
    release_once (f + 1) h (some n :: rest) =
      if (h.get n).state = State.DELETED ∧ (h.get n).ref_count = 0 then
        if (h.get n).freed = true then false
        else release_once f (release_node h n)
          ((h.get n).parent :: (h.get n).right :: (h.get n).left :: rest)
      else release_once f h rest := by
  have u1 := RefUpd.dec h (h.get n).left
  have u2 := u1.uTrans (RefUpd.dec _ (h.get n).right)
  have e1 : ((dec_ref_count h (h.get n).left).get n).right = (h.get n).right :=
    (links_refs u1 n).2.1
  have e2 : ((dec_ref_count (dec_ref_count h (h.get n).left) (h.get n).right).get n).parent =
      (h.get n).parent := (links_refs u2 n).2.2
  have u3 := u2.uTrans (RefUpd.dec _ (h.get n).parent)
  have e3 : ((dec_ref_count (dec_ref_count (dec_ref_count h (h.get n).left)
      (h.get n).right) (h.get n).parent).get n).parent = (h.get n).parent := (links_refs u3 n).2.2
  have e4 : ((dec_ref_count (dec_ref_count h (h.get n).left) (h.get n).right).get n).right =
      (h.get n).right := (links_refs u2 n).2.1
  have e0 : release_once (f + 1) h (some n :: rest) =
      if (h.get n).state = State.DELETED ∧ (h.get n).ref_count = 0 then
        if (h.get n).freed = true then false
        else release_once f
          (setFreed (dec_ref_count (dec_ref_count (dec_ref_count h (h.get n).left)
            ((dec_ref_count h (h.get n).left).get n).right)
            ((dec_ref_count (dec_ref_count h (h.get n).left)
              ((dec_ref_count h (h.get n).left).get n).right).get n).parent) n)
          (((dec_ref_count (dec_ref_count (dec_ref_count h (h.get n).left)
            ((dec_ref_count h (h.get n).left).get n).right)
            ((dec_ref_count (dec_ref_count h (h.get n).left)
              ((dec_ref_count h (h.get n).left).get n).right).get n).parent).get n).parent ::
            ((dec_ref_count (dec_ref_count h (h.get n).left)
              ((dec_ref_count h (h.get n).left).get n).right).get n).right ::
            (h.get n).left :: rest)
      else release_once f h rest := rfl
  rw [e0]
  simp only [e1, e2, e3, e4]
  rfl

theorem release_node_pins {h : Heap} {n next : Nat} (hn : n < next)
    (hs : (h.get n).state = State.DELETED) (hf : (h.get n).freed = false) (q : Nat) :
    pins h next q = pins (release_node h n) next q +
      ((if (h.get n).parent = some q then 1 else 0) + (if (h.get n).left = some q then 1 else 0) +
        (if (h.get n).right = some q then 1 else 0)) := by
  have h1 := @pins_update (release_node h n) h q n next hn (fun m _ hm => by
    obtain ⟨v, hv⟩ := release_node_get h n m
    rw [if_neg hm] at hv
    exact (pin_count_fields q ⟨v, hv⟩).symm) (pin_count_freed q (by
      obtain ⟨v, hv⟩ := release_node_get h n n
      rw [hv, if_pos rfl]))
  rw [h1]
  congr 1
  unfold pin_count
  rw [if_pos ⟨hs, hf⟩]

theorem release_node_tombs {h : Heap} {n next : Nat} (hn : n < next)
    (hs : (h.get n).state = State.DELETED) (hf : (h.get n).freed = false) :
    tombs h next = tombs (release_node h n) next + 1 := by
  have h1 := sum_range_point
    (fun m => if (h.get m).state = State.DELETED ∧ (h.get m).freed = false then 1 else 0)
    (fun m => if ((release_node h n).get m).state = State.DELETED ∧
      ((release_node h n).get m).freed = false then 1 else 0) n next hn (fun m _ hm => by
        obtain ⟨v, hv⟩ := release_node_get h n m
        rw [if_neg hm] at hv
        simp only [hv])
  have h2 : ((release_node h n).get n).freed = true := by
    obtain ⟨v, hv⟩ := release_node_get h n n
    rw [hv, if_pos rfl]
  simp only [h2, hs, hf, and_self, if_true, and_false, if_false, Bool.true_eq_false] at h1
  unfold tombs
  omega

/-- One conditional decrement against one pin. -/
theorem dec_if (P : Prop) [Decidable P] (r t : Nat)
    (hr : r = (t + if P then 1 else 0) % SIZE_MOD) :
    (if P then (r + SIZE_MOD - 1) % SIZE_MOD else r) = t % SIZE_MOD := by
  simp only [SIZE_MOD] at hr ⊢
  by_cases hp : P
  · simp only [hp, if_true] at hr ⊢
    omega
  · simp only [hp, if_false] at hr ⊢
    omega

theorem release_node_eqn {h : Heap} {n next : Nat} (c : Nat) (hn : n < next)
    (hs : (h.get n).state = State.DELETED) (hf : (h.get n).freed = false) (q : Nat)
    (hr : (h.get q).ref_count = (c + pins h next q) % SIZE_MOD) :
    ((release_node h n).get q).ref_count = (c + pins (release_node h n) next q) % SIZE_MOD := by
  rw [release_node_ref]
  rw [release_node_pins hn hs hf q] at hr
  generalize pins (release_node h n) next q = b at hr ⊢
  generalize (h.get q).ref_count = r at hr ⊢
  have a := dec_if ((h.get n).left = some q) r
    (c + b + (if (h.get n).parent = some q then 1 else 0) +
      (if (h.get n).right = some q then 1 else 0)) (by rw [hr]; congr 1; omega)
  rw [a]
  rw [dec_if ((h.get n).right = some q) _
    (c + b + (if (h.get n).parent = some q then 1 else 0)) rfl]
  exact dec_if ((h.get n).parent = some q) _ (c + b) rfl

theorem release_node_bound {h : Heap} {n : Nat} (hb : ∀ q, (h.get q).ref_count < SIZE_MOD)
    (q : Nat) : ((release_node h n).get q).ref_count < SIZE_MOD := by
  rw [release_node_ref]
  have := hb q
  split_ifs <;> first | exact Nat.mod_lt _ (by simp [SIZE_MOD]) | exact this

/-- The loop of `Node::remove`, as long as it releases no node twice, keeps
every reference count equal to the cursors on the node plus the pins on it,
and it returns. -/
theorem release_ok (next : Nat) (cnt : Nat → Nat) : ∀ (f : Nat) (h : Heap) (st : List Ptr),
    (∀ n, (h.get n).ref_count < SIZE_MOD) →
    (∀ m, m < next → (h.get m).state = State.DELETED → ∀ c,
      ((h.get m).parent = some c ∨ (h.get m).left = some c ∨ (h.get m).right = some c) →
      c < next) →
    (∀ n, n < next → (h.get n).ref_count = (cnt n + pins h next n) % SIZE_MOD) →
    (∀ q, some q ∈ st → q < next) →
    release_once f h st = true →
    3 * tombs h next + st.length ≤ f →
    ∃ h2, remove_loop f h st = some h2 ∧ Released h h2 ∧
      (∀ n, (h2.get n).ref_count < SIZE_MOD) ∧
      (∀ n, n < next → (h2.get n).ref_count = (cnt n + pins h2 next n) % SIZE_MOD) := by
  intro f
  induction f with
  | zero =>
    intro h st hb hl hr hst ht hf
    cases st with
    | nil => exact ⟨h, rfl, Released.of_refs (RefUpd.uRefl h), hb, hr⟩
    | cons a st => simp only [List.length_cons] at hf; omega
  | succ f ih =>
    intro h st hb hl hr hst ht hf
    cases st with
    | nil => exact ⟨h, rfl, Released.of_refs (RefUpd.uRefl h), hb, hr⟩
    | cons a rest =>
      simp only [List.length_cons] at hf
      cases a with
      | none =>
        have e1 : remove_loop (f + 1) h (none :: rest) = remove_loop f h rest := rfl
        have e2 : release_once (f + 1) h (none :: rest) = release_once f h rest := rfl
        rw [e1]
        rw [e2] at ht
        exact ih h rest hb hl hr (fun q hq => hst q (List.mem_cons_of_mem _ hq)) ht (by omega)
      | some n =>
        have hn : n < next := hst n (List.mem_cons_self _ _)
        rw [remove_loop_step]
        rw [release_once_step] at ht
        by_cases hc : (h.get n).state = State.DELETED ∧ (h.get n).ref_count = 0
        · rw [if_pos hc] at ht ⊢
          have hfr : (h.get n).freed = false := by
            cases hx : (h.get n).freed with
            | false => rfl
            | true => rw [hx] at ht; simp at ht
          rw [if_neg (by rw [hfr]; simp)] at ht
          have hrel := release_node_rel h n hc.1
          obtain ⟨h2, e, r2, b2, q2⟩ := ih (release_node h n)
            ((h.get n).parent :: (h.get n).right :: (h.get n).left :: rest)
            (release_node_bound hb)
            (fun m hm hs c hcl => by
              rw [(hrel.frame m).1] at hs
              rw [(hrel.frame m).2.2.2.1, (hrel.frame m).2.2.2.2.1,
                (hrel.frame m).2.2.2.2.2] at hcl
              exact hl m hm hs c hcl)
            (fun q hq => release_node_eqn (cnt q) hn hc.1 hfr q (hr q hq))
            (fun q hq => by
              simp only [List.mem_cons] at hq
              rcases hq with e | e | e | e
              · exact hl n hn hc.1 q (Or.inl e.symm)
              · exact hl n hn hc.1 q (Or.inr (Or.inr e.symm))
              · exact hl n hn hc.1 q (Or.inr (Or.inl e.symm))
              · exact hst q (List.mem_cons_of_mem _ e))
            ht
            (by
              have := release_node_tombs hn hc.1 hfr
              simp only [List.length_cons]
              omega)
          exact ⟨h2, e, hrel.rTrans r2, b2, q2⟩
        · rw [if_neg hc] at ht ⊢
          exact ih h rest hb hl hr (fun q hq => hst q (List.mem_cons_of_mem _ hq)) ht (by omega)

theorem eraseIdx_set_here (l : List Ptr) (i : Nat) (x : Ptr) :
    (l.set i x).eraseIdx i = l.eraseIdx i := by
  induction l generalizing i with
  | nil => rfl
  | cons a l ih =>
    cases i with
    | zero => rfl
    | succ i => simp only [List.set_cons_succ, List.eraseIdx_cons_succ, ih]

/-- A call of `Node::remove` that releases no node twice returns and keeps the
books. -/
theorem Book.release {s : Scene} {T : FT} (B : Book s T) {v : Nat} (hv : v < s.t.next)
    (ht : release_once s.fuel s.t.heap [some v] = true) :
    ∃ h2, remove s.fuel s.t.heap (some v) = some h2 ∧
      Book ⟨AVLTree.mk h2 s.t.root s.t.set_size s.t.next, s.cursors⟩ T := by
  obtain ⟨h2, e, r2, b2, q2⟩ := release_ok s.t.next (fun n => s.cursors.count (some n)) s.fuel
    s.t.heap [some v] B.bound (fun m hm hs c hc => B.lnk_lt hm hs hc) B.refs
    (fun q hq => by
      simp only [List.mem_singleton, Option.some.injEq] at hq
      rw [hq]
      exact hv) ht
    (by
      have := tombs_le s.t.heap s.t.next
      simp only [Scene.fuel, List.length_singleton]
      omega)
  exact ⟨h2, e, B.of_released r2 B.cur q2 b2⟩

/-- The cursor number `i` lets go of the node it holds. -/
theorem Book.lift {s : Scene} {T : FT} (B : Book s T) {i : Nat} {p : Ptr}
    (hg : s.cursors.get? i = some p) :
    Book ⟨AVLTree.mk (dec_ref_count s.t.heap p) s.t.root s.t.set_size s.t.next,
      s.cursors.set i none⟩ T := by
  have hpc : p ∈ s.cursors := List.get?_mem hg
  refine B.refs_only (RefUpd.dec _ _) (fun c hc => ?_) (fun n hn => ?_) (fun n => ?_)
  · rcases List.mem_or_eq_of_mem_set hc with h | h
    · exact B.cur c h
    · cases h
  · have hcs := count_set_get none (some n) hg
    have hb := B.refs n hn
    rw [dec_ref]
    by_cases e1 : p = some n
    · have hcp : 1 ≤ s.cursors.count (some n) := List.one_le_count_iff.2 (e1 ▸ hpc)
      rw [if_pos e1] at hcs ⊢
      rw [if_neg (by simp)] at hcs
      generalize (s.cursors.set i none).count (some n) = c2 at hcs ⊢
      generalize s.cursors.count (some n) = c at hcs hb hcp
      generalize pins s.t.heap s.t.next n = b at hb ⊢
      generalize (s.t.heap.get n).ref_count = r at hb ⊢
      simp only [SIZE_MOD] at hb ⊢
      omega
    · rw [if_neg e1] at hcs ⊢
      rw [if_neg (by simp)] at hcs
      rw [hb]
      congr 2
      omega
  · rw [dec_ref]
    split_ifs
    · exact Nat.mod_lt _ (by simp [SIZE_MOD])
    · exact B.bound n

/-- The cursor number `i`, which holds the null pointer, takes hold of `q`. -/
theorem Book.place {s : Scene} {T : FT} (B : Book s T) {i : Nat}
    (hg : s.cursors.get? i = some none) (q : Ptr) (hq : ∀ c, q = some c → c < s.t.next) :
    Book ⟨AVLTree.mk (inc_ref_count s.t.heap q) s.t.root s.t.set_size s.t.next,
      s.cursors.set i q⟩ T := by
  refine B.refs_only (RefUpd.inc _ _) (fun c hc => ?_) (fun n hn => ?_) (fun n => ?_)
  · rcases List.mem_or_eq_of_mem_set hc with h | h
    · exact B.cur c h
    · exact hq c h.symm
  · have hcs := count_set_get q (some n) hg
    have hb := B.refs n hn
    rw [inc_ref]
    rw [if_neg (by simp)] at hcs
    by_cases e1 : q = some n
    · rw [if_pos e1] at hcs ⊢
      generalize (s.cursors.set i q).count (some n) = c2 at hcs ⊢
      generalize s.cursors.count (some n) = c at hcs hb
      generalize pins s.t.heap s.t.next n = b at hb ⊢
      generalize (s.t.heap.get n).ref_count = r at hb ⊢
      simp only [SIZE_MOD] at hb ⊢
      omega
    · rw [if_neg e1] at hcs ⊢
      rw [hb]
      congr 2
      omega
  · rw [inc_ref]
    split_ifs
    · exact Nat.mod_lt _ (by simp [SIZE_MOD])
    · exact B.bound n

/-- The cursor number `i`, which holds the null pointer, goes away. -/
theorem Book.drop {s : Scene} {T : FT} (B : Book s T) {i : Nat}
    (hg : s.cursors.get? i = some none) : Book ⟨s.t, s.cursors.eraseIdx i⟩ T := by
  refine ⟨B.inv, fun c hc => B.cur c (List.mem_of_mem_eraseIdx hc), B.own, B.lnk,
    fun n hn => ?_, B.bound⟩
  have hcs := count_eraseIdx_get (some n) hg
  rw [if_neg (by simp)] at hcs
  have hb := B.refs n hn
  show (s.t.heap.get n).ref_count =
    ((s.cursors.eraseIdx i).count (some n) + pins s.t.heap s.t.next n) % SIZE_MOD
  rw [hb]
  congr 2
  omega

/-- The bookkeeping invariant across the destructor, as long as it releases no
node twice. -/
theorem Book.destroy {s : Scene} {T : FT} (B : Book s T) {i : Nat} {p : Ptr}
    (hg : s.cursors.get? i = some p) (ht : tidy s (COp.destroy i) = true) :
    ∃ h2, iterator_destroy s.fuel s.t.heap p = some h2 ∧
      Book ⟨AVLTree.mk h2 s.t.root s.t.set_size s.t.next, s.cursors.eraseIdx i⟩ T := by
  cases p with
  | none => exact ⟨s.t.heap, rfl, B.drop hg⟩
  | some v =>
    have hvn := B.cur v (List.get?_mem hg)
    have B1 := B.lift hg
    simp only [tidy, hg] at ht
    unfold iterator_destroy
    simp only
    rw [show ∀ (g : Heap) (x : Nat), g x = g.get x from fun _ _ => rfl]
    by_cases hc : ((dec_ref_count s.t.heap (some v)).get v).ref_count = 0
    · rw [if_pos hc] at ht ⊢
      obtain ⟨h3, e3, B3⟩ := B1.release hvn ht
      have e4 : remove s.fuel (dec_ref_count s.t.heap (some v)) (some v) = some h3 := e3
      rw [e4]
      have B4 := B3.drop (get_set_here none hg)
      rw [eraseIdx_set_here] at B4
      exact ⟨h3, rfl, B4⟩
    · rw [if_neg hc]
      have B4 := B1.drop (get_set_here none hg)
      rw [eraseIdx_set_here] at B4
      exact ⟨_, rfl, B4⟩

/-- The bookkeeping invariant across the move assignment, as long as it
releases no node twice. -/
theorem Book.assign {s : Scene} {T : FT} (B : Book s T) {i j : Nat} {p q : Ptr}
    (hi : s.cursors.get? i = some p) (hj : s.cursors.get? j = some q)
    (ht : tidy s (COp.assign i j) = true) :
    ∃ h2, iterator_assign s.fuel s.t.heap p q = some (h2, q) ∧
      Book ⟨AVLTree.mk h2 s.t.root s.t.set_size s.t.next, s.cursors.set i q⟩ T := by
  have hq : ∀ c, q = some c → c < s.t.next := fun c hc =>
    B.cur c (hc ▸ List.get?_mem hj)
  have B1 := B.lift hi
  obtain ⟨h2, e2, B2⟩ : ∃ h2, remove s.fuel (dec_ref_count s.t.heap p) p = some h2 ∧
      Book ⟨AVLTree.mk h2 s.t.root s.t.set_size s.t.next, s.cursors.set i none⟩ T := by
    cases p with
    | none => exact ⟨_, rfl, B1⟩
    | some v =>
      simp only [tidy, hi] at ht
      exact B1.release (B.cur v (List.get?_mem hi)) ht
  have B3 := B2.place (get_set_here none hi) q hq
  rw [set_twice] at B3
  refine ⟨inc_ref_count h2 q, ?_, B3⟩
  unfold iterator_assign
  simp only
  rw [e2]

/-- A cursor that leaves a node that has not been erased releases no node. -/
theorem tidy_live {s : Scene} {i v : Nat} (hg : s.cursors.get? i = some (some v))
    (hs : (s.t.heap.get v).state ≠ State.DELETED) :
    tidy s (COp.advance i) = true ∧ tidy s (COp.destroy i) = true ∧
      ∀ j, tidy s (COp.assign i j) = true := by
  have key : ∀ (f : Nat) (h : Heap), (h.get v).state ≠ State.DELETED →
      release_once f h [some v] = true := by
    intro f h hv
    cases f with
    | zero => rfl
    | succ f =>
      rw [release_once_step, if_neg (fun hc => hv hc.1)]
      cases f <;> rfl
  have hd : ((dec_ref_count s.t.heap (some v)).get v).state ≠ State.DELETED := by
    rw [(state_refs (RefUpd.dec s.t.heap (some v)) v).1]
    exact hs
  refine ⟨?_, ?_, fun j => ?_⟩
  · simp only [tidy, hg]
    split_ifs with h1
    · split
      · rfl
      · split_ifs with h2
        · exact absurd h2.2 (by
            rw [(state_refs ((RefUpd.dec s.t.heap (some v)).uTrans (RefUpd.inc _ _)) v).1]
            exact hs)
        · rfl
    · rfl
  · simp only [tidy, hg]
    split_ifs
    · exact key _ _ hd
    · rfl
  · simp only [tidy, hg]
    exact key _ _ hd

/-- C1: for every tree obtained from the empty tree by inserts and erases,
starting at `begin()` and advancing `size()` times visits nodes that are never
the `end()` node, whose keys are strictly increasing and are exactly the keys
currently stored, and leaves the cursor on the `end()` node; `begin()` and
`end()` are the same node iff the tree is empty. -/
theorem C1_iteration_sorted (ops : List Op) :
    ∃ t tb te b e vis h2, runOps ops = some t ∧ AVLTree.begin t = some (tb, some b) ∧
      AVLTree.end t = some (te, some e) ∧
      walk t.fuel t.size tb.heap (some b) = some (vis, h2, some e) ∧
      (∀ p ∈ vis, p ≠ e) ∧
      (vis.map (fun p => (t.heap.get p).key)).Pairwise (fun a b => a < b) ∧
      (∀ k, k ∈ vis.map (fun p => (t.heap.get p).key) ↔ (model ops k).isSome = true) ∧
      (b = e ↔ t.empty = true) := by
  obtain ⟨t, T, e, hI, hA, -⟩ := reach ops
  obtain ⟨L, v, eL, hL⟩ := hI.ents_split
  obtain ⟨e0, rest, e1, eb⟩ := begin_ok hI
  have hs0 : (L ++ [(0, 0, v)]).head? = some e0 := by rw [← eL, e1]; rfl
  have hIb : Inv (AVLTree.mk (inc_ref_count t.heap (some e0.1)) t.root t.set_size t.next) T :=
    Inv_refs hI _ (fun q _ => RefUpd.inc t.heap (some e0.1) q)
  obtain ⟨h2, hw, -⟩ := walk_ok t.fuel L [] e0 (0, 0, v) [] _ hIb
    (by simp only [AVLTree.fuel]; omega) (by rw [eL]; rfl) hs0
  have hsz : t.size = L.length := hI.size_eq eL
  have hLT : ∀ x ∈ L, x ∈ T.ents := fun x hx => by rw [eL]; exact List.mem_append_left _ hx
  have hkeys := keys_of_ids hI.rep.foc L hLT
  have hsort : SortedE L := by
    have := hI.good.sorted
    rw [eL] at this
    exact this.left
  refine ⟨t, _, _, e0.1, 0, L.map (fun x => x.1), h2, e, eb, end_ok hI, ?_, ?_, ?_, ?_, ?_⟩
  · rw [hsz]; exact hw
  · intro p hp
    simp only [List.mem_map] at hp
    obtain ⟨x, hx, rfl⟩ := hp
    exact hL x hx
  · rw [hkeys]
    exact sorted_keys L hsort hL
  · intro k
    rw [hkeys, ← hA.stored k]
    constructor
    · intro hk
      simp only [List.mem_map] at hk
      obtain ⟨x, hx, rfl⟩ := hk
      exact ⟨x, hLT x hx, hL x hx, rfl⟩
    · rintro ⟨x, hx, h0, rfl⟩
      rw [eL] at hx
      simp only [List.mem_append, List.mem_singleton] at hx
      rcases hx with hx | hx
      · exact List.mem_map_of_mem _ hx
      · rw [hx] at h0
        exact absurd rfl h0
  · cases L with
    | nil =>
      simp only [List.nil_append, List.head?_cons, Option.some.injEq] at hs0
      simp only [List.length_nil] at hsz
      rw [← hs0]
      simp [AVLTree.empty, AVLTree.size] at hsz ⊢
      exact hsz
    | cons a L =>
      simp only [List.cons_append, List.head?_cons, Option.some.injEq] at hs0
      simp only [List.length_cons] at hsz
      rw [← hs0]
      have := hL a (by simp)
      simp only [AVLTree.empty, AVLTree.size] at hsz ⊢
      constructor
      · intro h; exact absurd h this
      · intro h
        simp only [beq_iff_eq] at h
        omega

/-- C2: for every tree reachable by inserts and erases, every value `v` and
every key `k` not currently stored, after `insert(v, k)` the cursor returned by
`find(k)` is not on the node `end()` returns and dereferences to `v`. -/
theorem C2_find_after_insert (ops : List Op) (v k : Int) (hk : model ops k = none) :
    ∃ t t2 t3 te p e, runOps ops = some t ∧ insert lt t v k = some t2 ∧
      find lt t2 k = some (t3, some p) ∧ AVLTree.end t2 = some (te, some e) ∧ p ≠ e ∧
      deref t3.heap (some p) = some v := by
  obtain ⟨t, T, e, hI, hA, -⟩ := reach ops
  obtain ⟨t2, T2, ei, hI2, hA2, -⟩ := insert_size hI hA v k hk
  have hm : stepModel (model ops) (Op.ins v k) k = some v := by
    simp [stepModel, hk]
  obtain ⟨id, hid, hmem⟩ := (hA2 k v).1 hm
  obtain ⟨t3, p, ef, hr, -, -, -, hcase⟩ := find_ok hI2 k
  rcases hcase with ⟨w, hw, hp0, -⟩ | ⟨habs, -⟩
  · obtain ⟨-, hvw⟩ := live_unique hI2.good hp0 hid hw hmem
    refine ⟨t, t2, t3, _, p, 0, e, ei, ef, end_ok hI2, hp0, ?_⟩
    simp only [deref]
    rw [show t3.heap p = t3.heap.get p from rfl, (state_refs hr p).2.1, (Rep_ent hI2.rep.foc hw).2.1,
      hvw]
  · exact absurd ⟨_, hmem, hid, rfl⟩ habs

theorem C2_find_after_insert_witness :
    ∃ t t2 t3 te p e, runOps [Op.ins 7 (-3), Op.ins 4 2, Op.del 2] = some t ∧
      insert lt t 9 0 = some t2 ∧ find lt t2 0 = some (t3, some p) ∧
      AVLTree.end t2 = some (te, some e) ∧ p ≠ e ∧ deref t3.heap (some p) = some 9 :=
  C2_find_after_insert [Op.ins 7 (-3), Op.ins 4 2, Op.del 2] 9 0
    (by simp [model, modelFrom, stepModel])

/-- C3: for every tree reachable by inserts and erases and every key `k` not
currently stored, `find(k)` returns a cursor on the very node `end()` returns,
and that node is the sentinel (state `TAIL`). -/
theorem C3_find_absent_is_end (ops : List Op) (k : Int) (hk : model ops k = none) :
    ∃ t t3 te p, runOps ops = some t ∧ find lt t k = some (t3, some p) ∧
      AVLTree.end t = some (te, some p) ∧ (t3.heap.get p).state = State.TAIL := by
  obtain ⟨t, T, e, hI, hA, -⟩ := reach ops
  obtain ⟨t3, p, ef, hr, -, -, -, hcase⟩ := find_ok hI k
  rcases hcase with ⟨v, hv, hp0, -⟩ | ⟨-, hp⟩
  · exact absurd hk (by rw [(hA k v).2 ⟨p, hp0, hv⟩]; simp)
  · subst hp
    refine ⟨t, t3, _, 0, e, ef, end_ok hI, ?_⟩
    rw [(state_refs hr 0).1]
    exact hI.sentinel_state

theorem C3_find_absent_is_end_witness :
    ∃ t t3 te p, runOps [Op.ins 5 1, Op.del 1] = some t ∧ find lt t 1 = some (t3, some p) ∧
      AVLTree.end t = some (te, some p) ∧ (t3.heap.get p).state = State.TAIL :=
  C3_find_absent_is_end [Op.ins 5 1, Op.del 1] 1 (by simp [model, modelFrom, stepModel])

/-- C4: for every tree reachable by inserts and erases and every key `k`,
`erase(k)` lowers `size()` by exactly one if `k` is stored and leaves it
unchanged otherwise; erasing the keys of any list that contains every stored
key leaves the tree empty. -/
theorem C4_erase_size (ops : List Op) (k : Int) (ks : List Int)
    (hks : ∀ x, (model ops x).isSome = true → x ∈ ks) :
    ∃ t t2 t3, runOps ops = some t ∧ erase lt t k = some t2 ∧
      t2.size + (if (model ops k).isSome = true then 1 else 0) = t.size ∧
      runFrom t (ks.map Op.del) = some t3 ∧ t3.empty = true := by
  obtain ⟨t, T, e, hI, hA, -⟩ := reach ops
  obtain ⟨t3, T3, e3, hI3, hA3, -⟩ := run_ok (ks.map Op.del) hI hA
  have hnone : ∀ x, modelFrom (model ops) (ks.map Op.del) x = none := by
    intro x
    rw [modelFrom_dels]
    split_ifs with h
    · rfl
    · cases hm : model ops x with
      | none => rfl
      | some v => exact absurd (hks x (by rw [hm]; rfl)) h
  have hemp := hI3.empty_of_none hA3 hnone
  rcases erase_ok hI k with ⟨hs, ee⟩ | ⟨hs, t2, T2, P, Q, id, v, ee, hI2, e1, e2, hid, hn, hsz, -⟩
  · refine ⟨t, t, t3, e, ee, ?_, e3, hemp⟩
    rw [(hA.absent k).1 hs]
    simp
  · refine ⟨t, t2, t3, e, ee, ?_, e3, hemp⟩
    rw [(hA.stored k).1 hs]
    simpa [AVLTree.size] using hsz

theorem C4_erase_size_witness :
    ∃ t t2 t3, runOps [Op.ins 7 3, Op.ins 8 0, Op.ins 9 (-2)] = some t ∧
      erase lt t 0 = some t2 ∧
      t2.size + (if (model [Op.ins 7 3, Op.ins 8 0, Op.ins 9 (-2)] 0).isSome = true
        then 1 else 0) = t.size ∧
      runFrom t ([0, 3, 5, -2].map Op.del) = some t3 ∧ t3.empty = true :=
  C4_erase_size [Op.ins 7 3, Op.ins 8 0, Op.ins 9 (-2)] 0 [0, 3, 5, -2] (by
    intro x hx
    simp only [model, modelFrom, stepModel] at hx
    simp only [List.mem_cons, List.mem_singleton, List.not_mem_nil, or_false]
    by_cases h1 : x = -2
    · simp [h1]
    · by_cases h2 : x = 0
      · simp [h2]
      · by_cases h3 : x = 3
        · simp [h3]
        · simp [h1, h2, h3] at hx)

/-- C5: for every tree reachable by inserts and erases and every key `k`
currently stored with value `v0`, `insert(v, k)` returns the tree unchanged
(same heap, root, size and allocation frontier), and `find(k)` afterwards
still dereferences to `v0`. -/
theorem C5_insert_duplicate_noop (ops : List Op) (k v0 v : Int) (hk : model ops k = some v0) :
    ∃ t t3 p, runOps ops = some t ∧ insert lt t v k = some t ∧
      find lt t k = some (t3, some p) ∧ deref t3.heap (some p) = some v0 := by
  obtain ⟨t, T, e, hI, hA, -⟩ := reach ops
  obtain ⟨id, hid, hmem⟩ := (hA k v0).1 hk
  rcases insert_ok hI v k with ⟨-, ei⟩ | ⟨hs, -⟩
  · obtain ⟨t3, p, ef, hr, -, -, -, hcase⟩ := find_ok hI k
    rcases hcase with ⟨w, hw, hp0, -⟩ | ⟨habs, -⟩
    · obtain ⟨-, hvw⟩ := live_unique hI.good hp0 hid hw hmem
      refine ⟨t, t3, p, e, ei, ef, ?_⟩
      simp only [deref]
      rw [show t3.heap p = t3.heap.get p from rfl, (state_refs hr p).2.1,
        (Rep_ent hI.rep.foc hw).2.1, hvw]
    · exact absurd ⟨_, hmem, hid, rfl⟩ habs
  · exact absurd ⟨_, hmem, hid, rfl⟩ hs

theorem C5_insert_duplicate_noop_witness :
    ∃ t t3 p, runOps [Op.ins 7 3, Op.ins 8 0] = some t ∧ insert lt t 99 0 = some t ∧
      find lt t 0 = some (t3, some p) ∧ deref t3.heap (some p) = some 8 :=
  C5_insert_duplicate_noop [Op.ins 7 3, Op.ins 8 0] 0 8 99
    (by simp [model, modelFrom, stepModel])

/-- C6: after every sequence of inserts and erases `size()` equals the number
of `NOT_DELETE` nodes reachable from the root by child links (the sentinel,
state `TAIL`, is not counted); and inserting pairwise distinct keys into the
empty tree gives `size()` equal to their number. -/
theorem C6_size_counts_live (ops : List Op) (kvs : List (Int × Int))
    (hnd : (kvs.map Prod.snd).Nodup) :
    (∃ t, runOps ops = some t ∧ count_live t.heap t.fuel t.root = some t.size) ∧
    (∃ t, runOps (kvs.map (fun p => Op.ins p.1 p.2)) = some t ∧ t.size = kvs.length) := by
  constructor
  · obtain ⟨t, T, e, hI, -, -⟩ := reach ops
    exact ⟨t, e, hI.count⟩
  · obtain ⟨t, e, hs⟩ := inserts_size kvs Inv_new Agrees_new hnd (fun _ _ => rfl)
    refine ⟨t, e, ?_⟩
    rw [AVLTree.size, hs]
    simp [AVLTree.new]

theorem C6_size_counts_live_witness :
    (∃ t, runOps [Op.ins 1 5, Op.ins 2 0, Op.del 5, Op.ins 3 (-4)] = some t ∧
      count_live t.heap t.fuel t.root = some t.size) ∧
    (∃ t, runOps ([(10, 3), (20, 0), (30, -7)].map (fun p => Op.ins p.1 p.2)) = some t ∧
      t.size = [((10 : Int), (3 : Int)), (20, 0), (30, -7)].length) :=
  C6_size_counts_live [Op.ins 1 5, Op.ins 2 0, Op.del 5, Op.ins 3 (-4)]
    [(10, 3), (20, 0), (30, -7)] (by decide)

/-- C7: after every sequence of inserts (any order, any integer keys) into the
empty tree, every node reachable from the root, the sentinel included, has
subtrees whose true heights differ by at most one (absent child: `-1`). -/
theorem C7_insert_keeps_balance (kvs : List (Int × Int)) :
    ∃ t, runOps (kvs.map (fun p => Op.ins p.1 p.2)) = some t ∧
      avl_balanced t.heap t.fuel t.root = true := by
  obtain ⟨t, T, e, hI, -, -⟩ := reach (kvs.map (fun p => Op.ins p.1 p.2))
  exact ⟨t, e, hI.balanced.1⟩

/-- C8: `erase` preserves balance: for every tree reachable by inserts and
erases (each of which is balanced with accurate stored heights) and every key
`k`, after `erase(k)` every node reachable from the root again has subtrees
whose true heights differ by at most one, and stores its true height. -/
theorem C8_erase_keeps_balance (ops : List Op) (k : Int) :
    ∃ t t2, runOps ops = some t ∧ avl_balanced t.heap t.fuel t.root = true ∧
      heights_ok t.heap t.fuel t.root = true ∧ erase lt t k = some t2 ∧
      avl_balanced t2.heap t2.fuel t2.root = true ∧
      heights_ok t2.heap t2.fuel t2.root = true := by
  obtain ⟨t, T, e, hI, hA, -⟩ := reach ops
  obtain ⟨t2, T2, ee, hI2, -⟩ := step_ok hI hA (Op.del k)
  exact ⟨t, t2, e, hI.balanced.1, hI.balanced.2, ee, hI2.balanced.1, hI2.balanced.2⟩

/-- On a tree built by inserts and erases alone, on which no cursor was taken
before, a cursor survives the erasure of its own node: for every stored key `k`
with value `v`, take the cursor `find(k)`, erase `k`, then run any further
inserts and erases: the node the cursor references has not been freed, is in
state `DELETED`, and dereferencing the cursor still yields `v`. -/
theorem first_cursor_survives_own_erase (ops ops2 : List Op) (k v : Int)
    (hk : model ops k = some v) :
    ∃ t t1 p t2 t3, runOps ops = some t ∧ find lt t k = some (t1, some p) ∧
      erase lt t1 k = some t2 ∧ runFrom t2 ops2 = some t3 ∧
      (t3.heap.get p).freed = false ∧ (t3.heap.get p).state = State.DELETED ∧
      deref t3.heap (some p) = some v := by
  obtain ⟨t, T, e, hI, hA, hr0⟩ := reach ops
  obtain ⟨id, hid, hmem⟩ := (hA k v).1 hk
  obtain ⟨t1, p, ef, hr, r1, r2, r3, hcase⟩ := find_ok hI k
  rcases hcase with ⟨w, hw, hp0, hheap⟩ | ⟨habs, -⟩
  swap
  · exact absurd ⟨_, hmem, hid, rfl⟩ habs
  obtain ⟨-, hvw⟩ := live_unique hI.good hp0 hid hw hmem
  subst hvw
  have hI1 : Inv t1 T := Inv_of_refs hI hr r1 r2 r3
  have href : (t1.heap.get p).ref_count ≠ 0 := by
    rw [hheap]
    simp [inc_ref_count, hr0 p, SIZE_MOD]
  have hval : (t1.heap.get p).value = w := (Rep_ent hI1.rep.foc hw).2.1
  rcases erase_ok hI1 k with ⟨hs, -⟩ | ⟨hs, t2, T2, P, Q, id2, v2, ee, hI2, e1, e2, hid2, hn,
    hsz, hout, hself, -⟩
  · exact absurd ⟨_, hw, hp0, rfl⟩ hs
  have hid3 : p = id2 := (live_unique hI.good hp0 hid2 hw
    (show (id2, k, v2) ∈ T.ents by rw [e1]; simp)).1
  subst hid3
  have hA2 := agrees_erase_stored hA k hI.good.sorted hid2 e1 e2
  have ndT : T.ids.Nodup := by simpa [ctxIds] using hI.rep.nodup
  have hp2 : p ∉ T2.ids := by
    rw [ids_eq_ents, e2]
    rw [ids_eq_ents, e1] at ndT
    simp only [List.map_append, List.map_cons, List.nodup_append, List.nodup_cons,
      List.mem_append, not_or, List.disjoint_cons_right] at ndT ⊢
    exact ⟨ndT.2.2.1, ndT.2.1.1⟩
  have hplt : p < t2.next := by
    rw [hn, r3]
    exact hI.alloc p (ents_ids_mem hw)
  obtain ⟨t3, T3, e3, -, -, f3, -, -⟩ := run_ok ops2 hI2 hA2
  have h3 := (f3 p hp2 hplt).1
  refine ⟨t, t1, p, t2, t3, e, ef, ee, e3, ?_, ?_, ?_⟩
  · rw [h3, hself]
    simpa using href
  · rw [h3, hself]
  · simp only [deref]
    rw [show t3.heap p = t3.heap.get p from rfl, h3, hself]
    simp only
    rw [hval]

theorem first_cursor_survives_example :
    ∃ t t1 p t2 t3, runOps [Op.ins 10 1, Op.ins 20 2, Op.ins 30 3] = some t ∧
      find lt t 2 = some (t1, some p) ∧ erase lt t1 2 = some t2 ∧
      runFrom t2 [Op.del 1, Op.ins 40 2, Op.del 3] = some t3 ∧
      (t3.heap.get p).freed = false ∧ (t3.heap.get p).state = State.DELETED ∧
      deref t3.heap (some p) = some 20 :=
  first_cursor_survives_own_erase [Op.ins 10 1, Op.ins 20 2, Op.ins 30 3]
    [Op.del 1, Op.ins 40 2, Op.del 3] 2 20 (by simp [model, modelFrom, stepModel])

/-- C10: for every tree reachable by inserts and erases, every stored key `c`
with the cursor `find(c)` on it, and every key `k ≠ c`: after `erase(k)` the
cursor's node is still `NOT_DELETE` with key `c`, and advancing from it visits
nodes that are never the `end()` node, whose keys are strictly increasing and
are exactly the stored keys `≥ c` (first `c` itself, then the remaining greater
keys), and then the cursor is on the `end()` node. -/
theorem C10_cursor_after_other_erase (ops : List Op) (c k : Int)
    (hc : (model ops c).isSome = true) (hk : k ≠ c) :
    ∃ t t1 p t2 te e n vis h3, runOps ops = some t ∧ find lt t c = some (t1, some p) ∧
      erase lt t1 k = some t2 ∧ (t2.heap.get p).state = State.NOT_DELETE ∧
      (t2.heap.get p).key = c ∧ AVLTree.end t2 = some (te, some e) ∧
      walk t2.fuel n t2.heap (some p) = some (vis, h3, some e) ∧ vis.head? = some p ∧
      (∀ q ∈ vis, q ≠ e) ∧
      (vis.map (fun q => (t2.heap.get q).key)).Pairwise (fun a b => a < b) ∧
      (∀ x, x ∈ vis.map (fun q => (t2.heap.get q).key) ↔
        (c ≤ x ∧ (model (ops ++ [Op.del k]) x).isSome = true)) := by
  obtain ⟨t, T, e, hI, hA, -⟩ := reach ops
  obtain ⟨v, hv⟩ := Option.isSome_iff_exists.1 hc
  obtain ⟨id, hid, hmem⟩ := (hA c v).1 hv
  obtain ⟨t1, p, ef, hr, r1, r2, r3, hcase⟩ := find_ok hI c
  rcases hcase with ⟨w, hw, hp0, -⟩ | ⟨habs, -⟩
  swap
  · exact absurd ⟨_, hmem, hid, rfl⟩ habs
  have hI1 : Inv t1 T := Inv_of_refs hI hr r1 r2 r3
  -- the tree after the erase still holds the cursor's entry
  have hq : ∃ t2 T2, erase lt t1 k = some t2 ∧ Inv t2 T2 ∧
      Agrees T2 (stepModel (model ops) (Op.del k)) ∧ (p, c, w) ∈ T2.ents := by
    rcases erase_ok hI1 k with ⟨hs, ee⟩ | ⟨hs, t2, T2, P, Q, id2, v2, ee, hI2, e1, e2, hid2, -⟩
    · exact ⟨t1, T, ee, hI1, agrees_erase_absent hA k hs, hw⟩
    · refine ⟨t2, T2, ee, hI2, agrees_erase_stored hA k hI.good.sorted hid2 e1 e2, ?_⟩
      rw [e1] at hw
      rw [e2]
      simp only [List.mem_append, List.mem_cons, Prod.mk.injEq] at hw ⊢
      rcases hw with h | ⟨-, h, -⟩ | h
      · exact Or.inl h
      · exact absurd h.symm hk
      · exact Or.inr h
  obtain ⟨t2, T2, ee, hI2, hA2, hw2⟩ := hq
  obtain ⟨L, vs, eL, hL⟩ := hI2.ents_split
  have hwL : (p, c, w) ∈ L := by
    rw [eL] at hw2
    simp only [List.mem_append, List.mem_singleton, Prod.mk.injEq] at hw2
    rcases hw2 with h | ⟨h, -⟩
    · exact h
    · exact absurd h hp0
  obtain ⟨A, W, eA⟩ := List.append_of_mem hwL
  have hsort := hI2.good.sorted
  rw [eL, eA] at hsort
  have hsV : SortedE ((p, c, w) :: W) := hsort.left.right
  have hVL : ∀ x ∈ (p, c, w) :: W, x ∈ L := fun x hx => by
    rw [eA]; exact List.mem_append_right _ hx
  have hVT : ∀ x ∈ (p, c, w) :: W, x ∈ T2.ents := fun x hx => by
    rw [eL]; exact List.mem_append_left _ (hVL x hx)
  obtain ⟨h3, hwk, -⟩ := walk_ok t2.fuel ((p, c, w) :: W) A (p, c, w) (0, 0, vs) [] t2 hI2
    (by simp only [AVLTree.fuel]; omega) (by rw [eL, eA]; simp) rfl
  have hkeys := keys_of_ids hI2.rep.foc ((p, c, w) :: W) hVT
  have hent := Rep_ent hI2.rep.foc hw2
  have hmod : model (ops ++ [Op.del k]) = stepModel (model ops) (Op.del k) := by
    simp only [model, modelFrom_append]
    rfl
  refine ⟨t, t1, p, t2, _, 0, ((p, c, w) :: W).length,
    ((p, c, w) :: W).map (fun x : Nat × Int × Int => x.1), h3,
    e, ef, ee, ?_, hent.1, end_ok hI2, hwk, by simp, ?_, ?_, ?_⟩
  · rw [hent.2.2.1]
    exact stateOf_ne hp0
  · intro q hq
    simp only [List.mem_map] at hq
    obtain ⟨x, hx, rfl⟩ := hq
    exact hL x (hVL x hx)
  · rw [hkeys]
    exact sorted_keys _ hsV (fun x hx => hL x (hVL x hx))
  · intro x
    rw [hkeys, hmod, ← hA2.stored x]
    constructor
    · intro hx
      simp only [List.mem_map] at hx
      obtain ⟨y, hy, rfl⟩ := hx
      refine ⟨?_, y, hVT y hy, hL y (hVL y hy), rfl⟩
      simp only [List.mem_cons] at hy
      rcases hy with rfl | hy
      · exact le_refl _
      · have h1 := (List.pairwise_cons.1 hsV).1 y hy
        rw [ek_live (e := (p, c, w)) hp0, ek_live (hL y (hVL y (by simp [hy])))] at h1
        exact le_of_lt (WithTop.coe_lt_coe.1 h1)
    · rintro ⟨hcx, y, hy, h0, rfl⟩
      rw [eL, eA] at hy
      simp only [List.mem_append, List.mem_singleton] at hy
      rcases hy with (hy | hy) | hy
      · exfalso
        have h1 := hsort.left.lt_of_split hy (List.mem_cons_self _ _)
        rw [ek_live h0, ek_live (e := (p, c, w)) hp0] at h1
        have := WithTop.coe_lt_coe.1 h1
        simp only at this
        omega
      · exact List.mem_map_of_mem _ hy
      · rw [hy] at h0
        exact absurd rfl h0

theorem C10_cursor_after_other_erase_witness :
    ∃ t t1 p t2 te e n vis h3,
      runOps [Op.ins 10 1, Op.ins 20 2, Op.ins 30 3, Op.ins 40 4] = some t ∧
      find lt t 2 = some (t1, some p) ∧
      erase lt t1 3 = some t2 ∧ (t2.heap.get p).state = State.NOT_DELETE ∧
      (t2.heap.get p).key = 2 ∧ AVLTree.end t2 = some (te, some e) ∧
      walk t2.fuel n t2.heap (some p) = some (vis, h3, some e) ∧ vis.head? = some p ∧
      (∀ q ∈ vis, q ≠ e) ∧
      (vis.map (fun q => (t2.heap.get q).key)).Pairwise (fun a b => a < b) ∧
      (∀ x, x ∈ vis.map (fun q => (t2.heap.get q).key) ↔
        (2 ≤ x ∧ (model ([Op.ins 10 1, Op.ins 20 2, Op.ins 30 3, Op.ins 40 4] ++ [Op.del 3])
          x).isSome = true)) :=
  C10_cursor_after_other_erase [Op.ins 10 1, Op.ins 20 2, Op.ins 30 3, Op.ins 40 4] 2 3
    (by simp [model, modelFrom, stepModel]) (by decide)

/-- C9 (fails on the code): a cursor does not always survive the erasure of its
own node.  After `insert(100, 10)`, `insert(10, 1)`, `insert(50, 5)`, a cursor
from `find(1)`, `erase(1)`, `insert(30, 3)`, `erase(10)`, `erase(5)` and the
destruction of that cursor, no cursor is left and the node that holds key 3 is
in the tree with reference count `2^64 - 1`: the loop of `Node::remove` has
released its pin twice.  A cursor from `find(3)` then stands on that node,
which has not been freed and holds the value 30, with the count back at zero,
and `erase(3)` frees the node the cursor references. -/
theorem C9_erase_frees_node_under_cursor :
    ∃ s t1 p t2,
      crun [COp.ins 100 10, COp.ins 10 1, COp.ins 50 5, COp.find 1, COp.del 1, COp.ins 30 3,
        COp.del 10, COp.del 5, COp.destroy 0] = some s ∧
      s.cursors = [] ∧
      find lt s.t 3 = some (t1, some p) ∧
      (s.t.heap.get p).ref_count = SIZE_MOD - 1 ∧
      (t1.heap.get p).state = State.NOT_DELETE ∧ (t1.heap.get p).key = 3 ∧
      (t1.heap.get p).freed = false ∧ deref t1.heap (some p) = some 30 ∧
      (t1.heap.get p).ref_count = 0 ∧
      erase lt t1 3 = some t2 ∧
      (t2.heap.get p).state = State.DELETED ∧ (t2.heap.get p).freed = true :=
  ⟨_, _, _, _, rfl, rfl, rfl, rfl, rfl, rfl, rfl, rfl, rfl, rfl, rfl, rfl⟩

/-- The scenario of the repository's consistency test: keys 1, 3, 5 with values
2, 4, 6, the cursor on key 3, `erase(3)`, one advance: the cursor yields 6. -/
theorem consistency_scenario :
    ∃ t t1 p t2 h3 w, runOps [Op.ins 2 1, Op.ins 4 3, Op.ins 6 5] = some t ∧
      find lt t 3 = some (t1, some p) ∧ erase lt t1 3 = some t2 ∧
      advance t2.fuel t2.heap (some p) = some (h3, w) ∧ deref h3 w = some 6 :=
  ⟨_, _, _, _, _, _, rfl, rfl, rfl, rfl, rfl⟩

/-- C12 fails on the code: insert keys 10, 1, 5, take the cursor `find(1)`, then
`erase(1)`, `insert(30, 3)`, `erase(10)`, `erase(5)`, `erase(3)`.  The first
advance of the cursor moves it to the erased node that held key 3.  The release
cascade of `remove` then pops the erased node that held key 5 a second time,
after it has been freed, releases its links again, and frees the node the
cursor has just moved to: the cursor stands on a freed node. -/
theorem C12_cursor_steps_on_freed_node :
    ∃ t t1 p t2 h3 w, runOps [Op.ins 100 10, Op.ins 10 1, Op.ins 50 5] = some t ∧
      find lt t 1 = some (t1, some p) ∧
      runFrom t1 [Op.del 1, Op.ins 30 3, Op.del 10, Op.del 5, Op.del 3] = some t2 ∧
      advance 64 t2.heap (some p) = some (h3, some w) ∧
      (t2.heap.get w).freed = false ∧ (t2.heap.get w).key = 3 ∧ (h3.get w).freed = true :=
  ⟨_, _, _, _, _, _, rfl, rfl, rfl, rfl, rfl, rfl, rfl⟩

/-- C13: the sentinel invariant.  In every tree reached by inserts and erases,
also while a cursor obtained from `end()` beforehand is alive, exactly one of
the nodes reachable from the root is in state `TAIL`; it is the node at the
address the constructor allocated, it has no right child, and following right
links from the root ends in it; `end()` returns it, so the earlier `end()`
cursor still equals `end()`. -/
theorem C13_sentinel_invariant (ops ops2 : List Op) :
    ∃ t t1 e t2 t3 e2 ids r, AVLTree.new.root = some 0 ∧ runOps ops = some t ∧
      AVLTree.end t = some (t1, e) ∧ e = some 0 ∧ runFrom t1 ops2 = some t2 ∧
      AVLTree.end t2 = some (t3, e2) ∧ e2 = e ∧
      reachable t2.heap t2.fuel t2.root = some ids ∧
      ids.filter (fun q => decide ((t2.heap.get q).state = State.TAIL)) = [0] ∧
      (t2.heap.get 0).right = none ∧
      t2.root = some r ∧ end_loop t2.heap t2.fuel r = some 0 := by
  obtain ⟨t, T, e, hI, hA, -⟩ := reach ops
  have hI1 : Inv (AVLTree.mk (inc_ref_count t.heap (some 0)) t.root t.set_size t.next) T :=
    Inv_of_refs hI (RefUpd.inc t.heap (some 0)) rfl rfl rfl
  obtain ⟨t2, T2, e2, hI2, -⟩ := run_ok ops2 hI1 hA
  obtain ⟨r, hr, hl⟩ := hI2.rightmost
  exact ⟨t, _, some 0, t2, _, some 0, T2.ids, r, rfl, e, end_ok hI, rfl, e2, end_ok hI2, rfl,
    hI2.reach_ids, hI2.tail_nodes, hI2.sentinel_right, hr, hl⟩

/-- C14 fails on the code for the comparator `>`: after the inserts of keys 3,
2, 1 into a tree ordered by `>`, `find` locates the node holding key 1, but the
walk from `begin()` visits the keys 3 and 2 only and then stands on the
sentinel: `operator++` compares keys with `<` whatever the comparator of the
tree is, and does not descend to the node holding key 1. -/
theorem C14_descending_walk_skips_key :
    ∃ t tb b vis h3 tf p te, runWith gt AVLTree.new [Op.ins 30 3, Op.ins 20 2, Op.ins 10 1] = some t ∧
      find gt t 1 = some (tf, some p) ∧ (t.heap.get p).key = 1 ∧
      (t.heap.get p).state = State.NOT_DELETE ∧
      AVLTree.begin t = some (tb, b) ∧ walk 64 2 tb.heap b = some (vis, h3, some 0) ∧
      vis.map (fun q => (t.heap.get q).key) = [3, 2] ∧
      AVLTree.end t = some (te, some 0) :=
  ⟨_, _, _, _, _, _, _, _, rfl, rfl, rfl, rfl, rfl, rfl, rfl, rfl⟩

/-- C15: the binary-search invariant.  In every tree reached by inserts and
erases, for every `NOT_DELETE` node `n` reachable from the root, every
`NOT_DELETE` key in the left subtree of `n` compares less than the key of `n`
and every `NOT_DELETE` key in its right subtree compares greater (the sentinel,
in state `TAIL`, is left out); and no two reachable `NOT_DELETE` nodes hold the
same key. -/
theorem C15_search_tree_invariant (ops : List Op) :
    ∃ t ids, runOps ops = some t ∧ reachable t.heap t.fuel t.root = some ids ∧
      (∀ n ∈ ids, (t.heap.get n).state = State.NOT_DELETE →
        ∃ ls rs, reachable t.heap t.fuel (t.heap.get n).left = some ls ∧
          reachable t.heap t.fuel (t.heap.get n).right = some rs ∧
          (∀ x ∈ ls, (t.heap.get x).state = State.NOT_DELETE →
            lt (t.heap.get x).key (t.heap.get n).key = true) ∧
          (∀ x ∈ rs, (t.heap.get x).state = State.NOT_DELETE →
            lt (t.heap.get n).key (t.heap.get x).key = true)) ∧
      (∀ a ∈ ids, ∀ b ∈ ids, (t.heap.get a).state = State.NOT_DELETE →
        (t.heap.get b).state = State.NOT_DELETE →
        (t.heap.get a).key = (t.heap.get b).key → a = b) := by
  obtain ⟨t, T, e, hI, -, -⟩ := reach ops
  exact ⟨t, T.ids, e, hI.reach_ids, fun n hn hs => hI.bst_at hn hs,
    fun a ha b hb sa sb hk => hI.key_unique ha hb sa sb hk⟩

/-- C16: the rebalancing walk of `insert` takes a rotation branch in at most one
of its passes.  For every tree reachable by inserts and erases (it is balanced
and stores accurate heights) and every `insert(v, k)`, whether the new node is
attached as a left child, as a right child, or goes through the sentinel swap,
the insert succeeds and at most one pass of the loop of `balance_insert` takes
one of its four rotation branches, a double rotation being one branch. -/
theorem C16_insert_rotates_at_most_once (ops : List Op) (v k : Int) :
    ∃ t t2 n, runOps ops = some t ∧ avl_balanced t.heap t.fuel t.root = true ∧
      heights_ok t.heap t.fuel t.root = true ∧ insert lt t v k = some t2 ∧
      insert_rotations lt t v k = some n ∧ n ≤ 1 := by
  obtain ⟨t, T, e, hI, hA, -⟩ := reach ops
  obtain ⟨t2, T2, e2, -⟩ := step_ok hI hA (Op.ins v k)
  obtain ⟨n, en, hn⟩ := insert_rotations_ok hI v k
  exact ⟨t, t2, n, e, hI.balanced.1, hI.balanced.2, e2, en, hn⟩

/-- An insert that does rotate: key 2 after key 1, through the sentinel swap. -/
theorem rotation_example :
    ∃ t, runOps [Op.ins 10 1] = some t ∧ insert_rotations lt t 20 2 = some 1 :=
  ⟨_, rfl, rfl⟩

/-- C17: `get_bf` computes the standard balance factor.  For every node `n`
whose stored height and whose children's stored heights equal the true heights
of their subtrees, `get_bf(n)` is the true height of the left subtree minus the
true height of the right subtree, an absent child counting as height `-1`,
whichever of the four shapes the node has; and `get_bf(nullptr)` is `0`. -/
theorem C17_get_bf_standard (h : Heap) (F n : Nat) (hl hr : Int)
    (hn : true_height h (F + 1) (some n) = some (h.get n).height)
    (hc : ∀ c, ((h.get n).left = some c ∨ (h.get n).right = some c) →
      true_height h F (some c) = some (h.get c).height)
    (el : true_height h F (h.get n).left = some hl)
    (er : true_height h F (h.get n).right = some hr) :
    get_bf h (some n) = hl - hr ∧ get_bf h none = 0 := by
  refine ⟨?_, rfl⟩
  have hn2 : (h.get n).height = max hl hr + 1 := by
    simp only [true_height] at hn
    rw [show h n = h.get n from rfl, el, er] at hn
    simp only [Option.some.injEq] at hn
    exact hn.symm
  have gl := true_height_ge h F _ hl el
  have gr := true_height_ge h F _ hr er
  simp only [get_bf]
  rw [show h n = h.get n from rfl]
  cases hL : (h.get n).left with
  | none =>
    rw [hL] at el
    have e1 := true_height_none h F hl el
    cases hR : (h.get n).right with
    | none =>
      rw [hR] at er
      have e2 := true_height_none h F hr er
      simp only []
      omega
    | some r =>
      simp only []
      rw [hn2]
      omega
  | some l =>
    have e1 := hc l (Or.inl hL)
    rw [hL, e1] at el
    simp only [Option.some.injEq] at el
    cases hR : (h.get n).right with
    | none =>
      rw [hR] at er
      have e2 := true_height_none h F hr er
      simp only []
      rw [hn2]
      omega
    | some r =>
      have e2 := hc r (Or.inr hR)
      rw [hR, e2] at er
      simp only [Option.some.injEq] at er
      simp only []
      rw [show h l = h.get l from rfl, show h r = h.get r from rfl, el, er]

theorem C17_get_bf_standard_witness :
    ∃ t, runOps [Op.ins 20 2, Op.ins 10 1] = some t ∧ t.root = some 1 ∧
      (t.heap.get 1).left = some 2 ∧ (t.heap.get 1).right = some 0 ∧
      get_bf t.heap (some 1) = 0 - 0 ∧ get_bf t.heap none = 0 :=
  ⟨_, rfl, rfl, rfl, rfl,
    C17_get_bf_standard _ 2 1 0 0 rfl
      (fun c hc => by
        rcases hc with e | e
        · change some 2 = some c at e
          cases e
          rfl
        · change some 0 = some c at e
          cases e
          rfl)
      rfl rfl⟩

/-- C18: tombstone links are frozen.  For every tree reachable by inserts and
erases and every stored key `k` with the cursor `find(k)` on it, `erase(k)`
leaves the node in state `DELETED`, not freed and with a positive reference
count; whatever inserts and erases follow, its parent, left, right, key and
value fields stay what they were when `erase(k)` returned; and neither right
after `erase(k)` nor after the later operations does any node reachable from
the root have a parent, left or right link to it. -/
theorem C18_tombstone_frozen (ops ops2 : List Op) (k v : Int) (hk : model ops k = some v) :
    ∃ t t1 p t2 t3 ids2 ids3, runOps ops = some t ∧ find lt t k = some (t1, some p) ∧
      erase lt t1 k = some t2 ∧ runFrom t2 ops2 = some t3 ∧
      (t2.heap.get p).state = State.DELETED ∧ (t2.heap.get p).freed = false ∧
      0 < (t2.heap.get p).ref_count ∧
      (t3.heap.get p).parent = (t2.heap.get p).parent ∧
      (t3.heap.get p).left = (t2.heap.get p).left ∧
      (t3.heap.get p).right = (t2.heap.get p).right ∧
      (t3.heap.get p).key = (t2.heap.get p).key ∧
      (t3.heap.get p).value = (t2.heap.get p).value ∧
      reachable t2.heap t2.fuel t2.root = some ids2 ∧
      (∀ q ∈ ids2, (t2.heap.get q).parent ≠ some p ∧ (t2.heap.get q).left ≠ some p ∧
        (t2.heap.get q).right ≠ some p) ∧
      reachable t3.heap t3.fuel t3.root = some ids3 ∧
      (∀ q ∈ ids3, (t3.heap.get q).parent ≠ some p ∧ (t3.heap.get q).left ≠ some p ∧
        (t3.heap.get q).right ≠ some p) := by
  obtain ⟨t, T, e, hI, hA, hr0⟩ := reach ops
  obtain ⟨t1, p, t2, T2, ef, ee, hI1, hI2, hA2, hp0, hw, hids, n1, n2, hself, href, hfr⟩ :=
    own_erase hI hA hr0 hk
  have hp2 : p ∉ T2.ids := fun h => ((hids p).1 h).2 rfl
  have hplt : p < t2.next := by
    rw [n2]
    exact hI.alloc p (ents_ids_mem hw)
  obtain ⟨t3, T3, e3, hI3, -, f3, -, -⟩ := run_ok ops2 hI2 hA2
  obtain ⟨h3, hp3⟩ := f3 p hp2 hplt
  refine ⟨t, t1, p, t2, t3, T2.ids, T3.ids, e, ef, ee, e3, by rw [hself], by rw [hself]; exact hfr,
    by rw [hself]; simp [href], by rw [h3], by rw [h3], by rw [h3], by rw [h3], by rw [h3],
    hI2.reach_ids, fun q hq => hI2.no_link_to hp2 hq, hI3.reach_ids,
    fun q hq => hI3.no_link_to hp3 hq⟩

theorem C18_tombstone_frozen_witness :
    ∃ t t1 p t2 t3 ids2 ids3, runOps [Op.ins 10 1, Op.ins 20 2, Op.ins 30 3] = some t ∧
      find lt t 2 = some (t1, some p) ∧
      erase lt t1 2 = some t2 ∧ runFrom t2 [Op.ins 40 4, Op.del 1, Op.ins 50 2] = some t3 ∧
      (t2.heap.get p).state = State.DELETED ∧ (t2.heap.get p).freed = false ∧
      0 < (t2.heap.get p).ref_count ∧
      (t3.heap.get p).parent = (t2.heap.get p).parent ∧
      (t3.heap.get p).left = (t2.heap.get p).left ∧
      (t3.heap.get p).right = (t2.heap.get p).right ∧
      (t3.heap.get p).key = (t2.heap.get p).key ∧
      (t3.heap.get p).value = (t2.heap.get p).value ∧
      reachable t2.heap t2.fuel t2.root = some ids2 ∧
      (∀ q ∈ ids2, (t2.heap.get q).parent ≠ some p ∧ (t2.heap.get q).left ≠ some p ∧
        (t2.heap.get q).right ≠ some p) ∧
      reachable t3.heap t3.fuel t3.root = some ids3 ∧
      (∀ q ∈ ids3, (t3.heap.get q).parent ≠ some p ∧ (t3.heap.get q).left ≠ some p ∧
        (t3.heap.get q).right ≠ some p) :=
  C18_tombstone_frozen [Op.ins 10 1, Op.ins 20 2, Op.ins 30 3]
    [Op.ins 40 4, Op.del 1, Op.ins 50 2] 2 20 (by simp [model, modelFrom, stepModel])

/-- The condition of C19 is needed: the destruction of the cursor in the
program below makes `Node::remove` release a node twice, and afterwards the node
that holds key 3, which is in the tree, carries no cursor and no pin but the
reference count `2^64 - 1`. -/
theorem double_release_example :
    ∃ s, crun [COp.ins 100 10, COp.ins 10 1, COp.ins 50 5, COp.find 1, COp.del 1, COp.ins 30 3,
        COp.del 10, COp.del 5, COp.destroy 0] = some s ∧
      tidy_run [COp.ins 100 10, COp.ins 10 1, COp.ins 50 5, COp.find 1, COp.del 1, COp.ins 30 3,
        COp.del 10, COp.del 5, COp.destroy 0] = false ∧
      (s.t.heap.get 4).key = 3 ∧ (s.t.heap.get 4).state = State.NOT_DELETE ∧
      (s.t.heap.get 4).freed = false ∧ s.cursors.count (some 4) = 0 ∧
      pins s.t.heap s.t.next 4 = 0 ∧ (s.t.heap.get 4).ref_count = SIZE_MOD - 1 :=
  ⟨_, rfl, rfl, rfl, rfl, rfl, rfl, rfl, rfl⟩

/-- C20: `insert` and `erase` affect only the key they are given.  For every
tree reachable by inserts and erases, every key `k`, value `v` and every key
`k2 ≠ k`: the cursor `find(k2)` taken before `insert(v, k)`, the one taken after
it, and the one taken after `erase(k)` instead, all reference the same node;
that node is the sentinel, which `end()` returns in all three trees, or it is
another node and the three cursors dereference to the same value. -/
theorem C20_other_keys_untouched (ops : List Op) (v k k2 : Int) (hne : k2 ≠ k) :
    ∃ t ta pa ti tb td tc ea ei ed, runOps ops = some t ∧
      find lt t k2 = some (ta, some pa) ∧
      insert lt ta v k = some ti ∧ find lt ti k2 = some (tb, some pa) ∧
      erase lt ta k = some td ∧ find lt td k2 = some (tc, some pa) ∧
      AVLTree.end ta = some (ea, some 0) ∧ AVLTree.end ti = some (ei, some 0) ∧
      AVLTree.end td = some (ed, some 0) ∧
      (pa = 0 ∨ (deref tb.heap (some pa) = deref ta.heap (some pa) ∧
        deref tc.heap (some pa) = deref ta.heap (some pa))) := by
  obtain ⟨t, T, e, hI, -, -⟩ := reach ops
  obtain ⟨ta, pa, ef, hIa, hcase⟩ := find_char hI k2
  -- the tree after the insert
  have hins : ∃ ti T2, insert lt ta v k = some ti ∧ Inv ti T2 ∧
      ∀ e : Nat × Int × Int, e.1 ≠ 0 → e.2.1 = k2 → (e ∈ T2.ents ↔ e ∈ T.ents) := by
    rcases insert_ok hIa v k with ⟨-, ei⟩ | ⟨-, ti, T2, P, Q, ei, hI2, e1, e2, -, -⟩
    · exact ⟨ta, T, ei, hIa, fun _ _ _ => Iff.rfl⟩
    · refine ⟨ti, T2, ei, hI2, fun x _ hx => ?_⟩
      rw [e1, e2]
      simp only [List.mem_append, List.mem_cons]
      constructor
      · rintro (h | rfl | h)
        · exact Or.inl h
        · exact absurd hx.symm hne
        · exact Or.inr h
      · rintro (h | h)
        · exact Or.inl h
        · exact Or.inr (Or.inr h)
  -- the tree after the erase
  have hdel : ∃ td T2, erase lt ta k = some td ∧ Inv td T2 ∧
      ∀ e : Nat × Int × Int, e.1 ≠ 0 → e.2.1 = k2 → (e ∈ T2.ents ↔ e ∈ T.ents) := by
    rcases erase_ok hIa k with ⟨-, ee⟩ | ⟨-, td, T2, P, Q, id, w, ee, hI2, e1, e2, -⟩
    · exact ⟨ta, T, ee, hIa, fun _ _ _ => Iff.rfl⟩
    · refine ⟨td, T2, ee, hI2, fun x _ hx => ?_⟩
      rw [e1, e2]
      simp only [List.mem_append, List.mem_cons]
      constructor
      · rintro (h | h)
        · exact Or.inl h
        · exact Or.inr (Or.inr h)
      · rintro (h | rfl | h)
        · exact Or.inl h
        · exact absurd hx.symm hne
        · exact Or.inr h
  obtain ⟨ti, Ti, ei, hIi, si⟩ := hins
  obtain ⟨td, Td, ed, hId, sd⟩ := hdel
  obtain ⟨tb, fb, vb⟩ := find_after hIi k2 si pa hcase
  obtain ⟨tc, fc, vc⟩ := find_after hId k2 sd pa hcase
  refine ⟨t, ta, pa, ti, tb, td, tc, _, _, _, e, ef, ei, fb, ed, fc, end_ok hIa, end_ok hIi,
    end_ok hId, ?_⟩
  rcases hcase with ⟨va, hva, hpa⟩ | ⟨-, h0⟩
  · right
    have := deref_ent hIa hva
    simp only at this
    rw [this]
    exact ⟨vb va hva hpa, vc va hva hpa⟩
  · exact Or.inl h0

theorem C20_other_keys_untouched_witness :
    ∃ t ta pa ti tb td tc ea ei ed, runOps [Op.ins 10 1, Op.ins 20 2, Op.ins 30 3] = some t ∧
      find lt t 2 = some (ta, some pa) ∧
      insert lt ta 40 4 = some ti ∧ find lt ti 2 = some (tb, some pa) ∧
      erase lt ta 4 = some td ∧ find lt td 2 = some (tc, some pa) ∧
      AVLTree.end ta = some (ea, some 0) ∧ AVLTree.end ti = some (ei, some 0) ∧
      AVLTree.end td = some (ed, some 0) ∧
      (pa = 0 ∨ (deref tb.heap (some pa) = deref ta.heap (some pa) ∧
        deref tc.heap (some pa) = deref ta.heap (some pa))) :=
  C20_other_keys_untouched [Op.ins 10 1, Op.ins 20 2, Op.ins 30 3] 40 4 2 (by decide)

end fefu
